import Mathlib

/-!
Ownership and memory-management core: Lean model and proofs

Shallow embedding of `src/SmartPointers/smart_pointers.h`, `src/Deque/deque.h`
and `src/List/list.h`.

Conventions.
* `size_t` values are natural numbers below `2 ^ 64`; every `size_t` operation
  of the source is written with `uadd`, `usub`, `umul` (arithmetic modulo
  `2 ^ 64`).
* Heap memory is an explicit store passed through every operation.  A fresh
  allocation returns the address `brk` and advances `brk`, so the result is
  distinct from every address handed out earlier.
* An operation whose C++ behaviour is undefined at the given state (reading
  outside an array, destroying an object that is not there) returns `none`
  or the `ub` outcome.
-/

/-! ## `size_t` arithmetic -/

/-- The number of values of `size_t`. -/
def SIZE_MOD : Nat := 18446744073709551616

/-- The sum `a + b` in `size_t`. -/
def uadd (a b : Nat) : Nat := (a + b) % SIZE_MOD

/-- The difference `a - b` in `size_t` (wraps below zero). -/
def usub (a b : Nat) : Nat := (a + (SIZE_MOD - b % SIZE_MOD)) % SIZE_MOD

/-- The product `a * b` in `size_t`. -/
def umul (a b : Nat) : Nat := (a * b) % SIZE_MOD

/-- The value of a `size_t` converted to `std::ptrdiff_t`. -/
def toPtrdiff (a : Nat) : Int :=
  if a % SIZE_MOD < SIZE_MOD / 2 then (a % SIZE_MOD : Nat) else (a % SIZE_MOD : Nat) - (SIZE_MOD : Int)

/-- The value of a `std::ptrdiff_t` converted to `size_t`. -/
def ofPtrdiff (z : Int) : Nat := (z % (SIZE_MOD : Int)).toNat

/-! ## Reference-counted pointer pair (`smart_pointers.h`) -/

namespace SmartPointers

/-- The two control-block classes: `ControlBlockRegular` and
`ControlBlockMakeShared`. -/
inductive BlockKind
  | regular
  | makeShared
  deriving DecidableEq, Repr

/-- `BaseControlBlock` together with what its two derived classes add and
with the effects of its virtual functions.  `object` is what `pointer()`
returns: the member `U* object` of a `ControlBlockRegular` (the caller's
pointer), and the address `&object` of the member `U object` of a
`ControlBlockMakeShared` (the object lives inside the block).
`deleterCalls` counts the calls of `useDeleter()`, `deallocCalls` the calls
of `useDeallocator()`; `deleted` lists the pointers the stored `deleter` has
been called with, and `destroyed` counts the calls
`std::allocator_traits<Alloc>::destroy(alloc, &object)` on the member
object. -/
structure ControlBlock where
  shared_count : Nat
  weak_count : Nat
  kind : BlockKind
  object : Nat
  deleterCalls : Nat
  deallocCalls : Nat
  deleted : List Nat
  destroyed : Nat
  deriving DecidableEq, Repr

/-- The store of control blocks, by address. -/
abbrev Heap := Nat → ControlBlock

/-- Replace the block at address `a`. -/
def Heap.modify (h : Heap) (a : Nat) (f : ControlBlock → ControlBlock) : Heap :=
  fun x => if x = a then f (h x) else h x

/-- `cb->useDeleter()`: `deleter(object)` in a `ControlBlockRegular`,
`std::allocator_traits<Alloc>::destroy(alloc, &object)` in a
`ControlBlockMakeShared`. -/
def useDeleter (b : ControlBlock) : ControlBlock :=
  match b.kind with
  | .regular => { b with deleterCalls := b.deleterCalls + 1, deleted := b.object :: b.deleted }
  | .makeShared => { b with deleterCalls := b.deleterCalls + 1, destroyed := b.destroyed + 1 }

/-- How often the value a block manages has been destroyed: the calls of the
deleter on the caller's object (`ControlBlockRegular`), the destructions of
the member object (`ControlBlockMakeShared`). -/
def ControlBlock.valueDestroyed (b : ControlBlock) : Nat :=
  match b.kind with
  | .regular => b.deleted.count b.object
  | .makeShared => b.destroyed

/-- `cb->useDeallocator()`: `newAlloc.deallocate(this, 1)` in both classes. -/
def useDeallocator (b : ControlBlock) : ControlBlock :=
  { b with deallocCalls := b.deallocCalls + 1 }

/-- A block as the allocator returns it, before any count is touched:
`shared_count{0}`, `weak_count{0}`. -/
def freshBlock (k : BlockKind) (obj : Nat) : ControlBlock :=
  { shared_count := 0, weak_count := 0, kind := k, object := obj,
    deleterCalls := 0, deallocCalls := 0, deleted := [], destroyed := 0 }

/-- An owning handle: the field `cb` (`none` is `nullptr`). -/
structure SharedPtr where
  cb : Option Nat
  deriving DecidableEq, Repr

/-- An observing handle: the field `cb` (`none` is `nullptr`). -/
structure WeakPtr where
  cb : Option Nat
  deriving DecidableEq, Repr

/-- `++cb->shared_count` when `cb != nullptr`. -/
def bumpShared (h : Heap) (cb : Option Nat) : Heap :=
  match cb with
  | none => h
  | some a => h.modify a (fun b => { b with shared_count := uadd b.shared_count 1 })

/-- `++cb->weak_count` when `cb != nullptr`. -/
def bumpWeak (h : Heap) (cb : Option Nat) : Heap :=
  match cb with
  | none => h
  | some a => h.modify a (fun b => { b with weak_count := uadd b.weak_count 1 })

/-- `SharedPtr::~SharedPtr()`. -/
def SharedPtr.dtor (h : Heap) (sp : SharedPtr) : Heap :=
  match sp.cb with
  | none => h
  | some a =>
    let h1 := h.modify a (fun b => { b with shared_count := usub b.shared_count 1 })
    if (h1 a).shared_count = 0 then
      let h2 := h1.modify a useDeleter
      if (h2 a).weak_count = 0 then h2.modify a useDeallocator else h2
    else h1

/-- `SharedPtr::SharedPtr(U* ptr, deleter, alloc)`: the block is allocated at
the fresh address `brk`. -/
def SharedPtr.fromRaw (h : Heap) (brk : Nat) (ptr : Nat) : Heap × SharedPtr :=
  let h1 := h.modify brk (fun _ => freshBlock .regular ptr)
  (bumpShared h1 (some brk), ⟨some brk⟩)

/-- `allocateShared<T>(alloc, args...)` (and `makeShared`): the
`ControlBlockMakeShared` is constructed at the fresh address `brk`, its
member `object` inside it, so that `pointer()` is an address of that
allocation. -/
def allocateShared (h : Heap) (brk : Nat) : Heap × SharedPtr :=
  let h1 := h.modify brk (fun _ => freshBlock .makeShared brk)
  (bumpShared h1 (some brk), ⟨some brk⟩)

/-- `SharedPtr::SharedPtr(const WeakPtr<U>& wp)`. -/
def SharedPtr.fromWeak (h : Heap) (wp : WeakPtr) : Heap × SharedPtr :=
  (bumpShared h wp.cb, ⟨wp.cb⟩)

/-- `SharedPtr::SharedPtr(const SharedPtr& sp)`. -/
def SharedPtr.copy (h : Heap) (sp : SharedPtr) : Heap × SharedPtr :=
  (bumpShared h sp.cb, ⟨sp.cb⟩)

/-- `SharedPtr::SharedPtr(SharedPtr&& sp)`: the new handle and the source
after the move. -/
def SharedPtr.move (sp : SharedPtr) : SharedPtr × SharedPtr :=
  (⟨sp.cb⟩, ⟨none⟩)

/-- `SharedPtr::operator=(const SharedPtr& sp)` on `self`: `temp(sp)`,
`temp.swap(*this)`, then the destructor of `temp`. -/
def SharedPtr.assign (h : Heap) (self sp : SharedPtr) : Heap × SharedPtr :=
  let (h1, temp) := SharedPtr.copy h sp
  (SharedPtr.dtor h1 self, temp)

/-- `SharedPtr::reset()`: `SharedPtr<T>().swap(*this)`, then the destructor
of the temporary. -/
def SharedPtr.reset (h : Heap) (self : SharedPtr) : Heap × SharedPtr :=
  (SharedPtr.dtor h self, ⟨none⟩)

/-- `SharedPtr::get()`: `cb ? cb->pointer() : nullptr`. -/
def SharedPtr.get (h : Heap) (sp : SharedPtr) : Option Nat :=
  match sp.cb with
  | none => none
  | some a => some (h a).object

/-- `SharedPtr::use_count()`; `none` when `cb` is null (the source
dereferences it). -/
def SharedPtr.use_count (h : Heap) (sp : SharedPtr) : Option Nat :=
  match sp.cb with
  | none => none
  | some a => some (h a).shared_count

/-- `WeakPtr::~WeakPtr()`. -/
def WeakPtr.dtor (h : Heap) (wp : WeakPtr) : Heap :=
  match wp.cb with
  | none => h
  | some a =>
    let h1 := h.modify a (fun b => { b with weak_count := usub b.weak_count 1 })
    if (h1 a).weak_count = 0 ∧ (h1 a).shared_count = 0 then
      h1.modify a useDeallocator
    else h1

/-- `WeakPtr::WeakPtr(const SharedPtr<U>& sp)`. -/
def WeakPtr.fromShared (h : Heap) (sp : SharedPtr) : Heap × WeakPtr :=
  (bumpWeak h sp.cb, ⟨sp.cb⟩)

/-- `WeakPtr::WeakPtr(const WeakPtr& wp)`. -/
def WeakPtr.copy (h : Heap) (wp : WeakPtr) : Heap × WeakPtr :=
  (bumpWeak h wp.cb, ⟨wp.cb⟩)

/-- `WeakPtr::WeakPtr(WeakPtr&& wp)`: the new handle and the source after
the move. -/
def WeakPtr.move (wp : WeakPtr) : WeakPtr × WeakPtr :=
  (⟨wp.cb⟩, ⟨none⟩)

/-- `WeakPtr::operator=(const WeakPtr& wp)` on `self`. -/
def WeakPtr.assign (h : Heap) (self wp : WeakPtr) : Heap × WeakPtr :=
  let (h1, temp) := WeakPtr.copy h wp
  (WeakPtr.dtor h1 self, temp)

/-- `WeakPtr::expired()`. -/
def WeakPtr.expired (h : Heap) (wp : WeakPtr) : Bool :=
  match wp.cb with
  | none => false
  | some a => (h a).shared_count == 0

/-- `WeakPtr::use_count()`; `none` when `cb` is null (the source dereferences
it). -/
def WeakPtr.use_count (h : Heap) (wp : WeakPtr) : Option Nat :=
  match wp.cb with
  | none => none
  | some a => some (h a).shared_count

/-- `WeakPtr::lock()`. -/
def WeakPtr.lock (h : Heap) (wp : WeakPtr) : Heap × SharedPtr :=
  if WeakPtr.expired h wp then (h, ⟨none⟩) else SharedPtr.fromWeak h wp

/-- The public operations of a program on the two handle types.  Handles are
named by their position among the live handles of their type.  `spDefault`
is the default-initialisation `SharedPtr<T> sp;`, `spValueInit` the
value-initialisation `SharedPtr<T> sp{};` (or `SharedPtr<T>()`). -/
inductive Op
  | spFromRaw (ptr : Nat)
  | spMake
  | spDefault
  | spValueInit
  | spCopy (i : Nat)
  | spMove (i : Nat)
  | spAssign (dst src : Nat)
  | spMoveAssign (dst src : Nat)
  | spReset (i : Nat)
  | spDtor (i : Nat)
  | spFromWeak (w : Nat)
  | lock (w : Nat)
  | wpDefault
  | wpFromShared (i : Nat)
  | wpCopy (w : Nat)
  | wpMove (w : Nat)
  | wpAssign (dst src : Nat)
  | wpMoveAssign (dst src : Nat)
  | wpDtor (w : Nat)
  deriving DecidableEq, Repr

/-- A program state: the control blocks, the allocation frontier, and the
live handles.  `sps` are the live owning handles whose member `cb` holds a
value, `unset` is the number of live owning handles whose `cb` has none:
`SharedPtr() = default` and the member `BaseControlBlock *cb;` has no
initialiser, so `SharedPtr<T> sp;` leaves `cb` indeterminate.  `wps` are the
live observing handles (`WeakPtr` declares `cb{nullptr}`). -/
structure World where
  heap : Heap
  brk : Nat
  sps : List SharedPtr
  wps : List WeakPtr
  unset : Nat

/-- No block, no handle. -/
def World.init : World :=
  { heap := fun _ => freshBlock .regular 0, brk := 0, sps := [], wps := [], unset := 0 }

/-- The member `cb` of an owning handle object, as an operation finds it. -/
inductive Owner
  | indeterminate
  | holds (sp : SharedPtr)
  deriving DecidableEq, Repr

/-- The owning handle with the name `i`: the handles whose `cb` holds a value
come first, in the order of `sps`, the default-initialised ones after
them; `none` when there is no such handle. -/
def World.owner (w : World) (i : Nat) : Option Owner :=
  match w.sps[i]? with
  | some sp => some (.holds sp)
  | none => if i < w.sps.length + w.unset then some .indeterminate else none

/-- The read of the member `cb` that every constructor from a handle, every
assignment, `swap`, `reset`, `get`, `use_count` and the destructor make of
each handle they are given; `none`: reading an indeterminate value is
undefined. -/
def Owner.read : Owner → Option SharedPtr
  | .indeterminate => none
  | .holds sp => some sp

/-- The handle with the name `i`, read by an operation; `none` when there is
no such handle or the read is undefined. -/
def World.readOwner (w : World) (i : Nat) : Option SharedPtr :=
  (w.owner i).bind Owner.read

/-- `std::allocator_traits<...>::allocate(newAlloc, 1)` for one control
block: the address at the frontier, and the frontier after the call. -/
def allocate (brk : Nat) : Nat × Nat := (brk, brk + 1)

/-- One operation of a program; `none` when it names a handle that does not
exist or reads the member `cb` of a handle that has no value. -/
def step (w : World) : Op → Option World
  | .spFromRaw ptr =>
    let (a, brk1) := allocate w.brk
    let (h, sp) := SharedPtr.fromRaw w.heap a ptr
    some { w with heap := h, brk := brk1, sps := w.sps ++ [sp] }
  | .spMake =>
    let (a, brk1) := allocate w.brk
    let (h, sp) := allocateShared w.heap a
    some { w with heap := h, brk := brk1, sps := w.sps ++ [sp] }
  | .spDefault => some { w with unset := w.unset + 1 }
  | .spValueInit => some { w with sps := w.sps ++ [⟨none⟩] }
  | .spCopy i =>
    match w.readOwner i with
    | none => none
    | some sp =>
      let (h, n) := SharedPtr.copy w.heap sp
      some { w with heap := h, sps := w.sps ++ [n] }
  | .spMove i =>
    match w.readOwner i with
    | none => none
    | some sp =>
      let (n, src) := SharedPtr.move sp
      some { w with sps := w.sps.set i src ++ [n] }
  | .spAssign dst src =>
    match w.readOwner dst, w.readOwner src with
    | some d, some s =>
      let (h, n) := SharedPtr.assign w.heap d s
      some { w with heap := h, sps := w.sps.set dst n }
    | _, _ => none
  | .spMoveAssign dst src =>
    match w.readOwner dst, w.readOwner src with
    | some _, some s =>
      -- `temp(std::move(sp))`
      let (temp, s1) := SharedPtr.move s
      let sps1 := w.sps.set src s1
      -- `temp.swap(*this)`, then the destructor of `temp`
      match sps1[dst]? with
      | none => none
      | some d1 => some { w with heap := SharedPtr.dtor w.heap d1, sps := sps1.set dst temp }
    | _, _ => none
  | .spReset i =>
    match w.readOwner i with
    | none => none
    | some sp =>
      let (h, n) := SharedPtr.reset w.heap sp
      some { w with heap := h, sps := w.sps.set i n }
  | .spDtor i =>
    match w.readOwner i with
    | none => none
    | some sp => some { w with heap := SharedPtr.dtor w.heap sp, sps := w.sps.eraseIdx i }
  | .spFromWeak k =>
    match w.wps[k]? with
    | none => none
    | some wp =>
      let (h, n) := SharedPtr.fromWeak w.heap wp
      some { w with heap := h, sps := w.sps ++ [n] }
  | .lock k =>
    match w.wps[k]? with
    | none => none
    | some wp =>
      let (h, n) := WeakPtr.lock w.heap wp
      some { w with heap := h, sps := w.sps ++ [n] }
  | .wpDefault => some { w with wps := w.wps ++ [⟨none⟩] }
  | .wpFromShared i =>
    match w.readOwner i with
    | none => none
    | some sp =>
      let (h, n) := WeakPtr.fromShared w.heap sp
      some { w with heap := h, wps := w.wps ++ [n] }
  | .wpCopy k =>
    match w.wps[k]? with
    | none => none
    | some wp =>
      let (h, n) := WeakPtr.copy w.heap wp
      some { w with heap := h, wps := w.wps ++ [n] }
  | .wpMove k =>
    match w.wps[k]? with
    | none => none
    | some wp =>
      let (n, src) := WeakPtr.move wp
      some { w with wps := w.wps.set k src ++ [n] }
  | .wpAssign dst src =>
    match w.wps[dst]?, w.wps[src]? with
    | some d, some s =>
      let (h, n) := WeakPtr.assign w.heap d s
      some { w with heap := h, wps := w.wps.set dst n }
    | _, _ => none
  | .wpMoveAssign dst src =>
    match w.wps[dst]?, w.wps[src]? with
    | some _, some s =>
      let (temp, s1) := WeakPtr.move s
      let wps1 := w.wps.set src s1
      match wps1[dst]? with
      | none => none
      | some d1 => some { w with heap := WeakPtr.dtor w.heap d1, wps := wps1.set dst temp }
    | _, _ => none
  | .wpDtor k =>
    match w.wps[k]? with
    | none => none
    | some wp => some { w with heap := WeakPtr.dtor w.heap wp, wps := w.wps.eraseIdx k }

/-- A program run from a state, one operation after the other. -/
def run (w : World) : List Op → Option World
  | [] => some w
  | op :: ops => (step w op).bind (fun w1 => run w1 ops)

/-- The calls of `useDeleter` made on block `a` by one program run. -/
def deleterCallsAfter (ops : List Op) (a : Nat) : Option Nat :=
  (run World.init ops).map (fun w => (w.heap a).deleterCalls)

/-- The program of C3: an owning handle built from a raw pointer, an observer
derived from it, the owner destroyed, a second owner built from the (now
expired) observer with `SharedPtr(const WeakPtr&)`, and that owner destroyed. -/
def doubleDeleteProgram : List Op :=
  [.spFromRaw 7, .wpFromShared 0, .spDtor 0, .spFromWeak 0, .spDtor 0]

/-- The heap and block of the C4 witness: an owner built from the raw pointer
7 at address 0 and an observer derived from it. -/
def pairHeap : Heap :=
  (WeakPtr.fromShared (SharedPtr.fromRaw World.init.heap 0 7).1
    (SharedPtr.fromRaw World.init.heap 0 7).2).1

/-- Two stores of control blocks that agree, block by block, on both counts,
on the number of destructions of the managed value and on the numbers of
`useDeleter` and `useDeallocator` calls.  The class of a block and the
pointer it hands out may differ. -/
def HeapAlike (h1 h2 : Heap) : Prop :=
  ∀ a, (h1 a).shared_count = (h2 a).shared_count ∧ (h1 a).weak_count = (h2 a).weak_count ∧
    (h1 a).deleterCalls = (h2 a).deleterCalls ∧ (h1 a).deallocCalls = (h2 a).deallocCalls ∧
    (h1 a).valueDestroyed = (h2 a).valueDestroyed

/-- Two program states with the same handles, the same number of allocated
blocks, and stores that are alike. -/
def Alike (w1 w2 : World) : Prop :=
  w1.brk = w2.brk ∧ w1.sps = w2.sps ∧ w1.wps = w2.wps ∧ w1.unset = w2.unset ∧
    HeapAlike w1.heap w2.heap

/-- The program of C14: an owning handle built from a raw pointer, an
observer derived from it, the owner destroyed, and a new owner built from
the expired observer with `SharedPtr(const WeakPtr&)`. -/
def reviveProgram : List Op :=
  [.spFromRaw 7, .wpFromShared 0, .spDtor 0, .spFromWeak 0]

/-- The program of the C20 counterexample: an owner built from a raw pointer,
a copy of it, and the copy-assignment of the copy to the first owner. -/
def sameBlockAssignProgram : List Op :=
  [.spFromRaw 7, .spCopy 0, .spAssign 0 1]

/-- The operations of a program that are members of the observing handle,
`lock()` apart: its constructors, assignments and destructor. -/
def Op.isObserverOp : Op → Bool
  | .wpDefault | .wpFromShared _ | .wpCopy _ | .wpMove _ | .wpAssign _ _
  | .wpMoveAssign _ _ | .wpDtor _ => true
  | _ => false

/-- The state of the C21 and C22 witnesses: one owner built from the raw
pointer 7 (block 0) and one observer derived from it. -/
def ownerAndObserver : World :=
  ((run World.init [.spFromRaw 7, .wpFromShared 0]).getD World.init)

/-- The number of live owning handles that refer to block `a`. -/
def World.owners (w : World) (a : Nat) : Nat := w.sps.count ⟨some a⟩

/-- The number of live observing handles that refer to block `a`. -/
def World.observers (w : World) (a : Nat) : Nat := w.wps.count ⟨some a⟩

/-- The counts of every control block tell the live handles: `shared_count`
is the number of owning handles that refer to the block, `weak_count` the
number of observing handles; no handle refers to an address the allocator
has not handed out yet; and there are at most `n` handles. -/
structure Counted (w : World) (n : Nat) : Prop where
  shared : ∀ a, (w.heap a).shared_count = w.owners a
  weak : ∀ a, (w.heap a).weak_count = w.observers a
  fresh : ∀ a, w.brk ≤ a → w.owners a = 0 ∧ w.observers a = 0
  handles : w.sps.length + w.wps.length ≤ n

/-- A program of assignments: two owners and an observer of one block,
copy-assignment between the owners, a self-assignment, a second block, a
move-assignment, an empty observer, an assignment between observers, and the
destruction of an owner. -/
def countsProgram : List Op :=
  [.spFromRaw 7, .spCopy 0, .wpFromShared 1, .spAssign 0 1, .spAssign 1 1, .spMake,
   .spMoveAssign 0 2, .wpDefault, .wpAssign 1 0, .spDtor 2]

/-- The program `SharedPtr<T> q(ptr); SharedPtr<T> p;`: an owner
built from a raw pointer and a default-initialised owner. -/
def unsetOwnerProgram : List Op := [.spFromRaw 7, .spDefault]

/-- The state `countsProgram` ends in. -/
def countsWorld : World := (run World.init countsProgram).getD World.init

end SmartPointers

/-! ## Block deque (`deque.h`) -/

namespace BlockDeque

/-- `Deque::BLOCK_SIZE_`. -/
def BLOCK_SIZE_ : Nat := 32

/-- `Deque::DEFAULT_CAPACITY_`. -/
def DEFAULT_CAPACITY_ : Nat := 8

/-- The block storage owned by a deque.  `slot a s` is the element living in
slot `s` of the block at address `a` (`none`: raw storage), `live a` tells
whether that block is allocated.  The counters record the allocation and
element traffic: blocks and indirection arrays obtained with `new[]` and
released with `delete[]`, elements constructed, destructor calls on
elements, and destructor calls on slots that hold no element. -/
structure Store (T : Type) where
  slot : Nat → Nat → Option T
  live : Nat → Bool
  brk : Nat
  blocks_new : Nat
  blocks_deleted : Nat
  arrays_new : Nat
  arrays_deleted : Nat
  ctor_calls : Nat
  dtor_calls : Nat
  dtor_raw : Nat

/-- A store in which nothing has been allocated. -/
def Store.empty (T : Type) : Store T :=
  { slot := fun _ _ => none, live := fun _ => false, brk := 0,
    blocks_new := 0, blocks_deleted := 0, arrays_new := 0, arrays_deleted := 0,
    ctor_calls := 0, dtor_calls := 0, dtor_raw := 0 }

/-- `new char[sizeof(T) * BLOCK_SIZE_]`: a fresh block of raw storage at
address `brk`. -/
def Store.newBlock {T : Type} (st : Store T) : Store T :=
  { st with
    slot := fun a s => if a = st.brk then none else st.slot a s
    live := fun a => if a = st.brk then true else st.live a
    brk := st.brk + 1
    blocks_new := st.blocks_new + 1 }

/-- `delete[] reinterpret_cast<char*>(p)` for the block at address `a`. -/
def Store.deleteBlock {T : Type} (st : Store T) (a : Nat) : Store T :=
  { st with
    live := fun x => if x = a then false else st.live x
    blocks_deleted := st.blocks_deleted + 1 }

/-- Placement `new (p) T(obj)` at slot `s` of block `a`; `none` when the
place is not inside an allocated block. -/
def Store.construct {T : Type} (st : Store T) (a s : Nat) (obj : T) : Option (Store T) :=
  if st.live a = true ∧ s < BLOCK_SIZE_ then
    some { st with
      slot := fun x y => if x = a ∧ y = s then some obj else st.slot x y
      ctor_calls := st.ctor_calls + 1 }
  else none

/-- The call `p->~T()` at slot `s` of block `a`; `none` when the place is not
inside an allocated block.  A call on a slot that holds no element is
counted in `dtor_raw`. -/
def Store.destroyAt {T : Type} (st : Store T) (a s : Nat) : Option (Store T) :=
  if st.live a = true ∧ s < BLOCK_SIZE_ then
    match st.slot a s with
    | some _ =>
      some { st with
        slot := fun x y => if x = a ∧ y = s then none else st.slot x y
        dtor_calls := st.dtor_calls + 1 }
    | none => some { st with dtor_raw := st.dtor_raw + 1 }
  else none

/-- The class `Deque<T>`: its six data members, and the storage it owns. -/
structure Deque (T : Type) where
  store : Store T
  amount_of_blocks_ : Nat
  external_array_ : Nat → Nat
  first_block_ : Nat
  first_element_index_ : Nat
  last_block_ : Nat
  after_last_element_index_ : Nat

variable {T : Type}

/-- The read `ptr_[i]` of the indirection array, `none` outside it. -/
def Deque.blockPtr (d : Deque T) (i : Nat) : Option Nat :=
  if i < d.amount_of_blocks_ then some (d.external_array_ i) else none

/-- `Deque::common_iterator`: the members `array_` and `index_` (`ptr_` is the
indirection array of the deque it was made from). -/
structure common_iterator where
  array_ : Nat
  index_ : Nat
  deriving DecidableEq, Repr

/-- `common_iterator(T** ptr, size_t index)`. -/
def Deque.iterator (d : Deque T) (index : Nat) : Option common_iterator :=
  (d.blockPtr (index / BLOCK_SIZE_)).map (fun a => { array_ := a, index_ := index })

/-- `Deque::begin()`. -/
def Deque.begin (d : Deque T) : Option common_iterator :=
  d.iterator (uadd (umul d.first_block_ BLOCK_SIZE_) d.first_element_index_)

/-- `Deque::end()`. -/
def Deque.end_ (d : Deque T) : Option common_iterator :=
  d.iterator (uadd (umul d.last_block_ BLOCK_SIZE_) d.after_last_element_index_)

/-- `common_iterator::operator+=(diff)`; a negative `diff` goes through
`operator-=(-diff)`. -/
def Deque.iter_add (d : Deque T) (it : common_iterator) (diff : Int) : Option common_iterator :=
  if diff < 0 then d.iterator (usub it.index_ (ofPtrdiff (-diff)))
  else d.iterator (uadd it.index_ (ofPtrdiff diff))

/-- `common_iterator::operator-=(diff)`; a negative `diff` goes through
`operator+=(-diff)`. -/
def Deque.iter_sub (d : Deque T) (it : common_iterator) (diff : Int) : Option common_iterator :=
  if diff < 0 then d.iterator (uadd it.index_ (ofPtrdiff (-diff)))
  else d.iterator (usub it.index_ (ofPtrdiff diff))

/-- `common_iterator::operator*()`: the place referred to, as block address
and slot. -/
def common_iterator.deref (it : common_iterator) : Nat × Nat :=
  (it.array_, it.index_ % BLOCK_SIZE_)

/-- `Deque::size()`. -/
def Deque.size (d : Deque T) : Nat :=
  uadd (usub (umul (usub d.last_block_ d.first_block_) BLOCK_SIZE_) d.first_element_index_)
    d.after_last_element_index_

/-- `Deque::operator[](index)`: the place `*(begin() + index)`. -/
def Deque.index (d : Deque T) (index : Nat) : Option (Nat × Nat) :=
  (d.begin).bind (fun b => (d.iter_add b (toPtrdiff index)).map common_iterator.deref)

/-- The element read through the reference `(*this)[index]`; `none` when the
place is outside the allocated blocks or holds no element. -/
def Deque.get (d : Deque T) (index : Nat) : Option T :=
  (d.index index).bind (fun p => if d.store.live p.1 = true then d.store.slot p.1 p.2 else none)

/-- What a call of `Deque::at` yields: the `std::out_of_range` exception, or
the reference `(*this)[index]` (a place, `none` when `operator[]` leaves the
indirection array). -/
inductive AtResult
  | out_of_range
  | ref (place : Option (Nat × Nat))
  deriving DecidableEq, Repr

/-- `Deque::at(index)`: the result, and the deque after the call (the body
assigns to no member and to no slot). -/
def Deque.at (d : Deque T) (index : Nat) : AtResult × Deque T :=
  if index ≥ d.size then (.out_of_range, d) else (.ref (d.index index), d)

/-- `Deque::try_allocate(arr, cur_amount_of_blocks)`: the loop
`arr[i] = new char[...]` for `i < cur_amount_of_blocks` (allocation itself
does not fail here). -/
def try_allocate (st : Store T) (arr : Nat → Nat) (cur_amount_of_blocks : Nat) :
    Store T × (Nat → Nat) :=
  (List.range cur_amount_of_blocks).foldl
    (fun p i => (p.1.newBlock, fun k => if k = i then p.1.brk else p.2 k)) (st, arr)

/-- `new T*[n]`: an indirection array whose entries are not yet set. -/
def Store.newArray (st : Store T) : Store T × (Nat → Nat) :=
  ({ st with arrays_new := st.arrays_new + 1 }, fun _ => 0)

/-- `Deque::deallocate()`: `delete[]` of the block behind each of the
`amount_of_blocks_` entries, then of the indirection array. -/
def Deque.deallocate (d : Deque T) : Store T :=
  let st := (List.range d.amount_of_blocks_).foldl
    (fun st k => st.deleteBlock (d.external_array_ k)) d.store
  { st with arrays_deleted := st.arrays_deleted + 1 }

/-- The loop of `push_helper`: for each `i` of the list,
`std::swap(new_external_array[i - first_block_ + new_amount], external_array_[i])`;
`none` when an index falls outside its array. -/
def swap_blocks (first_block new_amount new_size old_size : Nat) :
    List Nat → (Nat → Nat) × (Nat → Nat) → Option ((Nat → Nat) × (Nat → Nat))
  | [], p => some p
  | i :: rest, p =>
    let j := uadd (usub i first_block) new_amount
    if j < new_size ∧ i < old_size then
      swap_blocks first_block new_amount new_size old_size rest
        (fun k => if k = j then p.2 i else p.1 k, fun k => if k = i then p.1 j else p.2 k)
    else none

/-- `Deque::push_helper(cur_index, cur_block, edge_condition_index,
edge_condition_block)`. -/
def Deque.push_helper (d : Deque T) (cur_index cur_block edge_condition_index
    edge_condition_block : Nat) : Option (Deque T) :=
  if cur_index = edge_condition_index ∧ cur_block = edge_condition_block then
    let new_amount := uadd (usub d.last_block_ d.first_block_) 1
    let alloc := try_allocate d.store.newArray.1 d.store.newArray.2 (umul 3 new_amount)
    match swap_blocks d.first_block_ new_amount (umul 3 new_amount) d.amount_of_blocks_
        (List.range' d.first_block_ (d.last_block_ + 1 - d.first_block_))
        (alloc.2, d.external_array_) with
    | none => none
    | some arrays =>
      let d1 : Deque T := { d with
        store := alloc.1
        external_array_ := arrays.2
        first_block_ := new_amount
        last_block_ := usub (umul 2 new_amount) 1 }
      some { d1 with
        store := d1.deallocate
        amount_of_blocks_ := umul 3 new_amount
        external_array_ := arrays.1 }
  else some d

/-- `Deque::push_back(obj)`. -/
def Deque.push_back (d : Deque T) (obj : T) : Option (Deque T) :=
  (d.blockPtr d.last_block_).bind fun a =>
  (d.store.construct a d.after_last_element_index_ obj).bind fun st =>
  ({ d with store := st }.push_helper d.after_last_element_index_ d.last_block_
      (usub BLOCK_SIZE_ 1) (usub d.amount_of_blocks_ 1)).bind fun d1 =>
  let after := uadd d1.after_last_element_index_ 1
  some { d1 with
    last_block_ := uadd d1.last_block_ (after / BLOCK_SIZE_)
    after_last_element_index_ := after % BLOCK_SIZE_ }

/-- `Deque::pop_back()`. -/
def Deque.pop_back (d : Deque T) : Option (Deque T) :=
  (d.index (usub d.size 1)).bind fun p =>
  (d.store.destroyAt p.1 p.2).bind fun st =>
  if d.after_last_element_index_ = 0 then
    some { d with
      store := st
      last_block_ := usub d.last_block_ 1
      after_last_element_index_ := usub BLOCK_SIZE_ 1 }
  else
    some { d with
      store := st
      after_last_element_index_ := usub d.after_last_element_index_ 1 }

/-- `Deque::push_front(obj)`. -/
def Deque.push_front (d : Deque T) (obj : T) : Option (Deque T) :=
  let prev_first_block :=
    if d.first_element_index_ = 0 then usub d.first_block_ 1 else d.first_block_
  let prev_first_element_index :=
    if d.first_element_index_ = 0 then usub BLOCK_SIZE_ 1 else usub d.first_element_index_ 1
  (d.blockPtr prev_first_block).bind fun a =>
  (d.store.construct a prev_first_element_index obj).bind fun st =>
  ({ d with store := st }.push_helper prev_first_element_index prev_first_block 0 0).bind fun d1 =>
  let f1 := usub BLOCK_SIZE_ d1.first_element_index_
  let fb := usub d1.first_block_ (f1 / BLOCK_SIZE_)
  let f2 := f1 % BLOCK_SIZE_
  some { d1 with
    first_block_ := fb
    first_element_index_ := usub (usub BLOCK_SIZE_ f2) 1 }

/-- `Deque::pop_front()`. -/
def Deque.pop_front (d : Deque T) : Option (Deque T) :=
  (d.index 0).bind fun p =>
  (d.store.destroyAt p.1 p.2).bind fun st =>
  if d.first_element_index_ = usub BLOCK_SIZE_ 1 then
    some { d with
      store := st
      first_block_ := uadd d.first_block_ 1
      first_element_index_ := 0 }
  else
    some { d with
      store := st
      first_element_index_ := uadd d.first_element_index_ 1 }

/-- `Deque::destroy(d)`: `pop_back()` repeated `n` times. -/
def Deque.destroy (d : Deque T) : Nat → Option (Deque T)
  | 0 => some d
  | n + 1 => (d.pop_back).bind fun d1 => d1.destroy n

/-- `Deque::Deque()`. -/
def Deque.ctor (T : Type) : Deque T :=
  let alloc := try_allocate (Store.empty T).newArray.1 (Store.empty T).newArray.2 DEFAULT_CAPACITY_
  { store := alloc.1
    amount_of_blocks_ := DEFAULT_CAPACITY_
    external_array_ := alloc.2
    first_block_ := DEFAULT_CAPACITY_ / 2
    first_element_index_ := 0
    last_block_ := DEFAULT_CAPACITY_ / 2
    after_last_element_index_ := 0 }

/-- What a constructor call yields: the object, or a propagated failure (with
the storage as the unwinding left it), or undefined behaviour. -/
inductive Built (T : Type)
  | ok (d : Deque T)
  | throw (st : Store T)
  | ub

/-- What the construction of one element yields: a value, a thrown
exception, or undefined behaviour (its argument is not an object). -/
inductive Ctor (T : Type)
  | value (v : T)
  | throws
  | undefined

/-- The element loop shared by the bulk constructors:
`new (&(*this)[i]) T(...)` for the indices of the list in turn, where
`elem i` is the outcome of the `i`-th construction.  On a throw:
`destroy(i); deallocate(); throw;`. -/
def Deque.fill (d : Deque T) (elem : Nat → Ctor T) : List Nat → Built T
  | [] => .ok d
  | i :: rest =>
    match d.index i with
    | none => .ub
    | some p =>
      match elem i with
      | .undefined => .ub
      | .throws =>
        match d.destroy i with
        | none => .ub
        | some d1 => .throw d1.deallocate
      | .value v =>
        match d.store.construct p.1 p.2 v with
        | none => .ub
        | some st => Deque.fill { d with store := st } elem rest

/-- The outcome of a constructor call that either yields `v` or throws. -/
def Ctor.ofOption : Option T → Ctor T
  | some v => .value v
  | none => .throws

/-- `Deque::Deque(size_t num)`; `elem i` is the outcome of the `i`-th call of
`T()`, `none` when it throws. -/
def Deque.ctor_n (num : Nat) (elem : Nat → Option T) : Built T :=
  let amount := max (uadd (umul 3 num / BLOCK_SIZE_) 1) (umul DEFAULT_CAPACITY_ 1)
  let first := usub (amount / 2) (num / umul 2 BLOCK_SIZE_)
  let alloc := try_allocate (Store.empty T).newArray.1 (Store.empty T).newArray.2 amount
  let d : Deque T :=
    { store := alloc.1
      amount_of_blocks_ := amount
      external_array_ := alloc.2
      first_block_ := first
      first_element_index_ := 0
      last_block_ := uadd first (num / BLOCK_SIZE_)
      after_last_element_index_ := num % BLOCK_SIZE_ }
  d.fill (fun i => Ctor.ofOption (elem i)) (List.range d.size)

/-- `Deque::Deque(size_t num, const T& obj)`; `elem i` is the outcome of the
`i`-th call of `T(obj)`, `none` when it throws. -/
def Deque.ctor_n_obj (num : Nat) (elem : Nat → Option T) : Built T :=
  let amount := uadd (umul 3 num / BLOCK_SIZE_) 1
  let first := usub (amount / 2) (num / umul 2 BLOCK_SIZE_)
  let alloc := try_allocate (Store.empty T).newArray.1 (Store.empty T).newArray.2 amount
  let d : Deque T :=
    { store := alloc.1
      amount_of_blocks_ := amount
      external_array_ := alloc.2
      first_block_ := first
      first_element_index_ := 0
      last_block_ := uadd first (num / BLOCK_SIZE_)
      after_last_element_index_ := num % BLOCK_SIZE_ }
  d.fill (fun i => Ctor.ofOption (elem i)) (List.range d.size)

/-- `Deque::Deque(const Deque<T>& other)`; `copy i v` is the outcome of the
`i`-th call of `T(other[i])` on the element `v`, `none` when it throws. -/
def Deque.ctor_copy (other : Deque T) (copy : Nat → T → Option T) : Built T :=
  let alloc := try_allocate (Store.empty T).newArray.1 (Store.empty T).newArray.2
    other.amount_of_blocks_
  let d : Deque T :=
    { store := alloc.1
      amount_of_blocks_ := other.amount_of_blocks_
      external_array_ := alloc.2
      first_block_ := other.first_block_
      first_element_index_ := other.first_element_index_
      last_block_ := other.last_block_
      after_last_element_index_ := other.after_last_element_index_ }
  d.fill (fun i =>
      match other.get i with
      | none => .undefined
      | some v => Ctor.ofOption (copy i v))
    (List.range d.size)

/-- The operations of the deque refinement claim. -/
inductive Op (T : Type)
  | push_back (v : T)
  | push_front (v : T)
  | pop_back
  | pop_front

/-- One operation on the deque. -/
def Deque.apply (d : Deque T) : Op T → Option (Deque T)
  | .push_back v => d.push_back v
  | .push_front v => d.push_front v
  | .pop_back => d.pop_back
  | .pop_front => d.pop_front

/-- A sequence of operations on the deque, in order. -/
def Deque.run (d : Deque T) : List (Op T) → Option (Deque T)
  | [] => some d
  | op :: ops => (d.apply op).bind fun d1 => d1.run ops

/-- One operation on the reference sequence. -/
def refApply (m : List T) : Op T → List T
  | .push_back v => m ++ [v]
  | .push_front v => v :: m
  | .pop_back => m.dropLast
  | .pop_front => m.tail

/-- A sequence of operations on the reference sequence, in order. -/
def refRun (m : List T) : List (Op T) → List T
  | [] => m
  | op :: ops => refRun (refApply m op) ops

/-- Pops are issued on a non-empty sequence only. -/
def popsValid (m : List T) : List (Op T) → Prop
  | [] => True
  | .push_back v :: ops => popsValid (m ++ [v]) ops
  | .push_front v :: ops => popsValid (v :: m) ops
  | .pop_back :: ops => m ≠ [] ∧ popsValid m.dropLast ops
  | .pop_front :: ops => m ≠ [] ∧ popsValid m.tail ops

/-! ### Representation invariant of the deque -/

/-- The content of the slot with running index `p` (block `p / BLOCK_SIZE_`
of the indirection array, slot `p % BLOCK_SIZE_`). -/
def Deque.cell (d : Deque T) (p : Nat) : Option T :=
  d.store.slot (d.external_array_ (p / BLOCK_SIZE_)) (p % BLOCK_SIZE_)

/-- The indirection array is sound: its entries are pairwise distinct
allocated blocks below the allocation frontier, and it has at most `2 ^ 57`
entries. -/
structure WF (d : Deque T) : Prop where
  inj : ∀ i j, i < d.amount_of_blocks_ → j < d.amount_of_blocks_ →
    d.external_array_ i = d.external_array_ j → i = j
  live : ∀ i, i < d.amount_of_blocks_ → d.store.live (d.external_array_ i) = true
  below : ∀ i, i < d.amount_of_blocks_ → d.external_array_ i < d.store.brk
  bound : d.amount_of_blocks_ ≤ 144115188075855872

/-- The slots `lo, lo + 1, ...` hold the elements of `m`, in order. -/
def Holds (d : Deque T) (lo : Nat) (m : List T) : Prop :=
  ∀ k, k < m.length → d.cell (lo + k) = m[k]?

/-- The deque `d` represents the sequence `m`. -/
structure Inv (d : Deque T) (m : List T) : Prop where
  wf : WF d
  first_lt : d.first_element_index_ < BLOCK_SIZE_
  after_lt : d.after_last_element_index_ < BLOCK_SIZE_
  last_lt : d.last_block_ < d.amount_of_blocks_
  pos : 0 < d.first_block_ * BLOCK_SIZE_ + d.first_element_index_
  len : d.first_block_ * BLOCK_SIZE_ + d.first_element_index_ + m.length
    = d.last_block_ * BLOCK_SIZE_ + d.after_last_element_index_
  elems : Holds d (d.first_block_ * BLOCK_SIZE_ + d.first_element_index_) m
  no_raw : d.store.dtor_raw = 0

/-- The deque `d'` is `d` after the reallocation of `push_helper`, with
`n = last_block_ - first_block_ + 1` live blocks: the indirection array has
`3 * n` entries, the live blocks sit at the entries `n .. 2 * n - 1`, and every
slot of a live block holds what it held. -/
structure Realloc (d d' : Deque T) : Prop where
  amount : d'.amount_of_blocks_ = 3 * (d.last_block_ - d.first_block_ + 1)
  first_block : d'.first_block_ = d.last_block_ - d.first_block_ + 1
  last_block : d'.last_block_ = 2 * (d.last_block_ - d.first_block_ + 1) - 1
  first_index : d'.first_element_index_ = d.first_element_index_
  after_last : d'.after_last_element_index_ = d.after_last_element_index_
  inj : ∀ i j, i < d'.amount_of_blocks_ → j < d'.amount_of_blocks_ →
    d'.external_array_ i = d'.external_array_ j → i = j
  live : ∀ i, i < d'.amount_of_blocks_ → d'.store.live (d'.external_array_ i) = true
  below : ∀ i, i < d'.amount_of_blocks_ → d'.external_array_ i < d'.store.brk
  cell : ∀ p, d.first_block_ * BLOCK_SIZE_ ≤ p → p < (d.last_block_ + 1) * BLOCK_SIZE_ →
    d'.cell (p - d.first_block_ * BLOCK_SIZE_
      + (d.last_block_ - d.first_block_ + 1) * BLOCK_SIZE_) = d.cell p
  no_raw : d'.store.dtor_raw = d.store.dtor_raw

/-- The deque `d` is a valid object holding the sequence `m`: the
representation invariant shared by every deque, wherever its first element
sits. -/
structure Rep (d : Deque T) (m : List T) : Prop where
  wf : WF d
  first_lt : d.first_element_index_ < BLOCK_SIZE_
  after_lt : d.after_last_element_index_ < BLOCK_SIZE_
  last_lt : d.last_block_ < d.amount_of_blocks_
  len : d.first_block_ * BLOCK_SIZE_ + d.first_element_index_ + m.length
    = d.last_block_ * BLOCK_SIZE_ + d.after_last_element_index_
  elems : Holds d (d.first_block_ * BLOCK_SIZE_ + d.first_element_index_) m

/-- Two stores that differ in the contents of slots only. -/
def Store.sameButSlots (st st' : Store T) : Prop :=
  st'.live = st.live ∧ st'.brk = st.brk ∧
  st'.blocks_new = st.blocks_new ∧ st'.blocks_deleted = st.blocks_deleted ∧
  st'.arrays_new = st.arrays_new ∧ st'.arrays_deleted = st.arrays_deleted ∧
  st'.ctor_calls = st.ctor_calls ∧ st'.dtor_calls = st.dtor_calls ∧
  st'.dtor_raw = st.dtor_raw

/-- The iterator of `d` with running index `p`: what
`common_iterator(external_array_, p)` builds when `p` is inside the array. -/
def Deque.iterAt (d : Deque T) (p : Nat) : common_iterator :=
  { array_ := d.external_array_ (p / BLOCK_SIZE_), index_ := p }

/-- `common_iterator::operator==`: `index_ == other.index_`. -/
def common_iterator.iter_eq (a b : common_iterator) : Bool :=
  a.index_ == b.index_

/-- `common_iterator::operator<`: `index_ < other.index_`. -/
def common_iterator.iter_lt (a b : common_iterator) : Bool :=
  decide (a.index_ < b.index_)

/-- `common_iterator::operator-(const common_iterator& it)`:
`index_ - it.index_ + (ptr_ - it.ptr_) * BLOCK_SIZE_`, computed in `size_t`
and returned as `difference_type`.  Both iterators are made from the same
indirection array, so `ptr_ - it.ptr_` is 0. -/
def common_iterator.iter_diff (a b : common_iterator) : Int :=
  toPtrdiff (uadd (usub a.index_ b.index_) (umul (ofPtrdiff 0) BLOCK_SIZE_))

/-- The element read through a reference to the place `p` (block address and
slot); `none` when the place is outside the allocated blocks or holds no
element. -/
def Store.read (st : Store T) (p : Nat × Nat) : Option T :=
  if st.live p.1 = true ∧ p.2 < BLOCK_SIZE_ then st.slot p.1 p.2 else none

/-- The assignment `*it = obj` to the element at the place `p`; `none` when
there is no element to assign to. -/
def Store.assign (st : Store T) (p : Nat × Nat) (obj : T) : Option (Store T) :=
  match st.read p with
  | none => none
  | some _ =>
    some { st with slot := fun a s => if a = p.1 ∧ s = p.2 then some obj else st.slot a s }

/-- `std::swap(*a, *b)` on the elements at the places `p` and `q`; `none`
when one of them is not an element. -/
def Store.swapAt (st : Store T) (p q : Nat × Nat) : Option (Store T) :=
  match st.read p, st.read q with
  | some x, some y =>
    some { st with
      slot := fun a s =>
        if a = q.1 ∧ s = q.2 then some x
        else if a = p.1 ∧ s = p.2 then some y
        else st.slot a s }
  | _, _ => none

/-- The loop of `Deque::insert`:
`for (auto copy = end() - 1; copy != it; --copy) std::swap(*copy, *(copy - 1));`
from the iterator `copy` on, on the storage `st`; `fuel` bounds the number of
iterations.  (`copy - 1` and `--copy` compute the same iterator.) -/
def Deque.insert_loop (d : Deque T) (it : common_iterator) :
    Nat → common_iterator → Store T → Option (Store T)
  | 0, copy, st => if copy.iter_eq it = true then some st else none
  | fuel + 1, copy, st =>
    if copy.iter_eq it = true then some st
    else
      (d.iter_sub copy 1).bind fun prev =>
      (st.swapAt copy.deref prev.deref).bind fun st1 =>
      Deque.insert_loop d it fuel prev st1

/-- What the parameter `const T& obj` of `insert` is bound to: an object
outside the blocks of the deque, whose value is `v`, or the element at a
place of the blocks (block address and slot), as in `d.insert(it, d[j])`. -/
inductive Arg (T : Type)
  | outside (v : T)
  | element (p : Nat × Nat)

/-- The value read through the reference, on the storage `st`; `none` when
the place holds no element. -/
def Arg.read (obj : Arg T) (st : Store T) : Option T :=
  match obj with
  | .outside v => some v
  | .element p => st.read p

/-- `Deque::insert(it, obj)`; `fuel` bounds the iterations of the loop.  The
parameter `obj` is a reference: `push_back(obj)` reads it at once, and
`*it = obj` reads it when the loop has run. -/
def Deque.insert (d : Deque T) (it : common_iterator) (obj : Arg T) (fuel : Nat) :
    Option (Deque T) :=
  if d.size = 0 then (obj.read d.store).bind d.push_back
  else
    d.end_.bind fun e =>
    if it.iter_eq e = true then (obj.read d.store).bind d.push_back
    else
      -- T new_obj = *(end() - 1);
      (d.iter_sub e 1).bind fun last =>
      (d.store.read last.deref).bind fun new_obj =>
      (d.insert_loop it fuel last d.store).bind fun st =>
      -- *it = obj;
      (obj.read st).bind fun v =>
      (st.assign it.deref v).bind fun st1 =>
      ({ d with store := st1 } : Deque T).push_back new_obj

/-- The loop of `Deque::erase`:
`for (auto copy = it; copy != end() - 1; ++copy) std::swap(*copy, *(copy + 1));`
from the iterator `copy` on, on the storage `st`; `fuel` bounds the number of
iterations.  (`copy + 1` and `++copy` compute the same iterator.) -/
def Deque.erase_loop (d : Deque T) : Nat → common_iterator → Store T → Option (Store T)
  | 0, copy, st =>
    d.end_.bind fun e =>
    (d.iter_sub e 1).bind fun last =>
    if copy.iter_eq last = true then some st else none
  | fuel + 1, copy, st =>
    d.end_.bind fun e =>
    (d.iter_sub e 1).bind fun last =>
    if copy.iter_eq last = true then some st
    else
      (d.iter_add copy 1).bind fun next =>
      (st.swapAt copy.deref next.deref).bind fun st1 =>
      Deque.erase_loop d fuel next st1

/-- `Deque::erase(it)`; `fuel` bounds the iterations of the loop. -/
def Deque.erase (d : Deque T) (it : common_iterator) (fuel : Nat) : Option (Deque T) :=
  (d.erase_loop fuel it d.store).bind fun st =>
  ({ d with store := st } : Deque T).pop_back

/-- The elements a caller reads with `(*this)[0]`, ..., `(*this)[n - 1]`. -/
def Deque.toList (d : Deque T) (n : Nat) : List (Option T) :=
  (List.range n).map d.get

/-- A deque of the numbers `0, 1, ..., n - 1`, pushed at the back of a
default-constructed deque. -/
def iota (n : Nat) : Option (Deque Nat) :=
  (Deque.ctor Nat).run ((List.range n).map Op.push_back)

/-- The element counters of the storage a throwing constructor leaves
behind: elements constructed, destructor calls on elements, destructor calls
on slots holding no element; and whether the constructor threw at all. -/
def Built.thrownCounters : Built T → Option (Nat × Nat × Nat)
  | .throw st => some (st.ctor_calls, st.dtor_calls, st.dtor_raw)
  | _ => none

/-- The allocation counters of the storage a throwing constructor leaves
behind: blocks allocated and released, indirection arrays allocated and
released. -/
def Built.thrownAllocs : Built T → Option (Nat × Nat × Nat × Nat)
  | .throw st => some (st.blocks_new, st.blocks_deleted, st.arrays_new, st.arrays_deleted)
  | _ => none

end BlockDeque
/-! ### Constructed deques -/

namespace BlockDeque

variable {T : Type}

/-- The object a constructor call built, when it returned. -/
def Built.deque : Built T → Option (Deque T)
  | .ok d => some d
  | _ => none

/-- The five index members of a deque: `amount_of_blocks_`, `first_block_`,
`first_element_index_`, `last_block_`, `after_last_element_index_`. -/
def Deque.members (d : Deque T) : Nat × Nat × Nat × Nat × Nat :=
  (d.amount_of_blocks_, d.first_block_, d.first_element_index_, d.last_block_,
    d.after_last_element_index_)

/-- The block index `push_front` addresses: `first_block_ - 1` when
`first_element_index_ == 0`, else `first_block_`. -/
def Deque.frontBlock (d : Deque T) : Nat :=
  if d.first_element_index_ = 0 then usub d.first_block_ 1 else d.first_block_

/-- `Deque<int> d(num, 5);` (no copy throws). -/
def sizedOfValue (num : Nat) : Option (Deque Nat) :=
  Built.deque (Deque.ctor_n_obj num (fun _ => some 5))

/-- `Deque<int> d(num);` (no construction throws). -/
def sizedDefault (num : Nat) : Option (Deque Nat) :=
  Built.deque (Deque.ctor_n num (fun _ => some 0))

/-- The slot `push_front` addresses: `BLOCK_SIZE_ - 1` when
`first_element_index_ == 0`, else `first_element_index_ - 1`. -/
def Deque.frontSlot (d : Deque T) : Nat :=
  if d.first_element_index_ = 0 then usub BLOCK_SIZE_ 1 else usub d.first_element_index_ 1

/-- The push that led from `d` to `d'` reallocated the indirection array:
one array was allocated, it has `3 * s` entries for
`s = last_block_ - first_block_ + 1`, the `s` live blocks of `d` sit at the
entries `s .. 2 * s - 1` in the same order, and `first_block_` is `s`. -/
structure Grown (d d' : Deque T) : Prop where
  arrays : d'.store.arrays_new = d.store.arrays_new + 1
  amount : d'.amount_of_blocks_ = 3 * (d.last_block_ - d.first_block_ + 1)
  first_block : d'.first_block_ = d.last_block_ - d.first_block_ + 1
  blocks : ∀ k, k < d.last_block_ - d.first_block_ + 1 →
    d'.external_array_ (d.last_block_ - d.first_block_ + 1 + k)
      = d.external_array_ (d.first_block_ + k)

/-- The push that led from `d` to `d'` kept the indirection array: nothing
was allocated or released, and the array and its size are the same. -/
structure Kept (d d' : Deque T) : Prop where
  arrays : d'.store.arrays_new = d.store.arrays_new
  arrays_deleted : d'.store.arrays_deleted = d.store.arrays_deleted
  blocks_new : d'.store.blocks_new = d.store.blocks_new
  blocks_deleted : d'.store.blocks_deleted = d.store.blocks_deleted
  amount : d'.amount_of_blocks_ = d.amount_of_blocks_
  array : d'.external_array_ = d.external_array_

/-- The push that led from `d` to `d'` constructed `v` in slot `j` of the
block at address `a` and touched no other slot of a block of `d`: every
element is in the block and slot it was in, one element was constructed and
none was destroyed. -/
structure Unmoved (d d' : Deque T) (a j : Nat) (v : T) : Prop where
  slots : ∀ x y, x < d.store.brk →
    d'.store.slot x y = if x = a ∧ y = j then some v else d.store.slot x y
  ctor_calls : d'.store.ctor_calls = d.store.ctor_calls + 1
  dtor_calls : d'.store.dtor_calls = d.store.dtor_calls

/-- The deque `0, ..., 126` pushed at the back of `Deque<int>()`: its last
element is in the last slot but one of the array's last block. -/
def fullBack : Option (Deque Nat) := iota 127

/-- The index of the element of `m` that `*it = obj` reads when `obj` is the
element `(*this)[j]` and `it` is `begin() + k`: the loop has moved the last
element to position `k` and the elements from `k` on up by one. -/
def readAfterShift (n k j : Nat) : Nat :=
  if j < k then j else if j = k then n - 1 else j - 1

/-- The deque 10 20 30, built by `push_back`. -/
def aliasDeque : Option (Deque Nat) :=
  (Deque.ctor Nat).run [.push_back 10, .push_back 20, .push_back 30]

/-- The call `d.insert(d.begin(), d[1])` on the deque 10 20 30. -/
def aliasInsert : Option (Deque Nat) :=
  aliasDeque.bind fun d => d.begin.bind fun it => (d.index 1).bind fun p =>
    d.insert it (.element p) 3

/-- The calls `int v = d[1]; d.insert(d.begin(), v)` on the deque 10 20 30. -/
def copyInsert : Option (Deque Nat) :=
  aliasDeque.bind fun d => d.begin.bind fun it => (d.get 1).bind fun v =>
    d.insert it (.outside v) 3

/-- The call `d.push_back(d[1])` on the deque 10 20 30: `push_back` reads its
argument before it changes the deque. -/
def aliasPushBack : Option (Deque Nat) :=
  aliasDeque.bind fun d => (d.index 1).bind fun p => ((Arg.element p).read d.store).bind
    d.push_back

end BlockDeque


/-! ## Allocator-parameterized list (`list.h`) -/

/-- The class `List<T, Alloc>`: the address of its member `head_`, the
members `size_` and `node_allocator_`, and its base-class subobject `Alloc`. -/
structure LinkedList (A : Type) where
  head_ : Nat
  size_ : Nat
  alloc : A
  node_allocator_ : A

namespace LinkedList

/-- What lives at an address: nothing, the `BaseNode head_` of a list object,
or a constructed `Node` with its `value`. -/
inductive Cell (T : Type)
  | free
  | sentinel
  | node (value : T)

/-- The memory the lists live in: the `next` and `prev` members of the
`BaseNode` at each address, what lives at each address, the allocation
frontier, and the traffic through `NodeAllocTraits`: calls of `allocate`,
`deallocate`, completed calls of `construct`, calls of `destroy`. -/
structure Heap (T : Type) where
  next : Nat → Nat
  prev : Nat → Nat
  cell : Nat → Cell T
  brk : Nat
  allocs : Nat
  deallocs : Nat
  ctors : Nat
  dtors : Nat

variable {T A : Type}

/-- A memory with no object in it; address 0 is `nullptr`. -/
def Heap.empty (T : Type) : Heap T :=
  { next := fun _ => 0, prev := fun _ => 0, cell := fun _ => .free, brk := 1,
    allocs := 0, deallocs := 0, ctors := 0, dtors := 0 }

/-- A `BaseNode` (of a list object or of a `Node`) lives at the address. -/
def Heap.valid (h : Heap T) (a : Nat) : Bool :=
  match h.cell a with
  | .free => false
  | _ => true

/-- A constructed `Node` lives at the address. -/
def Heap.isNode (h : Heap T) (a : Nat) : Bool :=
  match h.cell a with
  | .node _ => true
  | _ => false

/-- The assignment `a->next = v`. -/
def Heap.setNext (h : Heap T) (a v : Nat) : Heap T :=
  { h with next := fun x => if x = a then v else h.next x }

/-- The assignment `a->prev = v`. -/
def Heap.setPrev (h : Heap T) (a v : Nat) : Heap T :=
  { h with prev := fun x => if x = a then v else h.prev x }

/-- Change what lives at address `a`. -/
def Heap.setCell (h : Heap T) (a : Nat) (c : Cell T) : Heap T :=
  { h with cell := fun x => if x = a then c else h.cell x }

/-- `NodeAllocTraits::allocate(node_allocator_, 1)`: the node is the address
at the frontier. -/
def Heap.allocate (h : Heap T) : Heap T :=
  { h with brk := h.brk + 1, allocs := h.allocs + 1 }

/-- `NodeAllocTraits::deallocate(node_allocator_, node, 1)`. -/
def Heap.deallocate (h : Heap T) : Heap T :=
  { h with deallocs := h.deallocs + 1 }

/-- The outcome of an operation on a state `σ`: normal return, a propagated
exception (with the state the unwinding left), or undefined behaviour. -/
inductive Res (σ : Type)
  | ok (s : σ)
  | throw (s : σ)
  | ub

/-- The two allocator traits the list consults. -/
structure AllocTraits (A : Type) where
  select_on_container_copy_construction : A → A
  propagate_on_container_copy_assignment : Bool

/-- `List::get_allocator()`. -/
def get_allocator (l : LinkedList A) : A := l.alloc

/-- `List::size()`. -/
def size (l : LinkedList A) : Nat := l.size_

/-- `List::begin()`: the iterator `{head_.next}`. -/
def begin (l : LinkedList A) (h : Heap T) : Nat := h.next l.head_

/-- `List::end()`: the iterator `{&head_}`. -/
def end_ (l : LinkedList A) : Nat := l.head_

/-- `common_iterator::operator++`: `node_ = node_->next`; `none` when no
`BaseNode` lives at `node_`. -/
def iter_next (h : Heap T) (it : Nat) : Option Nat :=
  if h.valid it = true then some (h.next it) else none

/-- `common_iterator::operator--`: `node_ = node_->prev`. -/
def iter_prev (h : Heap T) (it : Nat) : Option Nat :=
  if h.valid it = true then some (h.prev it) else none

/-- `operator++` applied `k` times. -/
def advance (h : Heap T) : Nat → Nat → Option Nat
  | 0, it => some it
  | k + 1, it => (iter_next h it).bind (advance h k)

/-- `List::List(const Alloc& alloc)`: the object comes to live at the fresh
address `brk`, and `initialize_head()` sets `head_ = {&head_, &head_}`. -/
def ctor_alloc (h : Heap T) (alloc : A) : Heap T × LinkedList A :=
  let a := h.brk
  let h1 := { h with brk := h.brk + 1 }.setCell a .sentinel
  ((h1.setNext a a).setPrev a a,
    { head_ := a, size_ := 0, alloc := alloc, node_allocator_ := alloc })

/-- `List::emplace(it, args...)`; `c` is the outcome of constructing the
`Node` from `args`: its value, or `none` when the constructor throws. -/
def emplace (l : LinkedList A) (h : Heap T) (it : Nat) (c : Option T) :
    Res (Heap T × LinkedList A) :=
  -- Node* node = NodeAllocTraits::allocate(node_allocator_, 1);
  let node := h.brk
  let h1 := h.allocate
  match c with
  | none =>
    -- catch (...) { deallocate(node_allocator_, node, 1); throw; }
    .throw (h1.deallocate, l)
  | some v =>
    -- the constructed Node: value, next{nullptr}, prev{nullptr}
    let h2 := (({ h1 with ctors := h1.ctors + 1 }.setCell node (.node v)).setNext node 0).setPrev
      node 0
    if h2.valid it = true ∧ h2.valid (h2.prev it) = true then
      let prev := h2.prev it
      let next := it
      let h3 := h2.setPrev next node
      let h4 := h3.setNext node next
      let h5 := h4.setNext prev node
      let h6 := h5.setPrev node prev
      .ok (h6, { l with size_ := uadd l.size_ 1 })
    else .ub

/-- `List::insert(it, obj)`. -/
def insert (l : LinkedList A) (h : Heap T) (it : Nat) (c : Option T) :
    Res (Heap T × LinkedList A) :=
  l.emplace h it c

/-- `List::erase(it)`; `none` when `it` is not at a constructed `Node` or a
neighbour link leaves the live objects. -/
def erase (l : LinkedList A) (h : Heap T) (it : Nat) : Option (Heap T × LinkedList A) :=
  if h.isNode it = true ∧ h.valid (h.prev it) = true then
    -- it.node_->prev->next = it.node_->next;
    let h1 := h.setNext (h.prev it) (h.next it)
    if h1.valid (h1.next it) = true then
      -- it.node_->next->prev = it.node_->prev;
      let h2 := h1.setPrev (h1.next it) (h1.prev it)
      -- destroy, deallocate, --size_
      let h3 := { h2 with dtors := h2.dtors + 1 }.deallocate.setCell it .free
      some (h3, { l with size_ := usub l.size_ 1 })
    else none
  else none

/-- `List::push_back(obj)`. -/
def push_back (l : LinkedList A) (h : Heap T) (c : Option T) : Res (Heap T × LinkedList A) :=
  l.insert h l.end_ c

/-- `List::push_front(obj)`. -/
def push_front (l : LinkedList A) (h : Heap T) (c : Option T) : Res (Heap T × LinkedList A) :=
  l.insert h (l.begin h) c

/-- `List::pop_back()`: `erase(--end())`. -/
def pop_back (l : LinkedList A) (h : Heap T) : Option (Heap T × LinkedList A) :=
  (iter_prev h l.end_).bind (l.erase h)

/-- `List::pop_front()`: `erase(begin())`. -/
def pop_front (l : LinkedList A) (h : Heap T) : Option (Heap T × LinkedList A) :=
  l.erase h (l.begin h)

/-- `List::destroy(d)`: `pop_back()` repeated `d` times. -/
def destroy (l : LinkedList A) (h : Heap T) : Nat → Option (Heap T × LinkedList A)
  | 0 => some (h, l)
  | d + 1 => (l.pop_back h).bind fun s => s.2.destroy s.1 d

/-- `List::~List()`: `destroy(size_)`, after which the object, and with it
`head_`, is gone. -/
def dtor (l : LinkedList A) (h : Heap T) : Option (Heap T) :=
  (l.destroy h l.size_).map fun s => s.1.setCell l.head_ .free

/-- The range-for loop over `*this`, as a caller writes it: the values met
from `cur` until `end()`; `none` when the walk meets something that is not a
`Node`, or has not reached `end()` after `fuel` steps. -/
def walk (h : Heap T) (stop : Nat) : Nat → Nat → Option (List T)
  | 0, cur => if cur = stop then some [] else none
  | fuel + 1, cur =>
    if cur = stop then some []
    else
      match h.cell cur with
      | .node v => (walk h stop fuel (h.next cur)).map (fun vs => v :: vs)
      | _ => none

/-- Forward iteration `begin() .. end()`. -/
def forward (l : LinkedList A) (h : Heap T) (fuel : Nat) : Option (List T) :=
  walk h l.end_ fuel (l.begin h)

/-- The body of the sized constructors, after the delegation to
`List(alloc)`: `emplace(end(), ...)` once for each index of the list, where
`elem i` is the outcome of constructing element `i`.  On a throw,
`destroy(i); throw;`, and, the delegated-to constructor having completed, the
destructor runs. -/
def fill (l : LinkedList A) (h : Heap T) (elem : Nat → Option T) :
    List Nat → Res (Heap T × LinkedList A)
  | [] => .ok (h, l)
  | i :: rest =>
    match l.emplace h l.end_ (elem i) with
    | .ok s => fill s.2 s.1 elem rest
    | .throw s =>
      match s.2.destroy s.1 i with
      | none => .ub
      | some s1 =>
        match s1.2.dtor s1.1 with
        | none => .ub
        | some h2 => .throw (h2, s1.2)
    | .ub => .ub

/-- `List::List(size_t count, const Alloc& alloc)`; `elem i` is the outcome
of the `i`-th `T()`. -/
def ctor_count (h : Heap T) (count : Nat) (alloc : A) (elem : Nat → Option T) :
    Res (Heap T × LinkedList A) :=
  (ctor_alloc h alloc).2.fill (ctor_alloc h alloc).1 elem (List.range count)

/-- `List::List(size_t count, const T& obj, const Alloc& alloc)`; `elem i` is
the outcome of the `i`-th `T(obj)`. -/
def ctor_count_obj (h : Heap T) (count : Nat) (alloc : A) (elem : Nat → Option T) :
    Res (Heap T × LinkedList A) :=
  (ctor_alloc h alloc).2.fill (ctor_alloc h alloc).1 elem (List.range count)

/-- The loop `for (const auto& elem : other) { push_back(elem); ++i; }` from
the node `cur` on, `i` elements having been pushed; `copy i v` is the outcome
of the `i`-th `T(elem)`.  The result carries `i` at the exit. -/
def copy_loop (l : LinkedList A) (h : Heap T) (stop : Nat) (copy : Nat → T → Option T) :
    Nat → Nat → Nat → Res (Heap T × LinkedList A × Nat)
  | 0, cur, i => if cur = stop then .ok (h, l, i) else .ub
  | fuel + 1, cur, i =>
    if cur = stop then .ok (h, l, i)
    else
      match h.cell cur with
      | .node v =>
        match l.push_back h (copy i v) with
        | .ok s => copy_loop s.2 s.1 stop copy fuel (s.1.next cur) (i + 1)
        | .throw s => .throw (s.1, s.2, i)
        | .ub => .ub
      | _ => .ub

/-- `List::List(const List& other)`; `fuel` bounds the number of nodes of
`other` that are visited. -/
def ctor_copy (tr : AllocTraits A) (h : Heap T) (other : LinkedList A)
    (copy : Nat → T → Option T) (fuel : Nat) : Res (Heap T × LinkedList A) :=
  let s0 := ctor_alloc h (tr.select_on_container_copy_construction other.alloc)
  match copy_loop s0.2 s0.1 other.end_ copy fuel (other.begin s0.1) 0 with
  | .ok s => .ok (s.1, s.2.1)
  | .throw s =>
    match s.2.1.destroy s.1 s.2.2 with
    | none => .ub
    | some s1 =>
      match s1.2.dtor s1.1 with
      | none => .ub
      | some h2 => .throw (h2, s1.2)
  | .ub => .ub

/-- `List::swap(other)`: the two objects after the swap; `none` when one of
the four link assignments leaves the live objects. -/
def swap (self other : LinkedList A) (h : Heap T) :
    Option (Heap T × LinkedList A × LinkedList A) :=
  -- std::swap on the Alloc bases, size_, node_allocator_
  let self1 : LinkedList A := { self with
    alloc := other.alloc, size_ := other.size_, node_allocator_ := other.node_allocator_ }
  let other1 : LinkedList A := { other with
    alloc := self.alloc, size_ := self.size_, node_allocator_ := self.node_allocator_ }
  -- std::swap(head_, other.head_)
  let h1 := (((h.setNext self.head_ (h.next other.head_)).setPrev self.head_
    (h.prev other.head_)).setNext other.head_ (h.next self.head_)).setPrev other.head_
    (h.prev self.head_)
  -- std::swap(head_.next->prev, other.head_.next->prev)
  let p := h1.next self.head_
  let q := h1.next other.head_
  if h1.valid p = true ∧ h1.valid q = true then
    let h2 := (h1.setPrev p (h1.prev q)).setPrev q (h1.prev p)
    -- std::swap(head_.prev->next, other.head_.prev->next)
    let r := h2.prev self.head_
    let s := h2.prev other.head_
    if h2.valid r = true ∧ h2.valid s = true then
      let h3 := (h2.setNext r (h2.next s)).setNext s (h2.next r)
      some (h3, self1, other1)
    else none
  else none

/-- `List::operator=(const List& other)` on `self`; `fuel` bounds the number
of nodes of `other` that are visited.  An exception leaving `push_back`
unwinds through the destructor of the local `another`. -/
def assign (tr : AllocTraits A) (self : LinkedList A) (h : Heap T) (other : LinkedList A)
    (copy : Nat → T → Option T) (fuel : Nat) : Res (Heap T × LinkedList A) :=
  let s0 := ctor_alloc h
    (if tr.propagate_on_container_copy_assignment then get_allocator other
      else get_allocator self)
  match copy_loop s0.2 s0.1 other.end_ copy fuel (other.begin s0.1) 0 with
  | .ok s =>
    match self.swap s.2.1 s.1 with
    | none => .ub
    | some s1 =>
      match s1.2.2.dtor s1.1 with
      | none => .ub
      | some h3 => .ok (h3, s1.2.1)
  | .throw s =>
    match s.2.1.dtor s.1 with
    | none => .ub
    | some h2 => .throw (h2, self)
  | .ub => .ub

/-- The operations of the list refinement claim; positions are given as the
number of `++` steps from `begin()`. -/
inductive Op (T : Type)
  | push_back (v : T)
  | push_front (v : T)
  | pop_back
  | pop_front
  | insert (k : Nat) (v : T)
  | erase (k : Nat)

/-- A `Res` from an operation that does not throw. -/
def Res.ofOption {σ : Type} : Option σ → Res σ
  | some s => .ok s
  | none => .ub

/-- One operation on the list (element copies do not throw). -/
def apply (l : LinkedList A) (h : Heap T) : Op T → Res (Heap T × LinkedList A)
  | .push_back v => l.push_back h (some v)
  | .push_front v => l.push_front h (some v)
  | .pop_back => Res.ofOption (l.pop_back h)
  | .pop_front => Res.ofOption (l.pop_front h)
  | .insert k v =>
    match advance h k (l.begin h) with
    | none => .ub
    | some it => l.insert h it (some v)
  | .erase k =>
    match advance h k (l.begin h) with
    | none => .ub
    | some it => Res.ofOption (l.erase h it)

/-- A sequence of operations on the list, in order. -/
def run (l : LinkedList A) (h : Heap T) : List (Op T) → Res (Heap T × LinkedList A)
  | [] => .ok (h, l)
  | op :: ops =>
    match l.apply h op with
    | .ok s => run s.2 s.1 ops
    | .throw s => .throw s
    | .ub => .ub

/-- One operation on the reference sequence: `insert k v` puts `v` before the
`k`-th element, `erase k` removes the `k`-th element. -/
def refApply (m : List T) : Op T → List T
  | .push_back v => m ++ [v]
  | .push_front v => v :: m
  | .pop_back => m.dropLast
  | .pop_front => m.tail
  | .insert k v => m.take k ++ v :: m.drop k
  | .erase k => m.take k ++ m.drop (k + 1)

/-- A sequence of operations on the reference sequence, in order. -/
def refRun (m : List T) : List (Op T) → List T
  | [] => m
  | op :: ops => refRun (refApply m op) ops

/-- Pops are issued on a non-empty sequence, `insert` at a position up to
`end()`, `erase` at a position before `end()`. -/
def opsValid (m : List T) : List (Op T) → Prop
  | [] => True
  | .push_back v :: ops => opsValid (m ++ [v]) ops
  | .push_front v :: ops => opsValid (v :: m) ops
  | .pop_back :: ops => m ≠ [] ∧ opsValid m.dropLast ops
  | .pop_front :: ops => m ≠ [] ∧ opsValid m.tail ops
  | .insert k v :: ops => k ≤ m.length ∧ opsValid (m.take k ++ v :: m.drop k) ops
  | .erase k :: ops => k < m.length ∧ opsValid (m.take k ++ m.drop (k + 1)) ops

/-! ### Representation invariant of the list -/

/-- The nodes `xs` (address and value), in this order, are linked between the
`BaseNode` at `a` and the `BaseNode` at `b`: `next` leads from `a` through the
nodes to `b`, and `prev` leads back. -/
def Seg (h : Heap T) : Nat → List (Nat × T) → Nat → Prop
  | a, [], b => h.next a = b ∧ h.prev b = a
  | a, x :: xs, b => h.next a = x.1 ∧ h.prev x.1 = a ∧ h.cell x.1 = .node x.2 ∧ Seg h x.1 xs b

/-- The address of the last `BaseNode` of the segment that starts at `a` and
runs through `xs`. -/
def lastAddr : Nat → List (Nat × T) → Nat
  | a, [] => a
  | _, x :: xs => lastAddr x.1 xs

/-- The address of the first node of `xs`, or `b` when there is none. -/
def firstAddr : List (Nat × T) → Nat → Nat
  | [], b => b
  | x :: _, _ => x.1

/-- The list object `l` owns exactly the nodes `xs`, in this order: the ring
`head_ → xs → head_` is linked in both directions, its addresses are pairwise
distinct and below the allocation frontier, and `size_` counts the nodes. -/
structure Repr (h : Heap T) (l : LinkedList A) (xs : List (Nat × T)) : Prop where
  head : h.cell l.head_ = .sentinel
  seg : Seg h l.head_ xs l.head_
  nodup : (l.head_ :: xs.map Prod.fst).Nodup
  below : ∀ a, a ∈ l.head_ :: xs.map Prod.fst → a < h.brk
  size : l.size_ = xs.length

/-- The scenario of the copy-assignment defect: an empty list `a`, a list `b`
holding the single element 1, and then `a = b` (allocators propagate, copies
do not throw, fuel for one node).  The result is the outcome of the
assignment together with the object `b`. -/
def assignEmptyFromSingleton : Res (Heap Nat × LinkedList Unit) × LinkedList Unit :=
  let sa := ctor_alloc (Heap.empty Nat) ()
  let sb := ctor_alloc sa.1 ()
  match sb.2.push_back sb.1 (some 1) with
  | .ok s1 => (assign ⟨id, true⟩ sa.2 s1.1 s1.2 (fun _ v => some v) 1, s1.2)
  | _ => (.ub, sb.2)

/-- The scenario of the converse assignment: a list `a` holding the single
element 1, an empty list `b`, and then `a = b`. -/
def assignSingletonFromEmpty : Res (Heap Nat × LinkedList Unit) :=
  let sa := ctor_alloc (Heap.empty Nat) ()
  let sb := ctor_alloc sa.1 ()
  match sa.2.push_back sb.1 (some 1) with
  | .ok s1 => assign ⟨id, true⟩ s1.2 s1.1 sb.2 (fun _ v => some v) 1
  | _ => .ub

/-- An allocator as the propagation tests see it: the number it carries. -/
abbrev NumberedAlloc := Nat

/-- The state a `Res` carries, if any. -/
def Res.state {σ : Type} (d : σ) : Res σ → σ
  | .ok s => s
  | .throw s => s
  | .ub => d

/-- The list `lst` of `TestWhimsicalAllocator`: allocator number `n`, elements
1 and 2. -/
def whimsicalLst (n : NumberedAlloc) : Heap Nat × LinkedList NumberedAlloc :=
  Res.state (ctor_alloc (Heap.empty Nat) n)
    ((ctor_alloc (Heap.empty Nat) n).2.run (ctor_alloc (Heap.empty Nat) n).1
      [.push_back 1, .push_back 2])

/-- The list `copy` of `TestWhimsicalAllocator`, built after `lst`: allocator
number `m`, elements 1 and 2. -/
def whimsicalCopy (n m : NumberedAlloc) : Heap Nat × LinkedList NumberedAlloc :=
  Res.state (ctor_alloc (whimsicalLst n).1 m)
    ((ctor_alloc (whimsicalLst n).1 m).2.run (ctor_alloc (whimsicalLst n).1 m).1
      [.push_back 1, .push_back 2])

/-- The memory `h'` is what a constructor that started on `h0` and failed at
its `K`-th element leaves behind: `K - 1` elements were constructed and
`K - 1` destructor calls were made, `K` nodes were allocated and `K` were
deallocated, nothing lives at any address from the old frontier on, and
below the old frontier nothing was touched. -/
def Unwound (h0 h' : Heap T) (K : Nat) : Prop :=
  h'.ctors = h0.ctors + (K - 1) ∧ h'.dtors = h0.dtors + (K - 1) ∧
  h'.allocs = h0.allocs + K ∧ h'.deallocs = h0.deallocs + K ∧
  (∀ a, h0.brk ≤ a → h'.cell a = .free) ∧
  (∀ a, a < h0.brk → h'.next a = h0.next a ∧ h'.prev a = h0.prev a ∧ h'.cell a = h0.cell a)

/-- The tail of a ring segment from its first node on. -/
def SegFrom (h : Heap T) : List (Nat × T) → Nat → Prop
  | [], _ => True
  | y :: ys, b => h.cell y.1 = .node y.2 ∧ Seg h y.1 ys b

/-- The program of `BasicListTest`: push 3, 4 at the back, 2 at the front, 5
at the back, 1 at the front, then insert 6 and 7 before and after position 3,
erase the first element and pop both ends. -/
def basicListProgram : List (Op Nat) :=
  [.push_back 3, .push_back 4, .push_front 2, .push_back 5, .push_front 1,
   .insert 3 6, .insert 4 7, .erase 0, .pop_front, .pop_back]

/-- The element constructor of `TestExceptionSafety`: the fourth call throws. -/
def fourthThrows : Nat → Option Nat := fun i => if i = 3 then none else some 0

/-- `operator--` applied `k` times (`std::advance(it, -k)`). -/
def retreat (h : Heap T) : Nat → Nat → Option Nat
  | 0, it => some it
  | k + 1, it => (iter_prev h it).bind (retreat h k)

/-- The list 5 4 3 2 1 of `BasicListTest`, built on an empty memory. -/
def fiveList : Heap Nat × LinkedList Unit :=
  Res.state (ctor_alloc (Heap.empty Nat) ())
    ((ctor_alloc (Heap.empty Nat) ()).2.run (ctor_alloc (Heap.empty Nat) ()).1
      [.push_back 5, .push_back 4, .push_back 3, .push_back 2, .push_back 1])

/-- The insertions of `BasicListTest` on `fiveList`: `cit` is `cbegin()`
advanced three steps; 6 and 7 are inserted at `cit`; `cit` is moved back
three steps; 8 and 9 are inserted at `cit`.  The result is the forward
iteration afterwards. -/
def insertScenario : Option (List Nat) :=
  (advance fiveList.1 3 (fiveList.2.begin fiveList.1)).bind fun cit =>
  match fiveList.2.insert fiveList.1 cit (some 6) with
  | .ok s1 =>
    match s1.2.insert s1.1 cit (some 7) with
    | .ok s2 =>
      (retreat s2.1 3 cit).bind fun cit2 =>
      match s2.2.insert s2.1 cit2 (some 8) with
      | .ok s3 =>
        match s3.2.insert s3.1 cit2 (some 9) with
        | .ok s4 => s4.2.forward s4.1 9
        | _ => none
      | _ => none
    | _ => none
  | _ => none

/-- `*it = v`: the assignment to `static_cast<Node*>(node_)->value`; `none`
when no constructed `Node` lives at the iterator. -/
def iter_assign (h : Heap T) (it : Nat) (v : T) : Option (Heap T) :=
  match h.cell it with
  | .node _ => some (h.setCell it (.node v))
  | _ => none

/-- What a client does to a list: one of the operations of `Op`, or the
assignment `*it = v` through the iterator `k` steps of `++` from `begin()`. -/
inductive Action (T : Type)
  | op (o : Op T)
  | assign (k : Nat) (v : T)

/-- One action on the list. -/
def act (l : LinkedList A) (h : Heap T) : Action T → Res (Heap T × LinkedList A)
  | .op o => l.apply h o
  | .assign k v =>
    match advance h k (l.begin h) with
    | none => .ub
    | some it =>
      match iter_assign h it v with
      | none => .ub
      | some h1 => .ok (h1, l)

/-- One action on the reference sequence. -/
def refAct (m : List T) : Action T → List T
  | .op o => refApply m o
  | .assign k v => m.set k v

/-- A sequence of actions on the reference sequence, in order. -/
def refActs (m : List T) : List (Action T) → List T
  | [] => m
  | x :: rest => refActs (refAct m x) rest

/-- Every action is issued at a valid position of the sequence it meets. -/
def actsValid (m : List T) : List (Action T) → Prop
  | [] => True
  | .op o :: rest => opsValid m [o] ∧ actsValid (refApply m o) rest
  | .assign k v :: rest => k < m.length ∧ actsValid (m.set k v) rest

/-- A program on two lists `a` and `b` that live in one memory: each step
is an action on `a` (marked `true`) or on `b` (marked `false`). -/
def runTwo (a b : LinkedList A) (h : Heap T) :
    List (Bool × Action T) → Res (Heap T × LinkedList A × LinkedList A)
  | [] => .ok (h, a, b)
  | (side, x) :: rest =>
    if side then
      match a.act h x with
      | .ok s => runTwo s.2 b s.1 rest
      | .throw s => .throw (s.1, s.2, b)
      | .ub => .ub
    else
      match b.act h x with
      | .ok s => runTwo a s.2 s.1 rest
      | .throw s => .throw (s.1, a, s.2)
      | .ub => .ub

/-- The actions of a two-list program that are issued on one of the lists. -/
def actionsOf (side : Bool) : List (Bool × Action T) → List (Action T)
  | [] => []
  | (s, x) :: rest => if s = side then x :: actionsOf side rest else actionsOf side rest

/-- The list 8 9 6 7 2 of `BasicListTest`, built on an empty memory. -/
def copySource : Heap Nat × LinkedList Unit :=
  Res.state (ctor_alloc (Heap.empty Nat) ())
    ((ctor_alloc (Heap.empty Nat) ()).2.run (ctor_alloc (Heap.empty Nat) ()).1
      [.push_back 8, .push_back 9, .push_back 6, .push_back 7, .push_back 2])

/-- The end of `BasicListTest` on the original list, the copy having been
made: the element before `end()` is erased (position 4), and 3 is assigned
through the iterator at the new last element (position 3). -/
def copyProgram : List (Bool × Action Nat) :=
  [(true, .op (.erase 4)), (true, .assign 3 3)]

/-- The scenario of the C23 witness: `copy = lst` on `copySource`, then
`copyProgram`; the result is the forward iteration of the original and of
the copy afterwards. -/
def copyScenario : Option (List Nat × List Nat) :=
  match ctor_copy ⟨id, true⟩ copySource.1 copySource.2 (fun _ v => some v) 5 with
  | .ok s =>
    match runTwo copySource.2 s.2 s.1 copyProgram with
    | .ok t => (t.2.1.forward t.1 5).bind fun x => (t.2.2.forward t.1 5).map fun y => (x, y)
    | _ => none
  | _ => none

/-- The scenario of `TestAccountant`: `List(5)`, a copy of it, `pop_back` and
`pop_front` on the copy, the copy assigned to the original, and both lists
destroyed (the copy first).  The result is the number of element
constructions and of element destructions. -/
def accountantScenario : Option (Nat × Nat) :=
  match ctor_count (Heap.empty Unit) 5 () (fun _ => some ()) with
  | .ok lst =>
    match ctor_copy ⟨id, true⟩ lst.1 lst.2 (fun _ v => some v) 5 with
    | .ok another =>
      (another.2.pop_back another.1).bind fun s1 =>
      (s1.2.pop_front s1.1).bind fun s2 =>
      match assign ⟨id, true⟩ lst.2 s2.1 s2.2 (fun _ v => some v) 3 with
      | .ok s3 =>
        (s2.2.dtor s3.1).bind fun h4 =>
        (s3.2.dtor h4).map fun h5 => (h5.ctors, h5.dtors)
      | _ => none
    | _ => none
  | _ => none

/-- The scenario of `assignEmptyFromSingleton` carried to the end of the
scope: after `a = b`, the list `b` is destroyed and then the list `a`.  The
result is the number of element constructions and destructions once `b` is
gone, and the same two numbers after the destructor of `a`, `none` when that
destructor has undefined behaviour. -/
def emptyAssignScenario : Option (Nat × Nat × Option (Nat × Nat)) :=
  match assignEmptyFromSingleton with
  | (.ok s, b) =>
    match b.dtor s.1 with
    | none => none
    | some h1 => some (h1.ctors, h1.dtors, (s.2.dtor h1).map fun h2 => (h2.ctors, h2.dtors))
  | _ => none

/-- Two lists that live in one memory and own disjoint rings. -/
def Apart (h : Heap T) (a : LinkedList A) (xs : List (Nat × T)) (b : LinkedList A)
    (ws : List (Nat × T)) : Prop :=
  Repr h a xs ∧ Repr h b ws ∧
    ∀ z, z ∈ a.head_ :: xs.map Prod.fst → z ∉ b.head_ :: ws.map Prod.fst

/-- The ring invariant of a list, as a caller can check it with iterators:
`k < size()` steps of `++` from `begin()` arrive at a constructed `Node` that
is not `end()`, `size()` steps arrive at `end()`, and every `BaseNode` met on
the way (the sentinel `head_` included) is live, is the `prev` of its `next`
and the `next` of its `prev`. -/
def RingInvariant (h : Heap T) (l : LinkedList A) : Prop :=
  (∀ k, k < l.size → ∃ n, advance h k (l.begin h) = some n ∧ n ≠ l.end_ ∧ h.isNode n = true) ∧
  advance h l.size (l.begin h) = some l.end_ ∧
  (∀ k n, k ≤ l.size → advance h k (l.begin h) = some n →
    h.valid n = true ∧ h.prev (h.next n) = n ∧ h.next (h.prev n) = n)

end LinkedList
/-! ### Scenarios on several lists -/

namespace LinkedList

/-- Two lists in one memory: `a` holds 4, `b` holds 1 2 3 (allocators are of
the unit type).  The sentinels are at the addresses 1 and 2, the node of `a`
at 3, the nodes of `b` at 4, 5 and 6. -/
def assignPair : Heap Nat × LinkedList Unit × LinkedList Unit :=
  let sa := ctor_alloc (Heap.empty Nat) ()
  let sb := ctor_alloc sa.1 ()
  let ra := Res.state sa (sa.2.run sb.1 [.push_back 4])
  let rb := Res.state (ra.1, sb.2) (sb.2.run ra.1 [.push_back 1, .push_back 2, .push_back 3])
  (rb.1, ra.2, rb.2)

/-- A copy constructor of the elements that throws at its third call. -/
def thirdThrows : Nat → Nat → Option Nat := fun i v => if i = 2 then none else some v

variable {T A : Type}

/-- The list objects of a program, in one memory. -/
structure Lists (T A : Type) where
  heap : Heap T
  lists : List (LinkedList A)

/-- What a program does with its lists: the constructors `List(alloc)`,
`List(count, alloc)` (every `T()` yielding `v`), `List(count, obj, alloc)` and
the copy constructor from the list `src`; an operation of `Op` (push, pop,
insert, erase) on the list `i`; and the copy-assignment `dst = src`.  Lists
are named by their position among the lists constructed so far. -/
inductive Cmd (T A : Type)
  | ctor (alloc : A)
  | ctor_count (count : Nat) (alloc : A) (v : T)
  | ctor_count_obj (count : Nat) (obj : T) (alloc : A)
  | ctor_copy (src : Nat)
  | op (i : Nat) (o : Op T)
  | assign (dst src : Nat)

/-- No list, and the empty memory. -/
def Lists.init (T A : Type) : Lists T A := { heap := Heap.empty T, lists := [] }

/-- The state after a command that returned normally with the list object
`s.2`: a new list (`place = none`) or the new state of the list at position
`i` (`place = some i`).  Addresses are 64-bit numbers: a command whose
allocations leave the address space does not return. -/
def Lists.commit (w : Lists T A) (r : Res (Heap T × LinkedList A)) (place : Option Nat) :
    Option (Lists T A) :=
  match r with
  | .ok s =>
    if s.1.brk < SIZE_MOD then
      some { heap := s.1
             lists := match place with
               | none => w.lists ++ [s.2]
               | some i => w.lists.set i s.2 }
    else none
  | _ => none

/-- One command of a program (element constructions do not throw; the copy
loops get fuel for `size()` nodes of their source); `none` when the command
names a list that does not exist, has undefined behaviour or does not
return. -/
def Lists.step (tr : AllocTraits A) (w : Lists T A) : Cmd T A → Option (Lists T A)
  | .ctor alloc => w.commit (.ok (ctor_alloc w.heap alloc)) none
  | .ctor_count count alloc v => w.commit (ctor_count w.heap count alloc (fun _ => some v)) none
  | .ctor_count_obj count obj alloc =>
    w.commit (ctor_count_obj w.heap count alloc (fun _ => some obj)) none
  | .ctor_copy j =>
    match w.lists[j]? with
    | none => none
    | some src => w.commit (ctor_copy tr w.heap src (fun _ v => some v) src.size_) none
  | .op i o =>
    match w.lists[i]? with
    | none => none
    | some l => w.commit (l.apply w.heap o) (some i)
  | .assign i j =>
    match w.lists[i]?, w.lists[j]? with
    | some a, some b => w.commit (assign tr a w.heap b (fun _ v => some v) b.size_) (some i)
    | _, _ => none

/-- A program run from a state, one command after the other. -/
def Lists.run (tr : AllocTraits A) (w : Lists T A) : List (Cmd T A) → Option (Lists T A)
  | [] => some w
  | c :: rest => (w.step tr c).bind fun w1 => w1.run tr rest

/-- The state `operator=` leaves its destination in when the destination was
empty and the source was not: `size_` is not 0, `head_.next` is `&head_`, and
`head_.prev` is the sentinel of the assignment's temporary, which is gone. -/
structure Broken (h : Heap T) (l : LinkedList A) : Prop where
  size : l.size_ ≠ 0
  head : h.cell l.head_ = .sentinel
  next : h.next l.head_ = l.head_
  prev : h.cell (h.prev l.head_) = .free
  prev_below : h.prev l.head_ < h.brk
  below : l.head_ < h.brk

/-- The list object `l` is in one of its two reachable states, and `R` are
the addresses it owns: a ring `head_ → nodes → head_`, or the lone `head_` of
a list in the state `Broken`. -/
def Owns (h : Heap T) (l : LinkedList A) (R : List Nat) : Prop :=
  (∃ xs, Repr h l xs ∧ R = l.head_ :: xs.map Prod.fst) ∨ (Broken h l ∧ R = [l.head_])

/-- The invariant of a program state: the frontier is an address, every list
is in one of its two reachable states, and no two lists own a common
address. -/
structure Sound (w : Lists T A) : Prop where
  brk : w.heap.brk < SIZE_MOD
  owns : ∃ ring : Nat → List Nat,
    (∀ i l, w.lists[i]? = some l → Owns w.heap l (ring i)) ∧
    (∀ i j, i < w.lists.length → j < w.lists.length → i ≠ j → ∀ c, c ∈ ring i → c ∉ ring j)

/-- The member `next` of every `BaseNode` after the first step of `swap`,
`std::swap(head_, other.head_)`, on the objects at `A` and `O`. -/
def swap_next1 (h : Heap T) (A O y : Nat) : Nat :=
  if y = O then h.next A else if y = A then h.next O else h.next y

/-- The member `prev` of every `BaseNode` after the first step of `swap`. -/
def swap_prev1 (h : Heap T) (A O y : Nat) : Nat :=
  if y = O then h.prev A else if y = A then h.prev O else h.prev y

/-- The member `prev` of every `BaseNode` after the second step of `swap`,
`std::swap(head_.next->prev, other.head_.next->prev)`. -/
def swap_prev2 (h : Heap T) (A O y : Nat) : Nat :=
  if y = swap_next1 h A O O then swap_prev1 h A O (swap_next1 h A O A)
  else if y = swap_next1 h A O A then swap_prev1 h A O (swap_next1 h A O O)
  else swap_prev1 h A O y

/-- The member `next` of every `BaseNode` after the third step of `swap`,
`std::swap(head_.prev->next, other.head_.prev->next)`. -/
def swap_next3 (h : Heap T) (A O y : Nat) : Nat :=
  if y = swap_prev2 h A O O then swap_next1 h A O (swap_prev2 h A O A)
  else if y = swap_prev2 h A O A then swap_next1 h A O (swap_prev2 h A O O)
  else swap_next1 h A O y

/-- The program of the C31 witness: `a`, `b`, `c`; `b.push_back(1)`;
`a = b` (`a` empty); `c = a`; and a copy of `a`. -/
def selfLinkProgram : List (Cmd Nat Unit) :=
  [.ctor (), .ctor (), .ctor (), .op 1 (.push_back 1), .assign 0 1, .assign 2 0, .ctor_copy 0]

/-- The lists after `selfLinkProgram` (allocators of the unit type). -/
def selfLinkWorld : Lists Nat Unit :=
  ((Lists.init Nat Unit).run ⟨id, true⟩ selfLinkProgram).getD (Lists.init Nat Unit)

/-- Whether `head_.next == &head_ && head_.prev == &head_`, and whether
`size() == 0 && begin() == end()`. -/
def headAndEmpty (h : Heap T) (l : LinkedList A) : Bool × Bool :=
  (h.next l.head_ == l.head_ && h.prev l.head_ == l.head_,
    l.size == 0 && l.begin h == l.end_)

end LinkedList

/-! ## Stack arena (`stack_allocator.h`) -/

namespace StackArena

/-- The class `StackStorage<N>`: the capacity `N` of `stack_array_` and the
cursor `shift_`. -/
structure StackStorage where
  N : Nat
  shift_ : Nat
  deriving DecidableEq, Repr

/-- `StackStorage()`: `shift_{0}`. -/
def StackStorage.ctor (N : Nat) : StackStorage := { N := N, shift_ := 0 }

/-- `StackStorage::allocate(count, alignment)`: the offset of the returned
pointer from `stack_array_`, and the storage after the call.  `none` when
the behaviour is undefined: `alignment` is 0 (`shift_ % alignment`), or the
pointer `stack_array_ + shift_` or `stack_array_ + shift_ - count` leaves the
array. -/
def StackStorage.allocate (s : StackStorage) (count alignment : Nat) :
    Option (Nat × StackStorage) :=
  if alignment = 0 then none
  else
    -- shift_ += count;
    let s1 := uadd s.shift_ count
    -- shift_ += (alignment - shift_ % alignment) % alignment;
    let s2 := uadd s1 (usub alignment (s1 % alignment) % alignment)
    -- return stack_array_ + shift_ - count;
    if s2 ≤ s.N ∧ count ≤ s2 then some (s2 - count, { s with shift_ := s2 }) else none

/-- The class `StackAllocator<T, N>`: `sizeof(T)` and `alignof(T)` of its
value type, and the member `p_stack_storage_` (the storage it points to,
named by a number). -/
structure StackAllocator where
  sizeof_T : Nat
  alignof_T : Nat
  p_stack_storage_ : Nat
  deriving DecidableEq, Repr

/-- `StackAllocator(StackStorage<N>& stack_storage)` for a value type with the
given size and alignment. -/
def StackAllocator.ctor (sizeof_T alignof_T : Nat) (stack_storage : Nat) : StackAllocator :=
  { sizeof_T := sizeof_T, alignof_T := alignof_T, p_stack_storage_ := stack_storage }

/-- `StackAllocator(const StackAllocator<U, N>& stack_allocator)`: the
conversion to another value type, which is what `rebind` yields. -/
def StackAllocator.convert (sizeof_T alignof_T : Nat) (stack_allocator : StackAllocator) :
    StackAllocator :=
  { sizeof_T := sizeof_T, alignof_T := alignof_T,
    p_stack_storage_ := stack_allocator.p_stack_storage_ }

/-- The storages of a program, by number. -/
abbrev Memory := Nat → StackStorage

/-- `StackAllocator::allocate(count)`:
`p_stack_storage_->allocate(count * sizeof(T), alignof(T))`. -/
def StackAllocator.allocate (a : StackAllocator) (mem : Memory) (count : Nat) :
    Option (Nat × Memory) :=
  ((mem a.p_stack_storage_).allocate (umul count a.sizeof_T) a.alignof_T).map
    fun r => (r.1, fun p => if p = a.p_stack_storage_ then r.2 else mem p)

/-- `StackAllocator::deallocate(ptr, count)`: nothing happens. -/
def StackAllocator.deallocate (_a : StackAllocator) (mem : Memory) (_ptr _count : Nat) : Memory :=
  mem

/-- What one `allocate` call handed out: the storage, the offset of the
returned pointer, and the number of bytes asked for. -/
structure Grant where
  storage : Nat
  offset : Nat
  bytes : Nat
  deriving DecidableEq, Repr

/-- A sequence of `allocate(count)` calls, each issued through its own
allocator, in order: the grants made, and the storages afterwards. -/
def allocateAll (mem : Memory) : List (StackAllocator × Nat) → Option (List Grant × Memory)
  | [] => some ([], mem)
  | (a, count) :: calls =>
    (a.allocate mem count).bind fun r =>
    (allocateAll r.2 calls).map fun rest =>
      ({ storage := a.p_stack_storage_, offset := r.1, bytes := umul count a.sizeof_T } :: rest.1,
        rest.2)

/-- The calls of `TestAlignment`: a `char` allocator on storage 0, an `int`
and a `long double` allocator converted from it; `allocate(3)` chars,
`allocate(1)` int, `allocate(555)` chars, `allocate(25)` long doubles. -/
def alignmentCalls : List (StackAllocator × Nat) :=
  [(StackAllocator.ctor 1 1 0, 3),
   (StackAllocator.convert 4 4 (StackAllocator.ctor 1 1 0), 1),
   (StackAllocator.ctor 1 1 0, 555),
   (StackAllocator.convert 16 16 (StackAllocator.ctor 1 1 0), 25)]

/-- One call of a program on the allocators: `allocate(count)` or
`deallocate(ptr, count)` through the allocator `a` (`ptr` is an offset into
the storage of `a`). -/
inductive Call
  | allocate (a : StackAllocator) (count : Nat)
  | deallocate (a : StackAllocator) (ptr count : Nat)
  deriving DecidableEq, Repr

/-- A sequence of `allocate` and `deallocate` calls, in order: the grants
made by the `allocate` calls, and the storages afterwards. -/
def runCalls (mem : Memory) : List Call → Option (List Grant × Memory)
  | [] => some ([], mem)
  | .allocate a count :: calls =>
    (a.allocate mem count).bind fun r =>
    (runCalls r.2 calls).map fun rest =>
      ({ storage := a.p_stack_storage_, offset := r.1, bytes := umul count a.sizeof_T } :: rest.1,
        rest.2)
  | .deallocate a ptr count :: calls => runCalls (a.deallocate mem ptr count) calls

/-- The `allocate` calls of a sequence, the `deallocate` calls left out. -/
def allocationsOf : List Call → List (StackAllocator × Nat)
  | [] => []
  | .allocate a count :: calls => (a, count) :: allocationsOf calls
  | .deallocate _ _ _ :: calls => allocationsOf calls

/-- The calls of `TestAlignment` with its `deallocate` calls: the pointers
passed back are the offsets 0, 4, 8 and 576 that the `allocate` calls
returned. -/
def alignmentProgram : List Call :=
  [.allocate (StackAllocator.ctor 1 1 0) 3,
   .allocate (StackAllocator.convert 4 4 (StackAllocator.ctor 1 1 0)) 1,
   .deallocate (StackAllocator.ctor 1 1 0) 0 3,
   .allocate (StackAllocator.ctor 1 1 0) 555,
   .deallocate (StackAllocator.convert 4 4 (StackAllocator.ctor 1 1 0)) 4 1,
   .allocate (StackAllocator.convert 16 16 (StackAllocator.ctor 1 1 0)) 25,
   .deallocate (StackAllocator.ctor 1 1 0) 8 555,
   .deallocate (StackAllocator.convert 16 16 (StackAllocator.ctor 1 1 0)) 576 25]

end StackArena


/-! ## Static primality check of the residue field (`matrix.h`) -/

namespace ResidueField

/-- The member `value` of the class template
`isPrimeHelper<N, Divisor, signal>`.  The partial specialization for
`signal == true` and the two full specializations `<1, 2, false>` and
`<2, 2, false>` give their constants; the primary template names
`isPrimeHelper<N, Divisor + 1, Divisor * Divisor >= N>::value`, which
instantiates that class whatever `N % Divisor` is, with `Divisor + 1` and
`Divisor * Divisor` computed in `size_t`.  `fuel` bounds the depth of nested
instantiations of the primary template; the result is `none` when the depth
is exhausted or when `N % 0` is formed. -/
def isPrimeHelper (N : Nat) : Nat → Nat → Bool → Option Bool
  | _, _, true => some true
  | 0, Divisor, false =>
    if N = 1 ∧ Divisor = 2 then some false
    else if N = 2 ∧ Divisor = 2 then some true
    else none
  | fuel + 1, Divisor, false =>
    if N = 1 ∧ Divisor = 2 then some false
    else if N = 2 ∧ Divisor = 2 then some true
    else if Divisor = 0 then none
    else
      (isPrimeHelper N fuel (uadd Divisor 1) (decide (N ≤ umul Divisor Divisor))).map
        fun v => (N % Divisor != 0) && v

/-- The variable template `isPrime<N>`: `isPrimeHelper<N, 2, false>::value`. -/
def isPrime (N fuel : Nat) : Option Bool := isPrimeHelper N fuel 2 false

/-- The `static_assert(isPrime<N>, ...)` of `Residue<N>::operator/=`: the
division compiles when `isPrime<N>` has the value `true`. -/
def Residue.divisionAccepted (N fuel : Nat) : Bool := isPrime N fuel == some true

/-- A number whose square is `2 ^ 64 - 7` in `size_t`. -/
def wrapRoot : Nat := 1852311383259529397

end ResidueField

/-! ## Arbitrary-precision integer (`biginteger.cpp`) -/

namespace BigInt

/-- The enumeration `BigInteger::sign_type`. -/
inductive sign_type
  | POSITIVE
  | ZERO
  | NEGATIVE
  deriving DecidableEq, Repr

/-- The class `BigInteger`: the members `type_` and `digits_` (limbs in base
`BASE_`, least significant first). -/
structure BigInteger where
  type_ : sign_type
  digits_ : List Int
  deriving DecidableEq, Repr

/-- The constant `BASE_`. -/
def BASE_ : Int := 1000000000

/-- The constant `BASE_LENGTH_`. -/
def BASE_LENGTH_ : Nat := 9

/-- A value computed in `long long`: `none` when it leaves the range of the
type (signed overflow). -/
def ll (x : Int) : Option Int :=
  if -9223372036854775808 ≤ x ∧ x ≤ 9223372036854775807 then some x else none

/-- `BigInteger::toNumber(sign)`. -/
def toNumber : sign_type → Int
  | .POSITIVE => 1
  | .ZERO => 0
  | .NEGATIVE => -1

/-- `BigInteger::toSign(number)`. -/
def toSign (number : Int) : sign_type :=
  if number > 0 then .POSITIVE else if number = 0 then .ZERO else .NEGATIVE

/-- `BigInteger::sign()`. -/
def BigInteger.sign (x : BigInteger) : sign_type := x.type_

/-- `BigInteger::changeSign()`. -/
def BigInteger.changeSign (x : BigInteger) : BigInteger :=
  { x with type_ := toSign (-1 * toNumber x.sign) }

/-- `BigInteger::BigInteger() = default`: `type_ = ZERO` and an empty
`digits_`. -/
def BigInteger.ctor : BigInteger := { type_ := .ZERO, digits_ := [] }

/-- The library function `std::to_string(long long)`: the decimal digits of
the value, after a minus sign when it is negative. -/
def to_string (n : Int) : List Char :=
  if n < 0 then '-' :: Nat.toDigits 10 n.natAbs else Nat.toDigits 10 n.natAbs

/-- The value of a decimal digit character. -/
def digitValue (c : Char) : Option Nat :=
  if 48 ≤ c.toNat ∧ c.toNat ≤ 57 then some (c.toNat - 48) else none

/-- The value of a string of decimal digits, read after the value `acc`. -/
def stollDigits : List Char → Nat → Option Nat
  | [], acc => some acc
  | c :: cs, acc => (digitValue c).bind fun d => stollDigits cs (acc * 10 + d)

/-- The library function `std::stoll(s)` on a non-empty string of decimal
digits whose value fits into `long long`; `none` for every other string
(where the function may throw, or reads a sign or white space). -/
def stoll (s : List Char) : Option Int :=
  if s = [] then none else (stollDigits s 0).bind fun n => ll n

/-- The library function `s.substr(pos, len)`, for `pos <= s.size()`. -/
def substr (s : List Char) (pos len : Nat) : List Char := (s.drop pos).take len

/-- The loop `for (i = s.size(); i >= BASE_LENGTH_ + shift; i -= BASE_LENGTH_)`
of the string constructor, from the index `i` on; the result is `i` at the
exit and the limbs pushed.  The loop ends within `s.size()` rounds. -/
def fromString_loop (s : List Char) (shift : Nat) : Nat → Nat → List Int →
    Option (Nat × List Int)
  | 0, i, digits_ => if i ≥ BASE_LENGTH_ + shift then none else some (i, digits_)
  | fuel + 1, i, digits_ =>
    if i ≥ BASE_LENGTH_ + shift then
      (stoll (substr s (i - BASE_LENGTH_) BASE_LENGTH_)).bind fun d =>
        fromString_loop s shift fuel (i - BASE_LENGTH_) (digits_ ++ [d])
    else some (i, digits_)

/-- `BigInteger::BigInteger(const std::string& s)`. -/
def BigInteger.fromString (s : List Char) : Option BigInteger :=
  let type_ : sign_type :=
    if s = [] ∨ s = ['0'] ∨ s = ['-', '0'] then .ZERO
    else if s.head? = some '-' then .NEGATIVE else .POSITIVE
  if type_ = .ZERO then some { type_ := type_, digits_ := [0] }
  else
    let shift := if s.head? = some '-' then 1 else 0
    (fromString_loop s shift s.length s.length []).bind fun r =>
      if r.1 > shift then
        (stoll (substr s shift (r.1 - shift))).map fun temp =>
          { type_ := type_, digits_ := r.2 ++ [temp] }
      else some { type_ := type_, digits_ := r.2 }

/-- `BigInteger::BigInteger(long long n)`: `BigInteger(std::to_string(n))`. -/
def BigInteger.fromLongLong (n : Int) : Option BigInteger :=
  BigInteger.fromString (to_string n)

/-- One limb below the top one, as `toString` prints it: `std::to_string` of
the limb after as many `'0'` as are missing to `BASE_LENGTH_` characters. -/
def padded (d : Int) : List Char :=
  List.replicate (BASE_LENGTH_ - (to_string d).length) '0' ++ to_string d

/-- `BigInteger::toString()`; `none` when `digits_` is empty
(`digits_.back()`). -/
def BigInteger.toString (x : BigInteger) : Option (List Char) :=
  match x.digits_.getLast? with
  | none => none
  | some top =>
    some ((if x.sign = .NEGATIVE then ['-'] else []) ++ to_string top ++
      (x.digits_.dropLast.reverse.map padded).flatten)

/-- The loop `while (digits_.size() > 1 && digits_.back() == 0) pop_back()`,
on the limbs taken most significant first. -/
def stripFront : List Int → List Int
  | x :: y :: rest => if x = 0 then stripFront (y :: rest) else x :: y :: rest
  | l => l

/-- The loop `while (digits_.size() > 1 && digits_.back() == 0) pop_back()`. -/
def stripZeros (digits_ : List Int) : List Int := (stripFront digits_.reverse).reverse

/-- The loop of `unsignedSubtraction` from the index `i` on; `none` when it
reads past the end of `digits_`, which is the only way for it to run more
than `digits_.size()` rounds. -/
def unsignedSubtraction_loop (b : List Int) : Nat → Nat → Int → List Int → Option (List Int)
  | 0, i, carry, digits_ => if i < b.length ∨ carry ≠ 0 then none else some digits_
  | fuel + 1, i, carry, digits_ =>
    if i < b.length ∨ carry ≠ 0 then
      (digits_[i]?).bind fun di =>
      (ll (di - (carry + (if i < b.length then b.getD i 0 else 0)))).bind fun v =>
        if v < 0 then
          (ll (v + BASE_)).bind fun w =>
            unsignedSubtraction_loop b fuel (i + 1) 1 (digits_.set i w)
        else unsignedSubtraction_loop b fuel (i + 1) 0 (digits_.set i v)
    else some digits_

/-- `BigInteger::unsignedSubtraction(b)`. -/
def BigInteger.unsignedSubtraction (self b : BigInteger) : Option BigInteger :=
  (unsignedSubtraction_loop b.digits_ (self.digits_.length + 1) 0 0 self.digits_).map fun d =>
    let d1 := stripZeros d
    { type_ := if d1 = [0] then .ZERO else self.type_, digits_ := d1 }

/-- The loop of `unsignedSum` from the index `i` on.  A round past both
lengths stores the carry 1 in a fresh limb and clears the carry, so the loop
ends within `max(digits_.size(), b.digits_.size()) + 1` rounds. -/
def unsignedSum_loop (b : List Int) : Nat → Nat → Int → List Int → Option (List Int)
  | 0, i, carry, digits_ =>
    if i < max digits_.length b.length ∨ carry ≠ 0 then none else some digits_
  | fuel + 1, i, carry, digits_ =>
    if i < max digits_.length b.length ∨ carry ≠ 0 then
      let d1 := if i = digits_.length then digits_ ++ [0] else digits_
      (d1[i]?).bind fun di =>
      (ll (di + (carry + (if i < b.length then b.getD i 0 else 0)))).bind fun v =>
        if v ≥ BASE_ then
          (ll (v - BASE_)).bind fun w => unsignedSum_loop b fuel (i + 1) 1 (d1.set i w)
        else unsignedSum_loop b fuel (i + 1) 0 (d1.set i v)
    else some digits_

/-- `BigInteger::unsignedSum(b)`. -/
def BigInteger.unsignedSum (self b : BigInteger) : Option BigInteger :=
  (unsignedSum_loop b.digits_ (max self.digits_.length b.digits_.length + 2) 0 0
    self.digits_).map fun d => { self with digits_ := d }

/-- The loop of `unsignedOrder` on two vectors of one length, from the index
`i` down. -/
def unsignedOrder_loop (a b : List Int) : Nat → Bool
  | 0 => false
  | i + 1 =>
    if a.getD i 0 ≠ b.getD i 0 then decide (a.getD i 0 < b.getD i 0)
    else unsignedOrder_loop a b i

/-- `BigInteger::unsignedOrder(b)`. -/
def BigInteger.unsignedOrder (self b : BigInteger) : Bool :=
  if self.digits_.length ≠ b.digits_.length then
    decide (self.digits_.length < b.digits_.length)
  else unsignedOrder_loop self.digits_ b.digits_ self.digits_.length

/-- `BigInteger::operator-()`. -/
def BigInteger.op_neg (self : BigInteger) : BigInteger := self.changeSign

/-- `BigInteger::operation(b, type)`, which `operator+=` calls with
`type == false` and `operator-=` with `type == true`.  The branch
`*this = type ? (-b + *this) : (b + *this)` re-enters `operation` through
`operator+`, with the operands exchanged; as `unsignedOrder` is a strict
order, the nested call does not take that branch again, and the depth `fuel`
is 2 at most. -/
def operation : Nat → BigInteger → BigInteger → Bool → Option BigInteger
  | 0, _, _, _ => none
  | fuel + 1, self, b, type =>
    if b.sign = .ZERO then some self
    else if self.sign = .ZERO then some (if type then b.op_neg else b)
    else if xor (decide (self.sign = b.sign)) type then self.unsignedSum b
    else if self.unsignedOrder b then
      operation fuel (if type then b.op_neg else b) self false
    else self.unsignedSubtraction b

/-- `BigInteger::operator+=(b)`. -/
def BigInteger.op_add_assign (self b : BigInteger) : Option BigInteger :=
  operation 2 self b false

/-- `BigInteger::operator-=(b)`. -/
def BigInteger.op_sub_assign (self b : BigInteger) : Option BigInteger :=
  operation 2 self b true

/-- The inner loop of `operator*=` for the limb `digits_[i]`, from the index
`j` on; `none` when it reads past the end of `c.digits_`, which is the only
way for it to run more than `c.digits_.size()` rounds, or when `cur` leaves
`long long`; `cd` is `c.digits_`. -/
def mul_inner (ai : Int) (b : List Int) (i : Nat) : Nat → Nat → Int → List Int →
    Option (List Int)
  | 0, j, carry, cd => if j < b.length ∨ carry ≠ 0 then none else some cd
  | fuel + 1, j, carry, cd =>
    if j < b.length ∨ carry ≠ 0 then
      (cd[i + j]?).bind fun cij =>
      (ll (cij + ai * (if j < b.length then b.getD j 0 else 0) + carry)).bind fun cur =>
        mul_inner ai b i fuel (j + 1) (cur.tdiv BASE_) (cd.set (i + j) (cur.tmod BASE_))
    else some cd

/-- The outer loop of `operator*=`, from the index `i` on, with `k` rounds to
go. -/
def mul_outer (a b : List Int) : Nat → Nat → List Int → Option (List Int)
  | 0, _, cd => some cd
  | k + 1, i, cd =>
    (mul_inner (a.getD i 0) b i cd.length 0 0 cd).bind (mul_outer a b k (i + 1))

/-- `BigInteger::operator*=(b)`. -/
def BigInteger.op_mul_assign (self b : BigInteger) : Option BigInteger :=
  let type_ : sign_type :=
    if self.sign = .ZERO ∨ b.sign = .ZERO then .ZERO
    else if self.sign ≠ b.sign then .NEGATIVE else .POSITIVE
  (mul_outer self.digits_ b.digits_ self.digits_.length 0
    (List.replicate (self.digits_.length + b.digits_.length) 0)).map fun cd =>
    { type_ := type_, digits_ := stripZeros cd }

/-- `operator<(b1, b2)`. -/
def op_lt (b1 b2 : BigInteger) : Bool :=
  if b1.sign ≠ b2.sign then decide (toNumber b1.sign < toNumber b2.sign)
  else if b1.sign = .NEGATIVE then b2.unsignedOrder b1 else b1.unsignedOrder b2

/-- `operator>(b1, b2)`. -/
def op_gt (b1 b2 : BigInteger) : Bool := op_lt b2 b1

/-- `operator==(b1, b2)`. -/
def op_eq (b1 b2 : BigInteger) : Bool :=
  if b1.sign ≠ b2.sign then false
  else if b1.digits_.length ≠ b2.digits_.length then false
  else decide (b1.digits_ = b2.digits_)

/-- `operator+(a, b)`. -/
def op_add (a b : BigInteger) : Option BigInteger := a.op_add_assign b

/-- `operator-(a, b)`. -/
def op_sub (a b : BigInteger) : Option BigInteger := a.op_sub_assign b

/-- `operator*(a, b)`. -/
def op_mul (a b : BigInteger) : Option BigInteger := a.op_mul_assign b

/-- The bisection of `divMod` between `l` and `r`; the interval starts with
the width `BASE_ < 2 ^ 30` and is halved in every round, so the loop ends
within 31 rounds. -/
def divMod_bisect (copy temp : BigInteger) : Nat → Int → Int → Option Int
  | 0, l, r => if l + 1 < r then none else some l
  | fuel + 1, l, r =>
    if l + 1 < r then
      let m := (r + l) >>> 1
      (BigInteger.fromLongLong m).bind fun mb =>
      (op_mul copy mb).bind fun p =>
        if op_gt p temp then divMod_bisect copy temp fuel l m
        else divMod_bisect copy temp fuel m r
    else some l

/-- The loop of `divMod` over the limbs of `*this`, most significant first:
`temp` and `c.digits_` after the limbs given. -/
def divMod_loop (copy : BigInteger) : List Int → BigInteger → List Int →
    Option (BigInteger × List Int)
  | [], temp, c => some (temp, c)
  | d :: rest, temp, c =>
    -- temp = temp * BASE_ + digits_[i - 1];
    (BigInteger.fromLongLong BASE_).bind fun base =>
    (op_mul temp base).bind fun t1 =>
    (BigInteger.fromLongLong d).bind fun db =>
    (op_add t1 db).bind fun temp1 =>
    (divMod_bisect copy temp1 31 0 BASE_).bind fun l =>
    -- temp = temp - l * copy;
    (BigInteger.fromLongLong l).bind fun lb =>
    (op_mul lb copy).bind fun p =>
    (op_sub temp1 p).bind fun temp2 =>
      divMod_loop copy rest temp2 (c ++ [l])

/-- `BigInteger::divMod(b, divmod)`. -/
def BigInteger.divMod (self b : BigInteger) (divmod : Bool) : Option BigInteger :=
  let copy := if b.sign = .NEGATIVE then b.op_neg else b
  (divMod_loop copy self.digits_.reverse BigInteger.ctor []).map fun r =>
    let digits_ := stripZeros (if divmod then r.2.reverse else r.1.digits_)
    let type_ : sign_type :=
      if self.sign = .ZERO ∨ (digits_.length = 1 ∧ digits_.getLast? = some 0) then .ZERO
      else if self.sign ≠ b.sign then .NEGATIVE else .POSITIVE
    { type_ := type_, digits_ := digits_ }

/-- `operator/(a, b)`. -/
def op_div (a b : BigInteger) : Option BigInteger := a.divMod b true

/-- `operator%(a, b)`. -/
def op_mod (a b : BigInteger) : Option BigInteger := a.divMod b false

/-- The number a string of decimal digits denotes. -/
def decval (cs : List Char) : Nat := cs.foldl (fun a c => a * 10 + (c.toNat - 48)) 0

/-- Every character of the string is a decimal digit. -/
def AllDigits (cs : List Char) : Prop := ∀ c, c ∈ cs → 48 ≤ c.toNat ∧ c.toNat ≤ 57

/-- The last `k` decimal digits of `n`, most significant first. -/
def fixedDigits : Nat → Nat → List Char
  | 0, _ => []
  | k + 1, n => fixedDigits k (n / 10) ++ [Nat.digitChar (n % 10)]

/-- The number a vector of limbs denotes, least significant limb first. -/
def val : List Int → Int
  | [] => 0
  | d :: ds => d + BASE_ * val ds

/-- Every limb lies in `[0, BASE_)`. -/
def Limbs (l : List Int) : Prop := ∀ d, d ∈ l → 0 ≤ d ∧ d < BASE_

/-- The representation the member functions keep: limbs in `[0, BASE_)`, at
least one limb, no zero limb at the top unless the number is the single limb
0, and `type_ == ZERO` exactly for that number. -/
def Normal (x : BigInteger) : Prop :=
  Limbs x.digits_ ∧ x.digits_ ≠ [] ∧
  (x.digits_.getLast? ≠ some 0 ∨ x.digits_ = [0]) ∧
  (x.type_ = .ZERO ↔ x.digits_ = [0])

/-- The integer a `BigInteger` denotes. -/
def BigInteger.value (x : BigInteger) : Int := toNumber x.type_ * val x.digits_

/-- The canonical decimal representation of an integer: its decimal digits
without leading zeros (`0` for zero), after a minus sign when it is
negative. -/
def canonical (z : Int) : List Char :=
  if z < 0 then '-' :: Nat.toDigits 10 z.natAbs else Nat.toDigits 10 z.natAbs

/-- The identity `(a / b) * b + (a % b) == a` as the program evaluates it on
two decimal strings, together with the strings of `a / b` and `a % b`. -/
def divisionIdentity (sa sb : List Char) : Option (Bool × List Char × List Char) :=
  (BigInteger.fromString sa).bind fun a =>
  (BigInteger.fromString sb).bind fun b =>
  (op_div a b).bind fun q =>
  (op_mod a b).bind fun r =>
  (op_mul q b).bind fun p =>
  (op_add p r).bind fun s =>
  q.toString.bind fun qs =>
  r.toString.map fun rs => (op_eq s a, qs, rs)

/-- The string of `BigInteger(sa) * BigInteger(sb)`. -/
def productString (sa sb : List Char) : Option (List Char) :=
  (BigInteger.fromString sa).bind fun a =>
  (BigInteger.fromString sb).bind fun b =>
  (op_mul a b).bind fun c => c.toString

end BigInt
/-! ## Character string (`string.h`, `string.cpp`) -/

namespace StringClass

/-- The class `String`: the members `size_` and `capacity_`, and the array
`buffer_` points to (`new char[capacity_ + 1]`). -/
structure String where
  size_ : Nat
  capacity_ : Nat
  buffer_ : List Char

/-- The terminator that `add_zero()` writes. -/
def NUL : Char := Char.ofNat 0

/-- `String::String(const char* s)`; `s` is given by its characters before
the terminator: `size_(strlen(s))`, `capacity_(size_)`, a buffer of
`capacity_ + 1` characters, `memcpy`, `add_zero()`. -/
def String.ctor (s : List Char) : String :=
  { size_ := s.length, capacity_ := s.length, buffer_ := s ++ [NUL] }

/-- `String::size()`. -/
def String.size (t : String) : Nat := t.size_

/-- `String::length()`. -/
def String.length (t : String) : Nat := t.size_

/-- The inner loop of `rfind`:
`for (size_t j = s.size_; j > 0; --j) if (buffer_[j + i - 1] != s.buffer_[j - 1]) flag = false;`
from the value `j` of the loop variable on; `none` when a read leaves an
array. -/
def rfind_inner (t s : String) (i : Nat) : Nat → Bool → Option Bool
  | 0, flag => some flag
  | j + 1, flag =>
    match t.buffer_[usub (uadd (j + 1) i) 1]?, s.buffer_[usub (j + 1) 1]? with
    | some x, some y => rfind_inner t s i j (if x ≠ y then false else flag)
    | _, _ => none

/-- The outer loop of `rfind`:
`for (size_t i = size_ - s.size_ + 1; i > 0; --i) { ... if (flag) return i; }`
from the value `i` of the loop variable on, then `return size_;`. -/
def rfind_outer (t s : String) : Nat → Option Nat
  | 0 => some t.size_
  | i + 1 =>
    match rfind_inner t s (i + 1) s.size_ true with
    | none => none
    | some true => some (i + 1)
    | some false => rfind_outer t s i

/-- `String::rfind(s)`. -/
def String.rfind (t s : String) : Option Nat :=
  if t.size_ < s.size_ then some t.size_
  else rfind_outer t s (uadd (usub t.size_ s.size_) 1)

/-- `strstr(hay, needle)` of the C library on two terminated arrays: the
least offset at which the characters of `needle` before its terminator occur
in `hay` before its terminator. -/
def strstr (hay needle : List Char) : Option Nat :=
  let hs := hay.takeWhile (fun x => x != NUL)
  let n := needle.takeWhile (fun x => x != NUL)
  (List.range (hs.length + 1)).find? (fun i => (hs.drop i).take n.length == n)

/-- `String::find(s)`. -/
def String.find (t s : String) : Nat :=
  match strstr t.buffer_ s.buffer_ with
  | some k => k
  | none => t.length

/-- The condition of the `rfind` claim on an index `i`:
`i + s.size() <= t.size()` and the `s.size()` characters of `t` starting at
`i` equal `s`. -/
def occursAt (t s : String) (i : Nat) : Bool :=
  decide (i + s.size ≤ t.size) && ((t.buffer_.drop i).take s.size == s.buffer_.take s.size)

end StringClass

/-! ## Residue field (`matrix.h`) -/

namespace ResidueField

/-- Whether a mathematical value is a value of `long long`. -/
def fitsLL (z : Int) : Bool :=
  decide (-9223372036854775808 ≤ z ∧ z ≤ 9223372036854775807)

/-- The class `Residue<N>`: its member `value_`, a `long long`. -/
structure Residue (N : Nat) where
  value_ : Int
  deriving DecidableEq, Repr

variable {N : Nat}

/-- `Residue<N>::Residue(int n)`: `value_(n % static_cast<long long>(N))`,
then `value_ += (value_ < 0 ? N : 0)`, the sum being computed in `size_t` and
converted back to `long long`; `none` when the remainder is taken by zero. -/
def Residue.ctor (N : Nat) (n : Int) : Option (Residue N) :=
  if toPtrdiff N = 0 then none
  else
    some ⟨toPtrdiff (uadd (ofPtrdiff (Int.tmod n (toPtrdiff N)))
      (if Int.tmod n (toPtrdiff N) < 0 then N else 0))⟩

/-- `Residue<N>::operator+=(n)`: `value_ = (value_ + n.value_) % N`, the sum
in `long long` (`none` when it overflows), the remainder in `size_t`. -/
def Residue.op_add_assign (self n : Residue N) : Option (Residue N) :=
  if fitsLL (self.value_ + n.value_) = true ∧ N ≠ 0 then
    some ⟨toPtrdiff (ofPtrdiff (self.value_ + n.value_) % N)⟩
  else none

/-- `Residue<N>::operator-=(n)`: `value_ = (value_ + N - n.value_) % N`,
computed in `size_t`. -/
def Residue.op_sub_assign (self n : Residue N) : Option (Residue N) :=
  if N ≠ 0 then
    some ⟨toPtrdiff (usub (uadd (ofPtrdiff self.value_) N) (ofPtrdiff n.value_) % N)⟩
  else none

/-- `Residue<N>::operator*=(n)`: `value_ = (value_ * n.value_) % N`, the
product in `long long` (`none` when it overflows), the remainder in
`size_t`. -/
def Residue.op_mul_assign (self n : Residue N) : Option (Residue N) :=
  if fitsLL (self.value_ * n.value_) = true ∧ N ≠ 0 then
    some ⟨toPtrdiff (ofPtrdiff (self.value_ * n.value_) % N)⟩
  else none

/-- The loop of `Residue<N>::operator/=`:
`while (exponent != 0) { if ((exponent & 1) != 0) *this *= base; exponent >>= 1; base *= base; }`;
`fuel` bounds the number of iterations. -/
def Residue.div_loop : Nat → Residue N → Residue N → Int → Option (Residue N)
  | 0, self, _, exponent => if exponent = 0 then some self else none
  | fuel + 1, self, base, exponent =>
    if exponent = 0 then some self
    else
      (if exponent % 2 ≠ 0 then self.op_mul_assign base else some self).bind fun self1 =>
      (base.op_mul_assign base).bind fun base1 =>
      Residue.div_loop fuel self1 base1 (exponent / 2)

/-- `Residue<N>::operator/=(n)`: `Residue<N> base(n);`
`ssize_t exponent = N - 2;` and the loop. -/
def Residue.op_div_assign (self n : Residue N) (fuel : Nat) : Option (Residue N) :=
  Residue.div_loop fuel self n (toPtrdiff (usub N 2))

/-- `operator*(a, b)`: a copy of `a`, then `copy *= b`. -/
def Residue.op_mul (a b : Residue N) : Option (Residue N) := a.op_mul_assign b

/-- `operator/(a, b)`: a copy of `a`, then `copy /= b`. -/
def Residue.op_div (a b : Residue N) (fuel : Nat) : Option (Residue N) :=
  a.op_div_assign b fuel

/-- `operator+(a, b)`: a copy of `a`, then `copy += b`. -/
def Residue.op_add (a b : Residue N) : Option (Residue N) := a.op_add_assign b

/-- `operator-(a, b)`: a copy of `a`, then `copy -= b`. -/
def Residue.op_sub (a b : Residue N) : Option (Residue N) := a.op_sub_assign b

/-- `operator==(n1, n2)`: `n1.value_ == n2.value_`. -/
def Residue.op_eq (n1 n2 : Residue N) : Bool := n1.value_ == n2.value_

/-- The stored value is in the range `[0, N)`. -/
def Residue.InRange (r : Residue N) : Prop := 0 ≤ r.value_ ∧ r.value_ < N

end ResidueField


/-! ## Theorems: `size_t` arithmetic -/

theorem uadd_eq {a b : Nat} (h : a + b < SIZE_MOD) : uadd a b = a + b := by
  unfold uadd; exact Nat.mod_eq_of_lt h

theorem usub_eq {a b : Nat} (hb : b ≤ a) (ha : a < SIZE_MOD) : usub a b = a - b := by
  unfold usub SIZE_MOD at *; omega

theorem umul_eq {a b : Nat} (h : a * b < SIZE_MOD) : umul a b = a * b := by
  unfold umul; exact Nat.mod_eq_of_lt h

theorem toPtrdiff_eq {a : Nat} (h : a < SIZE_MOD / 2) : toPtrdiff a = (a : Int) := by
  have h1 : a % SIZE_MOD = a := Nat.mod_eq_of_lt (by unfold SIZE_MOD at *; omega)
  unfold toPtrdiff
  rw [h1, if_pos h]

theorem ofPtrdiff_natCast {a : Nat} (h : a < SIZE_MOD) : ofPtrdiff (a : Int) = a := by
  unfold ofPtrdiff
  have : ((a : Int) % (SIZE_MOD : Int)) = ((a % SIZE_MOD : Nat) : Int) := by
    simp
  rw [this, Nat.mod_eq_of_lt h]
  simp

/-! ## Theorems: positions in a sequence -/

theorem getElem?_insertAt {T : Type} (m : List T) (k : Nat) (v : T) (j : Nat) (hk : k ≤ m.length) :
    (m.take k ++ v :: m.drop k)[j]? =
      if j < k then m[j]? else if j = k then some v else m[j - 1]? := by
  have hlen : (m.take k).length = k := by simp [hk]
  by_cases h1 : j < k
  · rw [if_pos h1, List.getElem?_append_left (by rw [hlen]; exact h1), List.getElem?_take_of_lt h1]
  · rw [if_neg h1, List.getElem?_append_right (by rw [hlen]; omega), hlen]
    by_cases h2 : j = k
    · rw [if_pos h2, h2, Nat.sub_self, List.getElem?_cons_zero]
    · rw [if_neg h2]
      obtain ⟨i, hi⟩ : ∃ i, j - k = i + 1 := ⟨j - k - 1, by omega⟩
      rw [hi, List.getElem?_cons_succ, List.getElem?_drop]
      congr 1
      omega

theorem getElem?_eraseAt {T : Type} (m : List T) (k j : Nat) (hk : k ≤ m.length) :
    (m.take k ++ m.drop (k + 1))[j]? = if j < k then m[j]? else m[j + 1]? := by
  have hlen : (m.take k).length = k := by simp [hk]
  by_cases h1 : j < k
  · rw [if_pos h1, List.getElem?_append_left (by rw [hlen]; exact h1), List.getElem?_take_of_lt h1]
  · rw [if_neg h1, List.getElem?_append_right (by rw [hlen]; omega), hlen, List.getElem?_drop]
    congr 1
    omega

theorem take_concat_getElem? {T : Type} (L : List T) (n : Nat) (x : T) (h1 : L.length = n + 1)
    (h2 : L[n]? = some x) : L.take n ++ [x] = L := by
  have h3 : L.take (n + 1) = L.take n ++ L[n]?.toList := List.take_succ
  rw [h2] at h3
  simp only [Option.toList] at h3
  rw [← h3, List.take_of_length_le (by omega)]


/-! ## Theorems: reference-counted pointer pair -/

namespace SmartPointers

theorem heap_modify_same (h : Heap) (a : Nat) (f : ControlBlock → ControlBlock) :
    h.modify a f a = f (h a) := by
  simp [Heap.modify]

/-- The read of the handle named `i` succeeds exactly on the handles of
`sps`. -/
theorem readOwner_eq (w : World) (i : Nat) : w.readOwner i = w.sps[i]? := by
  unfold World.readOwner World.owner
  cases h : w.sps[i]? with
  | some sp => rfl
  | none =>
    simp only []
    split <;> rfl

theorem heap_modify_other (h : Heap) (a x : Nat) (f : ControlBlock → ControlBlock)
    (hx : x ≠ a) : h.modify a f x = h x := by
  simp [Heap.modify, hx]

theorem useDeleter_shared_count (b : ControlBlock) :
    (useDeleter b).shared_count = b.shared_count := by
  unfold useDeleter; split <;> rfl

theorem useDeleter_weak_count (b : ControlBlock) :
    (useDeleter b).weak_count = b.weak_count := by
  unfold useDeleter; split <;> rfl

theorem useDeleter_object (b : ControlBlock) : (useDeleter b).object = b.object := by
  unfold useDeleter; split <;> rfl

theorem useDeleter_kind (b : ControlBlock) : (useDeleter b).kind = b.kind := by
  unfold useDeleter; split <;> rfl

theorem useDeleter_deleterCalls (b : ControlBlock) :
    (useDeleter b).deleterCalls = b.deleterCalls + 1 := by
  unfold useDeleter; split <;> rfl

theorem useDeleter_deallocCalls (b : ControlBlock) :
    (useDeleter b).deallocCalls = b.deallocCalls := by
  unfold useDeleter; split <;> rfl

/-- `useDeleter()` destroys the managed value once, in both classes. -/
theorem useDeleter_valueDestroyed (b : ControlBlock) :
    (useDeleter b).valueDestroyed = b.valueDestroyed + 1 := by
  unfold ControlBlock.valueDestroyed
  rw [useDeleter_kind, useDeleter_object]
  unfold useDeleter
  cases hk : b.kind with
  | regular => simp
  | makeShared => simp

/-- C3 (evaluation at the failing input): on `doubleDeleteProgram` the block's
`shared_count` is 1, 1, 0, 1, 0 after the five steps, and `useDeleter` has been
invoked once after the third step and twice after the fifth, while
`useDeallocator` has not been invoked at all. -/
theorem C3_deleter_invoked_twice :
    (run World.init (doubleDeleteProgram.take 3)).map
        (fun w => ((w.heap 0).shared_count, (w.heap 0).deleterCalls)) = some (0, 1) ∧
    (run World.init (doubleDeleteProgram.take 4)).map
        (fun w => ((w.heap 0).shared_count, (w.heap 0).deleterCalls)) = some (1, 1) ∧
    (run World.init doubleDeleteProgram).map
        (fun w => ((w.heap 0).shared_count, (w.heap 0).weak_count,
                   (w.heap 0).deleterCalls, (w.heap 0).deallocCalls)) = some (0, 1, 2, 0) := by
  refine ⟨?_, ?_, ?_⟩ <;> rfl

/-- C4: with one owning and one observing handle on block `a` (`shared_count`
and `weak_count` both 1), destroying the owner invokes `useDeleter` once and
does not invoke `useDeallocator`; `lock()` on the observer then returns an
empty owner and changes nothing; destroying the observer then invokes
`useDeallocator` once and `useDeleter` not again. -/
theorem C4_pair_lifecycle (h : Heap) (a : Nat)
    (hs : (h a).shared_count = 1) (hw : (h a).weak_count = 1) :
    ((SharedPtr.dtor h ⟨some a⟩) a).deleterCalls = (h a).deleterCalls + 1 ∧
    ((SharedPtr.dtor h ⟨some a⟩) a).deallocCalls = (h a).deallocCalls ∧
    WeakPtr.lock (SharedPtr.dtor h ⟨some a⟩) ⟨some a⟩ = (SharedPtr.dtor h ⟨some a⟩, ⟨none⟩) ∧
    SharedPtr.get (SharedPtr.dtor h ⟨some a⟩)
      (WeakPtr.lock (SharedPtr.dtor h ⟨some a⟩) ⟨some a⟩).2 = none ∧
    ((WeakPtr.dtor (SharedPtr.dtor h ⟨some a⟩) ⟨some a⟩) a).deallocCalls
      = (h a).deallocCalls + 1 ∧
    ((WeakPtr.dtor (SharedPtr.dtor h ⟨some a⟩) ⟨some a⟩) a).deleterCalls
      = (h a).deleterCalls + 1 := by
  have e1 : usub 1 1 = 0 := by decide
  simp [SharedPtr.dtor, WeakPtr.dtor, WeakPtr.lock, WeakPtr.expired, SharedPtr.get,
    heap_modify_same, useDeleter_shared_count, useDeleter_weak_count, useDeleter_deleterCalls,
    useDeleter_deallocCalls, useDeallocator, hs, hw, e1]

theorem C4_pair_lifecycle_witness :
    ((SharedPtr.dtor pairHeap ⟨some 0⟩) 0).deleterCalls = (pairHeap 0).deleterCalls + 1 ∧
    ((SharedPtr.dtor pairHeap ⟨some 0⟩) 0).deallocCalls = (pairHeap 0).deallocCalls ∧
    WeakPtr.lock (SharedPtr.dtor pairHeap ⟨some 0⟩) ⟨some 0⟩
      = (SharedPtr.dtor pairHeap ⟨some 0⟩, ⟨none⟩) ∧
    SharedPtr.get (SharedPtr.dtor pairHeap ⟨some 0⟩)
      (WeakPtr.lock (SharedPtr.dtor pairHeap ⟨some 0⟩) ⟨some 0⟩).2 = none ∧
    ((WeakPtr.dtor (SharedPtr.dtor pairHeap ⟨some 0⟩) ⟨some 0⟩) 0).deallocCalls
      = (pairHeap 0).deallocCalls + 1 ∧
    ((WeakPtr.dtor (SharedPtr.dtor pairHeap ⟨some 0⟩) ⟨some 0⟩) 0).deleterCalls
      = (pairHeap 0).deleterCalls + 1 :=
  C4_pair_lifecycle pairHeap 0 (by decide) (by decide)

/-- C10: `lock()` on an observer of block `a` with `0 < shared_count` returns
an owner of the same block (same `get()`), raises `shared_count` by exactly 1
and leaves `weak_count`, the rest of the block and every other block as they
were; on an empty observer, or one whose block has `shared_count == 0`, it
returns an empty owner and leaves the heap unchanged. -/
theorem C10_lock (h : Heap) (wp : WeakPtr) :
    (∀ a, wp.cb = some a → 0 < (h a).shared_count → (h a).shared_count + 1 < SIZE_MOD →
      (WeakPtr.lock h wp).2 = ⟨some a⟩ ∧
      SharedPtr.get (WeakPtr.lock h wp).1 (WeakPtr.lock h wp).2 = some (h a).object ∧
      SharedPtr.get (WeakPtr.lock h wp).1 (WeakPtr.lock h wp).2 = SharedPtr.get h ⟨some a⟩ ∧
      ((WeakPtr.lock h wp).1 a).shared_count = (h a).shared_count + 1 ∧
      ((WeakPtr.lock h wp).1 a).weak_count = (h a).weak_count ∧
      ((WeakPtr.lock h wp).1 a).deleterCalls = (h a).deleterCalls ∧
      ((WeakPtr.lock h wp).1 a).deallocCalls = (h a).deallocCalls ∧
      ∀ x, x ≠ a → (WeakPtr.lock h wp).1 x = h x) ∧
    ((wp.cb = none ∨ ∃ a, wp.cb = some a ∧ (h a).shared_count = 0) →
      WeakPtr.lock h wp = (h, ⟨none⟩)) := by
  constructor
  · intro a ha hpos hlt
    have hne : (h a).shared_count ≠ 0 := Nat.pos_iff_ne_zero.mp hpos
    have hadd : uadd (h a).shared_count 1 = (h a).shared_count + 1 := by
      unfold uadd; exact Nat.mod_eq_of_lt hlt
    have hl : WeakPtr.lock h wp =
        (h.modify a (fun b => { b with shared_count := uadd b.shared_count 1 }), ⟨some a⟩) := by
      simp [WeakPtr.lock, WeakPtr.expired, ha, hne, SharedPtr.fromWeak, bumpShared]
    rw [hl]
    refine ⟨rfl, ?_, ?_, ?_, ?_, ?_, ?_, ?_⟩
    · simp [SharedPtr.get, heap_modify_same]
    · simp [SharedPtr.get, heap_modify_same]
    · simp [heap_modify_same, hadd]
    · simp [heap_modify_same]
    · simp [heap_modify_same]
    · simp [heap_modify_same]
    · intro x hx
      dsimp only
      exact heap_modify_other _ _ _ _ hx
  · rintro (hnone | ⟨a, ha, h0⟩)
    · cases wp with
      | mk cb =>
        simp only at hnone
        subst hnone
        simp [WeakPtr.lock, WeakPtr.expired, SharedPtr.fromWeak, bumpShared]
    · simp [WeakPtr.lock, WeakPtr.expired, ha, h0]

/-- C10 at a concrete state: the observer of `pairHeap` (shared_count 1) and the
same observer once the owner is gone. -/
theorem C10_lock_witness :
    ((WeakPtr.lock pairHeap ⟨some 0⟩).2 = ⟨some 0⟩ ∧
      ((WeakPtr.lock pairHeap ⟨some 0⟩).1 0).shared_count = 2) ∧
    WeakPtr.lock (SharedPtr.dtor pairHeap ⟨some 0⟩) ⟨some 0⟩
      = (SharedPtr.dtor pairHeap ⟨some 0⟩, ⟨none⟩) :=
  ⟨⟨((C10_lock pairHeap ⟨some 0⟩).1 0 rfl (by decide) (by decide)).1,
    ((C10_lock pairHeap ⟨some 0⟩).1 0 rfl (by decide) (by decide)).2.2.2.1⟩,
   (C10_lock (SharedPtr.dtor pairHeap ⟨some 0⟩) ⟨some 0⟩).2 (Or.inr ⟨0, rfl, by decide⟩)⟩

/-- `~SharedPtr` touches no block but its own. -/
theorem sp_dtor_other (h : Heap) (sp : SharedPtr) (a : Nat) (hne : sp.cb ≠ some a) :
    SharedPtr.dtor h sp a = h a := by
  unfold SharedPtr.dtor
  cases hc : sp.cb with
  | none => rfl
  | some b =>
    have hab : a ≠ b := by
      intro e
      apply hne
      rw [hc, e]
    simp only []
    split
    · split
      · simp only [Heap.modify, if_neg hab]
      · simp only [Heap.modify, if_neg hab]
    · simp only [Heap.modify, if_neg hab]

/-- C14 (evaluation at the failing input): on `reviveProgram`, after the owner
is destroyed the block has `shared_count == 0` and its value has been
destroyed once, the block not being released; the owner then built from the
expired observer with `SharedPtr(const WeakPtr&)` makes `shared_count` 1
again, and its `get()` returns the pointer to the destroyed value. -/
theorem C14_expired_block_revived :
    (run World.init (reviveProgram.take 3)).map
        (fun w => ((w.heap 0).shared_count, (w.heap 0).weak_count,
                   (w.heap 0).deleterCalls, (w.heap 0).deallocCalls)) = some (0, 1, 1, 0) ∧
    (run World.init reviveProgram).map
        (fun w => ((w.heap 0).shared_count, (w.heap 0).deleterCalls,
                   w.sps.map (SharedPtr.get w.heap), w.sps.map (SharedPtr.use_count w.heap)))
      = some (1, 1, [some 7], [some 1]) := by
  refine ⟨?_, ?_⟩ <;> rfl

/-- C20 (counterexample): on `sameBlockAssignProgram` the two owners share one
block with `shared_count == 2`; the copy-assignment of the second to the
first leaves `shared_count` at 2, it does not raise it to 3. -/
theorem C20_assign_same_block_keeps_count :
    (run World.init (sameBlockAssignProgram.take 2)).map
        (fun w => ((w.heap 0).shared_count, w.sps)) = some (2, [⟨some 0⟩, ⟨some 0⟩]) ∧
    (run World.init sameBlockAssignProgram).map
        (fun w => ((w.heap 0).shared_count, w.sps)) = some (2, [⟨some 0⟩, ⟨some 0⟩]) := by
  refine ⟨?_, ?_⟩ <;> rfl

/-- C20 (amended): copy-constructing an owner from an owner of block `a`
raises `shared_count` of `a` by exactly 1 and leaves `weak_count` as it was;
so does copy-assigning it to a destination that does not already own `a`;
copy-assigning it to a destination that already owns `a` leaves both counts
as they were and destroys nothing.  In every case the new (or assigned)
handle and the source refer to block `a` and report the same `use_count()`
and the same `get()`. -/
theorem C20_copy_bumps_shared_count (h : Heap) (self sp : SharedPtr) (a : Nat)
    (hsp : sp.cb = some a) (hb : (h a).shared_count + 1 < SIZE_MOD) :
    ((SharedPtr.copy h sp).2.cb = some a ∧
      ((SharedPtr.copy h sp).1 a).shared_count = (h a).shared_count + 1 ∧
      ((SharedPtr.copy h sp).1 a).weak_count = (h a).weak_count ∧
      SharedPtr.use_count (SharedPtr.copy h sp).1 (SharedPtr.copy h sp).2
        = SharedPtr.use_count (SharedPtr.copy h sp).1 sp ∧
      SharedPtr.get (SharedPtr.copy h sp).1 (SharedPtr.copy h sp).2
        = SharedPtr.get (SharedPtr.copy h sp).1 sp ∧
      SharedPtr.get (SharedPtr.copy h sp).1 sp = SharedPtr.get h sp) ∧
    (self.cb ≠ some a →
      (SharedPtr.assign h self sp).2.cb = some a ∧
      ((SharedPtr.assign h self sp).1 a).shared_count = (h a).shared_count + 1 ∧
      ((SharedPtr.assign h self sp).1 a).weak_count = (h a).weak_count ∧
      SharedPtr.use_count (SharedPtr.assign h self sp).1 (SharedPtr.assign h self sp).2
        = SharedPtr.use_count (SharedPtr.assign h self sp).1 sp ∧
      SharedPtr.get (SharedPtr.assign h self sp).1 (SharedPtr.assign h self sp).2
        = SharedPtr.get (SharedPtr.assign h self sp).1 sp ∧
      SharedPtr.get (SharedPtr.assign h self sp).1 sp = SharedPtr.get h sp) ∧
    (self.cb = some a → 0 < (h a).shared_count →
      (SharedPtr.assign h self sp).2.cb = some a ∧
      ((SharedPtr.assign h self sp).1 a).shared_count = (h a).shared_count ∧
      ((SharedPtr.assign h self sp).1 a).weak_count = (h a).weak_count ∧
      ((SharedPtr.assign h self sp).1 a).deleterCalls = (h a).deleterCalls ∧
      ((SharedPtr.assign h self sp).1 a).deallocCalls = (h a).deallocCalls ∧
      SharedPtr.get (SharedPtr.assign h self sp).1 (SharedPtr.assign h self sp).2
        = SharedPtr.get h sp) := by
  obtain ⟨cb⟩ := sp
  simp only at hsp
  subst hsp
  have hu : uadd (h a).shared_count 1 = (h a).shared_count + 1 := uadd_eq hb
  have hcopy : SharedPtr.copy h ⟨some a⟩ = (bumpShared h (some a), ⟨some a⟩) := rfl
  have hassign : SharedPtr.assign h self ⟨some a⟩
      = (SharedPtr.dtor (bumpShared h (some a)) self, ⟨some a⟩) := rfl
  have b1 : (bumpShared h (some a) a).shared_count = (h a).shared_count + 1 := by
    simp only [bumpShared, heap_modify_same, hu]
  have b2 : (bumpShared h (some a) a).weak_count = (h a).weak_count := by
    simp only [bumpShared, heap_modify_same]
  have b3 : (bumpShared h (some a) a).object = (h a).object := by
    simp only [bumpShared, heap_modify_same]
  refine ⟨?_, ?_, ?_⟩
  · rw [hcopy]
    simp only [SharedPtr.use_count, SharedPtr.get, b1, b2, b3, and_self]
  · intro hne
    rw [hassign]
    simp only [SharedPtr.use_count, SharedPtr.get, sp_dtor_other _ _ _ hne, b1, b2, b3, and_self]
  · intro hself hpos
    rw [hassign]
    have hd : SharedPtr.dtor (bumpShared h (some a)) self a = h a := by
      unfold SharedPtr.dtor
      rw [hself]
      have hsub : usub ((h a).shared_count + 1) 1 = (h a).shared_count := by
        rw [usub_eq (Nat.le_add_left _ _) hb, Nat.add_sub_cancel]
      simp only [heap_modify_same, b1, hsub]
      rw [if_neg (by omega)]
      simp only [bumpShared, heap_modify_same, hu, Nat.add_sub_cancel, usub_eq (Nat.le_add_left _ _) hb]
    simp only [SharedPtr.get, hd, and_self]

/-- C20 at concrete handles: a copy of the owner of `pairHeap` (count 1 to
2), and the assignment of that owner to an empty handle. -/
theorem C20_copy_bumps_shared_count_witness :
    ((SharedPtr.copy pairHeap ⟨some 0⟩).1 0).shared_count = 2 ∧
    ((SharedPtr.assign pairHeap ⟨none⟩ ⟨some 0⟩).1 0).shared_count = 2 ∧
    (SharedPtr.assign pairHeap ⟨none⟩ ⟨some 0⟩).2.cb = some 0 :=
  ⟨(C20_copy_bumps_shared_count pairHeap ⟨none⟩ ⟨some 0⟩ 0 rfl (by decide)).1.2.1,
   ((C20_copy_bumps_shared_count pairHeap ⟨none⟩ ⟨some 0⟩ 0 rfl (by decide)).2.1
      (by decide)).2.1,
   ((C20_copy_bumps_shared_count pairHeap ⟨none⟩ ⟨some 0⟩ 0 rfl (by decide)).2.1
      (by decide)).1⟩

theorem useDeallocator_valueDestroyed (b : ControlBlock) :
    (useDeallocator b).valueDestroyed = b.valueDestroyed := rfl

/-- Changing a count of a block leaves the destructions of its value. -/
theorem valueDestroyed_shared (b : ControlBlock) (n : Nat) :
    ({ b with shared_count := n } : ControlBlock).valueDestroyed = b.valueDestroyed := by
  unfold ControlBlock.valueDestroyed
  rfl

theorem valueDestroyed_weak (b : ControlBlock) (n : Nat) :
    ({ b with weak_count := n } : ControlBlock).valueDestroyed = b.valueDestroyed := by
  unfold ControlBlock.valueDestroyed
  rfl

/-- The block `~SharedPtr` leaves at the address it refers to. -/
theorem sp_dtor_at (h : Heap) (a : Nat) :
    SharedPtr.dtor h ⟨some a⟩ a =
      if usub (h a).shared_count 1 = 0 then
        if (h a).weak_count = 0 then
          useDeallocator (useDeleter { h a with shared_count := usub (h a).shared_count 1 })
        else useDeleter { h a with shared_count := usub (h a).shared_count 1 }
      else { h a with shared_count := usub (h a).shared_count 1 } := by
  unfold SharedPtr.dtor
  simp only [heap_modify_same, useDeleter_weak_count]
  by_cases c1 : usub (h a).shared_count 1 = 0
  · rw [if_pos c1, if_pos c1]
    by_cases c2 : (h a).weak_count = 0
    · rw [if_pos c2, if_pos c2]
      simp only [heap_modify_same]
    · rw [if_neg c2, if_neg c2]
      simp only [heap_modify_same]
  · rw [if_neg c1, if_neg c1]
    simp only [heap_modify_same]

/-- What `~SharedPtr` leaves in the block it refers to: `shared_count` one
lower; when that is 0 one call of `useDeleter`, which destroys the managed
value once, and, when `weak_count` is 0 too, one call of `useDeallocator`. -/
theorem sp_dtor_self (h : Heap) (a : Nat) :
    (SharedPtr.dtor h ⟨some a⟩ a).shared_count = usub (h a).shared_count 1 ∧
    (SharedPtr.dtor h ⟨some a⟩ a).weak_count = (h a).weak_count ∧
    (SharedPtr.dtor h ⟨some a⟩ a).deleterCalls
      = (h a).deleterCalls + (if usub (h a).shared_count 1 = 0 then 1 else 0) ∧
    (SharedPtr.dtor h ⟨some a⟩ a).deallocCalls
      = (h a).deallocCalls
        + (if usub (h a).shared_count 1 = 0 ∧ (h a).weak_count = 0 then 1 else 0) ∧
    (SharedPtr.dtor h ⟨some a⟩ a).valueDestroyed
      = (h a).valueDestroyed + (if usub (h a).shared_count 1 = 0 then 1 else 0) ∧
    (SharedPtr.dtor h ⟨some a⟩ a).kind = (h a).kind ∧
    (SharedPtr.dtor h ⟨some a⟩ a).object = (h a).object := by
  rw [sp_dtor_at]
  by_cases c1 : usub (h a).shared_count 1 = 0
  · by_cases c2 : (h a).weak_count = 0
    · rw [if_pos c1, if_pos c2, if_pos c1, if_pos (And.intro c1 c2)]
      refine ⟨?_, ?_, ?_, ?_, ?_, ?_, ?_⟩
      · show (useDeleter _).shared_count = _
        rw [useDeleter_shared_count]
      · show (useDeleter _).weak_count = _
        rw [useDeleter_weak_count]
      · show (useDeleter _).deleterCalls = _
        rw [useDeleter_deleterCalls]
      · show (useDeleter _).deallocCalls + 1 = _
        rw [useDeleter_deallocCalls]
      · rw [useDeallocator_valueDestroyed, useDeleter_valueDestroyed, valueDestroyed_shared]
      · show (useDeleter _).kind = _
        rw [useDeleter_kind]
      · show (useDeleter _).object = _
        rw [useDeleter_object]
    · rw [if_pos c1, if_neg c2, if_pos c1, if_neg (fun hc : _ ∧ _ => c2 hc.2)]
      refine ⟨?_, ?_, ?_, ?_, ?_, ?_, ?_⟩
      · rw [useDeleter_shared_count]
      · rw [useDeleter_weak_count]
      · rw [useDeleter_deleterCalls]
      · rw [useDeleter_deallocCalls]
        rfl
      · rw [useDeleter_valueDestroyed, valueDestroyed_shared]
      · rw [useDeleter_kind]
      · rw [useDeleter_object]
  · rw [if_neg c1, if_neg c1, if_neg (fun hc : _ ∧ _ => c1 hc.1)]
    exact ⟨rfl, rfl, rfl, rfl, valueDestroyed_shared _ _, rfl, rfl⟩

/-- The block `~WeakPtr` leaves at the address it refers to. -/
theorem wp_dtor_at (h : Heap) (a : Nat) :
    WeakPtr.dtor h ⟨some a⟩ a =
      if usub (h a).weak_count 1 = 0 ∧ (h a).shared_count = 0 then
        useDeallocator { h a with weak_count := usub (h a).weak_count 1 }
      else { h a with weak_count := usub (h a).weak_count 1 } := by
  unfold WeakPtr.dtor
  simp only [heap_modify_same]
  by_cases c : usub (h a).weak_count 1 = 0 ∧ (h a).shared_count = 0
  · rw [if_pos c, if_pos c]
    simp only [heap_modify_same]
  · rw [if_neg c, if_neg c]
    simp only [heap_modify_same]

/-- What `~WeakPtr` leaves in the block it refers to: `weak_count` one lower,
and one call of `useDeallocator` when both counts are 0; the managed value is
not touched. -/
theorem wp_dtor_self (h : Heap) (a : Nat) :
    (WeakPtr.dtor h ⟨some a⟩ a).shared_count = (h a).shared_count ∧
    (WeakPtr.dtor h ⟨some a⟩ a).weak_count = usub (h a).weak_count 1 ∧
    (WeakPtr.dtor h ⟨some a⟩ a).deleterCalls = (h a).deleterCalls ∧
    (WeakPtr.dtor h ⟨some a⟩ a).deallocCalls
      = (h a).deallocCalls
        + (if usub (h a).weak_count 1 = 0 ∧ (h a).shared_count = 0 then 1 else 0) ∧
    (WeakPtr.dtor h ⟨some a⟩ a).valueDestroyed = (h a).valueDestroyed ∧
    (WeakPtr.dtor h ⟨some a⟩ a).kind = (h a).kind ∧
    (WeakPtr.dtor h ⟨some a⟩ a).object = (h a).object := by
  rw [wp_dtor_at]
  by_cases c : usub (h a).weak_count 1 = 0 ∧ (h a).shared_count = 0
  · simp only [if_pos c, useDeallocator, true_and]
    exact ⟨by simp only [ControlBlock.valueDestroyed], trivial⟩
  · simp only [if_neg c, true_and, Nat.add_zero]
    exact ⟨by simp only [ControlBlock.valueDestroyed], trivial⟩

/-- `~WeakPtr` touches no block but its own. -/
theorem wp_dtor_other (h : Heap) (wp : WeakPtr) (a : Nat) (hne : wp.cb ≠ some a) :
    WeakPtr.dtor h wp a = h a := by
  unfold WeakPtr.dtor
  cases hc : wp.cb with
  | none => rfl
  | some b =>
    have hab : a ≠ b := by
      intro e
      apply hne
      rw [hc, e]
    simp only []
    split <;> simp only [Heap.modify, if_neg hab]

theorem heapAlike_refl (h : Heap) : HeapAlike h h := fun _ => ⟨rfl, rfl, rfl, rfl, rfl⟩

theorem alike_bumpShared {h1 h2 : Heap} (hh : HeapAlike h1 h2) (cb : Option Nat) :
    HeapAlike (bumpShared h1 cb) (bumpShared h2 cb) := by
  intro x
  obtain ⟨f1, f2, f3, f4, f5⟩ := hh x
  cases cb with
  | none => exact hh x
  | some a =>
    by_cases hx : x = a
    · simp only [bumpShared, Heap.modify, hx, if_true]
      rw [hx] at f1 f2 f3 f4 f5
      exact ⟨by rw [f1], f2, f3, f4, f5⟩
    · simp only [bumpShared, Heap.modify, hx, if_false]
      exact ⟨f1, f2, f3, f4, f5⟩

theorem alike_bumpWeak {h1 h2 : Heap} (hh : HeapAlike h1 h2) (cb : Option Nat) :
    HeapAlike (bumpWeak h1 cb) (bumpWeak h2 cb) := by
  intro x
  obtain ⟨f1, f2, f3, f4, f5⟩ := hh x
  cases cb with
  | none => exact hh x
  | some a =>
    by_cases hx : x = a
    · simp only [bumpWeak, Heap.modify, hx, if_true]
      rw [hx] at f1 f2 f3 f4 f5
      exact ⟨f1, by rw [f2], f3, f4, f5⟩
    · simp only [bumpWeak, Heap.modify, hx, if_false]
      exact ⟨f1, f2, f3, f4, f5⟩

theorem alike_sp_dtor {h1 h2 : Heap} (hh : HeapAlike h1 h2) (sp : SharedPtr) :
    HeapAlike (SharedPtr.dtor h1 sp) (SharedPtr.dtor h2 sp) := by
  intro x
  obtain ⟨cb⟩ := sp
  by_cases hx : cb = some x
  · subst hx
    obtain ⟨e1, e2, e3, e4, e5⟩ := hh x
    obtain ⟨a1, a2, a3, a4, a5, -, -⟩ := sp_dtor_self h1 x
    obtain ⟨b1, b2, b3, b4, b5, -, -⟩ := sp_dtor_self h2 x
    rw [a1, a2, a3, a4, a5, b1, b2, b3, b4, b5, e1, e2, e3, e4, e5]
    exact ⟨rfl, rfl, rfl, rfl, rfl⟩
  · rw [sp_dtor_other h1 ⟨cb⟩ x hx, sp_dtor_other h2 ⟨cb⟩ x hx]
    exact hh x

theorem alike_wp_dtor {h1 h2 : Heap} (hh : HeapAlike h1 h2) (wp : WeakPtr) :
    HeapAlike (WeakPtr.dtor h1 wp) (WeakPtr.dtor h2 wp) := by
  intro x
  obtain ⟨cb⟩ := wp
  by_cases hx : cb = some x
  · subst hx
    obtain ⟨e1, e2, e3, e4, e5⟩ := hh x
    obtain ⟨a1, a2, a3, a4, a5, -, -⟩ := wp_dtor_self h1 x
    obtain ⟨b1, b2, b3, b4, b5, -, -⟩ := wp_dtor_self h2 x
    rw [a1, a2, a3, a4, a5, b1, b2, b3, b4, b5, e1, e2, e3, e4, e5]
    exact ⟨rfl, rfl, rfl, rfl, rfl⟩
  · rw [wp_dtor_other h1 ⟨cb⟩ x hx, wp_dtor_other h2 ⟨cb⟩ x hx]
    exact hh x

theorem alike_expired {h1 h2 : Heap} (hh : HeapAlike h1 h2) (wp : WeakPtr) :
    WeakPtr.expired h1 wp = WeakPtr.expired h2 wp := by
  unfold WeakPtr.expired
  cases wp.cb with
  | none => rfl
  | some a => simp only [(hh a).1]

theorem alike_use_count {h1 h2 : Heap} (hh : HeapAlike h1 h2) (sp : SharedPtr) :
    SharedPtr.use_count h1 sp = SharedPtr.use_count h2 sp := by
  unfold SharedPtr.use_count
  cases sp.cb with
  | none => rfl
  | some a => simp only [(hh a).1]

theorem alike_lock {h1 h2 : Heap} (hh : HeapAlike h1 h2) (wp : WeakPtr) :
    (WeakPtr.lock h1 wp).2 = (WeakPtr.lock h2 wp).2 ∧
    HeapAlike (WeakPtr.lock h1 wp).1 (WeakPtr.lock h2 wp).1 := by
  unfold WeakPtr.lock
  rw [alike_expired hh wp]
  cases WeakPtr.expired h2 wp with
  | true => exact ⟨rfl, hh⟩
  | false => exact ⟨rfl, alike_bumpShared hh wp.cb⟩

theorem alike_fresh {h1 h2 : Heap} (hh : HeapAlike h1 h2) (brk : Nat) (k1 k2 : BlockKind)
    (o1 o2 : Nat) :
    HeapAlike (bumpShared (h1.modify brk (fun _ => freshBlock k1 o1)) (some brk))
      (bumpShared (h2.modify brk (fun _ => freshBlock k2 o2)) (some brk)) := by
  apply alike_bumpShared
  intro x
  by_cases hx : x = brk
  · simp only [Heap.modify, hx, if_true, freshBlock, true_and]
    cases k1 <;> cases k2 <;> rfl
  · simp only [Heap.modify, hx, if_false]
    exact hh x

/-- One operation keeps two states alike: it fails on both, or succeeds on
both with results that are alike. -/
theorem step_alike (w1 w2 : World) (op : Op) (h : Alike w1 w2) :
    (step w1 op = none ∧ step w2 op = none) ∨
    ∃ v1 v2, step w1 op = some v1 ∧ step w2 op = some v2 ∧ Alike v1 v2 := by
  obtain ⟨heap1, brk1, sps1, wps1, unset1⟩ := w1
  obtain ⟨heap2, brk2, sps2, wps2, unset2⟩ := w2
  obtain ⟨hb, hs, hw, hu, hh⟩ := h
  simp only at hb hs hw hu hh
  subst hb hs hw hu
  cases op with
  | spFromRaw ptr => exact Or.inr ⟨_, _, rfl, rfl, rfl, rfl, rfl, rfl, alike_fresh hh _ _ _ _ _⟩
  | spMake => exact Or.inr ⟨_, _, rfl, rfl, rfl, rfl, rfl, rfl, alike_fresh hh _ _ _ _ _⟩
  | spDefault => exact Or.inr ⟨_, _, rfl, rfl, rfl, rfl, rfl, rfl, hh⟩
  | spValueInit => exact Or.inr ⟨_, _, rfl, rfl, rfl, rfl, rfl, rfl, hh⟩
  | spCopy i =>
    cases hi : sps1[i]? with
    | none => left; simp only [step, readOwner_eq, hi, and_self]
    | some sp =>
      right
      simp only [step, readOwner_eq, hi]
      exact ⟨_, _, rfl, rfl, rfl, rfl, rfl, rfl, alike_bumpShared hh _⟩
  | spMove i =>
    cases hi : sps1[i]? with
    | none => left; simp only [step, readOwner_eq, hi, and_self]
    | some sp =>
      right
      simp only [step, readOwner_eq, hi]
      exact ⟨_, _, rfl, rfl, rfl, rfl, rfl, rfl, hh⟩
  | spAssign dst src =>
    cases hd : sps1[dst]? with
    | none => left; simp only [step, readOwner_eq, hd, and_self]
    | some d =>
      cases hs : sps1[src]? with
      | none => left; simp only [step, readOwner_eq, hd, hs, and_self]
      | some sp =>
        right
        simp only [step, readOwner_eq, hd, hs]
        exact ⟨_, _, rfl, rfl, rfl, rfl, rfl, rfl, alike_sp_dtor (alike_bumpShared hh _) _⟩
  | spMoveAssign dst src =>
    cases hd : sps1[dst]? with
    | none => left; simp only [step, readOwner_eq, hd, and_self]
    | some d =>
      cases hs : sps1[src]? with
      | none => left; simp only [step, readOwner_eq, hd, hs, and_self]
      | some sp =>
        simp only [step, readOwner_eq, hd, hs, SharedPtr.move]
        cases hd1 : (sps1.set src ⟨none⟩)[dst]? with
        | none => left; simp only [and_self]
        | some d1 =>
          right
          exact ⟨_, _, rfl, rfl, rfl, rfl, rfl, rfl, alike_sp_dtor hh _⟩
  | spReset i =>
    cases hi : sps1[i]? with
    | none => left; simp only [step, readOwner_eq, hi, and_self]
    | some sp =>
      right
      simp only [step, readOwner_eq, hi]
      exact ⟨_, _, rfl, rfl, rfl, rfl, rfl, rfl, alike_sp_dtor hh _⟩
  | spDtor i =>
    cases hi : sps1[i]? with
    | none => left; simp only [step, readOwner_eq, hi, and_self]
    | some sp =>
      right
      simp only [step, readOwner_eq, hi]
      exact ⟨_, _, rfl, rfl, rfl, rfl, rfl, rfl, alike_sp_dtor hh _⟩
  | spFromWeak k =>
    cases hi : wps1[k]? with
    | none => left; simp only [step, hi, and_self]
    | some wp =>
      right
      simp only [step, hi]
      exact ⟨_, _, rfl, rfl, rfl, rfl, rfl, rfl, alike_bumpShared hh _⟩
  | lock k =>
    cases hi : wps1[k]? with
    | none => left; simp only [step, hi, and_self]
    | some wp =>
      right
      simp only [step, hi]
      refine ⟨_, _, rfl, rfl, rfl, ?_, rfl, rfl, (alike_lock hh wp).2⟩
      show sps1 ++ [(WeakPtr.lock heap1 wp).2] = sps1 ++ [(WeakPtr.lock heap2 wp).2]
      rw [(alike_lock hh wp).1]
  | wpDefault => exact Or.inr ⟨_, _, rfl, rfl, rfl, rfl, rfl, rfl, hh⟩
  | wpFromShared i =>
    cases hi : sps1[i]? with
    | none => left; simp only [step, readOwner_eq, hi, and_self]
    | some sp =>
      right
      simp only [step, readOwner_eq, hi]
      exact ⟨_, _, rfl, rfl, rfl, rfl, rfl, rfl, alike_bumpWeak hh _⟩
  | wpCopy k =>
    cases hi : wps1[k]? with
    | none => left; simp only [step, hi, and_self]
    | some wp =>
      right
      simp only [step, hi]
      exact ⟨_, _, rfl, rfl, rfl, rfl, rfl, rfl, alike_bumpWeak hh _⟩
  | wpMove k =>
    cases hi : wps1[k]? with
    | none => left; simp only [step, hi, and_self]
    | some wp =>
      right
      simp only [step, hi]
      exact ⟨_, _, rfl, rfl, rfl, rfl, rfl, rfl, hh⟩
  | wpAssign dst src =>
    cases hd : wps1[dst]? with
    | none => left; simp only [step, hd, and_self]
    | some d =>
      cases hs : wps1[src]? with
      | none => left; simp only [step, hd, hs, and_self]
      | some wp =>
        right
        simp only [step, hd, hs]
        exact ⟨_, _, rfl, rfl, rfl, rfl, rfl, rfl, alike_wp_dtor (alike_bumpWeak hh _) _⟩
  | wpMoveAssign dst src =>
    cases hd : wps1[dst]? with
    | none => left; simp only [step, hd, and_self]
    | some d =>
      cases hs : wps1[src]? with
      | none => left; simp only [step, hd, hs, and_self]
      | some wp =>
        simp only [step, hd, hs, WeakPtr.move]
        cases hd1 : (wps1.set src ⟨none⟩)[dst]? with
        | none => left; simp only [and_self]
        | some d1 =>
          right
          exact ⟨_, _, rfl, rfl, rfl, rfl, rfl, rfl, alike_wp_dtor hh _⟩
  | wpDtor k =>
    cases hi : wps1[k]? with
    | none => left; simp only [step, hi, and_self]
    | some wp =>
      right
      simp only [step, hi]
      exact ⟨_, _, rfl, rfl, rfl, rfl, rfl, rfl, alike_wp_dtor hh _⟩

/-- A program keeps two states alike. -/
theorem run_alike : ∀ (ops : List Op) (w1 w2 : World), Alike w1 w2 →
    (run w1 ops = none ∧ run w2 ops = none) ∨
    ∃ v1 v2, run w1 ops = some v1 ∧ run w2 ops = some v2 ∧ Alike v1 v2
  | [], w1, w2, h => Or.inr ⟨w1, w2, rfl, rfl, h⟩
  | op :: ops, w1, w2, h => by
    rcases step_alike w1 w2 op h with ⟨e1, e2⟩ | ⟨v1, v2, e1, e2, hv⟩
    · left
      simp only [run, e1, e2, Option.none_bind, and_self]
    · simp only [run, e1, e2, Option.some_bind]
      exact run_alike ops v1 v2 hv

/-- The block a constructor leaves at the fresh address: a new block with
`shared_count` 1. -/
theorem fresh_block_at (h : Heap) (brk : Nat) (k : BlockKind) (o : Nat) :
    bumpShared (h.modify brk (fun _ => freshBlock k o)) (some brk) brk
      = { shared_count := 1, weak_count := 0, kind := k, object := o, deleterCalls := 0,
          deallocCalls := 0, deleted := [], destroyed := 0 } := by
  have e01 : uadd 0 1 = 1 := by decide
  simp only [bumpShared, heap_modify_same, freshBlock, e01]

/-- The owner appended last is the handle with the name `sps.length`. -/
theorem getElem?_concat_self {α : Type} (l : List α) (x : α) : (l ++ [x])[l.length]? = some x := by
  rw [List.getElem?_append_right (Nat.le_refl _), Nat.sub_self]
  rfl

/-- The life of a block from its construction with one owner, in a state
whose block at `a` is `b` with `shared_count` 1 and `weak_count` 0 and whose
last owner refers to it.  Destroying the owner calls `useDeleter` and then
`useDeallocator`.  With an observer made first, destroying the owner calls
`useDeleter` only, and destroying the observer afterwards calls
`useDeallocator`. -/
theorem block_life (w : World) (a : Nat) (b : ControlBlock) (sps : List SharedPtr)
    (hsps : w.sps = sps ++ [⟨some a⟩]) (hb : w.heap a = b)
    (hs : b.shared_count = 1) (hw : b.weak_count = 0) :
    (∃ v, step w (.spDtor sps.length) = some v ∧
      v.heap a = useDeallocator (useDeleter { b with shared_count := 0 })) ∧
    (∃ v, run w [.wpFromShared sps.length, .spDtor sps.length] = some v ∧
      v.heap a = useDeleter { b with shared_count := 0, weak_count := 1 }) ∧
    (∃ v, run w [.wpFromShared sps.length, .spDtor sps.length, .wpDtor w.wps.length] = some v ∧
      v.heap a = useDeallocator
        { useDeleter { b with shared_count := 0, weak_count := 1 } with weak_count := 0 }) := by
  have hget : w.sps[sps.length]? = some ⟨some a⟩ := by
    rw [hsps]; exact getElem?_concat_self _ _
  have e11 : usub 1 1 = 0 := by decide
  have e01 : uadd 0 1 = 1 := by decide
  have c1 : usub b.shared_count 1 = 0 := by rw [hs]; exact e11
  have hd0 : SharedPtr.dtor w.heap ⟨some a⟩ a
      = useDeallocator (useDeleter { b with shared_count := 0 }) := by
    rw [sp_dtor_at, hb, if_pos c1, if_pos hw, c1]
  have hbw : bumpWeak w.heap (some a) a = { b with weak_count := 1 } := by
    simp only [bumpWeak, heap_modify_same, hb, hw, e01]
  have c1w : usub ({ b with weak_count := 1 } : ControlBlock).shared_count 1 = 0 := c1
  have c2w : ¬ (({ b with weak_count := 1 } : ControlBlock).weak_count = 0) := by
    show ¬ ((1 : Nat) = 0)
    decide
  have hd1 : SharedPtr.dtor (bumpWeak w.heap (some a)) ⟨some a⟩ a
      = useDeleter { b with shared_count := 0, weak_count := 1 } := by
    rw [sp_dtor_at, hbw, if_pos c1w, if_neg c2w, c1w]
  have c3 : usub (useDeleter { b with shared_count := 0, weak_count := 1 }).weak_count 1 = 0 ∧
      (useDeleter { b with shared_count := 0, weak_count := 1 }).shared_count = 0 := by
    rw [useDeleter_weak_count, useDeleter_shared_count]
    exact ⟨e11, rfl⟩
  have hd2 : WeakPtr.dtor (SharedPtr.dtor (bumpWeak w.heap (some a)) ⟨some a⟩) ⟨some a⟩ a
      = useDeallocator
        { useDeleter { b with shared_count := 0, weak_count := 1 } with weak_count := 0 } := by
    rw [wp_dtor_at, hd1, if_pos c3, c3.1]
  refine ⟨?_, ?_, ?_⟩
  · simp only [step, readOwner_eq, hget]
    exact ⟨_, rfl, hd0⟩
  · simp only [run, step, readOwner_eq, hget, WeakPtr.fromShared, Option.some_bind]
    exact ⟨_, rfl, hd1⟩
  · have hwget : (w.wps ++ [(⟨some a⟩ : WeakPtr)])[w.wps.length]? = some ⟨some a⟩ :=
      getElem?_concat_self _ _
    simp only [run, step, readOwner_eq, hget, WeakPtr.fromShared, Option.some_bind, hwget]
    exact ⟨_, rfl, hd2⟩

/-- C13: from any program state, `SharedPtr(ptr)` and `allocateShared` each
make one allocation and yield the last owner, with `use_count() == 1`; the
`get()` of the first is the caller's pointer, the `get()` of the second an
address of the allocation just made (block and value together), and neither
value has been destroyed nor block released.  Destroying that owner destroys
the value once (the deleter is called on the caller's pointer, resp. the
member object is destroyed in place) and releases the block; with an
observer made first, destroying the owner destroys the value once and does
not release the block, and destroying the observer then releases it.  Any
program run on the two states fails on both or succeeds on both, and then
the handles are the same, every handle reports the same `use_count()` and
`expired()`, and every block has had its value destroyed as often and has
been released as often: as this holds after every program, values are
destroyed and blocks released at the same steps. -/
theorem C13_coallocated_equiv_separate (w : World) (ptr : Nat) :
    ∃ w1 w2, step w (.spFromRaw ptr) = some w1 ∧ step w .spMake = some w2 ∧
      (w1.brk = w.brk + 1 ∧ w2.brk = w.brk + 1 ∧
        w1.sps = w.sps ++ [⟨some w.brk⟩] ∧ w2.sps = w.sps ++ [⟨some w.brk⟩] ∧
        w1.heap w.brk =
          { shared_count := 1, weak_count := 0, kind := .regular, object := ptr,
            deleterCalls := 0, deallocCalls := 0, deleted := [], destroyed := 0 } ∧
        w2.heap w.brk =
          { shared_count := 1, weak_count := 0, kind := .makeShared, object := w.brk,
            deleterCalls := 0, deallocCalls := 0, deleted := [], destroyed := 0 } ∧
        SharedPtr.use_count w1.heap ⟨some w.brk⟩ = some 1 ∧
        SharedPtr.use_count w2.heap ⟨some w.brk⟩ = some 1 ∧
        SharedPtr.get w1.heap ⟨some w.brk⟩ = some ptr ∧
        SharedPtr.get w2.heap ⟨some w.brk⟩ = some w.brk ∧
        (w1.heap w.brk).valueDestroyed = 0 ∧ (w2.heap w.brk).valueDestroyed = 0 ∧
        (w1.heap w.brk).deallocCalls = 0 ∧ (w2.heap w.brk).deallocCalls = 0) ∧
      (∃ v1 v2, step w1 (.spDtor w.sps.length) = some v1 ∧
        step w2 (.spDtor w.sps.length) = some v2 ∧
        (v1.heap w.brk).deleted = [ptr] ∧ (v1.heap w.brk).destroyed = 0 ∧
        (v2.heap w.brk).deleted = [] ∧ (v2.heap w.brk).destroyed = 1 ∧
        (v1.heap w.brk).valueDestroyed = 1 ∧ (v2.heap w.brk).valueDestroyed = 1 ∧
        (v1.heap w.brk).deallocCalls = 1 ∧ (v2.heap w.brk).deallocCalls = 1) ∧
      (∃ v1 v2, run w1 [.wpFromShared w.sps.length, .spDtor w.sps.length] = some v1 ∧
        run w2 [.wpFromShared w.sps.length, .spDtor w.sps.length] = some v2 ∧
        (v1.heap w.brk).valueDestroyed = 1 ∧ (v2.heap w.brk).valueDestroyed = 1 ∧
        (v1.heap w.brk).deallocCalls = 0 ∧ (v2.heap w.brk).deallocCalls = 0) ∧
      (∃ v1 v2,
        run w1 [.wpFromShared w.sps.length, .spDtor w.sps.length, .wpDtor w.wps.length]
          = some v1 ∧
        run w2 [.wpFromShared w.sps.length, .spDtor w.sps.length, .wpDtor w.wps.length]
          = some v2 ∧
        (v1.heap w.brk).valueDestroyed = 1 ∧ (v2.heap w.brk).valueDestroyed = 1 ∧
        (v1.heap w.brk).deallocCalls = 1 ∧ (v2.heap w.brk).deallocCalls = 1) ∧
      ∀ ops, (run w1 ops = none ∧ run w2 ops = none) ∨
        ∃ v1 v2, run w1 ops = some v1 ∧ run w2 ops = some v2 ∧
          v1.sps = v2.sps ∧ v1.wps = v2.wps ∧ v1.unset = v2.unset ∧ v1.brk = v2.brk ∧
          (∀ sp, SharedPtr.use_count v1.heap sp = SharedPtr.use_count v2.heap sp) ∧
          (∀ wp, WeakPtr.expired v1.heap wp = WeakPtr.expired v2.heap wp) ∧
          (∀ a, (v1.heap a).valueDestroyed = (v2.heap a).valueDestroyed ∧
            (v1.heap a).deallocCalls = (v2.heap a).deallocCalls) := by
  have hb1 := fresh_block_at w.heap w.brk .regular ptr
  have hb2 := fresh_block_at w.heap w.brk .makeShared w.brk
  obtain ⟨⟨x1, hx1, y1⟩, ⟨x2, hx2, y2⟩, ⟨x3, hx3, y3⟩⟩ :=
    block_life
      { w with heap := bumpShared (w.heap.modify w.brk (fun _ => freshBlock .regular ptr))
                 (some w.brk), brk := w.brk + 1, sps := w.sps ++ [⟨some w.brk⟩] }
      w.brk
      { shared_count := 1, weak_count := 0, kind := .regular, object := ptr,
        deleterCalls := 0, deallocCalls := 0, deleted := [], destroyed := 0 }
      w.sps rfl hb1 rfl rfl
  obtain ⟨⟨z1, hz1, u1⟩, ⟨z2, hz2, u2⟩, ⟨z3, hz3, u3⟩⟩ :=
    block_life
      { w with heap := bumpShared (w.heap.modify w.brk (fun _ => freshBlock .makeShared w.brk))
                 (some w.brk), brk := w.brk + 1, sps := w.sps ++ [⟨some w.brk⟩] }
      w.brk
      { shared_count := 1, weak_count := 0, kind := .makeShared, object := w.brk,
        deleterCalls := 0, deallocCalls := 0, deleted := [], destroyed := 0 }
      w.sps rfl hb2 rfl rfl
  refine ⟨_, _, rfl, rfl, ⟨rfl, rfl, rfl, rfl, hb1, hb2, ?_, ?_, ?_, ?_, ?_, ?_, ?_, ?_⟩,
    ⟨x1, z1, hx1, hz1, ?_⟩, ⟨x2, z2, hx2, hz2, ?_⟩, ⟨x3, z3, hx3, hz3, ?_⟩, ?_⟩
  · simp only [SharedPtr.use_count, hb1]
  · simp only [SharedPtr.use_count, hb2]
  · simp only [SharedPtr.get, hb1]
  · simp only [SharedPtr.get, hb2]
  · simp only [hb1, ControlBlock.valueDestroyed, List.count_nil]
  · simp only [hb2, ControlBlock.valueDestroyed]
  · simp only [hb1]
  · simp only [hb2]
  · rw [y1, u1]
    simp [useDeleter, useDeallocator, freshBlock, ControlBlock.valueDestroyed]
  · rw [y2, u2]
    simp [useDeleter, useDeallocator, freshBlock, ControlBlock.valueDestroyed]
  · rw [y3, u3]
    simp [useDeleter, useDeallocator, freshBlock, ControlBlock.valueDestroyed]
  · intro ops
    have h0 : Alike
        { w with heap := bumpShared (w.heap.modify w.brk (fun _ => freshBlock .regular ptr))
                   (some w.brk), brk := w.brk + 1, sps := w.sps ++ [⟨some w.brk⟩] }
        { w with heap := bumpShared (w.heap.modify w.brk (fun _ => freshBlock .makeShared w.brk))
                   (some w.brk), brk := w.brk + 1, sps := w.sps ++ [⟨some w.brk⟩] } :=
      ⟨rfl, rfl, rfl, rfl, alike_fresh (heapAlike_refl w.heap) _ _ _ _ _⟩
    rcases run_alike ops _ _ h0 with hn | ⟨v1, v2, e1, e2, hb, hs, hw, hu, hh⟩
    · exact Or.inl hn
    · exact Or.inr ⟨v1, v2, e1, e2, hs, hw, hu, hb, fun sp => alike_use_count hh sp,
        fun wp => alike_expired hh wp, fun a => ⟨(hh a).2.2.2.2, (hh a).2.2.2.1⟩⟩

end SmartPointers

/-! ## Theorems: moves of owning handles, counts of observing handles -/

namespace SmartPointers

theorem wp_dtor_shared (h : Heap) (wp : WeakPtr) (x : Nat) :
    ((WeakPtr.dtor h wp) x).shared_count = (h x).shared_count := by
  unfold WeakPtr.dtor
  cases hcb : wp.cb with
  | none => rfl
  | some a =>
    by_cases hx : x = a
    · subst hx
      simp only
      split <;> simp [heap_modify_same, useDeallocator]
    · simp only
      split <;> simp [heap_modify_other _ _ _ _ hx]

theorem bumpWeak_shared (h : Heap) (cb : Option Nat) (x : Nat) :
    ((bumpWeak h cb) x).shared_count = (h x).shared_count := by
  cases cb with
  | none => rfl
  | some a =>
    by_cases hx : x = a
    · subst hx; simp [bumpWeak, heap_modify_same]
    · simp [bumpWeak, heap_modify_other _ _ _ _ hx]

theorem bumpWeak_weak (h : Heap) (a : Nat) (hw : (h a).weak_count + 1 < SIZE_MOD) :
    ((bumpWeak h (some a)) a).weak_count = (h a).weak_count + 1 := by
  simp only [bumpWeak, heap_modify_same, uadd]
  exact Nat.mod_eq_of_lt hw

/-- C21: the move constructor `SharedPtr(SharedPtr&&)` applied to the `i`-th
live owner `sp` of a program state returns; the new handle (appended to the
live owners) holds the control block of `sp`, the source holds `nullptr` and
its `get()` is null, the new handle's `get()` is what the source's was, and
the store of control blocks is unchanged, so that no `shared_count`, no
`weak_count` and no count of `useDeleter` calls has changed. -/
theorem C21_move_construct (w : World) (i : Nat) (sp : SharedPtr) (hi : w.sps[i]? = some sp) :
    SharedPtr.move sp = (⟨sp.cb⟩, ⟨none⟩) ∧
    ∃ w1, step w (.spMove i) = some w1 ∧
      w1.sps[w.sps.length]? = some ⟨sp.cb⟩ ∧
      w1.sps[i]? = some ⟨none⟩ ∧
      SharedPtr.get w1.heap ⟨none⟩ = none ∧
      SharedPtr.get w1.heap ⟨sp.cb⟩ = SharedPtr.get w.heap sp ∧
      w1.heap = w.heap ∧
      (∀ a, (w1.heap a).shared_count = (w.heap a).shared_count ∧
        (w1.heap a).weak_count = (w.heap a).weak_count ∧
        (w1.heap a).deleterCalls = (w.heap a).deleterCalls) := by
  refine ⟨rfl, ?_⟩
  have hlt : i < w.sps.length := by
    rcases Nat.lt_or_ge i w.sps.length with h | h
    · exact h
    · rw [List.getElem?_eq_none h] at hi; cases hi
  refine ⟨{ w with sps := w.sps.set i ⟨none⟩ ++ [⟨sp.cb⟩] }, ?_, ?_, ?_, rfl, rfl, rfl,
    fun a => ⟨rfl, rfl, rfl⟩⟩
  · simp [step, readOwner_eq, hi, SharedPtr.move]
  · have hl : (w.sps.set i (⟨none⟩ : SharedPtr)).length = w.sps.length := List.length_set ..
    show (w.sps.set i ⟨none⟩ ++ [⟨sp.cb⟩])[w.sps.length]? = _
    rw [List.getElem?_append_right (by omega), hl]
    simp
  · show (w.sps.set i ⟨none⟩ ++ [⟨sp.cb⟩])[i]? = _
    rw [List.getElem?_append_left (by rw [List.length_set]; exact hlt)]
    simp [List.getElem?_set, hlt]

/-- C21 at the state `ownerAndObserver`: the owner on block 0 is moved from. -/
theorem C21_move_construct_witness :
    ownerAndObserver.sps[0]? = some ⟨some 0⟩ ∧
    (SharedPtr.move ⟨some 0⟩ = (⟨some 0⟩, ⟨none⟩) ∧
    ∃ w1, step ownerAndObserver (.spMove 0) = some w1 ∧
      w1.sps[ownerAndObserver.sps.length]? = some ⟨some 0⟩ ∧
      w1.sps[0]? = some ⟨none⟩ ∧
      SharedPtr.get w1.heap ⟨none⟩ = none ∧
      SharedPtr.get w1.heap ⟨some 0⟩ = SharedPtr.get ownerAndObserver.heap ⟨some 0⟩ ∧
      w1.heap = ownerAndObserver.heap ∧
      (∀ a, (w1.heap a).shared_count = (ownerAndObserver.heap a).shared_count ∧
        (w1.heap a).weak_count = (ownerAndObserver.heap a).weak_count ∧
        (w1.heap a).deleterCalls = (ownerAndObserver.heap a).deleterCalls)) :=
  ⟨rfl, C21_move_construct ownerAndObserver 0 ⟨some 0⟩ rfl⟩

/-- C22: on a store where block `a` has `weak_count + 1` representable,
`WeakPtr(const SharedPtr&)` from an owner on `a` and `WeakPtr(const WeakPtr&)`
from an observer on `a` each leave `weak_count` of `a` exactly one higher and
every `shared_count` (so every `use_count()`) as it was; and every member of
the observing handle other than `lock()` (default, converting, copy and move
construction, copy and move assignment, destruction) leaves the
`shared_count` of every block as it was; the reads `expired()` and
`use_count()` are functions of the store and return none. -/
theorem C22_observer_counts (h : Heap) (a : Nat) (hw : (h a).weak_count + 1 < SIZE_MOD) :
    (((WeakPtr.fromShared h ⟨some a⟩).1 a).weak_count = (h a).weak_count + 1 ∧
      (WeakPtr.fromShared h ⟨some a⟩).2 = ⟨some a⟩ ∧
      (∀ x, ((WeakPtr.fromShared h ⟨some a⟩).1 x).shared_count = (h x).shared_count) ∧
      (∀ sp, SharedPtr.use_count (WeakPtr.fromShared h ⟨some a⟩).1 sp
        = SharedPtr.use_count h sp)) ∧
    (((WeakPtr.copy h ⟨some a⟩).1 a).weak_count = (h a).weak_count + 1 ∧
      (WeakPtr.copy h ⟨some a⟩).2 = ⟨some a⟩ ∧
      (∀ x, ((WeakPtr.copy h ⟨some a⟩).1 x).shared_count = (h x).shared_count) ∧
      (∀ sp, SharedPtr.use_count (WeakPtr.copy h ⟨some a⟩).1 sp = SharedPtr.use_count h sp)) ∧
    (∀ (w w1 : World) (op : Op), op.isObserverOp = true → step w op = some w1 →
      ∀ x, (w1.heap x).shared_count = (w.heap x).shared_count) := by
  have hu : ∀ (h1 : Heap), (∀ x, (h1 x).shared_count = (h x).shared_count) →
      ∀ sp, SharedPtr.use_count h1 sp = SharedPtr.use_count h sp := by
    intro h1 e sp
    unfold SharedPtr.use_count
    cases sp.cb with
    | none => rfl
    | some b => simp [e b]
  refine ⟨⟨bumpWeak_weak h a hw, rfl, fun x => bumpWeak_shared h _ x,
      hu _ (fun x => bumpWeak_shared h _ x)⟩,
    ⟨bumpWeak_weak h a hw, rfl, fun x => bumpWeak_shared h _ x,
      hu _ (fun x => bumpWeak_shared h _ x)⟩, ?_⟩
  intro w w1 op hop hs x
  cases op <;> simp only [Op.isObserverOp] at hop <;> try cases hop
  · simp only [step, Option.some.injEq] at hs; subst hs; rfl
  · simp only [step, readOwner_eq] at hs
    cases h1 : w.sps[‹Nat›]? with
    | none => simp [h1] at hs
    | some sp =>
      simp only [h1, Option.some.injEq] at hs; subst hs
      exact bumpWeak_shared _ _ x
  · simp only [step, readOwner_eq] at hs
    cases h1 : w.wps[‹Nat›]? with
    | none => simp [h1] at hs
    | some wp =>
      simp only [h1, Option.some.injEq] at hs; subst hs
      exact bumpWeak_shared _ _ x
  · simp only [step, readOwner_eq] at hs
    cases h1 : w.wps[‹Nat›]? with
    | none => simp [h1] at hs
    | some wp =>
      simp only [h1, Option.some.injEq] at hs; subst hs; rfl
  · rename_i dst src
    simp only [step, readOwner_eq] at hs
    cases h1 : w.wps[dst]? with
    | none => simp [h1] at hs
    | some d =>
      cases h2 : w.wps[src]? with
      | none => simp [h1, h2] at hs
      | some s =>
        simp only [h1, h2, Option.some.injEq] at hs; subst hs
        show ((WeakPtr.dtor (bumpWeak w.heap s.cb) d) x).shared_count = _
        rw [wp_dtor_shared, bumpWeak_shared]
  · rename_i dst src
    simp only [step, readOwner_eq] at hs
    cases h1 : w.wps[dst]? with
    | none => simp [h1] at hs
    | some d =>
      cases h2 : w.wps[src]? with
      | none => simp [h1, h2] at hs
      | some s =>
        simp only [h1, h2] at hs
        cases h3 : ((w.wps.set src (WeakPtr.move s).2)[dst]?) with
        | none => simp [h3] at hs
        | some d1 =>
          simp only [h3, Option.some.injEq] at hs; subst hs
          exact wp_dtor_shared _ _ x
  · simp only [step, readOwner_eq] at hs
    cases h1 : w.wps[‹Nat›]? with
    | none => simp [h1] at hs
    | some wp =>
      simp only [h1, Option.some.injEq] at hs; subst hs
      exact wp_dtor_shared _ _ x

/-- C22 at the state `ownerAndObserver`: copying the observer of block 0
leaves `weak_count` at 2 and `shared_count` at 1. -/
theorem C22_observer_counts_witness :
    (ownerAndObserver.heap 0).weak_count + 1 < SIZE_MOD ∧
    ((WeakPtr.copy ownerAndObserver.heap ⟨some 0⟩).1 0).weak_count = 2 ∧
    ((WeakPtr.copy ownerAndObserver.heap ⟨some 0⟩).1 0).shared_count = 1 :=
  ⟨by decide,
    ((C22_observer_counts ownerAndObserver.heap 0 (by decide)).2.1.1).trans (by decide),
    (((C22_observer_counts ownerAndObserver.heap 0 (by decide)).2.1.2.2.1) 0).trans
      (by decide)⟩

end SmartPointers

/-! ## Theorems: counts and live handles -/

namespace SmartPointers

/-- C37: `expired()` returns true exactly when the handle refers to a control
block whose `shared_count` is 0; on an empty observing handle `expired()`
returns false, and `lock()` returns an empty owning handle and changes no
control block. -/
theorem C37_expired_and_lock_on_empty (h : Heap) (wp : WeakPtr) :
    (WeakPtr.expired h wp = true ↔ ∃ a, wp.cb = some a ∧ (h a).shared_count = 0) ∧
    WeakPtr.expired h ⟨none⟩ = false ∧
    WeakPtr.lock h ⟨none⟩ = (h, ⟨none⟩) ∧
    SharedPtr.get h (WeakPtr.lock h ⟨none⟩).2 = none := by
  refine ⟨?_, rfl, rfl, rfl⟩
  obtain ⟨cb⟩ := wp
  cases cb with
  | none => simp [WeakPtr.expired]
  | some a => simp [WeakPtr.expired]

theorem count_set_add {α : Type} [DecidableEq α] (a x y : α) :
    ∀ (l : List α) (i : Nat), l[i]? = some y →
      (l.set i x).count a + (if y = a then 1 else 0) = l.count a + (if x = a then 1 else 0)
  | [], i, h => by simp at h
  | z :: l, 0, h => by
    simp only [List.getElem?_cons_zero, Option.some.injEq] at h
    subst h
    simp only [List.set_cons_zero, List.count_cons, beq_iff_eq]
    omega
  | z :: l, i + 1, h => by
    simp only [List.getElem?_cons_succ] at h
    have := count_set_add a x y l i h
    simp only [List.set_cons_succ, List.count_cons, beq_iff_eq]
    omega

theorem count_eraseIdx_add {α : Type} [DecidableEq α] (a y : α) :
    ∀ (l : List α) (i : Nat), l[i]? = some y →
      (l.eraseIdx i).count a + (if y = a then 1 else 0) = l.count a
  | [], i, h => by simp at h
  | z :: l, 0, h => by
    simp only [List.getElem?_cons_zero, Option.some.injEq] at h
    subst h
    simp only [List.eraseIdx_cons_zero, List.count_cons, beq_iff_eq]
  | z :: l, i + 1, h => by
    simp only [List.getElem?_cons_succ] at h
    have := count_eraseIdx_add a y l i h
    simp only [List.eraseIdx_cons_succ, List.count_cons, beq_iff_eq]
    omega

theorem count_pos_of_get {α : Type} [DecidableEq α] (y : α) (l : List α) (i : Nat)
    (h : l[i]? = some y) : 1 ≤ l.count y :=
  List.count_pos_iff.mpr (List.mem_iff_getElem?.mpr ⟨i, h⟩)

theorem usub_one (x : Nat) (h1 : 1 ≤ x) (h2 : x < SIZE_MOD) : usub x 1 = x - 1 := by
  unfold usub SIZE_MOD at *
  omega

theorem uadd_one (x : Nat) (h2 : x + 1 < SIZE_MOD) : uadd x 1 = x + 1 := by
  unfold uadd
  exact Nat.mod_eq_of_lt h2

theorem bumpShared_counts (h : Heap) (cb : Option Nat) (a : Nat)
    (hlt : (h a).shared_count + 1 < SIZE_MOD) :
    ((bumpShared h cb) a).shared_count
        = (h a).shared_count + (if (⟨cb⟩ : SharedPtr) = ⟨some a⟩ then 1 else 0) ∧
    ((bumpShared h cb) a).weak_count = (h a).weak_count := by
  cases cb with
  | none => simp [bumpShared]
  | some b =>
    by_cases hb : a = b
    · subst hb
      simp [bumpShared, heap_modify_same, uadd_one _ hlt]
    · have : ¬ (b = a) := fun e => hb e.symm
      simp [bumpShared, heap_modify_other _ _ _ _ hb, this]

theorem bumpWeak_counts (h : Heap) (cb : Option Nat) (a : Nat)
    (hlt : (h a).weak_count + 1 < SIZE_MOD) :
    ((bumpWeak h cb) a).weak_count
        = (h a).weak_count + (if (⟨cb⟩ : WeakPtr) = ⟨some a⟩ then 1 else 0) ∧
    ((bumpWeak h cb) a).shared_count = (h a).shared_count := by
  cases cb with
  | none => simp [bumpWeak]
  | some b =>
    by_cases hb : a = b
    · subst hb
      simp [bumpWeak, heap_modify_same, uadd_one _ hlt]
    · have : ¬ (b = a) := fun e => hb e.symm
      simp [bumpWeak, heap_modify_other _ _ _ _ hb, this]

theorem sp_dtor_counts (h : Heap) (sp : SharedPtr) (a : Nat)
    (hpos : sp = ⟨some a⟩ → 1 ≤ (h a).shared_count) (hlt : (h a).shared_count < SIZE_MOD) :
    ((SharedPtr.dtor h sp) a).shared_count + (if sp = ⟨some a⟩ then 1 else 0)
        = (h a).shared_count ∧
    ((SharedPtr.dtor h sp) a).weak_count = (h a).weak_count := by
  obtain ⟨cb⟩ := sp
  cases cb with
  | none => simp [SharedPtr.dtor]
  | some b =>
    by_cases hb : a = b
    · subst hb
      have h1 := hpos rfl
      have e := usub_one _ h1 hlt
      obtain ⟨a1, a2, -⟩ := sp_dtor_self h a
      rw [a1, a2, e, if_pos rfl]
      exact ⟨by omega, rfl⟩
    · have hne : (⟨some b⟩ : SharedPtr).cb ≠ some a := by
        simp only [ne_eq, Option.some.injEq]; exact fun e => hb e.symm
      have := sp_dtor_other h ⟨some b⟩ a hne
      have hb2 : ¬ (b = a) := fun e => hb e.symm
      simp [this, hb2]

theorem wp_dtor_counts (h : Heap) (wp : WeakPtr) (a : Nat)
    (hpos : wp = ⟨some a⟩ → 1 ≤ (h a).weak_count) (hlt : (h a).weak_count < SIZE_MOD) :
    ((WeakPtr.dtor h wp) a).weak_count + (if wp = ⟨some a⟩ then 1 else 0)
        = (h a).weak_count ∧
    ((WeakPtr.dtor h wp) a).shared_count = (h a).shared_count := by
  refine ⟨?_, wp_dtor_shared h wp a⟩
  obtain ⟨cb⟩ := wp
  cases cb with
  | none => simp [WeakPtr.dtor]
  | some b =>
    by_cases hb : a = b
    · subst hb
      have h1 := hpos rfl
      have e := usub_one _ h1 hlt
      simp only [WeakPtr.dtor, heap_modify_same, e]
      split_ifs <;> simp [heap_modify_same, useDeallocator] <;> omega
    · have hb2 : ¬ (b = a) := fun e => hb e.symm
      have : (WeakPtr.dtor h ⟨some b⟩) a = h a := by
        unfold WeakPtr.dtor
        simp only []
        split_ifs <;> simp only [Heap.modify, if_neg hb]
      simp [this, hb2]

theorem fresh_counts (h : Heap) (brk : Nat) (k : BlockKind) (obj a : Nat) :
    ((bumpShared (h.modify brk (fun _ => freshBlock k obj)) (some brk)) a).shared_count
        = (if a = brk then 1 else (h a).shared_count) ∧
    ((bumpShared (h.modify brk (fun _ => freshBlock k obj)) (some brk)) a).weak_count
        = (if a = brk then 0 else (h a).weak_count) := by
  by_cases hb : a = brk
  · subst hb
    simp only [bumpShared, heap_modify_same, freshBlock, if_pos]
    exact ⟨by decide, trivial⟩
  · simp [bumpShared, heap_modify_other _ _ _ _ hb, hb]

theorem sp_eq_iff (cb : Option Nat) (a : Nat) :
    ((⟨cb⟩ : SharedPtr) = ⟨some a⟩) ↔ cb = some a := by
  constructor
  · intro h; exact congrArg SharedPtr.cb h
  · intro h; rw [h]

theorem wp_eq_iff (cb : Option Nat) (a : Nat) :
    ((⟨cb⟩ : WeakPtr) = ⟨some a⟩) ↔ cb = some a := by
  constructor
  · intro h; exact congrArg WeakPtr.cb h
  · intro h; rw [h]

theorem counted_intro (w : World) (n : Nat)
    (h1 : ∀ a, (w.heap a).shared_count = w.sps.count ⟨some a⟩)
    (h2 : ∀ a, (w.heap a).weak_count = w.wps.count ⟨some a⟩)
    (h3 : ∀ a, w.brk ≤ a → w.sps.count ⟨some a⟩ = 0 ∧ w.wps.count ⟨some a⟩ = 0)
    (h4 : w.sps.length + w.wps.length ≤ n) : Counted w n :=
  ⟨h1, h2, h3, h4⟩

theorem counted_elim {w : World} {n : Nat} (hc : Counted w n) :
    (∀ a, (w.heap a).shared_count = w.sps.count ⟨some a⟩) ∧
    (∀ a, (w.heap a).weak_count = w.wps.count ⟨some a⟩) ∧
    (∀ a, w.brk ≤ a → w.sps.count ⟨some a⟩ = 0 ∧ w.wps.count ⟨some a⟩ = 0) ∧
    w.sps.length + w.wps.length ≤ n ∧
    (∀ a, (w.heap a).shared_count ≤ n) ∧ (∀ a, (w.heap a).weak_count ≤ n) :=
  ⟨hc.shared, hc.weak, hc.fresh, hc.handles,
    fun a => by
      have h1 := hc.shared a
      have h2 : w.sps.count ⟨some a⟩ ≤ w.sps.length := List.count_le_length _ _
      have h3 := hc.handles
      unfold World.owners at h1
      omega,
    fun a => by
      have h1 := hc.weak a
      have h2 : w.wps.count ⟨some a⟩ ≤ w.wps.length := List.count_le_length _ _
      have h3 := hc.handles
      unfold World.observers at h1
      omega⟩

/-- A new block at the frontier: the counts of every block after
`SharedPtr(ptr)` or `allocateShared`. -/
theorem fresh_counted (w : World) (n : Nat) (k : BlockKind) (obj : Nat) (hc : Counted w n) :
    Counted { w with
      heap := bumpShared (w.heap.modify w.brk (fun _ => freshBlock k obj)) (some w.brk)
      brk := w.brk + 1
      sps := w.sps ++ [⟨some w.brk⟩] } (n + 1) := by
  obtain ⟨hsh, hwk, hfr, hlen, hS, hW⟩ := counted_elim hc
  refine counted_intro _ _ (fun a => ?_) (fun a => ?_) (fun a ha => ?_) ?_
  · have := (fresh_counts w.heap w.brk k obj a).1
    simp only [this, List.count_append, List.count_cons, List.count_nil, beq_iff_eq,
      sp_eq_iff, Option.some.injEq]
    by_cases hb : a = w.brk
    · subst hb
      rw [if_pos rfl, if_pos rfl, (hfr _ (le_refl _)).1]
    · rw [if_neg hb, if_neg (fun e => hb e.symm), hsh a]; rfl
  · have := (fresh_counts w.heap w.brk k obj a).2
    simp only [this]
    by_cases hb : a = w.brk
    · subst hb
      rw [if_pos rfl, (hfr _ (le_refl _)).2]
    · rw [if_neg hb, hwk a]
  · simp only at ha
    have hne : ¬ (w.brk = a) := by omega
    simp only [List.count_append, List.count_cons, List.count_nil, beq_iff_eq,
      sp_eq_iff, Option.some.injEq, if_neg hne]
    exact ⟨by rw [(hfr a (by omega)).1], (hfr a (by omega)).2⟩
  · simp only [List.length_append, List.length_singleton]
    omega

/-- A handle of a counted state refers to a block below the frontier. -/
theorem count_pos_below {w : World} {n : Nat} (hc : Counted w n) (a : Nat)
    (h : 1 ≤ w.sps.count ⟨some a⟩ ∨ 1 ≤ w.wps.count ⟨some a⟩) : a < w.brk := by
  by_contra hge
  have := (counted_elim hc).2.2.1 a (by omega)
  omega

/-- An owning handle appended to a counted state, its block's `shared_count`
incremented. -/
theorem append_owner_counted (w : World) (n : Nat) (cb : Option Nat) (hc : Counted w n)
    (hn : n + 1 < SIZE_MOD)
    (hcb : ∀ a, cb = some a → 1 ≤ w.sps.count ⟨some a⟩ ∨ 1 ≤ w.wps.count ⟨some a⟩) :
    Counted { w with heap := bumpShared w.heap cb, sps := w.sps ++ [⟨cb⟩] } (n + 1) := by
  obtain ⟨hsh, hwk, hfr, hlen, hS, hW⟩ := counted_elim hc
  refine counted_intro _ _ (fun a => ?_) (fun a => ?_) (fun a ha => ?_) ?_
  · have := (bumpShared_counts w.heap cb a (by have := hS a; omega)).1
    simp only [this, List.count_append, List.count_cons, List.count_nil, beq_iff_eq, hsh a]
    omega
  · have := (bumpShared_counts w.heap cb a (by have := hS a; omega)).2
    simp only [this, hwk a]
  · simp only at ha
    have hne : ¬ ((⟨cb⟩ : SharedPtr) = ⟨some a⟩) := by
      intro e
      have := count_pos_below hc a (hcb a ((sp_eq_iff cb a).mp e))
      omega
    simp only [List.count_append, List.count_cons, List.count_nil, beq_iff_eq, if_neg hne]
    exact ⟨by rw [(hfr a ha).1], (hfr a ha).2⟩
  · simp only [List.length_append, List.length_singleton]
    omega

/-- An observing handle appended to a counted state, its block's
`weak_count` incremented. -/
theorem append_observer_counted (w : World) (n : Nat) (cb : Option Nat) (hc : Counted w n)
    (hn : n + 1 < SIZE_MOD)
    (hcb : ∀ a, cb = some a → 1 ≤ w.sps.count ⟨some a⟩ ∨ 1 ≤ w.wps.count ⟨some a⟩) :
    Counted { w with heap := bumpWeak w.heap cb, wps := w.wps ++ [⟨cb⟩] } (n + 1) := by
  obtain ⟨hsh, hwk, hfr, hlen, hS, hW⟩ := counted_elim hc
  refine counted_intro _ _ (fun a => ?_) (fun a => ?_) (fun a ha => ?_) ?_
  · have := (bumpWeak_counts w.heap cb a (by have := hW a; omega)).2
    simp only [this, hsh a]
  · have := (bumpWeak_counts w.heap cb a (by have := hW a; omega)).1
    simp only [this, List.count_append, List.count_cons, List.count_nil, beq_iff_eq, hwk a]
    omega
  · simp only at ha
    have hne : ¬ ((⟨cb⟩ : WeakPtr) = ⟨some a⟩) := by
      intro e
      have := count_pos_below hc a (hcb a ((wp_eq_iff cb a).mp e))
      omega
    simp only [List.count_append, List.count_cons, List.count_nil, beq_iff_eq, if_neg hne]
    exact ⟨(hfr a ha).1, by rw [(hfr a ha).2]⟩
  · simp only [List.length_append, List.length_singleton]
    omega

theorem sp_count_of_get (l : List SharedPtr) (i : Nat) (sp : SharedPtr) (a : Nat)
    (h : l[i]? = some sp) (e : sp.cb = some a) : 1 ≤ l.count ⟨some a⟩ := by
  have : sp = ⟨some a⟩ := by obtain ⟨cb⟩ := sp; exact (sp_eq_iff cb a).mpr e
  rw [← this]
  exact count_pos_of_get sp l i h

theorem wp_count_of_get (l : List WeakPtr) (i : Nat) (wp : WeakPtr) (a : Nat)
    (h : l[i]? = some wp) (e : wp.cb = some a) : 1 ≤ l.count ⟨some a⟩ := by
  have : wp = ⟨some a⟩ := by obtain ⟨cb⟩ := wp; exact (wp_eq_iff cb a).mpr e
  rw [← this]
  exact count_pos_of_get wp l i h

/-- The owner at position `i` replaced by a handle on `cb`, whose block's
`shared_count` is incremented first, and the destructor run on the handle
`d` that was there. -/
theorem replace_owner_counted (w : World) (n : Nat) (i : Nat) (d : SharedPtr)
    (cb : Option Nat) (hc : Counted w n) (hn : n + 1 < SIZE_MOD) (hi : w.sps[i]? = some d)
    (hcb : ∀ a, cb = some a → 1 ≤ w.sps.count ⟨some a⟩ ∨ 1 ≤ w.wps.count ⟨some a⟩) :
    Counted { w with heap := SharedPtr.dtor (bumpShared w.heap cb) d,
                     sps := w.sps.set i ⟨cb⟩ } (n + 1) := by
  obtain ⟨hsh, hwk, hfr, hlen, hS, hW⟩ := counted_elim hc
  have hset := fun a => count_set_add (⟨some a⟩ : SharedPtr) ⟨cb⟩ d w.sps i hi
  have hb := fun a => bumpShared_counts w.heap cb a (by have := hS a; omega)
  have hd := fun a => sp_dtor_counts (bumpShared w.heap cb) d a
    (by
      intro e
      have := count_pos_of_get d w.sps i hi
      rw [e, ← hsh a] at this
      rw [(hb a).1]; omega)
    (by rw [(hb a).1]; have := hS a; split_ifs <;> omega)
  refine counted_intro _ _ (fun a => ?_) (fun a => ?_) (fun a ha => ?_) ?_
  · have h1 := (hd a).1
    have h2 := (hb a).1
    have h3 := hset a
    have h4 := hsh a
    simp only
    omega
  · simp only [(hd a).2, (hb a).2, hwk a]
  · simp only at ha
    have hne : ¬ ((⟨cb⟩ : SharedPtr) = ⟨some a⟩) := by
      intro e
      have := count_pos_below hc a (hcb a ((sp_eq_iff cb a).mp e))
      omega
    have h3 := hset a
    rw [if_neg hne, (hfr a ha).1] at h3
    simp only
    exact ⟨by omega, (hfr a ha).2⟩
  · simp only [List.length_set]
    omega

/-- The observer at position `i` replaced by a handle on `cb`, whose block's
`weak_count` is incremented first, and the destructor run on the handle `d`
that was there. -/
theorem replace_observer_counted (w : World) (n : Nat) (i : Nat) (d : WeakPtr)
    (cb : Option Nat) (hc : Counted w n) (hn : n + 1 < SIZE_MOD) (hi : w.wps[i]? = some d)
    (hcb : ∀ a, cb = some a → 1 ≤ w.sps.count ⟨some a⟩ ∨ 1 ≤ w.wps.count ⟨some a⟩) :
    Counted { w with heap := WeakPtr.dtor (bumpWeak w.heap cb) d,
                     wps := w.wps.set i ⟨cb⟩ } (n + 1) := by
  obtain ⟨hsh, hwk, hfr, hlen, hS, hW⟩ := counted_elim hc
  have hset := fun a => count_set_add (⟨some a⟩ : WeakPtr) ⟨cb⟩ d w.wps i hi
  have hb := fun a => bumpWeak_counts w.heap cb a (by have := hW a; omega)
  have hd := fun a => wp_dtor_counts (bumpWeak w.heap cb) d a
    (by
      intro e
      have := count_pos_of_get d w.wps i hi
      rw [e, ← hwk a] at this
      rw [(hb a).1]; omega)
    (by rw [(hb a).1]; have := hW a; split_ifs <;> omega)
  refine counted_intro _ _ (fun a => ?_) (fun a => ?_) (fun a ha => ?_) ?_
  · simp only [(hd a).2, (hb a).2, hsh a]
  · have h1 := (hd a).1
    have h2 := (hb a).1
    have h3 := hset a
    have h4 := hwk a
    simp only
    omega
  · simp only at ha
    have hne : ¬ ((⟨cb⟩ : WeakPtr) = ⟨some a⟩) := by
      intro e
      have := count_pos_below hc a (hcb a ((wp_eq_iff cb a).mp e))
      omega
    have h3 := hset a
    rw [if_neg hne, (hfr a ha).2] at h3
    simp only
    exact ⟨(hfr a ha).1, by omega⟩
  · simp only [List.length_set]
    omega

/-- The owner at position `i` destroyed. -/
theorem erase_owner_counted (w : World) (n : Nat) (i : Nat) (d : SharedPtr)
    (hc : Counted w n) (hn : n + 1 < SIZE_MOD) (hi : w.sps[i]? = some d) :
    Counted { w with heap := SharedPtr.dtor w.heap d, sps := w.sps.eraseIdx i } (n + 1) := by
  obtain ⟨hsh, hwk, hfr, hlen, hS, hW⟩ := counted_elim hc
  have hset := fun a => count_eraseIdx_add (⟨some a⟩ : SharedPtr) d w.sps i hi
  have hd := fun a => sp_dtor_counts w.heap d a
    (by
      intro e
      have := count_pos_of_get d w.sps i hi
      rw [e, ← hsh a] at this
      exact this)
    (by have := hS a; omega)
  refine counted_intro _ _ (fun a => ?_) (fun a => ?_) (fun a ha => ?_) ?_
  · have h1 := (hd a).1
    have h3 := hset a
    have h4 := hsh a
    simp only
    omega
  · simp only [(hd a).2, hwk a]
  · simp only at ha
    have h3 := hset a
    rw [(hfr a ha).1] at h3
    simp only
    exact ⟨by omega, (hfr a ha).2⟩
  · have : (w.sps.eraseIdx i).length ≤ w.sps.length := List.length_eraseIdx_le _ _
    simp only
    omega

/-- The observer at position `i` destroyed. -/
theorem erase_observer_counted (w : World) (n : Nat) (i : Nat) (d : WeakPtr)
    (hc : Counted w n) (hn : n + 1 < SIZE_MOD) (hi : w.wps[i]? = some d) :
    Counted { w with heap := WeakPtr.dtor w.heap d, wps := w.wps.eraseIdx i } (n + 1) := by
  obtain ⟨hsh, hwk, hfr, hlen, hS, hW⟩ := counted_elim hc
  have hset := fun a => count_eraseIdx_add (⟨some a⟩ : WeakPtr) d w.wps i hi
  have hd := fun a => wp_dtor_counts w.heap d a
    (by
      intro e
      have := count_pos_of_get d w.wps i hi
      rw [e, ← hwk a] at this
      exact this)
    (by have := hW a; omega)
  refine counted_intro _ _ (fun a => ?_) (fun a => ?_) (fun a ha => ?_) ?_
  · simp only [(hd a).2, hsh a]
  · have h1 := (hd a).1
    have h3 := hset a
    have h4 := hwk a
    simp only
    omega
  · simp only at ha
    have h3 := hset a
    rw [(hfr a ha).2] at h3
    simp only
    exact ⟨(hfr a ha).1, by omega⟩
  · have : (w.wps.eraseIdx i).length ≤ w.wps.length := List.length_eraseIdx_le _ _
    simp only
    omega

/-- The owner at position `i` moved from: it becomes empty, and a new owner
on its block is appended. -/
theorem move_owner_counted (w : World) (n : Nat) (i : Nat) (sp : SharedPtr)
    (hc : Counted w n) (hi : w.sps[i]? = some sp) :
    Counted { w with sps := w.sps.set i ⟨none⟩ ++ [⟨sp.cb⟩] } (n + 1) := by
  obtain ⟨hsh, hwk, hfr, hlen, hS, hW⟩ := counted_elim hc
  have hset := fun a => count_set_add (⟨some a⟩ : SharedPtr) ⟨none⟩ sp w.sps i hi
  have hnone : ∀ a : Nat, ¬ ((⟨none⟩ : SharedPtr) = ⟨some a⟩) := fun a e => by
    have := congrArg SharedPtr.cb e
    simp at this
  have hcnt : ∀ a : Nat, List.count (⟨some a⟩ : SharedPtr) (w.sps.set i ⟨none⟩ ++ [⟨sp.cb⟩])
      = w.sps.count ⟨some a⟩ := by
    intro a
    have h3 := hset a
    rw [if_neg (hnone a)] at h3
    simp only [List.count_append, List.count_cons, List.count_nil, beq_iff_eq]
    have e : (⟨sp.cb⟩ : SharedPtr) = sp := rfl
    rw [e]
    omega
  refine counted_intro _ _ (fun a => ?_) (fun a => ?_) (fun a ha => ?_) ?_
  · simp only [hcnt a, hsh a]
  · simp only [hwk a]
  · simp only at ha
    simp only [hcnt a]
    exact hfr a ha
  · simp only [List.length_append, List.length_set, List.length_singleton]
    omega

/-- The move-assignment between owners: the source is emptied, the
destination takes the source's block, and the destructor runs on the handle
`d1` the destination held. -/
theorem move_assign_owner_counted (w : World) (n : Nat) (dst src : Nat) (s d1 : SharedPtr)
    (hc : Counted w n) (hn : n + 1 < SIZE_MOD) (hs : w.sps[src]? = some s)
    (hd1 : (w.sps.set src ⟨none⟩)[dst]? = some d1) :
    Counted { w with heap := SharedPtr.dtor w.heap d1,
                     sps := (w.sps.set src ⟨none⟩).set dst ⟨s.cb⟩ } (n + 1) := by
  obtain ⟨hsh, hwk, hfr, hlen, hS, hW⟩ := counted_elim hc
  have hset1 := fun a => count_set_add (⟨some a⟩ : SharedPtr) ⟨none⟩ s w.sps src hs
  have hset2 := fun a => count_set_add (⟨some a⟩ : SharedPtr) ⟨s.cb⟩ d1
    (w.sps.set src ⟨none⟩) dst hd1
  have hnone : ∀ a : Nat, ¬ ((⟨none⟩ : SharedPtr) = ⟨some a⟩) := fun a e => by
    have := congrArg SharedPtr.cb e
    simp at this
  have e : (⟨s.cb⟩ : SharedPtr) = s := rfl
  have hcnt : ∀ a : Nat, List.count (⟨some a⟩ : SharedPtr) ((w.sps.set src ⟨none⟩).set dst ⟨s.cb⟩)
      + (if d1 = ⟨some a⟩ then 1 else 0) = w.sps.count ⟨some a⟩ := by
    intro a
    have h1 := hset1 a
    have h2 := hset2 a
    rw [if_neg (hnone a)] at h1
    rw [e] at h2 ⊢
    omega
  have hd := fun a => sp_dtor_counts w.heap d1 a
    (by
      intro e1
      have := hcnt a
      rw [if_pos e1] at this
      rw [hsh a]; omega)
    (by have := hS a; omega)
  refine counted_intro _ _ (fun a => ?_) (fun a => ?_) (fun a ha => ?_) ?_
  · have h1 := (hd a).1
    have h3 := hcnt a
    have h4 := hsh a
    simp only
    omega
  · simp only [(hd a).2, hwk a]
  · simp only at ha
    have h3 := hcnt a
    rw [(hfr a ha).1] at h3
    simp only
    exact ⟨by omega, (hfr a ha).2⟩
  · simp only [List.length_set]
    omega

/-- The observer at position `i` moved from: it becomes empty, and a new
observer on its block is appended. -/
theorem move_observer_counted (w : World) (n : Nat) (i : Nat) (wp : WeakPtr)
    (hc : Counted w n) (hi : w.wps[i]? = some wp) :
    Counted { w with wps := w.wps.set i ⟨none⟩ ++ [⟨wp.cb⟩] } (n + 1) := by
  obtain ⟨hsh, hwk, hfr, hlen, hS, hW⟩ := counted_elim hc
  have hset := fun a => count_set_add (⟨some a⟩ : WeakPtr) ⟨none⟩ wp w.wps i hi
  have hnone : ∀ a : Nat, ¬ ((⟨none⟩ : WeakPtr) = ⟨some a⟩) := fun a e => by
    have := congrArg WeakPtr.cb e
    simp at this
  have hcnt : ∀ a : Nat, List.count (⟨some a⟩ : WeakPtr) (w.wps.set i ⟨none⟩ ++ [⟨wp.cb⟩])
      = w.wps.count ⟨some a⟩ := by
    intro a
    have h3 := hset a
    rw [if_neg (hnone a)] at h3
    simp only [List.count_append, List.count_cons, List.count_nil, beq_iff_eq]
    have e : (⟨wp.cb⟩ : WeakPtr) = wp := rfl
    rw [e]
    omega
  refine counted_intro _ _ (fun a => ?_) (fun a => ?_) (fun a ha => ?_) ?_
  · simp only [hsh a]
  · simp only [hcnt a, hwk a]
  · simp only at ha
    simp only [hcnt a]
    exact hfr a ha
  · simp only [List.length_append, List.length_set, List.length_singleton]
    omega

/-- The move-assignment between observers: the source is emptied, the
destination takes the source's block, and the destructor runs on the handle
`d1` the destination held. -/
theorem move_assign_observer_counted (w : World) (n : Nat) (dst src : Nat) (s d1 : WeakPtr)
    (hc : Counted w n) (hn : n + 1 < SIZE_MOD) (hs : w.wps[src]? = some s)
    (hd1 : (w.wps.set src ⟨none⟩)[dst]? = some d1) :
    Counted { w with heap := WeakPtr.dtor w.heap d1,
                     wps := (w.wps.set src ⟨none⟩).set dst ⟨s.cb⟩ } (n + 1) := by
  obtain ⟨hsh, hwk, hfr, hlen, hS, hW⟩ := counted_elim hc
  have hset1 := fun a => count_set_add (⟨some a⟩ : WeakPtr) ⟨none⟩ s w.wps src hs
  have hset2 := fun a => count_set_add (⟨some a⟩ : WeakPtr) ⟨s.cb⟩ d1
    (w.wps.set src ⟨none⟩) dst hd1
  have hnone : ∀ a : Nat, ¬ ((⟨none⟩ : WeakPtr) = ⟨some a⟩) := fun a e => by
    have := congrArg WeakPtr.cb e
    simp at this
  have e : (⟨s.cb⟩ : WeakPtr) = s := rfl
  have hcnt : ∀ a : Nat, List.count (⟨some a⟩ : WeakPtr) ((w.wps.set src ⟨none⟩).set dst ⟨s.cb⟩)
      + (if d1 = ⟨some a⟩ then 1 else 0) = w.wps.count ⟨some a⟩ := by
    intro a
    have h1 := hset1 a
    have h2 := hset2 a
    rw [if_neg (hnone a)] at h1
    rw [e] at h2 ⊢
    omega
  have hd := fun a => wp_dtor_counts w.heap d1 a
    (by
      intro e1
      have := hcnt a
      rw [if_pos e1] at this
      rw [hwk a]; omega)
    (by have := hW a; omega)
  refine counted_intro _ _ (fun a => ?_) (fun a => ?_) (fun a ha => ?_) ?_
  · simp only [(hd a).2, hsh a]
  · have h1 := (hd a).1
    have h3 := hcnt a
    have h4 := hwk a
    simp only
    omega
  · simp only at ha
    have h3 := hcnt a
    rw [(hfr a ha).2] at h3
    simp only
    exact ⟨(hfr a ha).1, by omega⟩
  · simp only [List.length_set]
    omega

/-- Every operation of a program keeps the counts equal to the numbers of
live handles. -/
theorem step_counted (w w' : World) (op : Op) (n : Nat) (hc : Counted w n)
    (hn : n + 1 < SIZE_MOD) (hs : step w op = some w') : Counted w' (n + 1) := by
  have hsp : ∀ (i : Nat) (sp : SharedPtr), w.sps[i]? = some sp → ∀ a, sp.cb = some a →
      1 ≤ w.sps.count ⟨some a⟩ ∨ 1 ≤ w.wps.count ⟨some a⟩ :=
    fun i sp hi a e => Or.inl (sp_count_of_get w.sps i sp a hi e)
  have hwp : ∀ (i : Nat) (wp : WeakPtr), w.wps[i]? = some wp → ∀ a, wp.cb = some a →
      1 ≤ w.sps.count ⟨some a⟩ ∨ 1 ≤ w.wps.count ⟨some a⟩ :=
    fun i wp hi a e => Or.inr (wp_count_of_get w.wps i wp a hi e)
  have hnone : ∀ a, (none : Option Nat) = some a →
      1 ≤ w.sps.count ⟨some a⟩ ∨ 1 ≤ w.wps.count ⟨some a⟩ := fun a e => by simp at e
  cases op with
  | spFromRaw ptr =>
    simp only [step, allocate, SharedPtr.fromRaw, Option.some.injEq] at hs
    subst hs
    exact fresh_counted w n .regular ptr hc
  | spMake =>
    simp only [step, allocate, allocateShared, Option.some.injEq] at hs
    subst hs
    exact fresh_counted w n .makeShared w.brk hc
  | spDefault =>
    simp only [step, Option.some.injEq] at hs
    subst hs
    exact ⟨hc.shared, hc.weak, hc.fresh, Nat.le_succ_of_le hc.handles⟩
  | spValueInit =>
    simp only [step, Option.some.injEq] at hs
    subst hs
    exact append_owner_counted w n none hc hn hnone
  | spCopy i =>
    simp only [step, readOwner_eq] at hs
    cases h1 : w.sps[i]? with
    | none => simp [h1] at hs
    | some sp =>
      simp only [h1, SharedPtr.copy, Option.some.injEq] at hs
      subst hs
      exact append_owner_counted w n sp.cb hc hn (hsp i sp h1)
  | spMove i =>
    simp only [step, readOwner_eq] at hs
    cases h1 : w.sps[i]? with
    | none => simp [h1] at hs
    | some sp =>
      simp only [h1, SharedPtr.move, Option.some.injEq] at hs
      subst hs
      exact move_owner_counted w n i sp hc h1
  | spAssign dst src =>
    simp only [step, readOwner_eq] at hs
    cases h1 : w.sps[dst]? with
    | none => simp [h1] at hs
    | some d =>
      cases h2 : w.sps[src]? with
      | none => simp [h1, h2] at hs
      | some sp =>
        simp only [h1, h2, SharedPtr.assign, SharedPtr.copy, Option.some.injEq] at hs
        subst hs
        exact replace_owner_counted w n dst d sp.cb hc hn h1 (hsp src sp h2)
  | spMoveAssign dst src =>
    simp only [step, readOwner_eq] at hs
    cases h1 : w.sps[dst]? with
    | none => simp [h1] at hs
    | some d =>
      cases h2 : w.sps[src]? with
      | none => simp [h1, h2] at hs
      | some sp =>
        simp only [h1, h2, SharedPtr.move] at hs
        cases h3 : (w.sps.set src (⟨none⟩ : SharedPtr))[dst]? with
        | none => simp [h3] at hs
        | some d1 =>
          simp only [h3, Option.some.injEq] at hs
          subst hs
          exact move_assign_owner_counted w n dst src sp d1 hc hn h2 h3
  | spReset i =>
    simp only [step, readOwner_eq] at hs
    cases h1 : w.sps[i]? with
    | none => simp [h1] at hs
    | some sp =>
      simp only [h1, SharedPtr.reset, Option.some.injEq] at hs
      subst hs
      exact replace_owner_counted w n i sp none hc hn h1 hnone
  | spDtor i =>
    simp only [step, readOwner_eq] at hs
    cases h1 : w.sps[i]? with
    | none => simp [h1] at hs
    | some sp =>
      simp only [h1, Option.some.injEq] at hs
      subst hs
      exact erase_owner_counted w n i sp hc hn h1
  | spFromWeak k =>
    simp only [step, readOwner_eq] at hs
    cases h1 : w.wps[k]? with
    | none => simp [h1] at hs
    | some wp =>
      simp only [h1, SharedPtr.fromWeak, Option.some.injEq] at hs
      subst hs
      exact append_owner_counted w n wp.cb hc hn (hwp k wp h1)
  | lock k =>
    simp only [step, readOwner_eq] at hs
    cases h1 : w.wps[k]? with
    | none => simp [h1] at hs
    | some wp =>
      simp only [h1, WeakPtr.lock] at hs
      by_cases he : WeakPtr.expired w.heap wp = true
      · simp only [he, if_true, Option.some.injEq] at hs
        subst hs
        exact append_owner_counted w n none hc hn hnone
      · simp only [he, SharedPtr.fromWeak, Option.some.injEq] at hs
        subst hs
        exact append_owner_counted w n wp.cb hc hn (hwp k wp h1)
  | wpDefault =>
    simp only [step, Option.some.injEq] at hs
    subst hs
    exact append_observer_counted w n none hc hn hnone
  | wpFromShared i =>
    simp only [step, readOwner_eq] at hs
    cases h1 : w.sps[i]? with
    | none => simp [h1] at hs
    | some sp =>
      simp only [h1, WeakPtr.fromShared, Option.some.injEq] at hs
      subst hs
      exact append_observer_counted w n sp.cb hc hn (hsp i sp h1)
  | wpCopy k =>
    simp only [step, readOwner_eq] at hs
    cases h1 : w.wps[k]? with
    | none => simp [h1] at hs
    | some wp =>
      simp only [h1, WeakPtr.copy, Option.some.injEq] at hs
      subst hs
      exact append_observer_counted w n wp.cb hc hn (hwp k wp h1)
  | wpMove k =>
    simp only [step, readOwner_eq] at hs
    cases h1 : w.wps[k]? with
    | none => simp [h1] at hs
    | some wp =>
      simp only [h1, WeakPtr.move, Option.some.injEq] at hs
      subst hs
      exact move_observer_counted w n k wp hc h1
  | wpAssign dst src =>
    simp only [step, readOwner_eq] at hs
    cases h1 : w.wps[dst]? with
    | none => simp [h1] at hs
    | some d =>
      cases h2 : w.wps[src]? with
      | none => simp [h1, h2] at hs
      | some wp =>
        simp only [h1, h2, WeakPtr.assign, WeakPtr.copy, Option.some.injEq] at hs
        subst hs
        exact replace_observer_counted w n dst d wp.cb hc hn h1 (hwp src wp h2)
  | wpMoveAssign dst src =>
    simp only [step, readOwner_eq] at hs
    cases h1 : w.wps[dst]? with
    | none => simp [h1] at hs
    | some d =>
      cases h2 : w.wps[src]? with
      | none => simp [h1, h2] at hs
      | some wp =>
        simp only [h1, h2, WeakPtr.move] at hs
        cases h3 : (w.wps.set src (⟨none⟩ : WeakPtr))[dst]? with
        | none => simp [h3] at hs
        | some d1 =>
          simp only [h3, Option.some.injEq] at hs
          subst hs
          exact move_assign_observer_counted w n dst src wp d1 hc hn h2 h3
  | wpDtor k =>
    simp only [step, readOwner_eq] at hs
    cases h1 : w.wps[k]? with
    | none => simp [h1] at hs
    | some wp =>
      simp only [h1, Option.some.injEq] at hs
      subst hs
      exact erase_observer_counted w n k wp hc hn h1

theorem init_counted : Counted World.init 0 :=
  counted_intro _ _ (fun _ => rfl) (fun _ => rfl) (fun _ _ => ⟨rfl, rfl⟩) (le_refl _)

theorem run_counted : ∀ (ops : List Op) (w w' : World) (n : Nat), Counted w n →
    n + ops.length < SIZE_MOD → run w ops = some w' → Counted w' (n + ops.length)
  | [], w, w', n, hc, _, hr => by
    simp only [run, Option.some.injEq] at hr
    subst hr
    exact hc
  | op :: ops, w, w', n, hc, hn, hr => by
    simp only [run] at hr
    cases h1 : step w op with
    | none => simp [h1] at hr
    | some w1 =>
      simp only [h1, Option.some_bind] at hr
      simp only [List.length_cons] at hn ⊢
      have := run_counted ops w1 w' (n + 1) (step_counted w w1 op n hc (by omega) h1)
        (by omega) hr
      have e : n + (ops.length + 1) = n + 1 + ops.length := by omega
      rw [e]
      exact this

theorem set_self {α : Type} (y : α) : ∀ (l : List α) (i : Nat), l[i]? = some y → l.set i y = l
  | [], i, h => by simp at h
  | z :: l, 0, h => by
    simp only [List.getElem?_cons_zero, Option.some.injEq] at h
    subst h
    rfl
  | z :: l, i + 1, h => by
    simp only [List.getElem?_cons_succ] at h
    simp only [List.set_cons_succ, set_self y l i h]

theorem set_set_self {α : Type} (x y : α) : ∀ (l : List α) (i : Nat), l[i]? = some y →
    (l.set i x).set i y = l ∧ (l.set i x)[i]? = some x
  | [], i, h => by simp at h
  | z :: l, 0, h => by
    simp only [List.getElem?_cons_zero, Option.some.injEq] at h
    subst h
    exact ⟨rfl, by simp⟩
  | z :: l, i + 1, h => by
    simp only [List.getElem?_cons_succ] at h
    simp only [List.set_cons_succ, List.getElem?_cons_succ, (set_set_self x y l i h).1,
      (set_set_self x y l i h).2, and_self]

/-- The temporary of a self-assignment between owners takes the count up by
one and its destructor takes it down again: no block changes. -/
theorem sp_self_assign_heap (h : Heap) (p : SharedPtr)
    (hpos : ∀ a, p.cb = some a → 1 ≤ (h a).shared_count ∧ (h a).shared_count + 1 < SIZE_MOD) :
    SharedPtr.dtor (bumpShared h p.cb) p = h := by
  obtain ⟨cb⟩ := p
  cases cb with
  | none => rfl
  | some b =>
    obtain ⟨h1, h2⟩ := hpos b rfl
    have e1 := uadd_one _ h2
    have e2 : usub ((h b).shared_count + 1) 1 = (h b).shared_count := by
      rw [usub_one _ (by omega) h2]; rfl
    funext a
    by_cases hb : a = b
    · subst hb
      have hne : ¬ ((h a).shared_count = 0) := by omega
      simp only [SharedPtr.dtor, bumpShared, heap_modify_same, e1, e2, if_neg hne]
    · simp only [SharedPtr.dtor, bumpShared]
      split_ifs <;> simp only [Heap.modify, if_neg hb]

/-- The temporary of a self-assignment between observers takes the count up
by one and its destructor takes it down again: no block changes. -/
theorem wp_self_assign_heap (h : Heap) (p : WeakPtr)
    (hpos : ∀ a, p.cb = some a → 1 ≤ (h a).weak_count ∧ (h a).weak_count + 1 < SIZE_MOD) :
    WeakPtr.dtor (bumpWeak h p.cb) p = h := by
  obtain ⟨cb⟩ := p
  cases cb with
  | none => rfl
  | some b =>
    obtain ⟨h1, h2⟩ := hpos b rfl
    have e1 := uadd_one _ h2
    have e2 : usub ((h b).weak_count + 1) 1 = (h b).weak_count := by
      rw [usub_one _ (by omega) h2]; rfl
    funext a
    by_cases hb : a = b
    · subst hb
      have hne : ¬ ((h a).weak_count = 0 ∧ (h a).shared_count = 0) := by omega
      simp only [WeakPtr.dtor, bumpWeak, heap_modify_same, e1, e2, if_neg hne]
    · simp only [WeakPtr.dtor, bumpWeak]
      split_ifs <;> simp only [Heap.modify, if_neg hb]

/-- In every state `w` a program of handle operations reaches from the state
with no handle (whether or not it builds an owner from an expired observer),
each control block's `shared_count` is the number of live owning handles
whose `cb` refers to it and its `weak_count` the number of live observing
handles; copy- and move-assignments are among the operations.  The
self-assignments `p = p` and `p = std::move(p)` of an owner whose `cb` holds
a value, or of an observer, leave the state as it is: no count changes and
no deleter or deallocator runs.  Counts are `size_t`: the program has fewer
than `2 ^ 64 - 1` operations. -/
theorem counts_of_run (ops : List Op) (w : World)
    (hlen : ops.length + 1 < SIZE_MOD) (hrun : run World.init ops = some w) :
    (∀ a, (w.heap a).shared_count = w.owners a ∧ (w.heap a).weak_count = w.observers a) ∧
    (∀ i p, w.sps[i]? = some p →
      step w (.spAssign i i) = some w ∧ step w (.spMoveAssign i i) = some w) ∧
    (∀ k p, w.wps[k]? = some p →
      step w (.wpAssign k k) = some w ∧ step w (.wpMoveAssign k k) = some w) := by
  have hc := run_counted ops World.init w 0 init_counted (by omega) hrun
  obtain ⟨hsh, hwk, hfr, hl, hS, hW⟩ := counted_elim hc
  refine ⟨fun a => ⟨hc.shared a, hc.weak a⟩, fun i p hi => ⟨?_, ?_⟩, fun k p hk => ⟨?_, ?_⟩⟩
  · have hheap : SharedPtr.dtor (bumpShared w.heap p.cb) p = w.heap := by
      apply sp_self_assign_heap
      intro a e
      have := sp_count_of_get w.sps i p a hi e
      have := hS a
      have := hsh a
      constructor <;> omega
    have e : (⟨p.cb⟩ : SharedPtr) = p := rfl
    simp only [step, readOwner_eq, hi, SharedPtr.assign, SharedPtr.copy, hheap, e,
      set_self p w.sps i hi]
  · have e : (⟨p.cb⟩ : SharedPtr) = p := rfl
    obtain ⟨e1, e2⟩ := set_set_self (⟨none⟩ : SharedPtr) p w.sps i hi
    simp only [step, readOwner_eq, hi, SharedPtr.move, e2, e, e1]
    rfl
  · have hheap : WeakPtr.dtor (bumpWeak w.heap p.cb) p = w.heap := by
      apply wp_self_assign_heap
      intro a e
      have := wp_count_of_get w.wps k p a hk e
      have := hW a
      have := hwk a
      constructor <;> omega
    have e : (⟨p.cb⟩ : WeakPtr) = p := rfl
    simp only [step, hk, WeakPtr.assign, WeakPtr.copy, hheap, e, set_self p w.wps k hk]
  · have e : (⟨p.cb⟩ : WeakPtr) = p := rfl
    obtain ⟨e1, e2⟩ := set_set_self (⟨none⟩ : WeakPtr) p w.wps k hk
    simp only [step, hk, WeakPtr.move, e2, e, e1]
    rfl

/-- The counts on `countsProgram`: block 0 ends with one owner and two
observers, block 1 with one owner, and the self-assignment of the owner of
block 0 changes nothing. -/
theorem counts_of_countsProgram :
    countsProgram.length + 1 < SIZE_MOD ∧ run World.init countsProgram = some countsWorld ∧
    ((countsWorld.heap 0).shared_count = 1 ∧ (countsWorld.heap 0).weak_count = 2) ∧
    ((countsWorld.heap 1).shared_count = 1 ∧ (countsWorld.heap 1).weak_count = 0) ∧
    step countsWorld (.spAssign 1 1) = some countsWorld :=
  ⟨by decide, rfl,
    ((counts_of_run countsProgram countsWorld (by decide) rfl).1 0).imp
      (fun h => h.trans (by decide)) (fun h => h.trans (by decide)),
    ((counts_of_run countsProgram countsWorld (by decide) rfl).1 1).imp
      (fun h => h.trans (by decide)) (fun h => h.trans (by decide)),
    ((counts_of_run countsProgram countsWorld (by decide) rfl).2.1 1
      ⟨some 0⟩ (by decide)).1⟩

/-- C36 (evaluation at the failing input): after
`SharedPtr<T> q(ptr); SharedPtr<T> p;` the handle `p` is live and its member
`cb` is indeterminate.  Every operation that is given `p` reads that member,
which is undefined: `p = p`, `p = std::move(p)`, `p = q`, `q = p`, a copy of
`p`, `WeakPtr<T>(p)`, `p.reset()` and the destructor of `p`.  The same
operations on `q` return, `q = q` leaving the count of its block at 1; and a
value-initialised owner (`SharedPtr<T> r{};`) and a default-constructed
observer are empty handles whose self-assignment returns. -/
theorem C36_default_owner_indeterminate :
    (run World.init unsetOwnerProgram).map
        (fun w => (w.sps, w.unset, w.owner 0, w.owner 1, w.owner 2))
      = some ([⟨some 0⟩], 1, some (.holds ⟨some 0⟩), some .indeterminate, none) ∧
    Owner.read .indeterminate = none ∧
    ((run World.init (unsetOwnerProgram ++ [.spAssign 1 1])).isSome = false ∧
      (run World.init (unsetOwnerProgram ++ [.spMoveAssign 1 1])).isSome = false ∧
      (run World.init (unsetOwnerProgram ++ [.spAssign 1 0])).isSome = false ∧
      (run World.init (unsetOwnerProgram ++ [.spAssign 0 1])).isSome = false ∧
      (run World.init (unsetOwnerProgram ++ [.spCopy 1])).isSome = false ∧
      (run World.init (unsetOwnerProgram ++ [.wpFromShared 1])).isSome = false ∧
      (run World.init (unsetOwnerProgram ++ [.spReset 1])).isSome = false ∧
      (run World.init (unsetOwnerProgram ++ [.spDtor 1])).isSome = false) ∧
    (run World.init (unsetOwnerProgram ++ [.spAssign 0 0])).map
        (fun w => (w.sps, (w.heap 0).shared_count, (w.heap 0).deleterCalls))
      = some ([⟨some 0⟩], 1, 0) ∧
    (run World.init [.spValueInit, .spAssign 0 0]).map (fun w => (w.sps, w.unset))
      = some ([⟨none⟩], 0) ∧
    (run World.init [.wpDefault, .wpAssign 0 0]).map (fun w => w.wps) = some [⟨none⟩] := by
  refine ⟨?_, rfl, ⟨?_, ?_, ?_, ?_, ?_, ?_, ?_, ?_⟩, ?_, ?_, ?_⟩ <;> rfl

end SmartPointers

/-! ## Theorems: block deque -/

namespace BlockDeque

variable {T : Type}

/-- The storage after `try_allocate`: `n` fresh blocks of raw storage at the
addresses `brk .. brk + n - 1`, entered in the array in this order. -/
theorem try_allocate_spec (st : Store T) (arr : Nat → Nat) (n : Nat) :
    (try_allocate st arr n).2 = (fun k => if k < n then st.brk + k else arr k) ∧
    (try_allocate st arr n).1.brk = st.brk + n ∧
    (try_allocate st arr n).1.slot
      = (fun a s => if st.brk ≤ a ∧ a < st.brk + n then none else st.slot a s) ∧
    (try_allocate st arr n).1.live
      = (fun a => if st.brk ≤ a ∧ a < st.brk + n then true else st.live a) ∧
    (try_allocate st arr n).1.blocks_new = st.blocks_new + n ∧
    (try_allocate st arr n).1.blocks_deleted = st.blocks_deleted ∧
    (try_allocate st arr n).1.arrays_new = st.arrays_new ∧
    (try_allocate st arr n).1.arrays_deleted = st.arrays_deleted ∧
    (try_allocate st arr n).1.ctor_calls = st.ctor_calls ∧
    (try_allocate st arr n).1.dtor_calls = st.dtor_calls ∧
    (try_allocate st arr n).1.dtor_raw = st.dtor_raw := by
  induction n with
  | zero =>
    refine ⟨?_, rfl, ?_, ?_, rfl, rfl, rfl, rfl, rfl, rfl, rfl⟩
    · funext k; simp [try_allocate]
    · funext a s
      have : ¬ (st.brk ≤ a ∧ a < st.brk + 0) := by omega
      simp only [try_allocate, List.range_zero, List.foldl_nil, if_neg this]
    · funext a
      have : ¬ (st.brk ≤ a ∧ a < st.brk + 0) := by omega
      simp only [try_allocate, List.range_zero, List.foldl_nil, if_neg this]
  | succ n ih =>
    have hstep : try_allocate st arr (n + 1)
        = ((try_allocate st arr n).1.newBlock,
            fun k => if k = n then (try_allocate st arr n).1.brk else (try_allocate st arr n).2 k) := by
      simp [try_allocate, List.range_succ, List.foldl_append]
    obtain ⟨h2, hb, hs, hl, c1, c2, c3, c4, c5, c6, c7⟩ := ih
    rw [hstep]
    refine ⟨?_, ?_, ?_, ?_, ?_, ?_, ?_, ?_, ?_, ?_, ?_⟩
    · funext k
      simp only [h2, hb]
      split_ifs <;> omega
    · simp [Store.newBlock, hb]; omega
    · funext a s
      simp only [Store.newBlock, hs, hb]
      split_ifs <;> first | rfl | omega
    · funext a
      simp only [Store.newBlock, hl, hb]
      split_ifs <;> first | rfl | omega
    · simp [Store.newBlock, c1]; omega
    · simp [Store.newBlock, c2]
    · simp [Store.newBlock, c3]
    · simp [Store.newBlock, c4]
    · simp [Store.newBlock, c5]
    · simp [Store.newBlock, c6]
    · simp [Store.newBlock, c7]

/-- The two arrays after the swap loop of `push_helper` over the indices
`s .. s + cnt - 1`. -/
theorem swap_blocks_spec (fb n new_size old_size : Nat) (cnt : Nat) :
    ∀ (s : Nat) (p : (Nat → Nat) × (Nat → Nat)),
      fb ≤ s → s + cnt ≤ old_size → (s - fb) + n + cnt ≤ new_size →
      new_size < SIZE_MOD → old_size < SIZE_MOD →
      swap_blocks fb n new_size old_size (List.range' s cnt) p =
        some (fun k => if (s - fb) + n ≤ k ∧ k < (s - fb) + n + cnt
                then p.2 (k - n + fb) else p.1 k,
              fun k => if s ≤ k ∧ k < s + cnt then p.1 (k - fb + n) else p.2 k) := by
  induction cnt with
  | zero =>
    intro s p _ _ _ _ _
    have e1 : ∀ k, ¬ ((s - fb) + n ≤ k ∧ k < (s - fb) + n + 0) := by intro k; omega
    have e2 : ∀ k, ¬ (s ≤ k ∧ k < s + 0) := by intro k; omega
    simp only [List.range'_zero, swap_blocks, e1, e2, if_false]
  | succ cnt ih =>
    intro s p h1 h2 h3 h4 h5
    have hj : uadd (usub s fb) n = s - fb + n := by
      rw [usub_eq h1 (by omega), uadd_eq (by omega)]
    have hc : s - fb + n < new_size ∧ s < old_size := by omega
    rw [List.range'_succ]
    simp only [swap_blocks, hj, hc, and_self, if_true]
    rw [ih (s + 1) _ (by omega) (by omega) (by omega) h4 h5]
    congr 1
    ext1
    · funext k
      simp only []
      by_cases hk1 : s + 1 - fb + n ≤ k ∧ k < s + 1 - fb + n + cnt
      · have hk2 : s - fb + n ≤ k ∧ k < s - fb + n + (cnt + 1) := by omega
        have hk3 : ¬ (k - n + fb = s) := by omega
        rw [if_pos hk1, if_pos hk2, if_neg hk3]
      · rw [if_neg hk1]
        by_cases hk4 : k = s - fb + n
        · have hk2 : s - fb + n ≤ k ∧ k < s - fb + n + (cnt + 1) := by omega
          have hk5 : k - n + fb = s := by omega
          rw [if_pos hk4, if_pos hk2, hk5]
        · have hk2 : ¬ (s - fb + n ≤ k ∧ k < s - fb + n + (cnt + 1)) := by omega
          rw [if_neg hk4, if_neg hk2]
    · funext k
      simp only []
      by_cases hk1 : s + 1 ≤ k ∧ k < s + 1 + cnt
      · have hk2 : s ≤ k ∧ k < s + (cnt + 1) := by omega
        have hk3 : ¬ (k - fb + n = s - fb + n) := by omega
        rw [if_pos hk1, if_pos hk2, if_neg hk3]
      · rw [if_neg hk1]
        by_cases hk4 : k = s
        · have hk2 : s ≤ k ∧ k < s + (cnt + 1) := by omega
          have hk5 : k - fb + n = s - fb + n := by omega
          rw [if_pos hk4, if_pos hk2, hk5]
        · have hk2 : ¬ (s ≤ k ∧ k < s + (cnt + 1)) := by omega
          rw [if_neg hk4, if_neg hk2]

/-- Deleting the blocks behind the first `n` entries of an array leaves every
slot as it was, and every block not among those entries allocated. -/
theorem deleteBlocks_spec (arr : Nat → Nat) (n : Nat) (st : Store T) :
    ((List.range n).foldl (fun st k => st.deleteBlock (arr k)) st).slot = st.slot ∧
    ((List.range n).foldl (fun st k => st.deleteBlock (arr k)) st).brk = st.brk ∧
    (∀ a, (∀ k, k < n → arr k ≠ a) →
      ((List.range n).foldl (fun st k => st.deleteBlock (arr k)) st).live a = st.live a) ∧
    ((List.range n).foldl (fun st k => st.deleteBlock (arr k)) st).blocks_new = st.blocks_new ∧
    ((List.range n).foldl (fun st k => st.deleteBlock (arr k)) st).blocks_deleted
      = st.blocks_deleted + n ∧
    ((List.range n).foldl (fun st k => st.deleteBlock (arr k)) st).arrays_new = st.arrays_new ∧
    ((List.range n).foldl (fun st k => st.deleteBlock (arr k)) st).arrays_deleted
      = st.arrays_deleted ∧
    ((List.range n).foldl (fun st k => st.deleteBlock (arr k)) st).ctor_calls = st.ctor_calls ∧
    ((List.range n).foldl (fun st k => st.deleteBlock (arr k)) st).dtor_calls = st.dtor_calls ∧
    ((List.range n).foldl (fun st k => st.deleteBlock (arr k)) st).dtor_raw = st.dtor_raw := by
  induction n with
  | zero => simp
  | succ n ih =>
    obtain ⟨h1, h2, h3, c1, c2, c3, c4, c5, c6, c7⟩ := ih
    simp only [List.range_succ, List.foldl_append, List.foldl_cons, List.foldl_nil]
    refine ⟨h1, h2, ?_, c1, ?_, c3, c4, c5, c6, c7⟩
    · intro a ha
      have hne : a ≠ arr n := fun e => ha n (Nat.lt_succ_self n) e.symm
      have h3a := h3 a (fun k hk => ha k (Nat.lt_succ_of_lt hk))
      simp only [Store.deleteBlock, hne, if_false]
      exact h3a
    · show _ + 1 = _
      rw [c2]; omega

theorem push_helper_skip (d : Deque T) (ci cb ei eb : Nat) (h : ¬ (ci = ei ∧ cb = eb)) :
    d.push_helper ci cb ei eb = some d := by
  unfold Deque.push_helper
  rw [if_neg h]

/-- The reallocation branch of `push_helper`, field by field. -/
theorem push_helper_realloc_form (d : Deque T)
    (hfl : d.first_block_ ≤ d.last_block_) (hlb : d.last_block_ < d.amount_of_blocks_)
    (hbound : d.amount_of_blocks_ ≤ 144115188075855872) (ci cb : Nat) :
    ∃ d', d.push_helper ci cb ci cb = some d' ∧
      d'.amount_of_blocks_ = 3 * (d.last_block_ - d.first_block_ + 1) ∧
      d'.first_block_ = d.last_block_ - d.first_block_ + 1 ∧
      d'.last_block_ = 2 * (d.last_block_ - d.first_block_ + 1) - 1 ∧
      d'.first_element_index_ = d.first_element_index_ ∧
      d'.after_last_element_index_ = d.after_last_element_index_ ∧
      (∀ k, d.last_block_ - d.first_block_ + 1 ≤ k →
        k < 2 * (d.last_block_ - d.first_block_ + 1) →
        d'.external_array_ k
          = d.external_array_ (k - (d.last_block_ - d.first_block_ + 1) + d.first_block_)) ∧
      (∀ k, k < 3 * (d.last_block_ - d.first_block_ + 1) →
        ¬ (d.last_block_ - d.first_block_ + 1 ≤ k ∧
          k < 2 * (d.last_block_ - d.first_block_ + 1)) →
        d'.external_array_ k = d.store.brk + k) ∧
      (∀ a s, a < d.store.brk → d'.store.slot a s = d.store.slot a s) ∧
      d'.store.brk = d.store.brk + 3 * (d.last_block_ - d.first_block_ + 1) ∧
      (∀ x, (∀ k, k < d.amount_of_blocks_ →
          (if d.first_block_ ≤ k ∧ k ≤ d.last_block_
            then d.store.brk + (k - d.first_block_ + (d.last_block_ - d.first_block_ + 1))
            else d.external_array_ k) ≠ x) →
        d'.store.live x
          = (if d.store.brk ≤ x ∧ x < d.store.brk + 3 * (d.last_block_ - d.first_block_ + 1)
              then true else d.store.live x)) ∧
      d'.store.dtor_raw = d.store.dtor_raw ∧
      d'.store.ctor_calls = d.store.ctor_calls ∧
      d'.store.dtor_calls = d.store.dtor_calls := by
  have hn : uadd (usub d.last_block_ d.first_block_) 1 = d.last_block_ - d.first_block_ + 1 := by
    rw [usub_eq hfl (by unfold SIZE_MOD; omega), uadd_eq (by unfold SIZE_MOD; omega)]
  have h3 : umul 3 (d.last_block_ - d.first_block_ + 1)
      = 3 * (d.last_block_ - d.first_block_ + 1) := by
    rw [umul_eq (by unfold SIZE_MOD; omega)]
  have h2 : usub (umul 2 (d.last_block_ - d.first_block_ + 1)) 1
      = 2 * (d.last_block_ - d.first_block_ + 1) - 1 := by
    rw [umul_eq (by unfold SIZE_MOD; omega), usub_eq (by omega) (by unfold SIZE_MOD; omega)]
  obtain ⟨ta, tb, ts, tl, -, -, -, -, tc, td, traw⟩ :=
    try_allocate_spec d.store.newArray.1 d.store.newArray.2
      (3 * (d.last_block_ - d.first_block_ + 1))
  have hsw := swap_blocks_spec d.first_block_ (d.last_block_ - d.first_block_ + 1)
    (3 * (d.last_block_ - d.first_block_ + 1)) d.amount_of_blocks_
    (d.last_block_ + 1 - d.first_block_) d.first_block_
    ((try_allocate d.store.newArray.1 d.store.newArray.2
      (3 * (d.last_block_ - d.first_block_ + 1))).2, d.external_array_)
    (le_refl _) (by omega) (by omega) (by unfold SIZE_MOD; omega) (by unfold SIZE_MOD; omega)
  unfold Deque.push_helper
  simp only [and_self, if_true, hn, h3, h2, hsw]
  refine ⟨_, rfl, rfl, rfl, rfl, rfl, rfl, ?_, ?_, ?_, ?_, ?_, ?_, ?_, ?_⟩
  · intro k hk1 hk2
    dsimp only
    rw [if_pos ⟨by omega, by omega⟩]
  · intro k hk1 hk2
    dsimp only
    rw [if_neg (by omega), ta]
    dsimp only [Store.newArray]
    rw [if_pos hk1]
  · intro a s ha
    dsimp only [Deque.deallocate]
    rw [(deleteBlocks_spec _ _ _).1, ts]
    dsimp only [Store.newArray]
    rw [if_neg (by omega)]
  · dsimp only [Deque.deallocate]
    rw [(deleteBlocks_spec _ _ _).2.1, tb]
    rfl
  · intro x hx
    dsimp only [Deque.deallocate]
    rw [(deleteBlocks_spec _ _ _).2.2.1 x, tl]
    · rfl
    · intro k hk
      have := hx k hk
      rw [ta]
      dsimp only [Store.newArray]
      by_cases hc : d.first_block_ ≤ k ∧ k ≤ d.last_block_
      · rw [if_pos hc] at this
        rw [if_pos (by omega), if_pos (by omega)]
        exact this
      · rw [if_neg hc] at this
        rw [if_neg (by omega)]
        exact this
  · dsimp only [Deque.deallocate]
    rw [(deleteBlocks_spec _ _ _).2.2.2.2.2.2.2.2.2, traw]
    rfl
  · dsimp only [Deque.deallocate]
    rw [(deleteBlocks_spec _ _ _).2.2.2.2.2.2.2.1, tc]
    rfl
  · dsimp only [Deque.deallocate]
    rw [(deleteBlocks_spec _ _ _).2.2.2.2.2.2.2.2.1, td]
    rfl

/-- The reallocation branch of `push_helper` succeeds on a sound deque and
relocates the live blocks to the middle third of the new array. -/
theorem push_helper_realloc (d : Deque T) (hwf : WF d)
    (hfl : d.first_block_ ≤ d.last_block_) (hlb : d.last_block_ < d.amount_of_blocks_)
    (ci cb : Nat) :
    ∃ d', d.push_helper ci cb ci cb = some d' ∧ Realloc d d' := by
  obtain ⟨hinj, hlive, hbelow, hbound⟩ := hwf
  obtain ⟨d', hd', ham, hfb, hlb', hfi, hal, hmid, hout, hslot, hbrk, hlv, hraw, -, -⟩ :=
    push_helper_realloc_form d hfl hlb hbound ci cb
  refine ⟨d', hd', ?_⟩
  have hmidlt : ∀ k, d.last_block_ - d.first_block_ + 1 ≤ k →
      k < 2 * (d.last_block_ - d.first_block_ + 1) →
      k - (d.last_block_ - d.first_block_ + 1) + d.first_block_ < d.amount_of_blocks_ := by
    intro k h1 h2; omega
  refine ⟨ham, hfb, hlb', hfi, hal, ?_, ?_, ?_, ?_, hraw⟩
  · intro i j hi hj hij
    rw [ham] at hi hj
    by_cases ci : d.last_block_ - d.first_block_ + 1 ≤ i ∧
        i < 2 * (d.last_block_ - d.first_block_ + 1)
    · by_cases cj : d.last_block_ - d.first_block_ + 1 ≤ j ∧
          j < 2 * (d.last_block_ - d.first_block_ + 1)
      · rw [hmid i ci.1 ci.2, hmid j cj.1 cj.2] at hij
        have := hinj _ _ (hmidlt i ci.1 ci.2) (hmidlt j cj.1 cj.2) hij
        omega
      · rw [hmid i ci.1 ci.2, hout j hj cj] at hij
        have := hbelow _ (hmidlt i ci.1 ci.2)
        omega
    · by_cases cj : d.last_block_ - d.first_block_ + 1 ≤ j ∧
          j < 2 * (d.last_block_ - d.first_block_ + 1)
      · rw [hout i hi ci, hmid j cj.1 cj.2] at hij
        have := hbelow _ (hmidlt j cj.1 cj.2)
        omega
      · rw [hout i hi ci, hout j hj cj] at hij
        omega
  · intro i hi
    rw [ham] at hi
    by_cases ci : d.last_block_ - d.first_block_ + 1 ≤ i ∧
        i < 2 * (d.last_block_ - d.first_block_ + 1)
    · rw [hmid i ci.1 ci.2, hlv]
      · have := hbelow _ (hmidlt i ci.1 ci.2)
        rw [if_neg (by omega)]
        exact hlive _ (hmidlt i ci.1 ci.2)
      · intro k hk
        by_cases hc : d.first_block_ ≤ k ∧ k ≤ d.last_block_
        · rw [if_pos hc]
          have := hbelow _ (hmidlt i ci.1 ci.2)
          omega
        · rw [if_neg hc]
          intro e
          have := hinj _ _ hk (hmidlt i ci.1 ci.2) e
          omega
    · rw [hout i hi ci, hlv]
      · rw [if_pos (by omega)]
      · intro k hk
        by_cases hc : d.first_block_ ≤ k ∧ k ≤ d.last_block_
        · rw [if_pos hc]
          omega
        · rw [if_neg hc]
          have := hbelow _ hk
          omega
  · intro i hi
    rw [ham] at hi
    rw [hbrk]
    by_cases ci : d.last_block_ - d.first_block_ + 1 ≤ i ∧
        i < 2 * (d.last_block_ - d.first_block_ + 1)
    · rw [hmid i ci.1 ci.2]
      have := hbelow _ (hmidlt i ci.1 ci.2)
      omega
    · rw [hout i hi ci]
      omega
  · intro p hp1 hp2
    unfold BLOCK_SIZE_ at hp1 hp2 ⊢
    unfold Deque.cell BLOCK_SIZE_
    have e1 : (p - d.first_block_ * 32 + (d.last_block_ - d.first_block_ + 1) * 32) / 32
        = p / 32 - d.first_block_ + (d.last_block_ - d.first_block_ + 1) := by omega
    have e2 : (p - d.first_block_ * 32 + (d.last_block_ - d.first_block_ + 1) * 32) % 32
        = p % 32 := by omega
    rw [e1, e2, hmid _ (by omega) (by omega)]
    have e3 : p / 32 - d.first_block_ + (d.last_block_ - d.first_block_ + 1)
        - (d.last_block_ - d.first_block_ + 1) + d.first_block_ = p / 32 := by omega
    rw [e3]
    exact hslot _ _ (hbelow _ (by omega))

/-- `size()` of a deque whose positions do not wrap. -/
theorem size_eq (d : Deque T) (n : Nat)
    (hb : d.amount_of_blocks_ ≤ 144115188075855872)
    (hfi : d.first_element_index_ < BLOCK_SIZE_) (hal : d.after_last_element_index_ < BLOCK_SIZE_)
    (hlb : d.last_block_ < d.amount_of_blocks_)
    (hlen : d.first_block_ * BLOCK_SIZE_ + d.first_element_index_ + n
      = d.last_block_ * BLOCK_SIZE_ + d.after_last_element_index_) :
    d.size = n := by
  unfold Deque.size uadd usub umul SIZE_MOD
  unfold BLOCK_SIZE_ at *
  omega

/-- `operator[]` computes the place with running index
`first_block_ * BLOCK_SIZE_ + first_element_index_ + i`. -/
theorem index_eq (d : Deque T) (i : Nat)
    (hb : d.amount_of_blocks_ ≤ 144115188075855872)
    (hfi : d.first_element_index_ < BLOCK_SIZE_)
    (hin : d.first_block_ * BLOCK_SIZE_ + d.first_element_index_ + i
      < d.amount_of_blocks_ * BLOCK_SIZE_) :
    d.index i = some
      (d.external_array_ ((d.first_block_ * BLOCK_SIZE_ + d.first_element_index_ + i) / BLOCK_SIZE_),
        (d.first_block_ * BLOCK_SIZE_ + d.first_element_index_ + i) % BLOCK_SIZE_) := by
  unfold BLOCK_SIZE_ at *
  have hi : i < SIZE_MOD / 2 := by unfold SIZE_MOD; omega
  have hi2 : i < SIZE_MOD := by unfold SIZE_MOD; omega
  have e1 : uadd (umul d.first_block_ 32) d.first_element_index_
      = d.first_block_ * 32 + d.first_element_index_ := by
    rw [umul_eq (by unfold SIZE_MOD; omega), uadd_eq (by unfold SIZE_MOD; omega)]
  have e2 : uadd (d.first_block_ * 32 + d.first_element_index_) i
      = d.first_block_ * 32 + d.first_element_index_ + i := by
    rw [uadd_eq (by unfold SIZE_MOD; omega)]
  have e3 : ¬ ((i : Int) < 0) := by omega
  have c1 : (d.first_block_ * 32 + d.first_element_index_) / 32 < d.amount_of_blocks_ := by
    omega
  have c2 : (d.first_block_ * 32 + d.first_element_index_ + i) / 32 < d.amount_of_blocks_ := by
    omega
  simp only [Deque.index, Deque.begin, Deque.iterator, Deque.blockPtr, Deque.iter_add,
    BLOCK_SIZE_, e1, c1, if_true, Option.map_some', Option.some_bind, toPtrdiff_eq hi, e3,
    if_false, ofPtrdiff_natCast hi2, e2, c2, common_iterator.deref]

/-- Reading `(*this)[i]` on a sound deque yields the content of the slot with
running index `first + i`. -/
theorem get_eq (d : Deque T) (i : Nat) (hwf : WF d)
    (hfi : d.first_element_index_ < BLOCK_SIZE_)
    (hin : d.first_block_ * BLOCK_SIZE_ + d.first_element_index_ + i
      < d.amount_of_blocks_ * BLOCK_SIZE_) :
    d.get i = d.cell (d.first_block_ * BLOCK_SIZE_ + d.first_element_index_ + i) := by
  unfold Deque.get
  rw [index_eq d i hwf.bound hfi hin]
  have : (d.first_block_ * BLOCK_SIZE_ + d.first_element_index_ + i) / BLOCK_SIZE_
      < d.amount_of_blocks_ := by
    unfold BLOCK_SIZE_ at *; omega
  simp only [Option.some_bind, hwf.live _ this, if_true, Deque.cell]

/-- Placement construction at the slot with running index `p` succeeds and
changes that slot only. -/
theorem construct_cell (d : Deque T) (hwf : WF d) (p : Nat) (v : T)
    (hp : p < d.amount_of_blocks_ * BLOCK_SIZE_) :
    ∃ st, d.store.construct (d.external_array_ (p / BLOCK_SIZE_)) (p % BLOCK_SIZE_) v = some st ∧
      WF { d with store := st } ∧
      st.dtor_raw = d.store.dtor_raw ∧
      st.dtor_calls = d.store.dtor_calls ∧
      st.ctor_calls = d.store.ctor_calls + 1 ∧
      ({ d with store := st } : Deque T).cell p = some v ∧
      ∀ q, q < d.amount_of_blocks_ * BLOCK_SIZE_ → q ≠ p →
        ({ d with store := st } : Deque T).cell q = d.cell q := by
  have hblk : p / BLOCK_SIZE_ < d.amount_of_blocks_ := by unfold BLOCK_SIZE_ at *; omega
  have hs : p % BLOCK_SIZE_ < BLOCK_SIZE_ := by unfold BLOCK_SIZE_; omega
  unfold Store.construct
  rw [if_pos ⟨hwf.live _ hblk, hs⟩]
  refine ⟨_, rfl, ⟨hwf.inj, hwf.live, hwf.below, hwf.bound⟩, rfl, rfl, rfl, ?_, ?_⟩
  · simp [Deque.cell]
  · intro q hq hne
    have hqb : q / BLOCK_SIZE_ < d.amount_of_blocks_ := by unfold BLOCK_SIZE_ at *; omega
    simp only [Deque.cell]
    rw [if_neg]
    rintro ⟨h1, h2⟩
    have := hwf.inj _ _ hqb hblk h1
    unfold BLOCK_SIZE_ at *
    omega

/-- Destroying the element in the slot with running index `p` succeeds,
empties that slot only, and is a destructor call on an element. -/
theorem destroy_cell (d : Deque T) (hwf : WF d) (p : Nat) (x : T)
    (hp : p < d.amount_of_blocks_ * BLOCK_SIZE_) (hx : d.cell p = some x) :
    ∃ st, d.store.destroyAt (d.external_array_ (p / BLOCK_SIZE_)) (p % BLOCK_SIZE_) = some st ∧
      WF { d with store := st } ∧
      st.dtor_raw = d.store.dtor_raw ∧
      st.dtor_calls = d.store.dtor_calls + 1 ∧
      st.ctor_calls = d.store.ctor_calls ∧
      ∀ q, q < d.amount_of_blocks_ * BLOCK_SIZE_ → q ≠ p →
        ({ d with store := st } : Deque T).cell q = d.cell q := by
  have hblk : p / BLOCK_SIZE_ < d.amount_of_blocks_ := by unfold BLOCK_SIZE_ at *; omega
  have hs : p % BLOCK_SIZE_ < BLOCK_SIZE_ := by unfold BLOCK_SIZE_; omega
  unfold Store.destroyAt
  unfold Deque.cell at hx
  rw [if_pos ⟨hwf.live _ hblk, hs⟩, hx]
  refine ⟨_, rfl, ⟨hwf.inj, hwf.live, hwf.below, hwf.bound⟩, rfl, rfl, rfl, ?_⟩
  intro q hq hne
  have hqb : q / BLOCK_SIZE_ < d.amount_of_blocks_ := by unfold BLOCK_SIZE_ at *; omega
  simp only [Deque.cell]
  rw [if_neg]
  rintro ⟨h1, h2⟩
  have := hwf.inj _ _ hqb hblk h1
  unfold BLOCK_SIZE_ at *
  omega

theorem push_helper_edge (d : Deque T) (hwf : WF d)
    (hfl : d.first_block_ ≤ d.last_block_) (hlb : d.last_block_ < d.amount_of_blocks_)
    (ci cb ei eb : Nat) (h : ci = ei ∧ cb = eb) :
    ∃ d', d.push_helper ci cb ei eb = some d' ∧ Realloc d d' := by
  obtain ⟨rfl, rfl⟩ := h
  exact push_helper_realloc d hwf hfl hlb ci cb

theorem getElem?_concat_lt (m : List T) (v : T) (k : Nat) (hk : k < m.length) :
    (m ++ [v])[k]? = m[k]? :=
  List.getElem?_append_left hk

theorem Inv.rep {d : Deque T} {m : List T} (h : Inv d m) : Rep d m :=
  ⟨h.wf, h.first_lt, h.after_lt, h.last_lt, h.len, h.elems⟩

/-- `push_back` on a valid deque holding `m` (shorter than `2 ^ 60`) succeeds
and yields a valid deque holding `m ++ [v]`; no destructor runs, and a first
position that was not slot 0 of block 0 is not afterwards either. -/
theorem push_back_rep (d : Deque T) (m : List T) (v : T) (hrep : Rep d m)
    (hlen : m.length < 1152921504606846976) :
    ∃ d', d.push_back v = some d' ∧ Rep d' (m ++ [v]) ∧
      d'.store.dtor_raw = d.store.dtor_raw ∧
      (0 < d.first_block_ * BLOCK_SIZE_ + d.first_element_index_ →
        0 < d'.first_block_ * BLOCK_SIZE_ + d'.first_element_index_) := by
  obtain ⟨hwf, hfi, hal, hlb, hl, hel⟩ := hrep
  have hbound := hwf.bound
  unfold BLOCK_SIZE_ at hfi hal hl
  have hE : d.last_block_ * BLOCK_SIZE_ + d.after_last_element_index_
      < d.amount_of_blocks_ * BLOCK_SIZE_ := by unfold BLOCK_SIZE_; omega
  obtain ⟨st, hst, hwf1, hraw1, -, -, hcv, hco⟩ := construct_cell d hwf _ v hE
  have hdiv : (d.last_block_ * BLOCK_SIZE_ + d.after_last_element_index_) / BLOCK_SIZE_
      = d.last_block_ := by unfold BLOCK_SIZE_; omega
  have hmod : (d.last_block_ * BLOCK_SIZE_ + d.after_last_element_index_) % BLOCK_SIZE_
      = d.after_last_element_index_ := by unfold BLOCK_SIZE_; omega
  rw [hdiv, hmod] at hst
  have h31 : usub BLOCK_SIZE_ 1 = 31 := by decide
  have ham : usub d.amount_of_blocks_ 1 = d.amount_of_blocks_ - 1 :=
    usub_eq (by omega) (by unfold SIZE_MOD; omega)
  have hholds1 : Holds ({ d with store := st } : Deque T)
      (d.first_block_ * 32 + d.first_element_index_) (m ++ [v]) := by
    intro k hk
    rw [List.length_append, List.length_singleton] at hk
    by_cases hkl : k < m.length
    · rw [getElem?_concat_lt m v k hkl, ← hel k hkl]
      exact hco _ (by unfold BLOCK_SIZE_; omega) (by unfold BLOCK_SIZE_; omega)
    · have hk2 : k = m.length := by omega
      subst hk2
      rw [List.getElem?_concat_length, hl]
      exact hcv
  unfold Deque.push_back
  simp only [Deque.blockPtr, hlb, if_true, Option.some_bind, hst, h31, ham]
  by_cases hc : d.after_last_element_index_ = 31 ∧ d.last_block_ = d.amount_of_blocks_ - 1
  · obtain ⟨d2, hd2, hre⟩ := push_helper_edge ({ d with store := st } : Deque T) hwf1
      (show d.first_block_ ≤ d.last_block_ by omega) hlb _ _ _ _ hc
    rw [hd2]
    obtain ⟨ram, rfb, rlb, rfi, ral, rinj, rlive, rbelow, rcell, rraw⟩ := hre
    dsimp only at ram rfb rlb rfi ral rcell rraw
    have hal2 : uadd d2.after_last_element_index_ 1 = 32 := by
      rw [ral, hc.1]; decide
    have hlb2 : uadd d2.last_block_ (32 / BLOCK_SIZE_)
        = 2 * (d.last_block_ - d.first_block_ + 1) := by
      have : 32 / BLOCK_SIZE_ = 1 := by decide
      rw [this, rlb, uadd_eq (by unfold SIZE_MOD; omega)]
      omega
    simp only [Option.some_bind, hal2, hlb2]
    refine ⟨_, rfl, ?_⟩
    refine ⟨⟨⟨rinj, rlive, rbelow, ?_⟩, ?_, ?_, ?_, ?_, ?_⟩, ?_, ?_⟩
    · show d2.amount_of_blocks_ ≤ _
      omega
    · show d2.first_element_index_ < BLOCK_SIZE_
      unfold BLOCK_SIZE_; omega
    · show 32 % BLOCK_SIZE_ < BLOCK_SIZE_
      decide
    · show 2 * (d.last_block_ - d.first_block_ + 1) < d2.amount_of_blocks_
      omega
    · show d2.first_block_ * BLOCK_SIZE_ + d2.first_element_index_ + (m ++ [v]).length
        = 2 * (d.last_block_ - d.first_block_ + 1) * BLOCK_SIZE_ + 32 % BLOCK_SIZE_
      rw [List.length_append, List.length_singleton]
      unfold BLOCK_SIZE_; omega
    · intro k hk
      have hk' := hk
      rw [List.length_append, List.length_singleton] at hk'
      have h1 := rcell (d.first_block_ * 32 + d.first_element_index_ + k)
        (by unfold BLOCK_SIZE_; omega) (by unfold BLOCK_SIZE_; omega)
      have h2 := hholds1 k hk
      show d2.cell (d2.first_block_ * BLOCK_SIZE_ + d2.first_element_index_ + k) = _
      refine Eq.trans ?_ (h1.trans h2)
      exact congrArg d2.cell (by unfold BLOCK_SIZE_; omega)
    · show d2.store.dtor_raw = d.store.dtor_raw
      rw [rraw, hraw1]
    · intro _
      show 0 < d2.first_block_ * BLOCK_SIZE_ + d2.first_element_index_
      unfold BLOCK_SIZE_; omega
  · rw [push_helper_skip _ _ _ _ _ hc]
    have hal2 : uadd d.after_last_element_index_ 1 = d.after_last_element_index_ + 1 :=
      uadd_eq (by unfold SIZE_MOD; omega)
    have hlb2 : uadd d.last_block_ ((d.after_last_element_index_ + 1) / BLOCK_SIZE_)
        = d.last_block_ + (d.after_last_element_index_ + 1) / BLOCK_SIZE_ :=
      uadd_eq (by unfold SIZE_MOD BLOCK_SIZE_; omega)
    simp only [Option.some_bind, hal2, hlb2]
    refine ⟨_, rfl, ?_⟩
    refine ⟨⟨⟨hwf1.inj, hwf1.live, hwf1.below, hwf1.bound⟩, ?_, ?_, ?_, ?_, ?_⟩, ?_, ?_⟩
    · exact hfi
    · show (d.after_last_element_index_ + 1) % BLOCK_SIZE_ < BLOCK_SIZE_
      unfold BLOCK_SIZE_; omega
    · show d.last_block_ + (d.after_last_element_index_ + 1) / BLOCK_SIZE_ < d.amount_of_blocks_
      unfold BLOCK_SIZE_; omega
    · show d.first_block_ * BLOCK_SIZE_ + d.first_element_index_ + (m ++ [v]).length
        = (d.last_block_ + (d.after_last_element_index_ + 1) / BLOCK_SIZE_) * BLOCK_SIZE_
          + (d.after_last_element_index_ + 1) % BLOCK_SIZE_
      rw [List.length_append, List.length_singleton]
      unfold BLOCK_SIZE_; omega
    · exact hholds1
    · exact hraw1
    · exact fun hp => hp

/-- `push_back` on a deque that represents `m` (shorter than `2 ^ 60`)
succeeds and yields a deque that represents `m ++ [v]`. -/
theorem push_back_inv (d : Deque T) (m : List T) (v : T) (hinv : Inv d m)
    (hlen : m.length < 1152921504606846976) :
    ∃ d', d.push_back v = some d' ∧ Inv d' (m ++ [v]) := by
  obtain ⟨d', he, hr, hraw, hpos⟩ := push_back_rep d m v hinv.rep hlen
  exact ⟨d', he, hr.wf, hr.first_lt, hr.after_lt, hr.last_lt, hpos hinv.pos, hr.len, hr.elems,
    hraw.trans hinv.no_raw⟩

/-- `push_front` on a deque that represents `m` (shorter than `2 ^ 60`)
succeeds and yields a deque that represents `v :: m`. -/
theorem push_front_inv (d : Deque T) (m : List T) (v : T) (hinv : Inv d m)
    (hlen : m.length < 1152921504606846976) :
    ∃ d', d.push_front v = some d' ∧ Inv d' (v :: m) := by
  obtain ⟨hwf, hfi, hal, hlb, hpos, hl, hel, hraw⟩ := hinv
  have hbound := hwf.bound
  unfold BLOCK_SIZE_ at hfi hal hpos hl
  have hP : d.first_block_ * 32 + d.first_element_index_ - 1
      < d.amount_of_blocks_ * BLOCK_SIZE_ := by unfold BLOCK_SIZE_; omega
  obtain ⟨st, hst, hwf1, hraw1, -, -, hcv, hco⟩ := construct_cell d hwf _ v hP
  have hpb : (if d.first_element_index_ = 0 then usub d.first_block_ 1 else d.first_block_)
      = (d.first_block_ * 32 + d.first_element_index_ - 1) / BLOCK_SIZE_ := by
    by_cases h0 : d.first_element_index_ = 0
    · rw [if_pos h0, usub_eq (by omega) (by unfold SIZE_MOD; omega)]
      unfold BLOCK_SIZE_; omega
    · rw [if_neg h0]
      unfold BLOCK_SIZE_; omega
  have hpi : (if d.first_element_index_ = 0 then usub BLOCK_SIZE_ 1
        else usub d.first_element_index_ 1)
      = (d.first_block_ * 32 + d.first_element_index_ - 1) % BLOCK_SIZE_ := by
    by_cases h0 : d.first_element_index_ = 0
    · rw [if_pos h0]
      have : usub BLOCK_SIZE_ 1 = 31 := by decide
      rw [this]
      unfold BLOCK_SIZE_; omega
    · rw [if_neg h0, usub_eq (by omega) (by unfold SIZE_MOD; omega)]
      unfold BLOCK_SIZE_; omega
  have hblk : (d.first_block_ * 32 + d.first_element_index_ - 1) / BLOCK_SIZE_
      < d.amount_of_blocks_ := by unfold BLOCK_SIZE_; omega
  have hholds1 : Holds ({ d with store := st } : Deque T)
      (d.first_block_ * 32 + d.first_element_index_ - 1) (v :: m) := by
    intro k hk
    rw [List.length_cons] at hk
    cases k with
    | zero => rw [List.getElem?_cons_zero]; exact hcv
    | succ k =>
      rw [List.getElem?_cons_succ, ← hel k (by omega)]
      have e : d.first_block_ * 32 + d.first_element_index_ - 1 + (k + 1)
          = d.first_block_ * BLOCK_SIZE_ + d.first_element_index_ + k := by
        unfold BLOCK_SIZE_; omega
      rw [e]
      exact hco _ (by unfold BLOCK_SIZE_; omega) (by unfold BLOCK_SIZE_; omega)
  unfold Deque.push_front
  simp only [hpb, hpi, Deque.blockPtr, hblk, if_true, Option.some_bind, hst]
  by_cases hc : (d.first_block_ * 32 + d.first_element_index_ - 1) % BLOCK_SIZE_ = 0 ∧
      (d.first_block_ * 32 + d.first_element_index_ - 1) / BLOCK_SIZE_ = 0
  · obtain ⟨d2, hd2, hre⟩ := push_helper_edge ({ d with store := st } : Deque T) hwf1
      (show d.first_block_ ≤ d.last_block_ by omega) hlb _ _ _ _ hc
    rw [hd2]
    obtain ⟨ram, rfb, rlb, rfi, ral, rinj, rlive, rbelow, rcell, rraw⟩ := hre
    dsimp only at ram rfb rlb rfi ral rcell rraw
    unfold BLOCK_SIZE_ at hc
    have hfi1 : d.first_element_index_ = 1 := by omega
    have hfb0 : d.first_block_ = 0 := by omega
    have hf1 : usub BLOCK_SIZE_ d2.first_element_index_ = 31 := by
      rw [rfi, hfi1]; decide
    have hfbn : usub d2.first_block_ (31 / BLOCK_SIZE_) = d2.first_block_ := by
      have : 31 / BLOCK_SIZE_ = 0 := by decide
      rw [this, usub_eq (by omega) (by unfold SIZE_MOD; omega)]
      omega
    have hfin : usub (usub BLOCK_SIZE_ (31 % BLOCK_SIZE_)) 1 = 0 := by decide
    simp only [Option.some_bind, hf1, hfbn, hfin]
    refine ⟨_, rfl, ?_⟩
    refine ⟨⟨rinj, rlive, rbelow, ?_⟩, ?_, ?_, ?_, ?_, ?_, ?_, ?_⟩
    · show d2.amount_of_blocks_ ≤ _
      omega
    · show 0 < BLOCK_SIZE_
      decide
    · show d2.after_last_element_index_ < BLOCK_SIZE_
      unfold BLOCK_SIZE_; omega
    · show d2.last_block_ < d2.amount_of_blocks_
      omega
    · show 0 < d2.first_block_ * BLOCK_SIZE_ + 0
      unfold BLOCK_SIZE_; omega
    · show d2.first_block_ * BLOCK_SIZE_ + 0 + (v :: m).length
        = d2.last_block_ * BLOCK_SIZE_ + d2.after_last_element_index_
      rw [List.length_cons]
      unfold BLOCK_SIZE_; omega
    · intro k hk
      have hk' := hk
      rw [List.length_cons] at hk'
      have h1 := rcell (d.first_block_ * 32 + d.first_element_index_ - 1 + k)
        (by unfold BLOCK_SIZE_; omega) (by unfold BLOCK_SIZE_; omega)
      have h2 := hholds1 k hk
      show d2.cell (d2.first_block_ * BLOCK_SIZE_ + 0 + k) = _
      refine Eq.trans ?_ (h1.trans h2)
      exact congrArg d2.cell (by unfold BLOCK_SIZE_; omega)
    · show d2.store.dtor_raw = 0
      rw [rraw, hraw1]; exact hraw
  · rw [push_helper_skip _ _ _ _ _ hc]
    unfold BLOCK_SIZE_ at hc
    have hf1 : usub BLOCK_SIZE_ d.first_element_index_ = 32 - d.first_element_index_ := by
      unfold BLOCK_SIZE_
      exact usub_eq (by omega) (by decide)
    have hfbn : usub d.first_block_ ((32 - d.first_element_index_) / BLOCK_SIZE_)
        = d.first_block_ - (32 - d.first_element_index_) / BLOCK_SIZE_ := by
      apply usub_eq (by unfold BLOCK_SIZE_; omega) (by unfold SIZE_MOD; omega)
    have hfin : usub (usub BLOCK_SIZE_ ((32 - d.first_element_index_) % BLOCK_SIZE_)) 1
        = 32 - (32 - d.first_element_index_) % BLOCK_SIZE_ - 1 := by
      unfold BLOCK_SIZE_
      have i1 : usub 32 ((32 - d.first_element_index_) % 32)
          = 32 - (32 - d.first_element_index_) % 32 := usub_eq (by omega) (by decide)
      rw [i1]
      exact usub_eq (by omega) (by unfold SIZE_MOD; omega)
    simp only [Option.some_bind, hf1, hfbn, hfin]
    refine ⟨_, rfl, ?_⟩
    refine ⟨⟨hwf1.inj, hwf1.live, hwf1.below, hwf1.bound⟩, ?_, ?_, ?_, ?_, ?_, ?_, ?_⟩
    · show 32 - (32 - d.first_element_index_) % BLOCK_SIZE_ - 1 < BLOCK_SIZE_
      unfold BLOCK_SIZE_; omega
    · show d.after_last_element_index_ < BLOCK_SIZE_
      exact hal
    · exact hlb
    · show 0 < (d.first_block_ - (32 - d.first_element_index_) / BLOCK_SIZE_) * BLOCK_SIZE_
        + (32 - (32 - d.first_element_index_) % BLOCK_SIZE_ - 1)
      unfold BLOCK_SIZE_; omega
    · show (d.first_block_ - (32 - d.first_element_index_) / BLOCK_SIZE_) * BLOCK_SIZE_
        + (32 - (32 - d.first_element_index_) % BLOCK_SIZE_ - 1) + (v :: m).length
        = d.last_block_ * BLOCK_SIZE_ + d.after_last_element_index_
      rw [List.length_cons]
      unfold BLOCK_SIZE_; omega
    · have e : (d.first_block_ - (32 - d.first_element_index_) / BLOCK_SIZE_) * BLOCK_SIZE_
          + (32 - (32 - d.first_element_index_) % BLOCK_SIZE_ - 1)
          = d.first_block_ * 32 + d.first_element_index_ - 1 := by
        unfold BLOCK_SIZE_; omega
      show Holds _ ((d.first_block_ - (32 - d.first_element_index_) / BLOCK_SIZE_) * BLOCK_SIZE_
          + (32 - (32 - d.first_element_index_) % BLOCK_SIZE_ - 1)) _
      rw [e]
      exact hholds1
    · show st.dtor_raw = 0
      rw [hraw1]; exact hraw

/-- `pop_back` on a valid deque holding a non-empty `m` succeeds and yields a
valid deque holding `m.dropLast`; the destructor runs on an element, and the
first position stays where it was. -/
theorem pop_back_rep (d : Deque T) (m : List T) (hrep : Rep d m) (hne : m ≠ []) :
    ∃ d', d.pop_back = some d' ∧ Rep d' m.dropLast ∧
      d'.store.dtor_raw = d.store.dtor_raw ∧
      d'.first_block_ = d.first_block_ ∧ d'.first_element_index_ = d.first_element_index_ := by
  obtain ⟨hwf, hfi, hal, hlb, hl, hel⟩ := hrep
  have hbound := hwf.bound
  have hsize := size_eq d m.length hbound hfi hal hlb hl
  have hlen : 0 < m.length := List.length_pos.mpr hne
  unfold BLOCK_SIZE_ at hfi hal hl
  have hs1 : usub d.size 1 = m.length - 1 := by
    rw [hsize]; exact usub_eq (by omega) (by unfold SIZE_MOD; omega)
  have hin : d.first_block_ * BLOCK_SIZE_ + d.first_element_index_ + (m.length - 1)
      < d.amount_of_blocks_ * BLOCK_SIZE_ := by unfold BLOCK_SIZE_; omega
  obtain ⟨x, hx⟩ : ∃ x, m[m.length - 1]? = some x := by
    cases hq : m[m.length - 1]? with
    | none => rw [List.getElem?_eq_none_iff] at hq; omega
    | some x => exact ⟨x, rfl⟩
  have hcx := (hel (m.length - 1) (by omega)).trans hx
  obtain ⟨st, hst, hwf1, hraw1, -, -, hco⟩ := destroy_cell d hwf _ x hin hcx
  have hholds : ∀ (d' : Deque T), d'.store = st → d'.external_array_ = d.external_array_ →
      Holds d' (d.first_block_ * BLOCK_SIZE_ + d.first_element_index_) m.dropLast := by
    intro d' e1 e2 k hk
    rw [List.length_dropLast] at hk
    rw [List.getElem?_dropLast, if_pos hk, ← hel k (by omega)]
    have := hco (d.first_block_ * BLOCK_SIZE_ + d.first_element_index_ + k)
      (by unfold BLOCK_SIZE_; omega) (by omega)
    rw [← this]
    unfold Deque.cell
    rw [e1, e2]
  unfold Deque.pop_back
  rw [hs1, index_eq d _ hbound (by unfold BLOCK_SIZE_; exact hfi) hin]
  simp only [Option.some_bind, hst]
  by_cases h0 : d.after_last_element_index_ = 0
  · rw [if_pos h0]
    have e1 : usub d.last_block_ 1 = d.last_block_ - 1 :=
      usub_eq (by omega) (by unfold SIZE_MOD; omega)
    have e2 : usub BLOCK_SIZE_ 1 = 31 := by decide
    rw [e1, e2]
    refine ⟨_, rfl, ?_⟩
    refine ⟨⟨⟨hwf1.inj, hwf1.live, hwf1.below, hwf1.bound⟩, ?_, ?_, ?_, ?_, ?_⟩, hraw1, rfl, rfl⟩
    · show d.first_element_index_ < BLOCK_SIZE_
      unfold BLOCK_SIZE_; exact hfi
    · show 31 < BLOCK_SIZE_
      decide
    · show d.last_block_ - 1 < d.amount_of_blocks_
      omega
    · show d.first_block_ * BLOCK_SIZE_ + d.first_element_index_ + m.dropLast.length
        = (d.last_block_ - 1) * BLOCK_SIZE_ + 31
      rw [List.length_dropLast]
      unfold BLOCK_SIZE_; omega
    · exact hholds _ rfl rfl
  · rw [if_neg h0]
    have e1 : usub d.after_last_element_index_ 1 = d.after_last_element_index_ - 1 :=
      usub_eq (by omega) (by unfold SIZE_MOD; omega)
    rw [e1]
    refine ⟨_, rfl, ?_⟩
    refine ⟨⟨⟨hwf1.inj, hwf1.live, hwf1.below, hwf1.bound⟩, ?_, ?_, ?_, ?_, ?_⟩, hraw1, rfl, rfl⟩
    · show d.first_element_index_ < BLOCK_SIZE_
      unfold BLOCK_SIZE_; exact hfi
    · show d.after_last_element_index_ - 1 < BLOCK_SIZE_
      unfold BLOCK_SIZE_; omega
    · exact hlb
    · show d.first_block_ * BLOCK_SIZE_ + d.first_element_index_ + m.dropLast.length
        = d.last_block_ * BLOCK_SIZE_ + (d.after_last_element_index_ - 1)
      rw [List.length_dropLast]
      unfold BLOCK_SIZE_; omega
    · exact hholds _ rfl rfl

/-- `pop_back` on a deque that represents a non-empty `m` succeeds and
yields a deque that represents `m.dropLast`. -/
theorem pop_back_inv (d : Deque T) (m : List T) (hinv : Inv d m) (hne : m ≠ []) :
    ∃ d', d.pop_back = some d' ∧ Inv d' m.dropLast := by
  obtain ⟨d', he, hr, hraw, hfb, hfi⟩ := pop_back_rep d m hinv.rep hne
  refine ⟨d', he, hr.wf, hr.first_lt, hr.after_lt, hr.last_lt, ?_, hr.len, hr.elems,
    hraw.trans hinv.no_raw⟩
  rw [hfb, hfi]
  exact hinv.pos

/-- `pop_front` on a deque that represents a non-empty `m` succeeds and
yields a deque that represents `m.tail`. -/
theorem pop_front_inv (d : Deque T) (m : List T) (hinv : Inv d m) (hne : m ≠ []) :
    ∃ d', d.pop_front = some d' ∧ Inv d' m.tail := by
  obtain ⟨hwf, hfi, hal, hlb, hpos, hl, hel, hraw⟩ := hinv
  have hbound := hwf.bound
  have hlen : 0 < m.length := List.length_pos.mpr hne
  unfold BLOCK_SIZE_ at hfi hal hpos hl
  have hin : d.first_block_ * BLOCK_SIZE_ + d.first_element_index_ + 0
      < d.amount_of_blocks_ * BLOCK_SIZE_ := by unfold BLOCK_SIZE_; omega
  obtain ⟨x, hx⟩ : ∃ x, m[0]? = some x := by
    cases hq : m[0]? with
    | none => rw [List.getElem?_eq_none_iff] at hq; omega
    | some x => exact ⟨x, rfl⟩
  have hcx := (hel 0 hlen).trans hx
  obtain ⟨st, hst, hwf1, hraw1, -, -, hco⟩ := destroy_cell d hwf _ x hin hcx
  have hholds : ∀ (d' : Deque T), d'.store = st → d'.external_array_ = d.external_array_ →
      Holds d' (d.first_block_ * BLOCK_SIZE_ + d.first_element_index_ + 1) m.tail := by
    intro d' e1 e2 k hk
    rw [List.length_tail] at hk
    rw [List.getElem?_tail, ← hel (k + 1) (by omega)]
    have := hco (d.first_block_ * BLOCK_SIZE_ + d.first_element_index_ + (k + 1))
      (by unfold BLOCK_SIZE_; omega) (by omega)
    rw [← this]
    have e : d.first_block_ * BLOCK_SIZE_ + d.first_element_index_ + 1 + k
        = d.first_block_ * BLOCK_SIZE_ + d.first_element_index_ + (k + 1) := by omega
    rw [e]
    unfold Deque.cell
    rw [e1, e2]
  unfold Deque.pop_front
  rw [index_eq d _ hbound (by unfold BLOCK_SIZE_; exact hfi) hin]
  simp only [Option.some_bind, hst]
  have e31 : usub BLOCK_SIZE_ 1 = 31 := by decide
  rw [e31]
  by_cases h0 : d.first_element_index_ = 31
  · rw [if_pos h0]
    have e1 : uadd d.first_block_ 1 = d.first_block_ + 1 :=
      uadd_eq (by unfold SIZE_MOD; omega)
    rw [e1]
    refine ⟨_, rfl, ?_⟩
    refine ⟨⟨hwf1.inj, hwf1.live, hwf1.below, hwf1.bound⟩, ?_, ?_, ?_, ?_, ?_, ?_, ?_⟩
    · show 0 < BLOCK_SIZE_
      decide
    · show d.after_last_element_index_ < BLOCK_SIZE_
      unfold BLOCK_SIZE_; exact hal
    · exact hlb
    · show 0 < (d.first_block_ + 1) * BLOCK_SIZE_ + 0
      unfold BLOCK_SIZE_; omega
    · show (d.first_block_ + 1) * BLOCK_SIZE_ + 0 + m.tail.length
        = d.last_block_ * BLOCK_SIZE_ + d.after_last_element_index_
      rw [List.length_tail]
      unfold BLOCK_SIZE_; omega
    · have e : (d.first_block_ + 1) * BLOCK_SIZE_ + 0
          = d.first_block_ * BLOCK_SIZE_ + d.first_element_index_ + 1 := by
        unfold BLOCK_SIZE_; omega
      show Holds _ ((d.first_block_ + 1) * BLOCK_SIZE_ + 0) _
      rw [e]
      exact hholds _ rfl rfl
    · show st.dtor_raw = 0
      rw [hraw1]; exact hraw
  · rw [if_neg h0]
    have e1 : uadd d.first_element_index_ 1 = d.first_element_index_ + 1 :=
      uadd_eq (by unfold SIZE_MOD; omega)
    rw [e1]
    refine ⟨_, rfl, ?_⟩
    refine ⟨⟨hwf1.inj, hwf1.live, hwf1.below, hwf1.bound⟩, ?_, ?_, ?_, ?_, ?_, ?_, ?_⟩
    · show d.first_element_index_ + 1 < BLOCK_SIZE_
      unfold BLOCK_SIZE_; omega
    · show d.after_last_element_index_ < BLOCK_SIZE_
      unfold BLOCK_SIZE_; exact hal
    · exact hlb
    · show 0 < d.first_block_ * BLOCK_SIZE_ + (d.first_element_index_ + 1)
      unfold BLOCK_SIZE_; omega
    · show d.first_block_ * BLOCK_SIZE_ + (d.first_element_index_ + 1) + m.tail.length
        = d.last_block_ * BLOCK_SIZE_ + d.after_last_element_index_
      rw [List.length_tail]
      unfold BLOCK_SIZE_; omega
    · exact hholds _ rfl rfl
    · show st.dtor_raw = 0
      rw [hraw1]; exact hraw

/-- The default-constructed deque represents the empty sequence. -/
theorem ctor_inv : Inv (Deque.ctor T) [] := by
  obtain ⟨ta, tb, ts, tl, -, -, -, -, -, -, traw⟩ :=
    try_allocate_spec (Store.empty T).newArray.1 (Store.empty T).newArray.2 DEFAULT_CAPACITY_
  have hbrk : (Store.empty T).newArray.1.brk = 0 := rfl
  rw [hbrk] at ta tb ts tl
  refine ⟨⟨?_, ?_, ?_, ?_⟩, ?_, ?_, ?_, ?_, ?_, ?_, ?_⟩
  · intro i j hi hj hij
    have hi' : i < DEFAULT_CAPACITY_ := hi
    have hj' : j < DEFAULT_CAPACITY_ := hj
    have e : (Deque.ctor T).external_array_
        = (try_allocate (Store.empty T).newArray.1 (Store.empty T).newArray.2
            DEFAULT_CAPACITY_).2 := rfl
    rw [e, ta] at hij
    simp only [hi', hj', if_true] at hij
    omega
  · intro i hi
    have hi' : i < DEFAULT_CAPACITY_ := hi
    show (try_allocate (Store.empty T).newArray.1 (Store.empty T).newArray.2
      DEFAULT_CAPACITY_).1.live ((try_allocate (Store.empty T).newArray.1
        (Store.empty T).newArray.2 DEFAULT_CAPACITY_).2 i) = true
    rw [ta, tl]
    simp only [hi', if_true]
    rw [if_pos (by omega)]
  · intro i hi
    have hi' : i < DEFAULT_CAPACITY_ := hi
    show (try_allocate (Store.empty T).newArray.1 (Store.empty T).newArray.2
        DEFAULT_CAPACITY_).2 i
      < (try_allocate (Store.empty T).newArray.1 (Store.empty T).newArray.2
        DEFAULT_CAPACITY_).1.brk
    rw [ta, tb]
    simp only [hi', if_true]
    omega
  · show DEFAULT_CAPACITY_ ≤ _
    decide
  · show 0 < BLOCK_SIZE_
    decide
  · show 0 < BLOCK_SIZE_
    decide
  · show DEFAULT_CAPACITY_ / 2 < DEFAULT_CAPACITY_
    decide
  · show 0 < DEFAULT_CAPACITY_ / 2 * BLOCK_SIZE_ + 0
    decide
  · rfl
  · intro k hk
    simp at hk
  · show (try_allocate (Store.empty T).newArray.1 (Store.empty T).newArray.2
      DEFAULT_CAPACITY_).1.dtor_raw = 0
    rw [traw]
    rfl

/-- One operation, issued on a deque that represents `m`, succeeds and
yields a deque that represents the reference result. -/
theorem apply_inv (d : Deque T) (m : List T) (op : Op T) (hinv : Inv d m)
    (hlen : m.length < 1152921504606846976)
    (hpop : (op = .pop_back ∨ op = .pop_front) → m ≠ []) :
    ∃ d', d.apply op = some d' ∧ Inv d' (refApply m op) := by
  cases op with
  | push_back v => exact push_back_inv d m v hinv hlen
  | push_front v => exact push_front_inv d m v hinv hlen
  | pop_back => exact pop_back_inv d m hinv (hpop (Or.inl rfl))
  | pop_front => exact pop_front_inv d m hinv (hpop (Or.inr rfl))

theorem length_refApply_le (m : List T) (op : Op T) :
    (refApply m op).length ≤ m.length + 1 := by
  cases op <;> simp [refApply] <;> omega

/-- A valid sequence of operations, issued on a deque that represents `m`,
succeeds and yields a deque that represents the reference result. -/
theorem run_inv (ops : List (Op T)) :
    ∀ (d : Deque T) (m : List T), Inv d m → popsValid m ops →
      m.length + ops.length ≤ 1152921504606846976 →
      ∃ d', d.run ops = some d' ∧ Inv d' (refRun m ops) := by
  induction ops with
  | nil =>
    intro d m hinv _ _
    exact ⟨d, rfl, hinv⟩
  | cons op ops ih =>
    intro d m hinv hvalid hlen
    rw [List.length_cons] at hlen
    have hpop : (op = .pop_back ∨ op = .pop_front) → m ≠ [] := by
      rintro (rfl | rfl)
      · exact hvalid.1
      · exact hvalid.1
    have hvalid' : popsValid (refApply m op) ops := by
      cases op with
      | push_back v => exact hvalid
      | push_front v => exact hvalid
      | pop_back => exact hvalid.2
      | pop_front => exact hvalid.2
    obtain ⟨d1, hd1, hinv1⟩ := apply_inv d m op hinv (by omega) hpop
    have := length_refApply_le m op
    obtain ⟨d2, hd2, hinv2⟩ := ih d1 (refApply m op) hinv1 hvalid' (by omega)
    refine ⟨d2, ?_, hinv2⟩
    show (d.apply op).bind (fun d1 => d1.run ops) = some d2
    rw [hd1]
    exact hd2

/-- What a deque that represents `m` lets a caller observe: `size()` is the
length of `m` and `(*this)[i]` is the `i`-th element of `m`. -/
theorem inv_observe (d : Deque T) (m : List T) (hinv : Inv d m) :
    d.size = m.length ∧ ∀ i, i < m.length → d.get i = m[i]? := by
  obtain ⟨hwf, hfi, hal, hlb, hpos, hl, hel, hraw⟩ := hinv
  refine ⟨size_eq d m.length hwf.bound hfi hal hlb hl, ?_⟩
  intro i hi
  rw [get_eq d i hwf hfi (by unfold BLOCK_SIZE_ at *; omega)]
  exact hel i hi

/-- C2: every sequence of at most `2 ^ 60` operations `push_back`,
`push_front`, `pop_back`, `pop_front` (pops on a non-empty deque only) runs
to completion on a default-constructed `Deque`, whatever number of
reallocations of the indirection array it forces, and afterwards `size()` is
the length of the reference sequence, `(*this)[i]` is its `i`-th element for
every `i < size()`, and no destructor was ever called on a slot without an
element. -/
theorem C2_deque_refines_sequence (ops : List (Op T)) (hvalid : popsValid [] ops)
    (hlen : ops.length ≤ 1152921504606846976) :
    ∃ d, (Deque.ctor T).run ops = some d ∧
      d.size = (refRun [] ops).length ∧
      (∀ i, i < (refRun [] ops).length → d.get i = (refRun [] ops)[i]?) ∧
      d.store.dtor_raw = 0 := by
  obtain ⟨d, hd, hinv⟩ := run_inv ops (Deque.ctor T) [] ctor_inv hvalid (by simpa using hlen)
  exact ⟨d, hd, (inv_observe d _ hinv).1, (inv_observe d _ hinv).2, hinv.no_raw⟩

/-- C2 at a concrete program on a deque of numbers. -/
theorem C2_deque_refines_sequence_witness :
    ∃ d, (Deque.ctor Nat).run [.push_back 1, .push_front 2, .pop_back, .push_back 3, .pop_front]
        = some d ∧
      d.size = (refRun [] [Op.push_back 1, .push_front 2, .pop_back, .push_back 3,
        .pop_front]).length ∧
      (∀ i, i < (refRun [] [Op.push_back 1, .push_front 2, .pop_back, .push_back 3,
          .pop_front]).length →
        d.get i = (refRun [] [Op.push_back 1, .push_front 2, .pop_back, .push_back 3,
          .pop_front])[i]?) ∧
      d.store.dtor_raw = 0 :=
  C2_deque_refines_sequence _ (by simp [popsValid]) (by decide)

/-- C9: `at(i)` throws `std::out_of_range` exactly when `i >= size()`
(so `at(size())` always throws); when `i < size()` it returns the reference
`(*this)[i]`; in either case the deque is left as it was.  On a deque that
represents the sequence `m`, `size()` is the length of `m` and the reference
returned for `i < size()` is a place that holds the `i`-th element of `m`. -/
theorem C9_at_bounds (d : Deque T) (i : Nat) :
    ((d.at i).1 = .out_of_range ↔ i ≥ d.size) ∧
    ((d.at d.size).1 = .out_of_range) ∧
    (i < d.size → (d.at i).1 = .ref (d.index i)) ∧
    (d.at i).2 = d ∧
    (∀ m : List T, Inv d m →
      d.size = m.length ∧
      (i < d.size → ∃ p, (d.at i).1 = .ref (some p) ∧ d.index i = some p ∧
        d.store.live p.1 = true ∧ d.store.slot p.1 p.2 = m[i]? ∧ (m[i]?).isSome)) := by
  refine ⟨?_, ?_, ?_, ?_, ?_⟩
  · unfold Deque.at
    by_cases h : i ≥ d.size
    · simp [h]
    · simp [h]
  · unfold Deque.at
    simp
  · intro h
    unfold Deque.at
    rw [if_neg (by omega)]
  · unfold Deque.at
    split <;> rfl
  · intro m hinv
    have hsz := (inv_observe d m hinv).1
    refine ⟨hsz, ?_⟩
    intro hi
    rw [hsz] at hi
    obtain ⟨hwf, hfi, hal, hlb, hpos, hl, hel, hraw⟩ := hinv
    have hin : d.first_block_ * BLOCK_SIZE_ + d.first_element_index_ + i
        < d.amount_of_blocks_ * BLOCK_SIZE_ := by unfold BLOCK_SIZE_ at *; omega
    have hidx := index_eq d i hwf.bound hfi hin
    refine ⟨_, ?_, hidx, ?_, ?_, ?_⟩
    · unfold Deque.at
      rw [if_neg (by omega), hidx]
    · exact hwf.live _ (by unfold BLOCK_SIZE_ at *; omega)
    · exact hel i hi
    · cases hq : m[i]? with
      | none => rw [List.getElem?_eq_none_iff] at hq; omega
      | some x => rfl

/-- C7 (evaluation at the failing input): `Deque<T>(2)` where the
construction of element 1 throws.  The constructor propagates the failure
and releases all 8 blocks and the indirection array, but the one element
that was constructed (index 0) is never destroyed, and the one destructor
call lands on the slot of index 1, which holds no element. -/
theorem C7_sized_constructor_destroys_wrong_slot :
    (Deque.ctor_n 2 (fun i => if i = 1 then none else some (7 : Nat))).thrownCounters
      = some (1, 0, 1) ∧
    (Deque.ctor_n 2 (fun i => if i = 1 then none else some (7 : Nat))).thrownAllocs
      = some (8, 8, 1, 1) := by
  constructor <;> rfl

/-! ### Iterators, `insert` and `erase` -/

theorem iterator_eq (d : Deque T) (p : Nat) (hp : p < d.amount_of_blocks_ * BLOCK_SIZE_) :
    d.iterator p = some (d.iterAt p) := by
  have : p / BLOCK_SIZE_ < d.amount_of_blocks_ := by unfold BLOCK_SIZE_ at *; omega
  simp only [Deque.iterator, Deque.blockPtr, this, if_true, Option.map_some', Deque.iterAt]

/-- `it += k` for `k >= 0` inside the array. -/
theorem iter_add_nat (d : Deque T) (it : common_iterator) (k : Nat)
    (hb : d.amount_of_blocks_ ≤ 144115188075855872)
    (hk : it.index_ + k < d.amount_of_blocks_ * BLOCK_SIZE_) :
    d.iter_add it (k : Int) = some (d.iterAt (it.index_ + k)) := by
  have h1 : ¬ ((k : Int) < 0) := by omega
  have h2 : ofPtrdiff (k : Int) = k :=
    ofPtrdiff_natCast (by unfold SIZE_MOD; unfold BLOCK_SIZE_ at hk; omega)
  have h3 : uadd it.index_ k = it.index_ + k :=
    uadd_eq (by unfold SIZE_MOD; unfold BLOCK_SIZE_ at hk; omega)
  unfold Deque.iter_add
  rw [if_neg h1, h2, h3]
  exact iterator_eq d _ hk

/-- `it -= k` for `k >= 0` not beyond the start of the array. -/
theorem iter_sub_nat (d : Deque T) (it : common_iterator) (k : Nat)
    (hb : d.amount_of_blocks_ ≤ 144115188075855872)
    (hi : it.index_ < d.amount_of_blocks_ * BLOCK_SIZE_) (hk : k ≤ it.index_) :
    d.iter_sub it (k : Int) = some (d.iterAt (it.index_ - k)) := by
  have h1 : ¬ ((k : Int) < 0) := by omega
  have h2 : ofPtrdiff (k : Int) = k :=
    ofPtrdiff_natCast (by unfold SIZE_MOD; unfold BLOCK_SIZE_ at hi; omega)
  have h3 : usub it.index_ k = it.index_ - k :=
    usub_eq hk (by unfold SIZE_MOD; unfold BLOCK_SIZE_ at hi; omega)
  unfold Deque.iter_sub
  rw [if_neg h1, h2, h3]
  exact iterator_eq d _ (by omega)

/-- `it += -k` for `k > 0`: the step goes through `operator-=`. -/
theorem iter_add_neg (d : Deque T) (it : common_iterator) (k : Nat)
    (hb : d.amount_of_blocks_ ≤ 144115188075855872)
    (hi : it.index_ < d.amount_of_blocks_ * BLOCK_SIZE_) (hk0 : 0 < k) (hk : k ≤ it.index_) :
    d.iter_add it (-(k : Int)) = some (d.iterAt (it.index_ - k)) := by
  have h1 : -(k : Int) < 0 := by omega
  have h2 : ofPtrdiff (- -(k : Int)) = k := by
    rw [Int.neg_neg]
    exact ofPtrdiff_natCast (by unfold SIZE_MOD; unfold BLOCK_SIZE_ at hi; omega)
  have h3 : usub it.index_ k = it.index_ - k :=
    usub_eq hk (by unfold SIZE_MOD; unfold BLOCK_SIZE_ at hi; omega)
  unfold Deque.iter_add
  rw [if_pos h1, h2, h3]
  exact iterator_eq d _ (by omega)

theorem WF.same {d : Deque T} (hwf : WF d) {st : Store T} (hs : d.store.sameButSlots st) :
    WF ({ d with store := st } : Deque T) := by
  obtain ⟨h1, h2, -⟩ := hs
  refine ⟨hwf.inj, ?_, ?_, hwf.bound⟩
  · intro i hi
    show st.live _ = true
    rw [h1]; exact hwf.live i hi
  · intro i hi
    show _ < st.brk
    rw [h2]; exact hwf.below i hi

theorem sameButSlots_refl (st : Store T) : st.sameButSlots st :=
  ⟨rfl, rfl, rfl, rfl, rfl, rfl, rfl, rfl, rfl⟩

theorem sameButSlots_trans {a b c : Store T} (h1 : a.sameButSlots b) (h2 : b.sameButSlots c) :
    a.sameButSlots c := by
  obtain ⟨a1, a2, a3, a4, a5, a6, a7, a8, a9⟩ := h1
  obtain ⟨b1, b2, b3, b4, b5, b6, b7, b8, b9⟩ := h2
  exact ⟨b1.trans a1, b2.trans a2, b3.trans a3, b4.trans a4, b5.trans a5, b6.trans a6,
    b7.trans a7, b8.trans a8, b9.trans a9⟩

/-- Two running indices inside the array name the same place only when they
are equal. -/
theorem place_inj (d : Deque T) (hwf : WF d) (p q : Nat)
    (hp : p < d.amount_of_blocks_ * BLOCK_SIZE_) (hq : q < d.amount_of_blocks_ * BLOCK_SIZE_)
    (h1 : d.external_array_ (p / BLOCK_SIZE_) = d.external_array_ (q / BLOCK_SIZE_))
    (h2 : p % BLOCK_SIZE_ = q % BLOCK_SIZE_) : p = q := by
  have hpb : p / BLOCK_SIZE_ < d.amount_of_blocks_ := by unfold BLOCK_SIZE_ at *; omega
  have hqb : q / BLOCK_SIZE_ < d.amount_of_blocks_ := by unfold BLOCK_SIZE_ at *; omega
  have := hwf.inj _ _ hpb hqb h1
  unfold BLOCK_SIZE_ at *
  omega

/-- Reading through the iterator with running index `p`. -/
theorem read_iterAt (d : Deque T) (hwf : WF d) (p : Nat)
    (hp : p < d.amount_of_blocks_ * BLOCK_SIZE_) :
    d.store.read (d.iterAt p).deref = d.cell p := by
  have hblk : p / BLOCK_SIZE_ < d.amount_of_blocks_ := by unfold BLOCK_SIZE_ at *; omega
  have hs : p % BLOCK_SIZE_ < BLOCK_SIZE_ := by unfold BLOCK_SIZE_; omega
  unfold Store.read
  simp only [Deque.iterAt, common_iterator.deref, hwf.live _ hblk, hs, and_self, if_true,
    Deque.cell]

/-- `std::swap` on the elements with running indices `p` and `q`. -/
theorem swap_cells (d : Deque T) (hwf : WF d) (p q : Nat) (x y : T)
    (hp : p < d.amount_of_blocks_ * BLOCK_SIZE_) (hq : q < d.amount_of_blocks_ * BLOCK_SIZE_)
    (hpq : p ≠ q) (hx : d.cell p = some x) (hy : d.cell q = some y) :
    ∃ st, d.store.swapAt (d.iterAt p).deref (d.iterAt q).deref = some st ∧
      d.store.sameButSlots st ∧
      ({ d with store := st } : Deque T).cell p = some y ∧
      ({ d with store := st } : Deque T).cell q = some x ∧
      ∀ r, r < d.amount_of_blocks_ * BLOCK_SIZE_ → r ≠ p → r ≠ q →
        ({ d with store := st } : Deque T).cell r = d.cell r := by
  unfold Store.swapAt
  rw [read_iterAt d hwf p hp, read_iterAt d hwf q hq, hx, hy]
  refine ⟨_, rfl, sameButSlots_refl _, ?_, ?_, ?_⟩
  · simp only [Deque.cell, Deque.iterAt, common_iterator.deref]
    rw [if_neg, if_pos ⟨trivial, trivial⟩]
    rintro ⟨h1, h2⟩
    exact hpq (place_inj d hwf p q hp hq h1 h2)
  · simp only [Deque.cell, Deque.iterAt, common_iterator.deref]
    rw [if_pos ⟨trivial, trivial⟩]
  · intro r hr hrp hrq
    simp only [Deque.cell, Deque.iterAt, common_iterator.deref]
    rw [if_neg, if_neg]
    · rintro ⟨h1, h2⟩
      exact hrp (place_inj d hwf r p hr hp h1 h2)
    · rintro ⟨h1, h2⟩
      exact hrq (place_inj d hwf r q hr hq h1 h2)

/-- The assignment `*it = v` to the element with running index `p`. -/
theorem assign_cell (d : Deque T) (hwf : WF d) (p : Nat) (x v : T)
    (hp : p < d.amount_of_blocks_ * BLOCK_SIZE_) (hx : d.cell p = some x) :
    ∃ st, d.store.assign (d.iterAt p).deref v = some st ∧
      d.store.sameButSlots st ∧
      ({ d with store := st } : Deque T).cell p = some v ∧
      ∀ r, r < d.amount_of_blocks_ * BLOCK_SIZE_ → r ≠ p →
        ({ d with store := st } : Deque T).cell r = d.cell r := by
  unfold Store.assign
  rw [read_iterAt d hwf p hp, hx]
  refine ⟨_, rfl, sameButSlots_refl _, ?_, ?_⟩
  · simp only [Deque.cell, Deque.iterAt, common_iterator.deref]
    rw [if_pos ⟨trivial, trivial⟩]
  · intro r hr hrp
    simp only [Deque.cell, Deque.iterAt, common_iterator.deref]
    rw [if_neg]
    rintro ⟨h1, h2⟩
    exact hrp (place_inj d hwf r p hr hp h1 h2)

theorem iter_eq_iff (a b : common_iterator) : a.iter_eq b = true ↔ a.index_ = b.index_ := by
  simp [common_iterator.iter_eq]

/-- The loop of `insert` reads the indirection array only: the storage of the
deque it is called on does not matter. -/
theorem insert_loop_store (d : Deque T) (st0 : Store T) (it : common_iterator) :
    ∀ (fuel : Nat) (copy : common_iterator) (st : Store T),
    ({ d with store := st0 } : Deque T).insert_loop it fuel copy st
      = d.insert_loop it fuel copy st
  | 0, _, _ => rfl
  | fuel + 1, copy, st => by
    unfold Deque.insert_loop
    split
    · rfl
    · show (d.iter_sub copy 1).bind _ = (d.iter_sub copy 1).bind _
      congr 1
      funext prev
      congr 1
      funext st1
      exact insert_loop_store d st0 it fuel prev st1

/-- The loop of `insert` from the element with running index `c` down to the
iterator `it`: the element at `c` ends at the position of `it`, the elements
in between move up by one, nothing else changes. -/
theorem insert_loop_spec (it : common_iterator) : ∀ (fuel c : Nat) (d : Deque T), WF d →
    it.index_ ≤ c → c < d.amount_of_blocks_ * BLOCK_SIZE_ → c - it.index_ ≤ fuel →
    (∀ p, it.index_ ≤ p → p ≤ c → ∃ x, d.cell p = some x) →
    ∃ st, d.insert_loop it fuel (d.iterAt c) d.store = some st ∧ d.store.sameButSlots st ∧
      ({ d with store := st } : Deque T).cell it.index_ = d.cell c ∧
      (∀ p, it.index_ < p → p ≤ c →
        ({ d with store := st } : Deque T).cell p = d.cell (p - 1)) ∧
      (∀ q, q < d.amount_of_blocks_ * BLOCK_SIZE_ → (q < it.index_ ∨ c < q) →
        ({ d with store := st } : Deque T).cell q = d.cell q) := by
  intro fuel
  induction fuel with
  | zero =>
    intro c d hwf hkc hc hf hel
    have hck : c = it.index_ := by omega
    unfold Deque.insert_loop
    rw [if_pos ((iter_eq_iff _ _).mpr hck)]
    refine ⟨_, rfl, sameButSlots_refl _, ?_, ?_, ?_⟩
    · rw [hck]
    · intro p h1 h2; omega
    · intro q _ _; rfl
  | succ f ih =>
    intro c d hwf hkc hc hf hel
    by_cases hck : c = it.index_
    · unfold Deque.insert_loop
      rw [if_pos ((iter_eq_iff _ _).mpr hck)]
      refine ⟨_, rfl, sameButSlots_refl _, ?_, ?_, ?_⟩
      · rw [hck]
      · intro p h1 h2; omega
      · intro q _ _; rfl
    · have hprev : d.iter_sub (d.iterAt c) 1 = some (d.iterAt (c - 1)) := by
        have := iter_sub_nat d (d.iterAt c) 1 hwf.bound hc (show 1 ≤ c by omega)
        rw [Nat.cast_one] at this
        exact this
      obtain ⟨x, hx⟩ := hel c hkc (Nat.le_refl _)
      obtain ⟨y, hy⟩ := hel (c - 1) (by omega) (by omega)
      obtain ⟨st1, hsw, hs1, c1, c2, c3⟩ := swap_cells d hwf c (c - 1) x y hc (by omega)
        (by omega) hx hy
      have hwf1 : WF ({ d with store := st1 } : Deque T) := hwf.same hs1
      obtain ⟨st, hl, hs2, r1, r2, r3⟩ := ih (c - 1) ({ d with store := st1 } : Deque T) hwf1
        (by omega) (by show c - 1 < d.amount_of_blocks_ * BLOCK_SIZE_; omega) (by omega)
        (by
          intro p h1 h2
          by_cases hpc : p = c - 1
          · rw [hpc]; exact ⟨x, c2⟩
          · obtain ⟨z, hz⟩ := hel p h1 (by omega)
            exact ⟨z, (c3 p (by omega) (by omega) hpc).trans hz⟩)
      rw [insert_loop_store] at hl
      have hl' : d.insert_loop it f (d.iterAt (c - 1)) st1 = some st := hl
      unfold Deque.insert_loop
      rw [if_neg (fun h => hck ((iter_eq_iff _ _).mp h)), hprev]
      simp only [Option.some_bind, hsw, hl']
      refine ⟨st, rfl, sameButSlots_trans hs1 hs2, ?_, ?_, ?_⟩
      · exact r1.trans (c2.trans hx.symm)
      · intro p h1 h2
        by_cases hpc : p = c
        · rw [hpc]
          exact (r3 c hc (Or.inr (by omega))).trans (c1.trans hy.symm)
        · exact (r2 p h1 (by omega)).trans (c3 (p - 1) (by omega) (by omega) (by omega))
      · intro q hq hcase
        exact (r3 q hq (by omega)).trans (c3 q hq (by omega) (by omega))

/-- What a valid deque holding `m` lets a caller observe: `size()` is the
length of `m` and `(*this)[i]` is the `i`-th element of `m`. -/
theorem rep_observe (d : Deque T) (m : List T) (hrep : Rep d m) :
    d.size = m.length ∧ ∀ i, i < m.length → d.get i = m[i]? := by
  obtain ⟨hwf, hfi, hal, hlb, hl, hel⟩ := hrep
  refine ⟨size_eq d m.length hwf.bound hfi hal hlb hl, ?_⟩
  intro i hi
  rw [get_eq d i hwf hfi (by unfold BLOCK_SIZE_ at *; omega)]
  exact hel i hi

/-- `begin()`, `end()` and `begin() + i` on a valid deque. -/
theorem rep_iterators (d : Deque T) (m : List T) (hrep : Rep d m) :
    d.begin = some (d.iterAt (d.first_block_ * BLOCK_SIZE_ + d.first_element_index_)) ∧
    d.end_ = some (d.iterAt (d.first_block_ * BLOCK_SIZE_ + d.first_element_index_ + m.length)) ∧
    d.first_block_ * BLOCK_SIZE_ + d.first_element_index_ + m.length
      < d.amount_of_blocks_ * BLOCK_SIZE_ := by
  obtain ⟨hwf, hfi, hal, hlb, hl, hel⟩ := hrep
  have hbound := hwf.bound
  have hE : d.first_block_ * BLOCK_SIZE_ + d.first_element_index_ + m.length
      < d.amount_of_blocks_ * BLOCK_SIZE_ := by unfold BLOCK_SIZE_ at *; omega
  have e1 : uadd (umul d.first_block_ BLOCK_SIZE_) d.first_element_index_
      = d.first_block_ * BLOCK_SIZE_ + d.first_element_index_ := by
    rw [umul_eq (by unfold SIZE_MOD; unfold BLOCK_SIZE_ at *; omega),
      uadd_eq (by unfold SIZE_MOD; unfold BLOCK_SIZE_ at *; omega)]
  have e2 : uadd (umul d.last_block_ BLOCK_SIZE_) d.after_last_element_index_
      = d.first_block_ * BLOCK_SIZE_ + d.first_element_index_ + m.length := by
    rw [umul_eq (by unfold SIZE_MOD; unfold BLOCK_SIZE_ at *; omega),
      uadd_eq (by unfold SIZE_MOD; unfold BLOCK_SIZE_ at *; omega), hl]
  refine ⟨?_, ?_, hE⟩
  · unfold Deque.begin
    rw [e1]
    exact iterator_eq d _ (by omega)
  · unfold Deque.end_
    rw [e2]
    exact iterator_eq d _ hE

/-- `insert` at the iterator with index `k` of a valid deque holding `m`,
whatever the parameter `obj` refers to: when `v` is the value read through
`obj` where the code reads it (before `push_back(obj)` on an empty deque or at
`end()`, after the loop for `*it = obj`), the call leaves a valid deque
holding `m` with `v` before position `k`. -/
theorem insert_arg_rep (d : Deque T) (m : List T) (k : Nat) (obj : Arg T) (v : T) (fuel : Nat)
    (hrep : Rep d m) (hk : k ≤ m.length) (hlen : m.length < 1152921504606846976)
    (hfuel : m.length ≤ fuel)
    (h0 : m.length = 0 ∨ k = m.length → obj.read d.store = some v)
    (h1 : k < m.length → ∀ st, d.store.sameButSlots st →
      ({ d with store := st } : Deque T).cell
          (d.first_block_ * BLOCK_SIZE_ + d.first_element_index_ + k)
        = d.cell (d.first_block_ * BLOCK_SIZE_ + d.first_element_index_ + m.length - 1) →
      (∀ p, d.first_block_ * BLOCK_SIZE_ + d.first_element_index_ + k < p →
        p ≤ d.first_block_ * BLOCK_SIZE_ + d.first_element_index_ + m.length - 1 →
        ({ d with store := st } : Deque T).cell p = d.cell (p - 1)) →
      (∀ q, q < d.amount_of_blocks_ * BLOCK_SIZE_ →
        (q < d.first_block_ * BLOCK_SIZE_ + d.first_element_index_ + k ∨
          d.first_block_ * BLOCK_SIZE_ + d.first_element_index_ + m.length - 1 < q) →
        ({ d with store := st } : Deque T).cell q = d.cell q) →
      obj.read st = some v) :
    ∃ d', d.insert (d.iterAt (d.first_block_ * BLOCK_SIZE_ + d.first_element_index_ + k))
        obj fuel = some d' ∧
      Rep d' (m.take k ++ v :: m.drop k) ∧ d'.store.dtor_raw = d.store.dtor_raw := by
  obtain ⟨hbeg, hend, hE⟩ := rep_iterators d m hrep
  have hsize := (rep_observe d m hrep).1
  obtain ⟨hwf, hfi, hal, hlb, hl, hel⟩ := hrep
  have hrep : Rep d m := ⟨hwf, hfi, hal, hlb, hl, hel⟩
  generalize hB : d.first_block_ * BLOCK_SIZE_ + d.first_element_index_ = B at *
  unfold Deque.insert
  by_cases hn : m.length = 0
  · -- an empty deque: `push_back`
    have hm : m = [] := List.eq_nil_of_length_eq_zero hn
    rw [if_pos (by rw [hsize]; exact hn), h0 (Or.inl hn)]
    simp only [Option.some_bind]
    obtain ⟨d', he, hr, hraw, -⟩ := push_back_rep d m v hrep hlen
    refine ⟨d', he, ?_, hraw⟩
    subst hm
    have hk0 : k = 0 := by simpa using hk
    subst hk0
    exact hr
  · rw [if_neg (by rw [hsize]; exact hn), hend]
    simp only [Option.some_bind]
    by_cases hkn : k = m.length
    · -- `it == end()`: `push_back`
      rw [if_pos ((iter_eq_iff _ _).mpr (by rw [hkn])), h0 (Or.inr hkn)]
      simp only [Option.some_bind]
      obtain ⟨d', he, hr, hraw, -⟩ := push_back_rep d m v hrep hlen
      refine ⟨d', he, ?_, hraw⟩
      rw [hkn, List.take_length, List.drop_length]
      exact hr
    · have hklt : k < m.length := by omega
      rw [if_neg (fun h => by
        have := (iter_eq_iff _ _).mp h
        simp only [Deque.iterAt] at this
        omega)]
      -- `end() - 1` and the last element
      have hlast : d.iter_sub (d.iterAt (B + m.length)) 1
          = some (d.iterAt (B + m.length - 1)) := by
        have := iter_sub_nat d (d.iterAt (B + m.length)) 1 hwf.bound hE
          (show 1 ≤ B + m.length by omega)
        rw [Nat.cast_one] at this
        exact this
      obtain ⟨x, hx⟩ : ∃ x, m[m.length - 1]? = some x := by
        cases hq : m[m.length - 1]? with
        | none => rw [List.getElem?_eq_none_iff] at hq; omega
        | some x => exact ⟨x, rfl⟩
      have hcell : ∀ j, j < m.length → d.cell (B + j) = m[j]? := hel
      have hsome : ∀ j, j < m.length → ∃ z, d.cell (B + j) = some z := by
        intro j hj
        rw [hcell j hj]
        cases hq : m[j]? with
        | none => rw [List.getElem?_eq_none_iff] at hq; omega
        | some z => exact ⟨z, rfl⟩
      have hcx : d.cell (B + m.length - 1) = some x := by
        have : B + m.length - 1 = B + (m.length - 1) := by omega
        rw [this, hcell _ (by omega)]; exact hx
      rw [hlast]
      simp only [Option.some_bind, read_iterAt d hwf _ (show B + m.length - 1 <
        d.amount_of_blocks_ * BLOCK_SIZE_ by omega), hcx]
      -- the loop
      obtain ⟨st, hloop, hs1, r1, r2, r3⟩ := insert_loop_spec (d.iterAt (B + k)) fuel
        (B + m.length - 1) d hwf (by show B + k ≤ _; omega) (by omega)
        (by show B + m.length - 1 - (B + k) ≤ fuel; omega)
        (by
          intro p h1 h2
          have h1' : B + k ≤ p := h1
          obtain ⟨z, hz⟩ := hsome (p - B) (by omega)
          exact ⟨z, by rw [← hz]; congr 1; omega⟩)
      have r1' : ({ d with store := st } : Deque T).cell (B + k) = some x := r1.trans hcx
      rw [hloop]
      simp only [Option.some_bind]
      -- `*it = obj`
      rw [h1 hklt st hs1 r1 r2 r3]
      simp only [Option.some_bind]
      have hwf1 : WF ({ d with store := st } : Deque T) := hwf.same hs1
      obtain ⟨st1, hasg, hs2, a1, a2⟩ := assign_cell ({ d with store := st } : Deque T) hwf1
        (B + k) x v (by show B + k < d.amount_of_blocks_ * BLOCK_SIZE_; omega) r1'
      have hasg' : st.assign (d.iterAt (B + k)).deref v = some st1 := hasg
      rw [hasg']
      simp only [Option.some_bind]
      -- the deque before the final `push_back`
      have hs12 : d.store.sameButSlots st1 := sameButSlots_trans hs1 hs2
      have hrep2 : Rep ({ d with store := st1 } : Deque T)
          ((m.take k ++ v :: m.drop k).take m.length) := by
        refine ⟨hwf.same hs12, hfi, hal, hlb, ?_, ?_⟩
        · show d.first_block_ * BLOCK_SIZE_ + d.first_element_index_ + _ = _
          rw [← hl, List.length_take, List.length_append, List.length_take, List.length_cons,
            List.length_drop]
          omega
        · show Holds ({ d with store := st1 } : Deque T)
            (d.first_block_ * BLOCK_SIZE_ + d.first_element_index_) _
          rw [hB]
          intro j hj
          have hj' : j < m.length := by
            rw [List.length_take] at hj
            omega
          rw [List.getElem?_take_of_lt hj', getElem?_insertAt m k v j hk]
          by_cases h1 : j < k
          · rw [if_pos h1, ← hcell j hj']
            exact (a2 (B + j) (by show B + j < d.amount_of_blocks_ * BLOCK_SIZE_; omega)
              (by omega)).trans
              (r3 (B + j) (by omega) (Or.inl (by show B + j < B + k; omega)))
          · rw [if_neg h1]
            by_cases h2 : j = k
            · rw [if_pos h2, h2]
              exact a1
            · rw [if_neg h2, ← hcell (j - 1) (by omega)]
              refine (a2 (B + j) (by show B + j < d.amount_of_blocks_ * BLOCK_SIZE_; omega)
                (by omega)).trans ?_
              refine (r2 (B + j) (by show B + k < B + j; omega) (by omega)).trans ?_
              congr 1
              omega
      obtain ⟨d', he, hr, hraw, -⟩ := push_back_rep _ _ x hrep2
        (by rw [List.length_take]; omega)
      refine ⟨d', he, ?_, ?_⟩
      · have hL : (m.take k ++ v :: m.drop k).length = m.length + 1 := by
          rw [List.length_append, List.length_take, List.length_cons, List.length_drop]
          omega
        have hLn : (m.take k ++ v :: m.drop k)[m.length]? = some x := by
          rw [getElem?_insertAt m k v _ hk, if_neg (by omega), if_neg (by omega)]
          exact hx
        rw [take_concat_getElem? _ _ x hL hLn] at hr
        exact hr
      · rw [hraw]
        exact hs12.2.2.2.2.2.2.2.2

/-- `insert` at the iterator with index `k` of a valid deque holding `m`, the
argument an object outside the blocks of the deque. -/
theorem insert_rep (d : Deque T) (m : List T) (k : Nat) (v : T) (fuel : Nat)
    (hrep : Rep d m) (hk : k ≤ m.length) (hlen : m.length < 1152921504606846976)
    (hfuel : m.length ≤ fuel) :
    ∃ d', d.insert (d.iterAt (d.first_block_ * BLOCK_SIZE_ + d.first_element_index_ + k))
        (.outside v) fuel = some d' ∧
      Rep d' (m.take k ++ v :: m.drop k) ∧ d'.store.dtor_raw = d.store.dtor_raw :=
  insert_arg_rep d m k (.outside v) v fuel hrep hk hlen hfuel (fun _ => rfl)
    (fun _ _ _ _ _ _ => rfl)

/-- `insert` at the iterator with index `k < size()` of a valid deque holding
`m`, the argument the element `(*this)[j]` of the same deque: the value put
before position `k` is the one the place of `(*this)[j]` holds after the
loop. -/
theorem insert_element_rep (d : Deque T) (m : List T) (k j : Nat) (fuel : Nat)
    (hrep : Rep d m) (hk : k < m.length) (hj : j < m.length)
    (hlen : m.length < 1152921504606846976) (hfuel : m.length ≤ fuel) :
    ∃ d' w, d.insert (d.iterAt (d.first_block_ * BLOCK_SIZE_ + d.first_element_index_ + k))
        (.element (d.iterAt (d.first_block_ * BLOCK_SIZE_ + d.first_element_index_ + j)).deref)
        fuel = some d' ∧
      m[readAfterShift m.length k j]? = some w ∧
      Rep d' (m.take k ++ w :: m.drop k) := by
  obtain ⟨-, -, hE⟩ := rep_iterators d m hrep
  have hwf := hrep.wf
  have hel : ∀ i, i < m.length →
      d.cell (d.first_block_ * BLOCK_SIZE_ + d.first_element_index_ + i) = m[i]? := hrep.elems
  have hidx : readAfterShift m.length k j < m.length := by
    unfold readAfterShift
    split
    · omega
    · split <;> omega
  obtain ⟨w, hw⟩ : ∃ w, m[readAfterShift m.length k j]? = some w := by
    cases hq : m[readAfterShift m.length k j]? with
    | none => rw [List.getElem?_eq_none_iff] at hq; omega
    | some w => exact ⟨w, rfl⟩
  obtain ⟨d', he, hr, -⟩ := insert_arg_rep d m k
    (.element (d.iterAt (d.first_block_ * BLOCK_SIZE_ + d.first_element_index_ + j)).deref)
    w fuel hrep (Nat.le_of_lt hk) hlen hfuel (fun h => by omega)
    (by
      intro _ st hs r1 r2 r3
      have hrd := read_iterAt ({ d with store := st } : Deque T) (hwf.same hs)
        (d.first_block_ * BLOCK_SIZE_ + d.first_element_index_ + j)
        (by show _ < d.amount_of_blocks_ * BLOCK_SIZE_; omega)
      show st.read _ = some w
      refine Eq.trans hrd ?_
      rw [← hw]
      unfold readAfterShift
      by_cases c1 : j < k
      · rw [if_pos c1, ← hel j hj]
        exact r3 _ (by omega) (Or.inl (by omega))
      · rw [if_neg c1]
        by_cases c2 : j = k
        · rw [if_pos c2, ← hel (m.length - 1) (by omega), c2]
          refine r1.trans ?_
          congr 1
          omega
        · rw [if_neg c2, ← hel (j - 1) (by omega)]
          refine (r2 _ (by omega) (by omega)).trans ?_
          congr 1
          omega)
  exact ⟨d', w, he, hw, hr⟩

/-- The loop of `erase` reads the indirection array and the end position
only: the storage of the deque it is called on does not matter. -/
theorem erase_loop_store (d : Deque T) (st0 : Store T) :
    ∀ (fuel : Nat) (copy : common_iterator) (st : Store T),
    ({ d with store := st0 } : Deque T).erase_loop fuel copy st = d.erase_loop fuel copy st
  | 0, _, _ => rfl
  | fuel + 1, copy, st => by
    unfold Deque.erase_loop
    show d.end_.bind _ = d.end_.bind _
    congr 1
    funext e
    show (d.iter_sub e 1).bind _ = (d.iter_sub e 1).bind _
    congr 1
    funext last
    split
    · rfl
    · show (d.iter_add copy 1).bind _ = (d.iter_add copy 1).bind _
      congr 1
      funext next
      congr 1
      funext st1
      exact erase_loop_store d st0 fuel next st1

/-- The loop of `erase` from the element with running index `c` up to the
last element, at `E - 1`: the element at `c` ends in the last position, the
elements after it move down by one, nothing else changes. -/
theorem erase_loop_spec (E : Nat) : ∀ (fuel c : Nat) (d : Deque T), WF d →
    d.end_ = some (d.iterAt E) → E < d.amount_of_blocks_ * BLOCK_SIZE_ →
    c + 1 ≤ E → E - 1 - c ≤ fuel →
    (∀ p, c ≤ p → p + 1 ≤ E → ∃ x, d.cell p = some x) →
    ∃ st, d.erase_loop fuel (d.iterAt c) d.store = some st ∧ d.store.sameButSlots st ∧
      ({ d with store := st } : Deque T).cell (E - 1) = d.cell c ∧
      (∀ p, c ≤ p → p + 1 < E →
        ({ d with store := st } : Deque T).cell p = d.cell (p + 1)) ∧
      (∀ q, q < d.amount_of_blocks_ * BLOCK_SIZE_ → (q < c ∨ E ≤ q) →
        ({ d with store := st } : Deque T).cell q = d.cell q) := by
  intro fuel
  induction fuel with
  | zero =>
    intro c d hwf hend hE hc hf hel
    have hlast : d.iter_sub (d.iterAt E) 1 = some (d.iterAt (E - 1)) := by
      have := iter_sub_nat d (d.iterAt E) 1 hwf.bound hE (show 1 ≤ E by omega)
      rw [Nat.cast_one] at this
      exact this
    have hck : c = E - 1 := by omega
    unfold Deque.erase_loop
    rw [hend]
    simp only [Option.some_bind, hlast]
    rw [if_pos ((iter_eq_iff _ _).mpr hck)]
    refine ⟨_, rfl, sameButSlots_refl _, ?_, ?_, ?_⟩
    · rw [hck]
    · intro p h1 h2; omega
    · intro q _ _; rfl
  | succ f ih =>
    intro c d hwf hend hE hc hf hel
    have hlast : d.iter_sub (d.iterAt E) 1 = some (d.iterAt (E - 1)) := by
      have := iter_sub_nat d (d.iterAt E) 1 hwf.bound hE (show 1 ≤ E by omega)
      rw [Nat.cast_one] at this
      exact this
    by_cases hck : c = E - 1
    · unfold Deque.erase_loop
      rw [hend]
      simp only [Option.some_bind, hlast]
      rw [if_pos ((iter_eq_iff _ _).mpr hck)]
      refine ⟨_, rfl, sameButSlots_refl _, ?_, ?_, ?_⟩
      · rw [hck]
      · intro p h1 h2; omega
      · intro q _ _; rfl
    · have hnext : d.iter_add (d.iterAt c) 1 = some (d.iterAt (c + 1)) := by
        have := iter_add_nat d (d.iterAt c) 1 hwf.bound
          (show c + 1 < d.amount_of_blocks_ * BLOCK_SIZE_ by omega)
        rw [Nat.cast_one] at this
        exact this
      obtain ⟨x, hx⟩ := hel c (Nat.le_refl _) hc
      obtain ⟨y, hy⟩ := hel (c + 1) (by omega) (by omega)
      obtain ⟨st1, hsw, hs1, c1, c2, c3⟩ := swap_cells d hwf c (c + 1) x y (by omega) (by omega)
        (by omega) hx hy
      have hwf1 : WF ({ d with store := st1 } : Deque T) := hwf.same hs1
      obtain ⟨st, hl, hs2, r1, r2, r3⟩ := ih (c + 1) ({ d with store := st1 } : Deque T) hwf1
        hend hE (by omega) (by omega)
        (by
          intro p h1 h2
          by_cases hpc : p = c + 1
          · rw [hpc]; exact ⟨x, c2⟩
          · obtain ⟨z, hz⟩ := hel p (by omega) h2
            exact ⟨z, (c3 p (by omega) (by omega) hpc).trans hz⟩)
      rw [erase_loop_store] at hl
      have hl' : d.erase_loop f (d.iterAt (c + 1)) st1 = some st := hl
      unfold Deque.erase_loop
      rw [hend]
      simp only [Option.some_bind, hlast]
      rw [if_neg (fun h => hck ((iter_eq_iff _ _).mp h)), hnext]
      simp only [Option.some_bind, hsw, hl']
      refine ⟨st, rfl, sameButSlots_trans hs1 hs2, ?_, ?_, ?_⟩
      · exact r1.trans (c2.trans hx.symm)
      · intro p h1 h2
        by_cases hpc : p = c
        · rw [hpc]
          exact (r3 c (by show c < d.amount_of_blocks_ * BLOCK_SIZE_; omega)
            (Or.inl (by omega))).trans (c1.trans hy.symm)
        · exact (r2 p (by omega) h2).trans (c3 (p + 1) (by omega) (by omega) (by omega))
      · intro q hq hcase
        exact (r3 q hq (by omega)).trans (c3 q hq (by omega) (by omega))

/-- `erase` at the iterator with index `k` of a valid deque holding `m`. -/
theorem erase_rep (d : Deque T) (m : List T) (k : Nat) (fuel : Nat)
    (hrep : Rep d m) (hk : k < m.length) (hfuel : m.length ≤ fuel) :
    ∃ d', d.erase (d.iterAt (d.first_block_ * BLOCK_SIZE_ + d.first_element_index_ + k)) fuel
        = some d' ∧
      Rep d' (m.take k ++ m.drop (k + 1)) ∧ d'.store.dtor_raw = d.store.dtor_raw := by
  obtain ⟨hbeg, hend, hE⟩ := rep_iterators d m hrep
  obtain ⟨hwf, hfi, hal, hlb, hl, hel⟩ := hrep
  generalize hB : d.first_block_ * BLOCK_SIZE_ + d.first_element_index_ = B at *
  have hcell : ∀ j, j < m.length → d.cell (B + j) = m[j]? := hel
  have hsome : ∀ j, j < m.length → ∃ z, d.cell (B + j) = some z := by
    intro j hj
    rw [hcell j hj]
    cases hq : m[j]? with
    | none => rw [List.getElem?_eq_none_iff] at hq; omega
    | some z => exact ⟨z, rfl⟩
  obtain ⟨y, hy⟩ : ∃ y, m[k]? = some y := by
    cases hq : m[k]? with
    | none => rw [List.getElem?_eq_none_iff] at hq; omega
    | some z => exact ⟨z, rfl⟩
  obtain ⟨st, hloop, hs1, r1, r2, r3⟩ := erase_loop_spec (B + m.length) fuel (B + k) d hwf hend
    hE (by omega) (by omega)
    (by
      intro p h1 h2
      obtain ⟨z, hz⟩ := hsome (p - B) (by omega)
      exact ⟨z, by rw [← hz]; congr 1; omega⟩)
  have hL : (m.take k ++ m.drop (k + 1)).length = m.length - 1 := by
    rw [List.length_append, List.length_take, List.length_drop]
    omega
  have hrep1 : Rep ({ d with store := st } : Deque T) ((m.take k ++ m.drop (k + 1)) ++ [y]) := by
    refine ⟨hwf.same hs1, hfi, hal, hlb, ?_, ?_⟩
    · show d.first_block_ * BLOCK_SIZE_ + d.first_element_index_ + _ = _
      rw [hB, ← hl, List.length_append, hL, List.length_singleton]
      omega
    · show Holds ({ d with store := st } : Deque T)
        (d.first_block_ * BLOCK_SIZE_ + d.first_element_index_) _
      rw [hB]
      intro j hj
      rw [List.length_append, hL, List.length_singleton] at hj
      by_cases h1 : j < m.length - 1
      · rw [List.getElem?_append_left (by rw [hL]; exact h1),
          getElem?_eraseAt m k j (Nat.le_of_lt hk)]
        by_cases h2 : j < k
        · rw [if_pos h2, ← hcell j (by omega)]
          exact r3 (B + j) (by omega) (Or.inl (by omega))
        · rw [if_neg h2, ← hcell (j + 1) (by omega)]
          exact r2 (B + j) (by omega) (by omega)
      · have hj' : j = m.length - 1 := by omega
        rw [List.getElem?_append_right (by rw [hL]; omega), hL, hj', Nat.sub_self,
          List.getElem?_cons_zero, ← hy, ← hcell k hk]
        have : B + (m.length - 1) = B + m.length - 1 := by omega
        rw [this]
        exact r1
  obtain ⟨d', he, hr, hraw, -⟩ := pop_back_rep _ _ hrep1 (by simp)
  refine ⟨d', ?_, ?_, ?_⟩
  · unfold Deque.erase
    rw [hloop]
    exact he
  · rw [List.dropLast_concat] at hr
    exact hr
  · rw [hraw]
    exact hs1.2.2.2.2.2.2.2.2

theorem popsValid_push_backs (vs : List T) : ∀ m : List T, popsValid m (vs.map Op.push_back) := by
  induction vs with
  | nil => intro m; exact trivial
  | cons v vs ih => intro m; exact ih (m ++ [v])

theorem refRun_push_backs (vs : List T) : ∀ m : List T, refRun m (vs.map Op.push_back) = m ++ vs := by
  induction vs with
  | nil => intro m; simp [refRun]
  | cons v vs ih =>
    intro m
    show refRun (m ++ [v]) (vs.map Op.push_back) = _
    rw [ih]
    simp

/-- The deque `iota n` is the deque of `0, ..., n - 1`. -/
theorem iota_rep (n : Nat) (hn : n ≤ 1152921504606846976) :
    ∃ d, iota n = some d ∧ Rep d (List.range n) := by
  obtain ⟨d, hrun, hinv⟩ := run_inv ((List.range n).map Op.push_back) (Deque.ctor Nat) []
    ctor_inv (popsValid_push_backs _ _) (by simpa using hn)
  rw [refRun_push_backs, List.nil_append] at hinv
  exact ⟨d, hrun, hinv.rep⟩

/-- On a valid deque holding `m` (shorter than `2 ^ 60`), with `it` the
iterator `begin() + k` for `0 <= k <= size()` and `v` an object outside the
blocks of the deque, `insert(it, v)` returns, given fuel for its loop, and
leaves a valid deque holding `m` with `v` put before position `k`: `size()`
is one more and `(*this)[i]` reads the new sequence.  The final `push_back`
may or may not reallocate the indirection array. -/
theorem insert_outside (d : Deque T) (m : List T) (k : Nat) (v : T) (fuel : Nat)
    (hrep : Rep d m) (hk : k ≤ m.length) (hlen : m.length < 1152921504606846976)
    (hfuel : m.length ≤ fuel) :
    ∃ it d', (d.begin.bind fun b => d.iter_add b (k : Int)) = some it ∧
      d.insert it (.outside v) fuel = some d' ∧
      Rep d' (m.take k ++ v :: m.drop k) ∧
      d'.size = m.length + 1 ∧
      ∀ i, i < m.length + 1 → d'.get i = (m.take k ++ v :: m.drop k)[i]? := by
  obtain ⟨hbeg, -, hE⟩ := rep_iterators d m hrep
  obtain ⟨d', he, hr, -⟩ := insert_rep d m k v fuel hrep hk hlen hfuel
  have hL : (m.take k ++ v :: m.drop k).length = m.length + 1 := by
    rw [List.length_append, List.length_take, List.length_cons, List.length_drop]
    omega
  refine ⟨_, d', ?_, he, hr, ?_, ?_⟩
  · rw [hbeg]
    exact iter_add_nat d _ k hrep.wf.bound
      (by show d.first_block_ * BLOCK_SIZE_ + d.first_element_index_ + k
            < d.amount_of_blocks_ * BLOCK_SIZE_
          omega)
  · rw [(rep_observe d' _ hr).1, hL]
  · intro i hi
    exact (rep_observe d' _ hr).2 i (by rw [hL]; exact hi)

/-- On a valid deque holding `m` (shorter than `2 ^ 60`), `insert(begin() + k,
(*this)[j])` for `k, j < size()` returns, given fuel for its loop, and puts
before position `k` the element of `m` with index `readAfterShift`: the
element `m[j]` for `j < k`, but the last element for `j = k` and `m[j - 1]` for
`j > k`. -/
theorem insert_element (d : Deque T) (m : List T) (k j : Nat) (fuel : Nat)
    (hrep : Rep d m) (hk : k < m.length) (hj : j < m.length)
    (hlen : m.length < 1152921504606846976) (hfuel : m.length ≤ fuel) :
    ∃ it p d' w, (d.begin.bind fun b => d.iter_add b (k : Int)) = some it ∧
      d.index j = some p ∧
      d.insert it (.element p) fuel = some d' ∧
      m[readAfterShift m.length k j]? = some w ∧
      d'.size = m.length + 1 ∧
      ∀ i, i < m.length + 1 → d'.get i = (m.take k ++ w :: m.drop k)[i]? := by
  obtain ⟨hbeg, -, hE⟩ := rep_iterators d m hrep
  obtain ⟨d', w, he, hw, hr⟩ := insert_element_rep d m k j fuel hrep hk hj hlen hfuel
  have hL : (m.take k ++ w :: m.drop k).length = m.length + 1 := by
    rw [List.length_append, List.length_take, List.length_cons, List.length_drop]
    omega
  refine ⟨_, _, d', w, ?_, ?_, he, hw, ?_, ?_⟩
  · rw [hbeg]
    exact iter_add_nat d _ k hrep.wf.bound
      (by show d.first_block_ * BLOCK_SIZE_ + d.first_element_index_ + k
            < d.amount_of_blocks_ * BLOCK_SIZE_
          omega)
  · exact index_eq d j hrep.wf.bound hrep.first_lt (by omega)
  · rw [(rep_observe d' _ hr).1, hL]
  · intro i hi
    exact (rep_observe d' _ hr).2 i (by rw [hL]; exact hi)

/-- C17: the deque 10 20 30 and the call `d.insert(d.begin(), d[1])`.  The
parameter `obj` is bound to the element `d[1]`; the loop of `insert` moves 10
into that place before `*it = obj` reads it, and the deque ends as 10 10 20
30, not 20 10 20 30.  The same call with a copy of `d[1]` taken beforehand
gives 20 10 20 30; and `push_back(d[1])`, which reads its argument before it
changes the deque, gives 10 20 30 20. -/
theorem C17_insert_reads_shifted_argument :
    aliasDeque.map (fun d => (d.size, d.toList 3))
      = some (3, [some 10, some 20, some 30]) ∧
    aliasInsert.map (fun d => (d.size, d.toList 4))
      = some (4, [some 10, some 10, some 20, some 30]) ∧
    copyInsert.map (fun d => (d.size, d.toList 4))
      = some (4, [some 20, some 10, some 20, some 30]) ∧
    aliasPushBack.map (fun d => (d.size, d.toList 4))
      = some (4, [some 10, some 20, some 30, some 20]) := by
  refine ⟨?_, ?_, ?_, ?_⟩ <;> rfl

/-- C18: on a valid deque holding `m`, with `it` the iterator `begin() + k`
for `0 <= k < size()`, `erase(it)` returns, given fuel for its loop, and
leaves a valid deque holding `m` without its `k`-th element, the others in
their order: `size()` is one less and `(*this)[i]` reads the new sequence. -/
theorem C18_deque_erase (d : Deque T) (m : List T) (k : Nat) (fuel : Nat)
    (hrep : Rep d m) (hk : k < m.length) (hfuel : m.length ≤ fuel) :
    ∃ it d', (d.begin.bind fun b => d.iter_add b (k : Int)) = some it ∧
      d.erase it fuel = some d' ∧
      Rep d' (m.take k ++ m.drop (k + 1)) ∧
      d'.size + 1 = m.length ∧
      ∀ i, i + 1 < m.length → d'.get i = (m.take k ++ m.drop (k + 1))[i]? := by
  obtain ⟨hbeg, -, hE⟩ := rep_iterators d m hrep
  obtain ⟨d', he, hr, -⟩ := erase_rep d m k fuel hrep hk hfuel
  have hL : (m.take k ++ m.drop (k + 1)).length = m.length - 1 := by
    rw [List.length_append, List.length_take, List.length_drop]
    omega
  refine ⟨_, d', ?_, he, hr, ?_, ?_⟩
  · rw [hbeg]
    exact iter_add_nat d _ k hrep.wf.bound
      (by show d.first_block_ * BLOCK_SIZE_ + d.first_element_index_ + k
            < d.amount_of_blocks_ * BLOCK_SIZE_
          omega)
  · rw [(rep_observe d' _ hr).1, hL]
    omega
  · intro i hi
    exact (rep_observe d' _ hr).2 i (by rw [hL]; omega)

/-- C18 on the deque 1 2 3: erasing at `begin() + 1` gives 1 3. -/
theorem C18_deque_erase_witness :
    ∃ d it d', (Deque.ctor Nat).run [.push_back 1, .push_back 2, .push_back 3] = some d ∧
      (d.begin.bind fun b => d.iter_add b 1) = some it ∧
      d.erase it 3 = some d' ∧ d'.size + 1 = 3 ∧
      ∀ i, i + 1 < 3 → d'.get i = [1, 3][i]? := by
  obtain ⟨d, hrun, hinv⟩ := run_inv [.push_back 1, .push_back 2, .push_back 3] (Deque.ctor Nat) []
    ctor_inv (by simp [popsValid]) (by decide)
  obtain ⟨it, d', h1, h2, -, h3, h4⟩ := C18_deque_erase d [1, 2, 3] 1 3 hinv.rep
    (by decide) (by decide)
  exact ⟨d, it, d', hrun, h1, h2, h3, h4⟩

/-- The difference of two iterators whose indices are below `2 ^ 63` is the
signed difference of the indices. -/
theorem iter_diff_eq (a b : common_iterator) (ha : a.index_ < 9223372036854775808)
    (hb : b.index_ < 9223372036854775808) :
    a.iter_diff b = (a.index_ : Int) - (b.index_ : Int) := by
  have h0 : umul (ofPtrdiff 0) BLOCK_SIZE_ = 0 := by decide
  unfold common_iterator.iter_diff
  rw [h0]
  unfold toPtrdiff uadd usub SIZE_MOD
  split <;> omega

/-- C19: on a valid deque holding `m`, for all `i, j <= size()`: the
iterators `begin() + i` and `begin() + j` exist; for `i < size()`,
`*(begin() + i)` is the place of `(*this)[i]`, namely slot
`index_ % BLOCK_SIZE_` of the block at entry `index_ / BLOCK_SIZE_` of the
indirection array, and it holds the `i`-th element; the difference of the two
iterators is `i - j` as a signed number; `(begin() + i) + (j - i)` is
`begin() + j`, for a step of either sign; `<` and `==` on them agree with
`<` and `=` on `i` and `j`; and `end() - begin()` is `size()`. -/
theorem C19_iterator_arithmetic (d : Deque T) (m : List T) (i j : Nat)
    (hrep : Rep d m) (hi : i ≤ m.length) (hj : j ≤ m.length) :
    ∃ b e bi bj, d.begin = some b ∧ d.end_ = some e ∧
      d.iter_add b (i : Int) = some bi ∧ d.iter_add b (j : Int) = some bj ∧
      (i < m.length →
        d.index i = some bi.deref ∧
        bi.deref = (d.external_array_ (bi.index_ / BLOCK_SIZE_), bi.index_ % BLOCK_SIZE_) ∧
        d.store.read bi.deref = m[i]?) ∧
      bi.iter_diff bj = (i : Int) - (j : Int) ∧
      d.iter_add bi ((j : Int) - (i : Int)) = some bj ∧
      (bi.iter_lt bj = true ↔ i < j) ∧
      (bi.iter_eq bj = true ↔ i = j) ∧
      e.iter_diff b = (d.size : Int) := by
  obtain ⟨hbeg, hend, hE⟩ := rep_iterators d m hrep
  have hsize := (rep_observe d m hrep).1
  obtain ⟨hwf, hfi, hal, hlb, hl, hel⟩ := hrep
  have hbound := hwf.bound
  generalize hB : d.first_block_ * BLOCK_SIZE_ + d.first_element_index_ = B at *
  have hA : d.amount_of_blocks_ * BLOCK_SIZE_ ≤ 4611686018427387904 := by
    unfold BLOCK_SIZE_; omega
  have hbi : d.iter_add (d.iterAt B) (i : Int) = some (d.iterAt (B + i)) :=
    iter_add_nat d _ i hbound (by show B + i < _; omega)
  have hbj : d.iter_add (d.iterAt B) (j : Int) = some (d.iterAt (B + j)) :=
    iter_add_nat d _ j hbound (by show B + j < _; omega)
  refine ⟨d.iterAt B, d.iterAt (B + m.length), d.iterAt (B + i), d.iterAt (B + j),
    hbeg, hend, hbi, hbj, ?_, ?_, ?_, ?_, ?_, ?_⟩
  · intro hlt
    refine ⟨?_, rfl, ?_⟩
    · have := index_eq d i hbound hfi (by rw [hB]; omega)
      rw [hB] at this
      exact this
    · rw [read_iterAt d hwf _ (by omega)]
      exact hel i hlt
  · rw [iter_diff_eq _ _ (by show B + i < _; omega) (by show B + j < _; omega)]
    show ((B + i : Nat) : Int) - ((B + j : Nat) : Int) = _
    omega
  · by_cases hij : i ≤ j
    · have e1 : (j : Int) - (i : Int) = ((j - i : Nat) : Int) := by omega
      rw [e1]
      have := iter_add_nat d (d.iterAt (B + i)) (j - i) hbound
        (by show B + i + (j - i) < _; omega)
      have e2 : (d.iterAt (B + i)).index_ + (j - i) = B + j := by
        show B + i + (j - i) = B + j
        omega
      rw [e2] at this
      exact this
    · have e1 : (j : Int) - (i : Int) = -((i - j : Nat) : Int) := by omega
      rw [e1]
      have := iter_add_neg d (d.iterAt (B + i)) (i - j) hbound
        (by show B + i < _; omega) (by omega) (by show i - j ≤ B + i; omega)
      have e2 : (d.iterAt (B + i)).index_ - (i - j) = B + j := by
        show B + i - (i - j) = B + j
        omega
      rw [e2] at this
      exact this
  · simp only [common_iterator.iter_lt, Deque.iterAt, decide_eq_true_eq]
    omega
  · rw [iter_eq_iff]
    simp only [Deque.iterAt]
    omega
  · rw [iter_diff_eq _ _ (by show B + m.length < _; omega) (by show B < _; omega), hsize]
    show ((B + m.length : Nat) : Int) - (B : Int) = _
    omega

/-- C19 on the deque of `0, ..., 39`, whose elements span two blocks: the
iterators `begin() + 31` and `begin() + 33`. -/
theorem C19_iterator_arithmetic_witness :
    ∃ d b bi bj, iota 40 = some d ∧ d.begin = some b ∧
      d.iter_add b 31 = some bi ∧ d.iter_add b 33 = some bj ∧
      d.store.read bi.deref = some 31 ∧
      bi.iter_diff bj = -2 ∧ d.iter_add bi 2 = some bj ∧ bi.iter_lt bj = true := by
  obtain ⟨d, hd, hrep⟩ := iota_rep 40 (by decide)
  obtain ⟨b, e, bi, bj, h1, -, h3, h4, h5, h6, h7, h8, -, -⟩ :=
    C19_iterator_arithmetic d (List.range 40) 31 33 hrep (by decide) (by decide)
  exact ⟨d, b, bi, bj, hd, h1, h3, h4, (h5 (by decide)).2.2, h6, h7, h8.mpr (by decide)⟩

end BlockDeque

/-! ## Theorems: growth and bulk construction of the deque -/

namespace BlockDeque

variable {T : Type}

/-- The allocation traffic of the reallocation branch of `push_helper`: one
indirection array and `3 * n` blocks are allocated, the old array and the
blocks behind its entries are released. -/
theorem push_helper_realloc_traffic (d : Deque T)
    (hfl : d.first_block_ ≤ d.last_block_) (hlb : d.last_block_ < d.amount_of_blocks_)
    (hbound : d.amount_of_blocks_ ≤ 144115188075855872) (ci cb : Nat) :
    ∃ d', d.push_helper ci cb ci cb = some d' ∧
      d'.store.arrays_new = d.store.arrays_new + 1 ∧
      d'.store.arrays_deleted = d.store.arrays_deleted + 1 ∧
      d'.store.blocks_new = d.store.blocks_new + 3 * (d.last_block_ - d.first_block_ + 1) ∧
      d'.store.blocks_deleted = d.store.blocks_deleted + d.amount_of_blocks_ := by
  have hn : uadd (usub d.last_block_ d.first_block_) 1 = d.last_block_ - d.first_block_ + 1 := by
    rw [usub_eq hfl (by unfold SIZE_MOD; omega), uadd_eq (by unfold SIZE_MOD; omega)]
  have h3 : umul 3 (d.last_block_ - d.first_block_ + 1)
      = 3 * (d.last_block_ - d.first_block_ + 1) := by
    rw [umul_eq (by unfold SIZE_MOD; omega)]
  have h2 : usub (umul 2 (d.last_block_ - d.first_block_ + 1)) 1
      = 2 * (d.last_block_ - d.first_block_ + 1) - 1 := by
    rw [umul_eq (by unfold SIZE_MOD; omega), usub_eq (by omega) (by unfold SIZE_MOD; omega)]
  obtain ⟨-, -, -, -, tbn, tbd, tan, tad, -, -, -⟩ :=
    try_allocate_spec d.store.newArray.1 d.store.newArray.2
      (3 * (d.last_block_ - d.first_block_ + 1))
  have hsw := swap_blocks_spec d.first_block_ (d.last_block_ - d.first_block_ + 1)
    (3 * (d.last_block_ - d.first_block_ + 1)) d.amount_of_blocks_
    (d.last_block_ + 1 - d.first_block_) d.first_block_
    ((try_allocate d.store.newArray.1 d.store.newArray.2
      (3 * (d.last_block_ - d.first_block_ + 1))).2, d.external_array_)
    (le_refl _) (by omega) (by omega) (by unfold SIZE_MOD; omega) (by unfold SIZE_MOD; omega)
  unfold Deque.push_helper
  simp only [and_self, if_true, hn, h3, h2, hsw]
  refine ⟨_, rfl, ?_, ?_, ?_, ?_⟩
  · dsimp only [Deque.deallocate]
    rw [(deleteBlocks_spec _ _ _).2.2.2.2.2.1, tan]
    rfl
  · dsimp only [Deque.deallocate]
    rw [(deleteBlocks_spec _ _ _).2.2.2.2.2.2.1, tad]
    rfl
  · dsimp only [Deque.deallocate]
    rw [(deleteBlocks_spec _ _ _).2.2.2.1, tbn]
    rfl
  · dsimp only [Deque.deallocate]
    rw [(deleteBlocks_spec _ _ _).2.2.2.2.1, tbd]
    rfl

end BlockDeque

namespace BlockDeque

variable {T : Type}

/-- C35 (evaluation at the failing input): `Deque<int> d(0, 5)` has
`amount_of_blocks_ == 1`, `first_block_ == 0` and `first_element_index_ == 0`;
`d.push_front(1)` then addresses block `first_block_ - 1`, which is
`2 ^ 64 - 1` in `size_t` and outside the array (undefined behaviour).  The
same holds for `Deque<int> d(10, 5)`.  `Deque<int> d(0)` has 8 blocks and
`first_block_ == 4`, and `push_front` on it returns. -/
theorem C35_push_front_below_block_zero :
    (sizedOfValue 0).map Deque.members = some (1, 0, 0, 0, 0) ∧
    (sizedOfValue 0).map Deque.frontBlock = some 18446744073709551615 ∧
    ((sizedOfValue 0).bind (fun d => d.push_front 1)).isSome = false ∧
    (sizedOfValue 10).map Deque.members = some (1, 0, 0, 0, 10) ∧
    ((sizedOfValue 10).bind (fun d => d.push_front 1)).isSome = false ∧
    (sizedDefault 0).map Deque.members = some (8, 4, 0, 4, 0) ∧
    ((sizedDefault 0).bind (fun d => d.push_front 1)).map Deque.members
      = some (8, 3, 31, 4, 0) := by
  refine ⟨?_, ?_, ?_, ?_, ?_, ?_, ?_⟩ <;> decide

end BlockDeque

namespace BlockDeque

variable {T : Type}

/-- The reallocation branch of `push_helper`, taken at the edge. -/
theorem push_helper_grows (d : Deque T)
    (hfl : d.first_block_ ≤ d.last_block_) (hlb : d.last_block_ < d.amount_of_blocks_)
    (hbound : d.amount_of_blocks_ ≤ 144115188075855872) (ci cb ei eb : Nat)
    (h : ci = ei ∧ cb = eb) :
    ∃ d', d.push_helper ci cb ei eb = some d' ∧ Grown d d' ∧
      d'.first_element_index_ = d.first_element_index_ ∧
      d'.after_last_element_index_ = d.after_last_element_index_ ∧
      d'.last_block_ = 2 * (d.last_block_ - d.first_block_ + 1) - 1 ∧
      (∀ a s, a < d.store.brk → d'.store.slot a s = d.store.slot a s) ∧
      d'.store.ctor_calls = d.store.ctor_calls ∧
      d'.store.dtor_calls = d.store.dtor_calls := by
  obtain ⟨rfl, rfl⟩ := h
  obtain ⟨d', hd', ham, hfb, hlb', hfi, hal, hmid, -, hslot, -, -, -, hct, hdt⟩ :=
    push_helper_realloc_form d hfl hlb hbound ci cb
  obtain ⟨d2, hd2, han, -, -, -⟩ := push_helper_realloc_traffic d hfl hlb hbound ci cb
  have e : d2 = d' := Option.some.inj (hd2.symm.trans hd')
  subst e
  refine ⟨d2, hd', ⟨han, ham, hfb, ?_⟩, hfi, hal, hlb', hslot, hct, hdt⟩
  intro k hk
  rw [hmid _ (by omega) (by omega)]
  congr 1
  omega

/-- Placement construction in a live block, field by field. -/
theorem construct_form (st : Store T) (a j : Nat) (v : T) (hl : st.live a = true)
    (hj : j < BLOCK_SIZE_) :
    ∃ st', st.construct a j v = some st' ∧
      st'.slot = (fun x y => if x = a ∧ y = j then some v else st.slot x y) ∧
      st'.live = st.live ∧ st'.brk = st.brk ∧
      st'.arrays_new = st.arrays_new ∧ st'.arrays_deleted = st.arrays_deleted ∧
      st'.blocks_new = st.blocks_new ∧ st'.blocks_deleted = st.blocks_deleted ∧
      st'.ctor_calls = st.ctor_calls + 1 ∧ st'.dtor_calls = st.dtor_calls := by
  unfold Store.construct
  rw [if_pos ⟨hl, hj⟩]
  exact ⟨_, rfl, rfl, rfl, rfl, rfl, rfl, rfl, rfl, rfl, rfl⟩

/-- The growth of the indirection array at `push_back`. -/
theorem push_back_growth (d : Deque T) (m : List T) (v : T) (hrep : Rep d m) :
    ∃ d', d.push_back v = some d' ∧
      (if d.after_last_element_index_ = BLOCK_SIZE_ - 1 ∧
          d.last_block_ = d.amount_of_blocks_ - 1
        then Grown d d' else Kept d d') ∧
      Unmoved d d' (d.external_array_ d.last_block_) d.after_last_element_index_ v := by
  obtain ⟨hwf, hfi, hal, hlb, hl, hel⟩ := hrep
  have hbound := hwf.bound
  obtain ⟨st, hst, s1, s2, s3, s4, s5, s6, s7, s8, s9⟩ :=
    construct_form d.store (d.external_array_ d.last_block_) d.after_last_element_index_ v
      (hwf.live _ hlb) hal
  have hfl : d.first_block_ ≤ d.last_block_ := by unfold BLOCK_SIZE_ at *; omega
  have h31 : usub BLOCK_SIZE_ 1 = BLOCK_SIZE_ - 1 := by decide
  have ham : usub d.amount_of_blocks_ 1 = d.amount_of_blocks_ - 1 :=
    usub_eq (by omega) (by unfold SIZE_MOD; omega)
  unfold Deque.push_back
  simp only [Deque.blockPtr, hlb, if_true, Option.some_bind, hst, h31, ham]
  by_cases hc : d.after_last_element_index_ = BLOCK_SIZE_ - 1 ∧
      d.last_block_ = d.amount_of_blocks_ - 1
  · obtain ⟨d2, hd2, hg, -, -, -, hslot, hct, hdt⟩ :=
      push_helper_grows ({ d with store := st } : Deque T) hfl hlb hbound _ _ _ _ hc
    rw [hd2]
    refine ⟨_, rfl, ?_, ⟨?_, ?_, ?_⟩⟩
    · rw [if_pos hc]
      exact ⟨hg.arrays.trans (by rw [s4]), hg.amount, hg.first_block, hg.blocks⟩
    · intro x y hx
      have := hslot x y (by rw [s3]; exact hx)
      rw [s1] at this
      exact this
    · exact hct.trans s8
    · exact hdt.trans s9
  · rw [push_helper_skip _ _ _ _ _ hc]
    refine ⟨_, rfl, ?_, ⟨?_, s8, s9⟩⟩
    · rw [if_neg hc]
      exact ⟨s4, s5, s6, s7, rfl, rfl⟩
    intro x y _
    show st.slot x y = _
    rw [s1]

/-- The growth of the indirection array at `push_front`. -/
theorem push_front_growth (d : Deque T) (m : List T) (v : T) (hrep : Rep d m)
    (hpos : 0 < d.first_block_ * BLOCK_SIZE_ + d.first_element_index_) :
    ∃ d', d.push_front v = some d' ∧
      (if d.frontSlot = 0 ∧ d.frontBlock = 0 then Grown d d' else Kept d d') ∧
      Unmoved d d' (d.external_array_ d.frontBlock) d.frontSlot v := by
  obtain ⟨hwf, hfi, hal, hlb, hl, hel⟩ := hrep
  have hbound := hwf.bound
  have hfl : d.first_block_ ≤ d.last_block_ := by unfold BLOCK_SIZE_ at *; omega
  have hfb : d.frontBlock < d.amount_of_blocks_ := by
    unfold Deque.frontBlock
    by_cases h0 : d.first_element_index_ = 0
    · rw [if_pos h0, usub_eq (by unfold BLOCK_SIZE_ at *; omega) (by unfold SIZE_MOD; omega)]
      omega
    · rw [if_neg h0]; omega
  have hfs : d.frontSlot < BLOCK_SIZE_ := by
    unfold Deque.frontSlot
    by_cases h0 : d.first_element_index_ = 0
    · rw [if_pos h0]; decide
    · rw [if_neg h0, usub_eq (by omega) (by unfold SIZE_MOD BLOCK_SIZE_ at *; omega)]
      omega
  obtain ⟨st, hst, s1, s2, s3, s4, s5, s6, s7, s8, s9⟩ :=
    construct_form d.store (d.external_array_ d.frontBlock) d.frontSlot v
      (hwf.live _ hfb) hfs
  have e1 : (if d.first_element_index_ = 0 then usub d.first_block_ 1 else d.first_block_)
      = d.frontBlock := rfl
  have e2 : (if d.first_element_index_ = 0 then usub BLOCK_SIZE_ 1
      else usub d.first_element_index_ 1) = d.frontSlot := rfl
  unfold Deque.push_front
  simp only [e1, e2, Deque.blockPtr, hfb, if_true, Option.some_bind, hst]
  by_cases hc : d.frontSlot = 0 ∧ d.frontBlock = 0
  · obtain ⟨d2, hd2, hg, hfi2, -, -, hslot, hct, hdt⟩ :=
      push_helper_grows ({ d with store := st } : Deque T) hfl hlb hbound _ _ _ _ hc
    rw [hd2]
    -- the first element was in slot 1 of block 0
    have hone : d.first_element_index_ = 1 := by
      have h1 := hc.1
      unfold Deque.frontSlot at h1
      by_cases h0 : d.first_element_index_ = 0
      · rw [if_pos h0] at h1
        have : usub BLOCK_SIZE_ 1 = 31 := by decide
        omega
      · rw [if_neg h0, usub_eq (by omega) (by unfold SIZE_MOD BLOCK_SIZE_ at *; omega)] at h1
        omega
    have hf1 : usub BLOCK_SIZE_ d2.first_element_index_ = 31 := by
      rw [hfi2]; show usub BLOCK_SIZE_ d.first_element_index_ = 31
      rw [hone]; decide
    have hfb2 : usub d2.first_block_ (31 / BLOCK_SIZE_) = d2.first_block_ := by
      have : 31 / BLOCK_SIZE_ = 0 := by decide
      rw [this, usub_eq (Nat.zero_le _) (by
        rw [hg.first_block]
        show d.last_block_ - d.first_block_ + 1 < SIZE_MOD
        unfold SIZE_MOD; omega)]
      rfl
    simp only [Option.some_bind, hf1, hfb2]
    refine ⟨_, rfl, ?_, ⟨?_, ?_, ?_⟩⟩
    · rw [if_pos hc]
      exact ⟨hg.arrays.trans (by rw [s4]), hg.amount, hg.first_block, hg.blocks⟩
    · intro x y hx
      have := hslot x y (by rw [s3]; exact hx)
      rw [s1] at this
      exact this
    · exact hct.trans s8
    · exact hdt.trans s9
  · rw [push_helper_skip _ _ _ _ _ hc]
    simp only [Option.some_bind]
    refine ⟨_, rfl, ?_, ⟨?_, s8, s9⟩⟩
    · rw [if_neg hc]
      exact ⟨s4, s5, s6, s7, rfl, rfl⟩
    intro x y _
    show st.slot x y = _
    rw [s1]

/-- The deque `iota n` is reachable from `Deque()` and holds `0, ..., n - 1`. -/
theorem iota_inv (n : Nat) (hn : n ≤ 1152921504606846976) :
    ∃ d, iota n = some d ∧ Inv d (List.range n) := by
  obtain ⟨d, hrun, hinv⟩ := run_inv ((List.range n).map Op.push_back) (Deque.ctor Nat) []
    ctor_inv (popsValid_push_backs _ _) (by simpa using hn)
  rw [refRun_push_backs, List.nil_append] at hinv
  exact ⟨d, hrun, hinv⟩

set_option maxRecDepth 100000 in
/-- The index members of `fullBack`. -/
theorem fullBack_members : (fullBack).map Deque.members = some (8, 4, 0, 7, 31) := by
  rfl

/-- C34: on a valid deque `push_back(v)` returns, and so does `push_front(v)`
when the first element is not in slot 0 of block 0 (where `push_front` would
address block `first_block_ - 1`).  `push_back` reallocates the indirection
array exactly when it writes the last slot of the array's last block,
`push_front` exactly when it writes slot 0 of block 0.  With
`s = last_block_ - first_block_ + 1` before the push, a reallocation
allocates one array of `3 * s` blocks, places the `s` live blocks in the same
order at the entries `s .. 2 * s - 1` and makes `first_block_` equal to `s`;
without it the array, its size and the allocation counters are unchanged.  In
both cases every element stays in the block and slot it was in: one element
(the pushed one) is constructed and none is destroyed. -/
theorem C34_deque_growth_policy (d : Deque T) (m : List T) (v : T) (hrep : Rep d m) :
    (∃ d', d.push_back v = some d' ∧
      (if d.after_last_element_index_ = BLOCK_SIZE_ - 1 ∧
          d.last_block_ = d.amount_of_blocks_ - 1
        then Grown d d' else Kept d d') ∧
      Unmoved d d' (d.external_array_ d.last_block_) d.after_last_element_index_ v) ∧
    (0 < d.first_block_ * BLOCK_SIZE_ + d.first_element_index_ →
      ∃ d', d.push_front v = some d' ∧
        (if d.frontSlot = 0 ∧ d.frontBlock = 0 then Grown d d' else Kept d d') ∧
        Unmoved d d' (d.external_array_ d.frontBlock) d.frontSlot v) :=
  ⟨push_back_growth d m v hrep, push_front_growth d m v hrep⟩

/-- C34 on the deque `0, ..., 126` pushed at the back of `Deque<int>()` (8
blocks, elements in the blocks 4 to 7, the next free slot being the last
slot of block 7): `push_back` reallocates to 12 blocks with `first_block_`
4, and `push_front` does not reallocate. -/
theorem C34_deque_growth_policy_witness :
    ∃ d d1 d2, fullBack = some d ∧ d.members = (8, 4, 0, 7, 31) ∧
      d.push_back 127 = some d1 ∧ Grown d d1 ∧ d1.amount_of_blocks_ = 12 ∧
      d1.first_block_ = 4 ∧
      d.push_front 127 = some d2 ∧ Kept d d2 := by
  obtain ⟨d, hd, hinv⟩ := iota_inv 127 (by decide)
  have hm := fullBack_members
  have hd' : fullBack = some d := hd
  rw [hd', Option.map_some', Option.some.injEq] at hm
  simp only [Deque.members, Prod.mk.injEq] at hm
  obtain ⟨m1, m2, m3, m4, m5⟩ := hm
  obtain ⟨⟨d1, h1, hg, -⟩, hfront⟩ :=
    C34_deque_growth_policy d (List.range 127) 127 hinv.rep
  obtain ⟨d2, h2, hk, -⟩ := hfront hinv.pos
  rw [if_pos ⟨by rw [m5]; rfl, by rw [m4, m1]⟩] at hg
  have hne : ¬ (d.frontSlot = 0 ∧ d.frontBlock = 0) := by
    unfold Deque.frontBlock
    rw [m3, m2, if_pos rfl]
    intro h
    exact absurd h.2 (by decide)
  rw [if_neg hne] at hk
  refine ⟨d, d1, d2, hd', ?_, h1, hg, ?_, ?_, h2, hk⟩
  · simp only [Deque.members, m1, m2, m3, m4, m5]
  · rw [hg.amount, m4, m2]
  · rw [hg.first_block, m4, m2]

end BlockDeque

namespace BlockDeque

variable {T : Type}

/-- The element loop of the bulk constructors, run on the indices
`i, ..., i + k - 1` none of whose constructions throws: it returns, the slots
of these indices hold the constructed values, every other slot is as it was,
and the index members are untouched. -/
theorem fill_ok (elem : Nat → Ctor T) (f : Nat → Option T) :
    ∀ (k i : Nat) (d : Deque T), WF d → d.first_element_index_ < BLOCK_SIZE_ →
      d.first_block_ * BLOCK_SIZE_ + d.first_element_index_ + i + k
        ≤ d.amount_of_blocks_ * BLOCK_SIZE_ →
      (∀ j, i ≤ j → j < i + k → ∃ v, f j = some v ∧ elem j = .value v) →
      ∃ d', d.fill elem (List.range' i k) = .ok d' ∧ WF d' ∧
        d'.amount_of_blocks_ = d.amount_of_blocks_ ∧
        d'.external_array_ = d.external_array_ ∧
        d'.first_block_ = d.first_block_ ∧
        d'.first_element_index_ = d.first_element_index_ ∧
        d'.last_block_ = d.last_block_ ∧
        d'.after_last_element_index_ = d.after_last_element_index_ ∧
        (∀ j, i ≤ j → j < i + k →
          d'.cell (d.first_block_ * BLOCK_SIZE_ + d.first_element_index_ + j) = f j) ∧
        (∀ q, q < d.amount_of_blocks_ * BLOCK_SIZE_ →
          (q < d.first_block_ * BLOCK_SIZE_ + d.first_element_index_ + i ∨
            d.first_block_ * BLOCK_SIZE_ + d.first_element_index_ + i + k ≤ q) →
          d'.cell q = d.cell q) ∧
        d'.store.ctor_calls = d.store.ctor_calls + k ∧
        d'.store.dtor_calls = d.store.dtor_calls ∧
        d'.store.dtor_raw = d.store.dtor_raw
  | 0, i, d, hwf, _, _, _ => by
    refine ⟨d, rfl, hwf, rfl, rfl, rfl, rfl, rfl, rfl, ?_, ?_, rfl, rfl, rfl⟩
    · intro j h1 h2; omega
    · intro q _ _; rfl
  | k + 1, i, d, hwf, hfi, hin, helem => by
    have hidx := index_eq d i hwf.bound hfi (by omega)
    obtain ⟨v, hfv, hv⟩ := helem i (le_refl _) (by omega)
    obtain ⟨st, hst, hwf1, hraw1, hdt1, hct1, hcv, hco⟩ :=
      construct_cell d hwf (d.first_block_ * BLOCK_SIZE_ + d.first_element_index_ + i) v
        (by omega)
    obtain ⟨d', hd', hwf', a1, a2, a3, a4, a5, a6, hval, hoth, c1, c2, c3⟩ :=
      fill_ok elem f k (i + 1) ({ d with store := st } : Deque T) hwf1 hfi
        (by
          show d.first_block_ * BLOCK_SIZE_ + d.first_element_index_ + (i + 1) + k
            ≤ d.amount_of_blocks_ * BLOCK_SIZE_
          omega)
        (fun j h1 h2 => helem j (by omega) (by omega))
    refine ⟨d', ?_, hwf', a1, a2, a3, a4, a5, a6, ?_, ?_, ?_, ?_, ?_⟩
    · rw [List.range'_succ]
      show (match d.index i with
        | none => Built.ub
        | some p =>
          match elem i with
          | .undefined => Built.ub
          | .throws =>
            match d.destroy i with
            | none => Built.ub
            | some d1 => Built.throw d1.deallocate
          | .value v =>
            match d.store.construct p.1 p.2 v with
            | none => Built.ub
            | some st => Deque.fill { d with store := st } elem (List.range' (i + 1) k)) = _
      rw [hidx]
      simp only [hv, hst]
      exact hd'
    · intro j h1 h2
      by_cases hj : j = i
      · subst hj
        have := hoth (d.first_block_ * BLOCK_SIZE_ + d.first_element_index_ + j) (by
          show _ < d.amount_of_blocks_ * BLOCK_SIZE_
          omega) (Or.inl (by
          show _ < d.first_block_ * BLOCK_SIZE_ + d.first_element_index_ + (j + 1)
          omega))
        rw [this, hfv]
        exact hcv
      · exact hval j (by omega) (by omega)
    · intro q hq hcase
      have h1 := hoth q hq (by
        show q < d.first_block_ * BLOCK_SIZE_ + d.first_element_index_ + (i + 1) ∨
          d.first_block_ * BLOCK_SIZE_ + d.first_element_index_ + (i + 1) + k ≤ q
        omega)
      rw [h1]
      exact hco q hq (by omega)
    · rw [c1]; show st.ctor_calls + k = _; rw [hct1]; omega
    · rw [c2]; exact hdt1
    · rw [c3]; exact hraw1

/-- The deque a bulk constructor holds before its element loop: `amount`
fresh blocks in a fresh indirection array. -/
theorem alloc_wf (amount first fi last al : Nat) (hb : amount ≤ 144115188075855872) :
    WF ({ store := (try_allocate (Store.empty T).newArray.1 (Store.empty T).newArray.2
            amount).1
          amount_of_blocks_ := amount
          external_array_ := (try_allocate (Store.empty T).newArray.1
            (Store.empty T).newArray.2 amount).2
          first_block_ := first
          first_element_index_ := fi
          last_block_ := last
          after_last_element_index_ := al } : Deque T) := by
  obtain ⟨ta, tb, ts, tl, -, -, -, -, -, -, traw⟩ :=
    try_allocate_spec (Store.empty T).newArray.1 (Store.empty T).newArray.2 amount
  have hbrk : (Store.empty T).newArray.1.brk = 0 := rfl
  rw [hbrk] at ta tb ts tl
  refine ⟨?_, ?_, ?_, hb⟩
  · intro i j hi hj hij
    have hi' : i < amount := hi
    have hj' : j < amount := hj
    simp only [ta, hi', hj', if_true] at hij
    omega
  · intro i hi
    have hi' : i < amount := hi
    simp only [ta, tl, hi', if_true]
    rw [if_pos (by omega)]
  · intro i hi
    have hi' : i < amount := hi
    simp only [ta, tb, hi', if_true]
    omega

/-- A bulk constructor none of whose element constructions throws: the
element loop over `0, ..., n - 1` returns a valid deque that holds the
constructed values, after `n` constructions and no destructor call. -/
theorem bulk_ok (amount first fi last al n : Nat) (elem : Nat → Ctor T) (m : List T)
    (hb : amount ≤ 144115188075855872) (hfi : fi < BLOCK_SIZE_) (hal : al < BLOCK_SIZE_)
    (hlast : last < amount) (hn : m.length = n)
    (hlen : first * BLOCK_SIZE_ + fi + n = last * BLOCK_SIZE_ + al)
    (helem : ∀ j, j < n → ∃ v, m[j]? = some v ∧ elem j = .value v) :
    ∃ d', Deque.fill
        ({ store := (try_allocate (Store.empty T).newArray.1 (Store.empty T).newArray.2
              amount).1,
           amount_of_blocks_ := amount,
           external_array_ := (try_allocate (Store.empty T).newArray.1
              (Store.empty T).newArray.2 amount).2,
           first_block_ := first,
           first_element_index_ := fi,
           last_block_ := last,
           after_last_element_index_ := al } : Deque T) elem (List.range n) = .ok d' ∧
      Rep d' m ∧ d'.members = (amount, first, fi, last, al) ∧
      d'.store.ctor_calls = n ∧ d'.store.dtor_calls = 0 ∧ d'.store.dtor_raw = 0 := by
  have hwf := alloc_wf (T := T) amount first fi last al hb
  obtain ⟨-, -, -, -, -, -, -, -, tc, td, traw⟩ :=
    try_allocate_spec (Store.empty T).newArray.1 (Store.empty T).newArray.2 amount
  obtain ⟨d', hd', hwf', a1, a2, a3, a4, a5, a6, hval, -, c1, c2, c3⟩ :=
    fill_ok elem (fun j => m[j]?) n 0 _ hwf hfi
      (by
        show first * BLOCK_SIZE_ + fi + 0 + n ≤ amount * BLOCK_SIZE_
        unfold BLOCK_SIZE_ at *; omega)
      (fun j _ h2 => helem j (by omega))
  rw [List.range_eq_range']
  refine ⟨d', hd', ⟨hwf', ?_, ?_, ?_, ?_, ?_⟩, ?_, ?_, ?_, ?_⟩
  · rw [a4]; exact hfi
  · rw [a6]; exact hal
  · rw [a5, a1]; exact hlast
  · rw [a3, a4, a5, a6, hn]; exact hlen
  · intro k hk
    rw [a3, a4]
    exact hval k (Nat.zero_le _) (by omega)
  · simp only [Deque.members, a1, a3, a4, a5, a6]
  · rw [c1]
    show (try_allocate (Store.empty T).newArray.1 (Store.empty T).newArray.2
      amount).1.ctor_calls + n = n
    rw [tc]
    show 0 + n = n
    omega
  · rw [c2]
    show (try_allocate (Store.empty T).newArray.1 (Store.empty T).newArray.2
      amount).1.dtor_calls = 0
    rw [td]; rfl
  · rw [c3]
    show (try_allocate (Store.empty T).newArray.1 (Store.empty T).newArray.2
      amount).1.dtor_raw = 0
    rw [traw]; rfl

theorem getElem?_replicate_lt (n j : Nat) (x : T) (hj : j < n) :
    (List.replicate n x)[j]? = some x := by
  rw [List.getElem?_eq_getElem (by simpa using hj)]
  simp

/-- The block layout of `Deque(num, obj)`. -/
theorem layout_obj (num : Nat) :
    num / 64 ≤ (3 * num / 32 + 1) / 2 ∧
    (3 * num / 32 + 1) / 2 - num / 64 + num / 32 < 3 * num / 32 + 1 := by
  have h1 : 3 * (num / 32) ≤ 3 * num / 32 := by omega
  have h2 : num / 64 ≤ num / 32 / 2 := by omega
  have h3 : num / 32 / 2 ≤ num / 64 := by omega
  generalize num / 32 = q at *
  generalize 3 * num / 32 = a at *
  generalize num / 64 = b at *
  omega

/-- The block layout of `Deque(num)`. -/
theorem layout_max (num : Nat) :
    num / 64 ≤ max (3 * num / 32 + 1) 8 / 2 ∧
    max (3 * num / 32 + 1) 8 / 2 - num / 64 + num / 32 < max (3 * num / 32 + 1) 8 := by
  have h1 : 3 * (num / 32) ≤ 3 * num / 32 := by omega
  have h2 : num / 64 ≤ num / 32 / 2 := by omega
  have h3 : num / 32 / 2 ≤ num / 64 := by omega
  generalize num / 32 = q at *
  generalize 3 * num / 32 = a at *
  generalize num / 64 = b at *
  omega

theorem layout_len (F num : Nat) :
    F * BLOCK_SIZE_ + 0 + num = (F + num / 32) * BLOCK_SIZE_ + num % BLOCK_SIZE_ := by
  unfold BLOCK_SIZE_
  omega

/-- `Deque(num, obj)` when no copy throws: a valid deque of `num` copies. -/
theorem ctor_n_obj_ok (num : Nat) (x : T) (hn : num ≤ 1152921504606846976) :
    ∃ d, Deque.ctor_n_obj num (fun _ => some x) = .ok d ∧ Rep d (List.replicate num x) ∧
      d.store.ctor_calls = num ∧ d.store.dtor_calls = 0 := by
  obtain ⟨l1, l2⟩ := layout_obj num
  have hA : 3 * num / 32 + 1 ≤ 144115188075855872 := by omega
  have e1 : uadd (umul 3 num / BLOCK_SIZE_) 1 = 3 * num / 32 + 1 := by
    rw [umul_eq (by unfold SIZE_MOD; omega), uadd_eq (by unfold SIZE_MOD BLOCK_SIZE_; omega)]
    rfl
  have e2 : usub ((3 * num / 32 + 1) / 2) (num / umul 2 BLOCK_SIZE_)
      = (3 * num / 32 + 1) / 2 - num / 64 := by
    have : umul 2 BLOCK_SIZE_ = 64 := by decide
    rw [this, usub_eq l1 (by unfold SIZE_MOD; omega)]
  have e3 : uadd ((3 * num / 32 + 1) / 2 - num / 64) (num / BLOCK_SIZE_)
      = (3 * num / 32 + 1) / 2 - num / 64 + num / 32 := by
    rw [uadd_eq (by unfold SIZE_MOD BLOCK_SIZE_; omega)]
    rfl
  obtain ⟨d', hd', hrep, -, c1, c2, -⟩ :=
    bulk_ok (T := T) (3 * num / 32 + 1) ((3 * num / 32 + 1) / 2 - num / 64) 0
      ((3 * num / 32 + 1) / 2 - num / 64 + num / 32) (num % BLOCK_SIZE_) num
      (fun i => Ctor.ofOption (some x)) (List.replicate num x)
      hA (by decide) (Nat.mod_lt _ (by decide)) l2 (by simp) (layout_len _ _)
      (fun j hj => ⟨x, getElem?_replicate_lt num j x hj, rfl⟩)
  refine ⟨d', ?_, hrep, c1, c2⟩
  unfold Deque.ctor_n_obj
  simp only [e1, e2, e3]
  rw [size_eq _ num]
  · exact hd'
  · exact hA
  · show 0 < BLOCK_SIZE_; decide
  · exact Nat.mod_lt _ (by decide)
  · exact l2
  · exact layout_len _ _

/-- `Deque(num)` when no construction throws: a valid deque of `num`
elements, each the value `T()` yields. -/
theorem ctor_n_ok (num : Nat) (x : T) (hn : num ≤ 1152921504606846976) :
    ∃ d, Deque.ctor_n num (fun _ => some x) = .ok d ∧ Rep d (List.replicate num x) ∧
      d.store.ctor_calls = num ∧ d.store.dtor_calls = 0 := by
  obtain ⟨l1, l2⟩ := layout_max num
  have hA : max (3 * num / 32 + 1) 8 ≤ 144115188075855872 := by omega
  have e1 : max (uadd (umul 3 num / BLOCK_SIZE_) 1) (umul DEFAULT_CAPACITY_ 1)
      = max (3 * num / 32 + 1) 8 := by
    rw [umul_eq (by unfold SIZE_MOD; omega), uadd_eq (by unfold SIZE_MOD BLOCK_SIZE_; omega)]
    rfl
  have e2 : usub (max (3 * num / 32 + 1) 8 / 2) (num / umul 2 BLOCK_SIZE_)
      = max (3 * num / 32 + 1) 8 / 2 - num / 64 := by
    have : umul 2 BLOCK_SIZE_ = 64 := by decide
    rw [this, usub_eq l1 (by unfold SIZE_MOD; omega)]
  have e3 : uadd (max (3 * num / 32 + 1) 8 / 2 - num / 64) (num / BLOCK_SIZE_)
      = max (3 * num / 32 + 1) 8 / 2 - num / 64 + num / 32 := by
    rw [uadd_eq (by unfold SIZE_MOD BLOCK_SIZE_; omega)]
    rfl
  obtain ⟨d', hd', hrep, -, c1, c2, -⟩ :=
    bulk_ok (T := T) (max (3 * num / 32 + 1) 8) (max (3 * num / 32 + 1) 8 / 2 - num / 64) 0
      (max (3 * num / 32 + 1) 8 / 2 - num / 64 + num / 32) (num % BLOCK_SIZE_) num
      (fun i => Ctor.ofOption (some x)) (List.replicate num x)
      hA (by decide) (Nat.mod_lt _ (by decide)) l2 (by simp) (layout_len _ _)
      (fun j hj => ⟨x, getElem?_replicate_lt num j x hj, rfl⟩)
  refine ⟨d', ?_, hrep, c1, c2⟩
  unfold Deque.ctor_n
  simp only [e1, e2, e3]
  rw [size_eq _ num]
  · exact hd'
  · exact hA
  · show 0 < BLOCK_SIZE_; decide
  · exact Nat.mod_lt _ (by decide)
  · exact l2
  · exact layout_len _ _

/-- `Deque(other)` on a valid deque when no copy throws: a valid deque with
the same index members that holds the copies. -/
theorem deque_ctor_copy_ok (other : Deque T) (m : List T) (hrep : Rep other m) :
    ∃ d, Deque.ctor_copy other (fun _ v => some v) = .ok d ∧ Rep d m ∧
      d.members = other.members ∧ d.store.ctor_calls = m.length := by
  obtain ⟨hsize, hget⟩ := rep_observe other m hrep
  obtain ⟨hwf, hfi, hal, hlb, hl, hel⟩ := hrep
  obtain ⟨d', hd', hrep', hmem, c1, -, -⟩ :=
    bulk_ok (T := T) other.amount_of_blocks_ other.first_block_ other.first_element_index_
      other.last_block_ other.after_last_element_index_ m.length
      (fun i =>
        match other.get i with
        | none => .undefined
        | some v => Ctor.ofOption ((fun (_ : Nat) (v : T) => some v) i v)) m
      hwf.bound hfi hal hlb rfl hl
      (fun j hj => by
        have h1 := hget j hj
        have h2 : m[j]? = some (m[j]) := List.getElem?_eq_getElem hj
        refine ⟨m[j], h2, ?_⟩
        simp only [h1, h2]
        rfl)
  refine ⟨d', ?_, hrep', hmem, c1⟩
  unfold Deque.ctor_copy
  simp only []
  rw [size_eq _ m.length]
  · exact hd'
  · exact hwf.bound
  · exact hfi
  · exact hal
  · exact hlb
  · exact hl

/-- C38: for every `n` up to `2 ^ 60` and every value `x`, `Deque(n, x)`
(no copy throwing) returns a deque with `size() == n` and `d[i] == x` for
every `i < n`; `Deque(n)` returns a deque with `size() == n` whose `n`
elements all are the value `z` that `T()` yields; and the copy constructor,
applied to a valid deque `other` (copies being equal to their originals),
returns a deque of the same `size()` with `d[i] == other[i]`, an element, for
every `i < size()`. -/
theorem C38_bulk_constructor_contents (n : Nat) (x z : T) (other : Deque T) (m : List T)
    (hn : n ≤ 1152921504606846976) (hrep : Rep other m) :
    (∃ d, Deque.ctor_n_obj n (fun _ => some x) = .ok d ∧ d.size = n ∧
      ∀ i, i < n → d.get i = some x) ∧
    (∃ d, Deque.ctor_n n (fun _ => some z) = .ok d ∧ d.size = n ∧
      ∀ i, i < n → d.get i = some z) ∧
    (∃ d, Deque.ctor_copy other (fun _ v => some v) = .ok d ∧ d.size = other.size ∧
      ∀ i, i < other.size → d.get i = other.get i ∧ (d.get i).isSome = true) := by
  refine ⟨?_, ?_, ?_⟩
  · obtain ⟨d, hd, hr, -, -⟩ := ctor_n_obj_ok n x hn
    obtain ⟨h1, h2⟩ := rep_observe d _ hr
    rw [List.length_replicate] at h1 h2
    exact ⟨d, hd, h1, fun i hi => (h2 i hi).trans (getElem?_replicate_lt n i x hi)⟩
  · obtain ⟨d, hd, hr, -, -⟩ := ctor_n_ok n z hn
    obtain ⟨h1, h2⟩ := rep_observe d _ hr
    rw [List.length_replicate] at h1 h2
    exact ⟨d, hd, h1, fun i hi => (h2 i hi).trans (getElem?_replicate_lt n i z hi)⟩
  · obtain ⟨d, hd, hr, -, -⟩ := deque_ctor_copy_ok other m hrep
    obtain ⟨h1, h2⟩ := rep_observe d _ hr
    obtain ⟨h3, h4⟩ := rep_observe other _ hrep
    refine ⟨d, hd, h1.trans h3.symm, fun i hi => ?_⟩
    rw [h3] at hi
    rw [h2 i hi, h4 i hi, List.getElem?_eq_getElem hi]
    exact ⟨rfl, rfl⟩

/-- C38 at `n = 40` (elements in two blocks), and on the copy of the deque
`0, ..., 39`. -/
theorem C38_bulk_constructor_contents_witness :
    ∃ o, iota 40 = some o ∧
      (∃ d, Deque.ctor_n_obj 40 (fun _ => some 7) = .ok d ∧ d.size = 40 ∧
        d.get 33 = some 7) ∧
      (∃ d, Deque.ctor_n 40 (fun _ => some 0) = .ok d ∧ d.size = 40 ∧ d.get 33 = some 0) ∧
      (∃ d, Deque.ctor_copy o (fun _ v => some v) = .ok d ∧ d.size = 40 ∧
        d.get 33 = some 33) := by
  obtain ⟨o, ho, hrep⟩ := iota_rep 40 (by decide)
  obtain ⟨⟨d1, h1, s1, g1⟩, ⟨d2, h2, s2, g2⟩, ⟨d3, h3, s3, g3⟩⟩ :=
    C38_bulk_constructor_contents 40 7 0 o (List.range 40) (by decide) hrep
  obtain ⟨h4, h5⟩ := rep_observe o _ hrep
  have h6 : o.size = 40 := h4
  refine ⟨o, ho, ⟨d1, h1, s1, g1 33 (by decide)⟩, ⟨d2, h2, s2, g2 33 (by decide)⟩,
    ⟨d3, h3, s3.trans h6, ?_⟩⟩
  rw [(g3 33 (by rw [h6]; decide)).1, h5 33 (by decide)]
  rfl

end BlockDeque

/-! ## Theorems: allocator-parameterized list -/

namespace LinkedList

variable {T A : Type}

theorem seg_frame {h h' : Heap T} : ∀ (xs : List (Nat × T)) (a b : Nat), Seg h a xs b →
    (∀ y, (y = a ∨ y ∈ xs.map Prod.fst) → h'.next y = h.next y) →
    (∀ y, (y ∈ xs.map Prod.fst ∨ y = b) → h'.prev y = h.prev y) →
    (∀ y, y ∈ xs.map Prod.fst → h'.cell y = h.cell y) →
    Seg h' a xs b
  | [], a, b, hs, hn, hp, _ => by
    obtain ⟨h1, h2⟩ := hs
    exact ⟨(hn a (Or.inl rfl)).trans h1, (hp b (Or.inr rfl)).trans h2⟩
  | x :: xs, a, b, hs, hn, hp, hc => by
    obtain ⟨h1, h2, h3, h4⟩ := hs
    refine ⟨(hn a (Or.inl rfl)).trans h1, ?_, ?_, ?_⟩
    · exact (hp x.1 (Or.inl (by simp))).trans h2
    · exact (hc x.1 (by simp)).trans h3
    · apply seg_frame xs x.1 b h4
      · rintro y (rfl | hy)
        · exact hn _ (Or.inr (by simp))
        · exact hn y (Or.inr (by simp [hy]))
      · rintro y (hy | rfl)
        · exact hp y (Or.inl (by simp [hy]))
        · exact hp _ (Or.inr rfl)
      · intro y hy
        exact hc y (by simp [hy])

theorem seg_append {h : Heap T} : ∀ (xs : List (Nat × T)) (y : Nat × T) (ys : List (Nat × T))
    (a b : Nat),
    Seg h a (xs ++ y :: ys) b ↔ Seg h a xs y.1 ∧ h.cell y.1 = .node y.2 ∧ Seg h y.1 ys b
  | [], y, ys, a, b => by
    simp only [List.nil_append, Seg]
    tauto
  | x :: xs, y, ys, a, b => by
    constructor
    · rintro ⟨h1, h2, h3, h4⟩
      obtain ⟨p, q, r⟩ := (seg_append xs y ys x.1 b).mp h4
      exact ⟨⟨h1, h2, h3, p⟩, q, r⟩
    · rintro ⟨⟨h1, h2, h3, p⟩, q, r⟩
      exact ⟨h1, h2, h3, (seg_append xs y ys x.1 b).mpr ⟨p, q, r⟩⟩

theorem seg_last {h : Heap T} : ∀ (xs : List (Nat × T)) (a b : Nat), Seg h a xs b →
    h.prev b = lastAddr a xs ∧ h.next (lastAddr a xs) = b
  | [], _, _, hs => ⟨hs.2, hs.1⟩
  | x :: xs, _, b, hs => seg_last xs x.1 b hs.2.2.2

theorem seg_first {h : Heap T} (xs : List (Nat × T)) (a b : Nat) (hs : Seg h a xs b) :
    h.next a = firstAddr xs b := by
  cases xs with
  | nil => exact hs.1
  | cons x xs => exact hs.1

theorem lastAddr_mem : ∀ (xs : List (Nat × T)) (a : Nat),
    lastAddr a xs ∈ a :: xs.map Prod.fst
  | [], a => by simp [lastAddr]
  | x :: xs, a => by
    have := lastAddr_mem xs x.1
    simp only [lastAddr, List.map_cons, List.mem_cons] at this ⊢
    tauto

theorem lastAddr_ne_of_cons : ∀ (xs : List (Nat × T)) (x : Nat × T) (a : Nat),
    (a :: (x :: xs).map Prod.fst).Nodup → a ≠ lastAddr a (x :: xs) := by
  intro xs x a hnd hEq
  have hm := lastAddr_mem xs x.1
  rw [List.nodup_cons] at hnd
  apply hnd.1
  rw [hEq]
  simpa [lastAddr] using hm

/-- Redirecting the last link of a segment to a new end `x`. -/
theorem seg_retarget {h h' : Heap T} (x : Nat) : ∀ (xs : List (Nat × T)) (a b : Nat),
    Seg h a xs b → (a :: xs.map Prod.fst).Nodup →
    h'.next (lastAddr a xs) = x → h'.prev x = lastAddr a xs →
    (∀ y, y ∈ a :: xs.map Prod.fst → y ≠ lastAddr a xs → h'.next y = h.next y) →
    (∀ y, y ∈ xs.map Prod.fst → h'.prev y = h.prev y) →
    (∀ y, y ∈ xs.map Prod.fst → h'.cell y = h.cell y) →
    Seg h' a xs x
  | [], a, b, _, _, hn, hp, _, _, _ => ⟨hn, hp⟩
  | z :: zs, a, b, hs, hnd, hn, hp, hfn, hfp, hfc => by
    obtain ⟨h1, h2, h3, h4⟩ := hs
    have hne := lastAddr_ne_of_cons zs z a hnd
    refine ⟨?_, ?_, ?_, ?_⟩
    · exact (hfn a (by simp) hne).trans h1
    · exact (hfp z.1 (by simp)).trans h2
    · exact (hfc z.1 (by simp)).trans h3
    · have hnd' : (z.1 :: zs.map Prod.fst).Nodup := by
        simpa using (List.nodup_cons.mp hnd).2
      apply seg_retarget x zs z.1 b h4 hnd' hn hp
      · intro y hy hyne
        exact hfn y (by simp at hy ⊢; tauto) hyne
      · intro y hy
        exact hfp y (by simp [hy])
      · intro y hy
        exact hfc y (by simp [hy])

theorem seg_split {h : Heap T} (pre post : List (Nat × T)) (a b : Nat) :
    Seg h a (pre ++ post) b ↔ Seg h a pre (firstAddr post b) ∧ SegFrom h post b := by
  cases post with
  | nil => simp [firstAddr, SegFrom]
  | cons y ys => exact seg_append pre y ys a b

theorem valid_of_sentinel {h : Heap T} {a : Nat} (hc : h.cell a = .sentinel) :
    h.valid a = true := by
  simp [Heap.valid, hc]

theorem valid_of_node {h : Heap T} {a : Nat} {v : T} (hc : h.cell a = .node v) :
    h.valid a = true := by
  simp [Heap.valid, hc]

theorem isNode_of_node {h : Heap T} {a : Nat} {v : T} (hc : h.cell a = .node v) :
    h.isNode a = true := by
  simp [Heap.isNode, hc]

/-- Every node of a segment is a constructed `Node`. -/
theorem seg_cell {h : Heap T} : ∀ (xs : List (Nat × T)) (a b : Nat), Seg h a xs b →
    ∀ y, y ∈ xs → h.cell y.1 = .node y.2
  | [], _, _, _, y, hy => by simp at hy
  | x :: xs, _, b, hs, y, hy => by
    rcases List.mem_cons.mp hy with rfl | hy'
    · exact hs.2.2.1
    · exact seg_cell xs x.1 b hs.2.2.2 y hy'

/-- Every address of a represented ring holds a live `BaseNode`. -/
theorem Repr.valid {h : Heap T} {l : LinkedList A} {xs : List (Nat × T)} (hr : Repr h l xs)
    (a : Nat) (ha : a ∈ l.head_ :: xs.map Prod.fst) : h.valid a = true := by
  rcases List.mem_cons.mp ha with rfl | ha'
  · exact valid_of_sentinel hr.head
  · obtain ⟨y, hy, rfl⟩ := List.mem_map.mp ha'
    exact valid_of_node (seg_cell xs _ _ hr.seg y hy)

/-- `emplace` with a constructor that returns, field by field. -/
theorem emplace_form (l : LinkedList A) (h : Heap T) (it : Nat) (v : T)
    (hv1 : h.valid it = true) (hv2 : h.valid (h.prev it) = true)
    (hn1 : it ≠ h.brk) (hn2 : h.prev it ≠ h.brk) :
    ∃ h', l.emplace h it (some v) = .ok (h', { l with size_ := uadd l.size_ 1 }) ∧
      (∀ y, h'.next y = if y = h.prev it then h.brk else if y = h.brk then it else h.next y) ∧
      (∀ y, h'.prev y = if y = h.brk then h.prev it else if y = it then h.brk else h.prev y) ∧
      (∀ y, h'.cell y = if y = h.brk then .node v else h.cell y) ∧
      h'.brk = h.brk + 1 ∧ h'.allocs = h.allocs + 1 ∧ h'.deallocs = h.deallocs ∧
      h'.ctors = h.ctors + 1 ∧ h'.dtors = h.dtors := by
  unfold emplace
  simp only []
  rw [if_pos]
  swap
  · unfold Heap.valid at hv1 hv2 ⊢
    simp only [Heap.setCell, Heap.setNext, Heap.setPrev, Heap.allocate, Heap.deallocate, hn1, hn2, if_false]
    exact ⟨hv1, hv2⟩
  have hn1' : ¬ (h.brk = it) := fun e => hn1 e.symm
  have hn2' : ¬ (h.brk = h.prev it) := fun e => hn2 e.symm
  refine ⟨_, rfl, ?_, ?_, ?_, rfl, rfl, rfl, rfl, rfl⟩
  · intro y
    simp only [Heap.setCell, Heap.setNext, Heap.setPrev, Heap.allocate, Heap.deallocate, hn1, if_false]
    by_cases c1 : y = h.prev it
    · subst c1
      simp only [if_true]
    · by_cases c2 : y = h.brk
      · subst c2
        simp only [if_true, hn2', if_false]
      · simp only [c1, c2, if_false]
  · intro y
    simp only [Heap.setCell, Heap.setNext, Heap.setPrev, Heap.allocate, Heap.deallocate, hn1, if_false]
    by_cases c1 : y = h.brk
    · subst c1
      simp only [if_true]
    · by_cases c2 : y = it
      · subst c2
        simp only [c1, if_true, if_false]
      · simp only [c1, c2, if_false]
  · intro y
    simp only [Heap.setCell, Heap.setNext, Heap.setPrev, Heap.allocate, Heap.deallocate]

theorem firstAddr_mem (post : List (Nat × T)) (b : Nat) :
    firstAddr post b = b ∨ firstAddr post b ∈ post.map Prod.fst := by
  cases post with
  | nil => exact Or.inl rfl
  | cons y ys => exact Or.inr (by simp [firstAddr])

/-- The distinctness facts carried by a ring that is split in two. -/
theorem nodup_parts (H : Nat) (pre post : List (Nat × T))
    (hnd : (H :: (pre ++ post).map Prod.fst).Nodup) :
    (H :: pre.map Prod.fst).Nodup ∧ H ∉ post.map Prod.fst ∧
    (∀ a, a ∈ pre.map Prod.fst → a ∉ post.map Prod.fst) ∧ (post.map Prod.fst).Nodup := by
  rw [List.map_append, List.nodup_cons, List.nodup_append, List.mem_append] at hnd
  obtain ⟨h1, h2, h3, h4⟩ := hnd
  refine ⟨List.nodup_cons.mpr ⟨fun hm => h1 (Or.inl hm), h2⟩, fun hm => h1 (Or.inr hm), ?_, h3⟩
  intro a ha hb
  exact h4 ha hb

/-- `emplace` before the first node of `post` (before `end()` when `post` is
empty), with a constructor that returns `v`: the new node sits between `pre`
and `post`, and nothing outside the ring and the new node is touched. -/
theorem emplace_repr (h : Heap T) (l : LinkedList A) (pre post : List (Nat × T)) (v : T)
    (hr : Repr h l (pre ++ post)) (hsz : (pre ++ post).length + 1 < SIZE_MOD) :
    ∃ h' l', l.emplace h (firstAddr post l.head_) (some v) = .ok (h', l') ∧
      Repr h' l' (pre ++ (h.brk, v) :: post) ∧
      l'.head_ = l.head_ ∧ l'.alloc = l.alloc ∧ l'.node_allocator_ = l.node_allocator_ ∧
      h'.brk = h.brk + 1 ∧ h'.allocs = h.allocs + 1 ∧ h'.deallocs = h.deallocs ∧
      h'.ctors = h.ctors + 1 ∧ h'.dtors = h.dtors ∧
      (∀ y, y ∉ l.head_ :: (pre ++ post).map Prod.fst → y ≠ h.brk →
        h'.next y = h.next y ∧ h'.prev y = h.prev y ∧ h'.cell y = h.cell y) := by
  obtain ⟨hhead, hseg, hnd, hbelow, hsize⟩ := hr
  obtain ⟨hseg1, hseg2⟩ := (seg_split pre post l.head_ l.head_).mp hseg
  obtain ⟨hndpre, hHpost, hdisj, hndpost⟩ := nodup_parts l.head_ pre post hnd
  have hrepr : Repr h l (pre ++ post) := ⟨hhead, hseg, hnd, hbelow, hsize⟩
  -- the iterator and its predecessor
  have hit_mem : firstAddr post l.head_ ∈ l.head_ :: (pre ++ post).map Prod.fst := by
    rcases firstAddr_mem post l.head_ with e | e
    · rw [e]; simp
    · simp only [List.map_append, List.mem_cons, List.mem_append]; tauto
  have hprev : h.prev (firstAddr post l.head_) = lastAddr l.head_ pre :=
    (seg_last pre _ _ hseg1).1
  have hp_mem : lastAddr l.head_ pre ∈ l.head_ :: (pre ++ post).map Prod.fst := by
    have := lastAddr_mem pre l.head_
    simp only [List.map_append, List.mem_cons, List.mem_append] at this ⊢
    tauto
  have hit_lt := hbelow _ hit_mem
  have hp_lt := hbelow _ hp_mem
  obtain ⟨h', hem, hnext, hprev', hcell, hbrk, hal, hde, hct, hdt⟩ :=
    emplace_form l h (firstAddr post l.head_) v (hrepr.valid _ hit_mem)
      (by rw [hprev]; exact hrepr.valid _ hp_mem) (by omega) (by rw [hprev]; omega)
  rw [hprev] at hnext hprev'
  refine ⟨h', _, hem, ?_, rfl, rfl, rfl, hbrk, hal, hde, hct, hdt, ?_⟩
  · -- the representation
    have hlt : ∀ a, a ∈ l.head_ :: (pre ++ post).map Prod.fst → a ≠ h.brk := by
      intro a ha e
      have := hbelow a ha
      omega
    have hpre_in : ∀ a, a ∈ l.head_ :: pre.map Prod.fst →
        a ∈ l.head_ :: (pre ++ post).map Prod.fst := by
      intro a ha
      simp only [List.map_append, List.mem_cons, List.mem_append] at ha ⊢
      tauto
    have hpost_in : ∀ a, a ∈ post.map Prod.fst →
        a ∈ l.head_ :: (pre ++ post).map Prod.fst := by
      intro a ha
      simp only [List.map_append, List.mem_cons, List.mem_append]
      tauto
    have hit_notpre : ∀ a, a ∈ pre.map Prod.fst → a ≠ firstAddr post l.head_ := by
      intro a ha e
      rcases firstAddr_mem post l.head_ with e' | e'
      · rw [e'] at e
        exact (List.nodup_cons.mp hndpre).1 (e ▸ ha)
      · exact hdisj a ha (e ▸ e')
    refine ⟨?_, ?_, ?_, ?_, ?_⟩
    · show h'.cell l.head_ = _
      rw [hcell, if_neg (hlt _ (by simp))]
      exact hhead
    · show Seg h' l.head_ (pre ++ (h.brk, v) :: post) l.head_
      rw [seg_append]
      refine ⟨?_, ?_, ?_⟩
      · apply seg_retarget h.brk pre l.head_ _ hseg1 hndpre
        · rw [hnext, if_pos rfl]
        · rw [hprev', if_pos rfl]
        · intro y hy hne
          rw [hnext, if_neg hne, if_neg (hlt y (hpre_in y hy))]
        · intro y hy
          rw [hprev', if_neg (hlt y (hpre_in y (by simp [hy]))), if_neg (hit_notpre y hy)]
        · intro y hy
          rw [hcell, if_neg (hlt y (hpre_in y (by simp [hy])))]
      · show h'.cell h.brk = _
        rw [hcell, if_pos rfl]
      · show Seg h' h.brk post l.head_
        have hbp : h.brk ≠ lastAddr l.head_ pre := fun e => hlt _ hp_mem e.symm
        cases post with
        | nil =>
          refine ⟨?_, ?_⟩
          · rw [hnext, if_neg hbp, if_pos rfl]; rfl
          · rw [hprev', if_neg (hlt _ (by simp))]
            simp [firstAddr]
        | cons y ys =>
          obtain ⟨hcy, hsy⟩ := hseg2
          have hy_in : y.1 ∈ l.head_ :: (pre ++ y :: ys).map Prod.fst := hpost_in _ (by simp)
          have hndy : y.1 ∉ ys.map Prod.fst := by
            simpa using (List.nodup_cons.mp hndpost).1
          refine ⟨?_, ?_, ?_, ?_⟩
          · rw [hnext, if_neg hbp, if_pos rfl]; rfl
          · rw [hprev', if_neg (hlt _ hy_in)]
            simp [firstAddr]
          · rw [hcell, if_neg (hlt _ hy_in)]
            exact hcy
          · apply seg_frame ys y.1 l.head_ hsy
            · intro z hz
              have hz_in : z ∈ (y :: ys).map Prod.fst := by
                rcases hz with rfl | hz
                · simp
                · simp only [List.map_cons, List.mem_cons]; exact Or.inr hz
              have hzne : z ≠ lastAddr l.head_ pre := by
                intro e
                rcases List.mem_cons.mp (lastAddr_mem pre l.head_) with e' | e'
                · exact hHpost (e' ▸ e ▸ hz_in)
                · exact hdisj _ e' (e ▸ hz_in)
              rw [hnext, if_neg hzne, if_neg (hlt z (hpost_in z hz_in))]
            · intro z hz
              have hzne : z ≠ firstAddr (y :: ys) l.head_ := by
                show z ≠ y.1
                rcases hz with hz | rfl
                · intro e; exact hndy (e ▸ hz)
                · intro e; exact hHpost (by rw [e]; simp)
              have hz_in : z ∈ l.head_ :: (pre ++ y :: ys).map Prod.fst := by
                rcases hz with hz | rfl
                · exact hpost_in z (by simp only [List.map_cons, List.mem_cons]; exact Or.inr hz)
                · simp
              rw [hprev', if_neg (hlt z hz_in), if_neg hzne]
            · intro z hz
              rw [hcell, if_neg (hlt z (hpost_in z
                (by simp only [List.map_cons, List.mem_cons]; exact Or.inr hz)))]
    · show (l.head_ :: (pre ++ (h.brk, v) :: post).map Prod.fst).Nodup
      have hnd' := hnd
      rw [List.map_append, List.nodup_cons] at hnd'
      rw [List.map_append, List.map_cons, List.nodup_cons]
      refine ⟨?_, ?_⟩
      · intro hm
        rcases List.mem_append.mp hm with hm | hm
        · exact hnd'.1 (List.mem_append.mpr (Or.inl hm))
        · rcases List.mem_cons.mp hm with e | hm
          · exact hlt l.head_ (by simp) e
          · exact hnd'.1 (List.mem_append.mpr (Or.inr hm))
      · rw [List.nodup_middle, List.nodup_cons]
        refine ⟨?_, hnd'.2⟩
        intro hm
        exact hlt h.brk (List.mem_cons.mpr (Or.inr (by rw [List.map_append]; exact hm))) rfl
    · intro a ha
      rw [hbrk]
      rcases List.mem_cons.mp ha with e | ha
      · have := hbelow a (by rw [e]; simp); omega
      · rw [List.map_append, List.map_cons] at ha
        rcases List.mem_append.mp ha with ha | ha
        · have := hbelow a (hpre_in a (by simp [ha])); omega
        · rcases List.mem_cons.mp ha with e | ha
          · rw [e]
            show h.brk < h.brk + 1
            omega
          · have := hbelow a (hpost_in a ha); omega
    · show uadd l.size_ 1 = (pre ++ (h.brk, v) :: post).length
      rw [hsize, uadd_eq hsz]
      simp only [List.length_append, List.length_cons]
      omega
  · intro y hy hyb
    have hy1 : y ≠ lastAddr l.head_ pre := fun e => hy (e ▸ hp_mem)
    have hy2 : y ≠ firstAddr post l.head_ := fun e => hy (e ▸ hit_mem)
    rw [hnext, hprev', hcell, if_neg hy1, if_neg hyb, if_neg hyb, if_neg hy2, if_neg hyb]
    exact ⟨rfl, rfl, rfl⟩

/-- `erase` at a constructed node with live neighbours, field by field. -/
theorem erase_form (l : LinkedList A) (h : Heap T) (it : Nat) (w : T)
    (hc : h.cell it = .node w) (hv1 : h.valid (h.prev it) = true)
    (hv2 : h.valid (h.next it) = true) :
    ∃ h', l.erase h it = some (h', { l with size_ := usub l.size_ 1 }) ∧
      (∀ y, h'.next y = if y = h.prev it then h.next it else h.next y) ∧
      (∀ y, h'.prev y = if y = h.next it then h.prev it else h.prev y) ∧
      (∀ y, h'.cell y = if y = it then .free else h.cell y) ∧
      h'.brk = h.brk ∧ h'.allocs = h.allocs ∧ h'.deallocs = h.deallocs + 1 ∧
      h'.ctors = h.ctors ∧ h'.dtors = h.dtors + 1 := by
  have e1 : (h.setNext (h.prev it) (h.next it)).next it = h.next it := by
    simp only [Heap.setNext]
    split <;> rfl
  unfold erase
  rw [if_pos ⟨isNode_of_node hc, hv1⟩]
  simp only [e1]
  rw [if_pos (by simpa [Heap.valid, Heap.setNext] using hv2)]
  refine ⟨_, rfl, ?_, ?_, ?_, rfl, rfl, rfl, rfl, rfl⟩
  · intro y
    simp only [Heap.setCell, Heap.setNext, Heap.setPrev, Heap.allocate, Heap.deallocate]
  · intro y
    simp only [Heap.setCell, Heap.setNext, Heap.setPrev, Heap.allocate, Heap.deallocate]
  · intro y
    simp only [Heap.setCell, Heap.setNext, Heap.setPrev, Heap.allocate, Heap.deallocate]

/-- `erase` at the node `y` of a represented ring: the ring loses `y`, its
value is destroyed and its node released, and nothing outside the ring is
touched. -/
theorem erase_repr (h : Heap T) (l : LinkedList A) (pre : List (Nat × T)) (y : Nat × T)
    (ys : List (Nat × T)) (hr : Repr h l (pre ++ y :: ys))
    (hsz : (pre ++ y :: ys).length < SIZE_MOD) :
    ∃ h' l', l.erase h y.1 = some (h', l') ∧
      Repr h' l' (pre ++ ys) ∧
      l'.head_ = l.head_ ∧ l'.alloc = l.alloc ∧ l'.node_allocator_ = l.node_allocator_ ∧
      h'.brk = h.brk ∧ h'.allocs = h.allocs ∧ h'.deallocs = h.deallocs + 1 ∧
      h'.ctors = h.ctors ∧ h'.dtors = h.dtors + 1 ∧
      h'.cell y.1 = .free ∧
      (∀ z, z ∉ l.head_ :: (pre ++ y :: ys).map Prod.fst →
        h'.next z = h.next z ∧ h'.prev z = h.prev z ∧ h'.cell z = h.cell z) := by
  have hrepr := hr
  obtain ⟨hhead, hseg, hnd, hbelow, hsize⟩ := hr
  obtain ⟨hseg1, hcy, hseg2⟩ := (seg_append pre y ys l.head_ l.head_).mp hseg
  obtain ⟨hndpre, hHpost, hdisj, hndpost⟩ := nodup_parts l.head_ pre (y :: ys) hnd
  have hndy : y.1 ∉ ys.map Prod.fst := by
    simpa using (List.nodup_cons.mp hndpost).1
  have hndys : (ys.map Prod.fst).Nodup := by
    simpa using (List.nodup_cons.mp hndpost).2
  have hprev : h.prev y.1 = lastAddr l.head_ pre := (seg_last pre _ _ hseg1).1
  have hnext : h.next y.1 = firstAddr ys l.head_ := seg_first ys _ _ hseg2
  have hpre_in : ∀ a, a ∈ l.head_ :: pre.map Prod.fst →
      a ∈ l.head_ :: (pre ++ y :: ys).map Prod.fst := by
    intro a ha
    simp only [List.map_append, List.mem_cons, List.mem_append] at ha ⊢
    tauto
  have hpost_in : ∀ a, a ∈ (y :: ys).map Prod.fst →
      a ∈ l.head_ :: (pre ++ y :: ys).map Prod.fst := by
    intro a ha
    simp only [List.map_append, List.mem_cons, List.mem_append]
    tauto
  have hys_in : ∀ a, a ∈ ys.map Prod.fst → a ∈ (y :: ys).map Prod.fst := by
    intro a ha
    simp only [List.map_cons, List.mem_cons]
    exact Or.inr ha
  have hp_mem : lastAddr l.head_ pre ∈ l.head_ :: (pre ++ y :: ys).map Prod.fst :=
    hpre_in _ (lastAddr_mem pre l.head_)
  have hn_mem : firstAddr ys l.head_ ∈ l.head_ :: (pre ++ y :: ys).map Prod.fst := by
    rcases firstAddr_mem ys l.head_ with e | e
    · rw [e]; simp
    · exact hpost_in _ (hys_in _ e)
  obtain ⟨h', her, hnx, hpv, hcl, hbrk, hal, hde, hct, hdt⟩ :=
    erase_form l h y.1 y.2 hcy (by rw [hprev]; exact hrepr.valid _ hp_mem)
      (by rw [hnext]; exact hrepr.valid _ hn_mem)
  rw [hprev, hnext] at hnx hpv
  -- the two neighbours are not the erased node
  have hpy : lastAddr l.head_ pre ≠ y.1 := by
    intro e
    rcases List.mem_cons.mp (lastAddr_mem pre l.head_) with e' | e'
    · exact hHpost (by rw [← e', e]; simp)
    · exact hdisj _ e' (by rw [e]; simp)
  have hny : firstAddr ys l.head_ ≠ y.1 := by
    intro e
    rcases firstAddr_mem ys l.head_ with e' | e'
    · exact hHpost (by rw [← e', e]; simp)
    · exact hndy (e ▸ e')
  -- the successor is not among the nodes before the erased one
  have hn_notpre : ∀ a, a ∈ pre.map Prod.fst → a ≠ firstAddr ys l.head_ := by
    intro a ha e
    rcases firstAddr_mem ys l.head_ with e' | e'
    · rw [e'] at e
      exact (List.nodup_cons.mp hndpre).1 (e ▸ ha)
    · exact hdisj a ha (hys_in _ (e ▸ e'))
  -- the predecessor is not among the nodes after the erased one
  have hp_notpost : ∀ a, a ∈ (y :: ys).map Prod.fst → a ≠ lastAddr l.head_ pre := by
    intro a ha e
    rcases List.mem_cons.mp (lastAddr_mem pre l.head_) with e' | e'
    · exact hHpost (e' ▸ e ▸ ha)
    · exact hdisj _ e' (e ▸ ha)
  refine ⟨h', _, her, ?_, rfl, rfl, rfl, hbrk, hal, hde, hct, hdt, ?_, ?_⟩
  · refine ⟨?_, ?_, ?_, ?_, ?_⟩
    · show h'.cell l.head_ = _
      rw [hcl, if_neg (fun e => hHpost (by rw [e]; simp))]
      exact hhead
    · show Seg h' l.head_ (pre ++ ys) l.head_
      rw [seg_split]
      refine ⟨?_, ?_⟩
      · apply seg_retarget (firstAddr ys l.head_) pre l.head_ _ hseg1 hndpre
        · rw [hnx, if_pos rfl]
        · rw [hpv, if_pos rfl]
        · intro z _ hne
          rw [hnx, if_neg hne]
        · intro z hz
          rw [hpv, if_neg (hn_notpre z hz)]
        · intro z hz
          rw [hcl, if_neg (fun e => hdisj z hz (by rw [e]; simp))]
      · cases ys with
        | nil => trivial
        | cons z zs =>
          obtain ⟨_, _, hcz, hsz'⟩ := hseg2
          have hzy : z.1 ≠ y.1 := hny
          have hndz : z.1 ∉ zs.map Prod.fst := by
            simpa using (List.nodup_cons.mp hndys).1
          refine ⟨?_, ?_⟩
          · rw [hcl, if_neg hzy]
            exact hcz
          · apply seg_frame zs z.1 l.head_ hsz'
            · intro a ha
              have ha_in : a ∈ (y :: z :: zs).map Prod.fst := by
                rcases ha with rfl | ha
                · simp
                · simp only [List.map_cons, List.mem_cons]; exact Or.inr (Or.inr ha)
              rw [hnx, if_neg (hp_notpost a ha_in)]
            · intro a ha
              have hne : a ≠ firstAddr (z :: zs) l.head_ := by
                show a ≠ z.1
                rcases ha with ha | rfl
                · intro e; exact hndz (e ▸ ha)
                · intro e; exact hHpost (by rw [e]; simp)
              rw [hpv, if_neg hne]
            · intro a ha
              have hne : a ≠ y.1 := by
                intro e
                exact hndy (by rw [← e]; simp only [List.map_cons, List.mem_cons]; exact Or.inr ha)
              rw [hcl, if_neg hne]
    · show (l.head_ :: (pre ++ ys).map Prod.fst).Nodup
      have hnd' := hnd
      rw [List.map_append, List.map_cons, List.nodup_cons, List.nodup_middle,
        List.nodup_cons] at hnd'
      rw [List.map_append, List.nodup_cons]
      refine ⟨?_, hnd'.2.2⟩
      intro hm
      apply hnd'.1
      rcases List.mem_append.mp hm with hm | hm
      · exact List.mem_append.mpr (Or.inl hm)
      · exact List.mem_append.mpr (Or.inr (List.mem_cons.mpr (Or.inr hm)))
    · intro a ha
      rw [hbrk]
      apply hbelow
      rcases List.mem_cons.mp ha with e | ha
      · rw [e]; simp
      · rw [List.map_append] at ha
        rcases List.mem_append.mp ha with ha | ha
        · exact hpre_in a (List.mem_cons.mpr (Or.inr ha))
        · exact hpost_in a (hys_in a ha)
    · show usub l.size_ 1 = (pre ++ ys).length
      rw [hsize, usub_eq (by simp only [List.length_append, List.length_cons]; omega) hsz]
      simp only [List.length_append, List.length_cons]
      omega
  · rw [hcl, if_pos rfl]
  · intro z hz
    have hz1 : z ≠ lastAddr l.head_ pre := fun e => hz (e ▸ hp_mem)
    have hz2 : z ≠ firstAddr ys l.head_ := fun e => hz (e ▸ hn_mem)
    have hz3 : z ≠ y.1 := fun e => hz (by rw [e]; exact hpost_in _ (by simp))
    rw [hnx, hpv, hcl, if_neg hz1, if_neg hz2, if_neg hz3]
    exact ⟨rfl, rfl, rfl⟩

theorem lastAddr_append_singleton : ∀ (pre : List (Nat × T)) (y : Nat × T) (a : Nat),
    lastAddr a (pre ++ [y]) = y.1
  | [], _, _ => rfl
  | _ :: pre, y, _ => lastAddr_append_singleton pre y _

/-- `k` steps of `++` from the first node of a segment reach its `k`-th node,
or its end after the last. -/
theorem advance_seg {h : Heap T} : ∀ (k : Nat) (xs : List (Nat × T)) (a b : Nat),
    Seg h a xs b → k ≤ xs.length →
    advance h k (h.next a) = some (firstAddr (xs.drop k) b)
  | 0, xs, a, b, hs, _ => by
    rw [List.drop_zero, ← seg_first xs a b hs]
    rfl
  | k + 1, [], _, _, _, hk => by simp at hk
  | k + 1, x :: xs, a, b, hs, hk => by
    obtain ⟨h1, _, h3, h4⟩ := hs
    have hk' : k ≤ xs.length := by simpa using hk
    show (iter_next h (h.next a)).bind (advance h k) = _
    rw [h1]
    unfold iter_next
    rw [if_pos (valid_of_node h3)]
    exact advance_seg k xs x.1 b h4 hk'

/-- Forward iteration over a segment yields its values, given fuel for every
node. -/
theorem walk_seg {h : Heap T} : ∀ (xs : List (Nat × T)) (a b fuel : Nat),
    Seg h a xs b → b ∉ xs.map Prod.fst → xs.length ≤ fuel →
    walk h b fuel (h.next a) = some (xs.map Prod.snd)
  | [], a, b, fuel, hs, _, _ => by
    rw [hs.1]
    cases fuel <;> simp [walk]
  | x :: xs, a, b, 0, _, _, hf => by simp at hf
  | x :: xs, a, b, fuel + 1, hs, hb, hf => by
    obtain ⟨h1, _, h3, h4⟩ := hs
    have hne : x.1 ≠ b := by
      intro e
      apply hb
      rw [← e]
      simp
    have hb' : b ∉ xs.map Prod.fst := by
      intro hm
      apply hb
      simp only [List.map_cons, List.mem_cons]
      exact Or.inr hm
    have hf' : xs.length ≤ fuel := by simpa using hf
    rw [h1]
    unfold walk
    rw [if_neg hne, h3]
    simp only []
    rw [walk_seg xs x.1 b fuel h4 hb' hf']
    rfl

/-- What a represented list lets a caller observe. -/
theorem Repr.observe {h : Heap T} {l : LinkedList A} {xs : List (Nat × T)} (hr : Repr h l xs) :
    l.size = xs.length ∧
    ∀ fuel, xs.length ≤ fuel → l.forward h fuel = some (xs.map Prod.snd) := by
  refine ⟨hr.size, ?_⟩
  intro fuel hf
  exact walk_seg xs l.head_ l.head_ fuel hr.seg (List.nodup_cons.mp hr.nodup).1 hf

/-- `List(alloc)` yields a list that owns no node. -/
theorem ctor_alloc_repr (h : Heap T) (alloc : A) :
    Repr (ctor_alloc h alloc).1 (ctor_alloc h alloc).2 [] := by
  refine ⟨?_, ⟨?_, ?_⟩, ?_, ?_, rfl⟩
  · simp [ctor_alloc, Heap.setCell, Heap.setNext, Heap.setPrev, Heap.allocate, Heap.deallocate]
  · simp [ctor_alloc, Heap.setCell, Heap.setNext, Heap.setPrev, Heap.allocate, Heap.deallocate]
  · simp [ctor_alloc, Heap.setCell, Heap.setNext, Heap.setPrev, Heap.allocate, Heap.deallocate]
  · simp
  · intro a ha
    simp only [List.map_nil, List.mem_singleton] at ha
    rw [ha]
    show h.brk < h.brk + 1
    omega

/-- `pop_back` on a represented list whose last node is `y`. -/
theorem pop_back_repr (h : Heap T) (l : LinkedList A) (pre : List (Nat × T)) (y : Nat × T)
    (hr : Repr h l (pre ++ [y])) (hsz : (pre ++ [y]).length < SIZE_MOD) :
    ∃ h' l', l.pop_back h = some (h', l') ∧
      Repr h' l' pre ∧
      l'.head_ = l.head_ ∧ l'.alloc = l.alloc ∧ l'.node_allocator_ = l.node_allocator_ ∧
      h'.brk = h.brk ∧ h'.allocs = h.allocs ∧ h'.deallocs = h.deallocs + 1 ∧
      h'.ctors = h.ctors ∧ h'.dtors = h.dtors + 1 ∧
      h'.cell y.1 = .free ∧
      (∀ z, z ∉ l.head_ :: (pre ++ [y]).map Prod.fst →
        h'.next z = h.next z ∧ h'.prev z = h.prev z ∧ h'.cell z = h.cell z) := by
  obtain ⟨h', l', he, hrep, hrest⟩ := erase_repr h l pre y [] hr hsz
  rw [List.append_nil] at hrep
  refine ⟨h', l', ?_, hrep, hrest⟩
  show (iter_prev h l.head_).bind (l.erase h) = _
  unfold iter_prev
  rw [if_pos (valid_of_sentinel hr.head), Option.some_bind, (seg_last _ _ _ hr.seg).1,
    lastAddr_append_singleton]
  exact he

/-- `destroy(d)` on a represented list with at least `d` nodes pops the last
`d` nodes: each is destroyed and released, the others stay. -/
theorem destroy_repr : ∀ (d : Nat) (h : Heap T) (l : LinkedList A) (xs : List (Nat × T)),
    Repr h l xs → d ≤ xs.length → xs.length < SIZE_MOD →
    ∃ h' l', l.destroy h d = some (h', l') ∧
      Repr h' l' (xs.take (xs.length - d)) ∧
      l'.head_ = l.head_ ∧ l'.alloc = l.alloc ∧ l'.node_allocator_ = l.node_allocator_ ∧
      h'.brk = h.brk ∧ h'.allocs = h.allocs ∧ h'.deallocs = h.deallocs + d ∧
      h'.ctors = h.ctors ∧ h'.dtors = h.dtors + d ∧
      (∀ y, y ∈ (xs.drop (xs.length - d)).map Prod.fst → h'.cell y = .free) ∧
      (∀ z, z ∉ l.head_ :: xs.map Prod.fst →
        h'.next z = h.next z ∧ h'.prev z = h.prev z ∧ h'.cell z = h.cell z)
  | 0, h, l, xs, hr, _, _ => by
    refine ⟨h, l, rfl, ?_, rfl, rfl, rfl, rfl, rfl, rfl, rfl, rfl, ?_, ?_⟩
    · rw [Nat.sub_zero, List.take_length]; exact hr
    · intro y hy
      rw [Nat.sub_zero, List.drop_length] at hy
      simp at hy
    · intro z _
      exact ⟨rfl, rfl, rfl⟩
  | d + 1, h, l, xs, hr, hd, hsz => by
    have hne : xs ≠ [] := by
      intro e
      rw [e] at hd
      simp at hd
    obtain ⟨pre, y, rfl⟩ : ∃ pre y, xs = pre ++ [y] :=
      ⟨xs.dropLast, xs.getLast hne, (List.dropLast_concat_getLast hne).symm⟩
    have hlen : (pre ++ [y]).length = pre.length + 1 := by simp
    rw [hlen] at hd hsz
    obtain ⟨h1, l1, he1, hr1, hh1, ha1, hn1, hb1, hal1, hde1, hct1, hdt1, hfree1, hfr1⟩ :=
      pop_back_repr h l pre y hr (by rw [hlen]; exact hsz)
    obtain ⟨h2, l2, he2, hr2, hh2, ha2, hn2, hb2, hal2, hde2, hct2, hdt2, hfree2, hfr2⟩ :=
      destroy_repr d h1 l1 pre hr1 (by omega) (by omega)
    have hnd := hr.nodup
    rw [List.map_append, List.map_cons, List.map_nil] at hnd
    have hk : pre.length + 1 - (d + 1) = pre.length - d := by omega
    have htake : (pre ++ [y]).take ((pre ++ [y]).length - (d + 1)) = pre.take (pre.length - d) := by
      rw [hlen, hk, List.take_append_of_le_length (by omega)]
    have hdrop : (pre ++ [y]).drop ((pre ++ [y]).length - (d + 1))
        = pre.drop (pre.length - d) ++ [y] := by
      rw [hlen, hk, List.drop_append_of_le_length (by omega)]
    refine ⟨h2, l2, ?_, ?_, ?_, ?_, ?_, ?_, ?_, ?_, ?_, ?_, ?_, ?_⟩
    · show (l.pop_back h).bind (fun s => s.2.destroy s.1 d) = _
      rw [he1]
      exact he2
    · rw [htake]; exact hr2
    · rw [hh2, hh1]
    · rw [ha2, ha1]
    · rw [hn2, hn1]
    · rw [hb2, hb1]
    · rw [hal2, hal1]
    · rw [hde2, hde1]; omega
    · rw [hct2, hct1]
    · rw [hdt2, hdt1]; omega
    · intro z hz
      rw [hdrop, List.map_append] at hz
      rcases List.mem_append.mp hz with hz | hz
      · exact hfree2 z hz
      · simp only [List.map_cons, List.map_nil, List.mem_singleton] at hz
        -- the last node was freed by the first pop and is outside the remaining ring
        have hnot : z ∉ l1.head_ :: pre.map Prod.fst := by
          rw [hh1, hz]
          intro hm
          rcases List.mem_cons.mp hm with e | hm
          · exact (List.nodup_cons.mp hnd).1 (by rw [← e]; simp)
          · have := (List.nodup_append.mp (List.nodup_cons.mp hnd).2).2.2
            exact this hm (by simp)
        rw [(hfr2 z hnot).2.2, hz]
        exact hfree1
    · intro z hz
      have hz1 : z ∉ l1.head_ :: pre.map Prod.fst := by
        rw [hh1]
        intro hm
        apply hz
        rcases List.mem_cons.mp hm with e | hm
        · rw [e]; simp
        · rw [List.map_append]
          exact List.mem_cons.mpr (Or.inr (List.mem_append.mpr (Or.inl hm)))
      obtain ⟨a1, a2, a3⟩ := hfr2 z hz1
      obtain ⟨b1, b2, b3⟩ := hfr1 z hz
      exact ⟨a1.trans b1, a2.trans b2, a3.trans b3⟩

/-- The destructor of a represented list destroys and releases every node,
and the list object is gone. -/
theorem dtor_repr (h : Heap T) (l : LinkedList A) (xs : List (Nat × T))
    (hr : Repr h l xs) (hsz : xs.length < SIZE_MOD) :
    ∃ h', l.dtor h = some h' ∧
      h'.brk = h.brk ∧ h'.allocs = h.allocs ∧ h'.deallocs = h.deallocs + xs.length ∧
      h'.ctors = h.ctors ∧ h'.dtors = h.dtors + xs.length ∧
      (∀ y, y ∈ l.head_ :: xs.map Prod.fst → h'.cell y = .free) ∧
      (∀ z, z ∉ l.head_ :: xs.map Prod.fst →
        h'.next z = h.next z ∧ h'.prev z = h.prev z ∧ h'.cell z = h.cell z) := by
  obtain ⟨h1, l1, he, hr1, hh, -, -, hb, hal, hde, hct, hdt, hfree, hfr⟩ :=
    destroy_repr xs.length h l xs hr (le_refl _) hsz
  rw [Nat.sub_self, List.drop_zero] at hfree
  refine ⟨h1.setCell l.head_ .free, ?_, hb, hal, hde, hct, hdt, ?_, ?_⟩
  · unfold dtor
    rw [hr.size, he]
    rfl
  · intro y hy
    show (if y = l.head_ then Cell.free else h1.cell y) = _
    by_cases e : y = l.head_
    · rw [if_pos e]
    · rw [if_neg e]
      rcases List.mem_cons.mp hy with e' | hy
      · exact absurd e' e
      · exact hfree y hy
  · intro z hz
    obtain ⟨a1, a2, a3⟩ := hfr z hz
    refine ⟨a1, a2, ?_⟩
    show (if z = l.head_ then Cell.free else h1.cell z) = _
    rw [if_neg (fun e => hz (by rw [e]; simp))]
    exact a3

/-- A representation depends on the links and cells only, and survives a
growing frontier. -/
theorem Repr.mono {h h2 : Heap T} {l l2 : LinkedList A} {xs : List (Nat × T)}
    (hr : Repr h l xs) (hn : h2.next = h.next) (hp : h2.prev = h.prev) (hc : h2.cell = h.cell)
    (hb : h.brk ≤ h2.brk) (hh : l2.head_ = l.head_) (hs : l2.size_ = l.size_) :
    Repr h2 l2 xs := by
  obtain ⟨h1, h3, h4, h5, h6⟩ := hr
  refine ⟨by rw [hc, hh]; exact h1, ?_, by rw [hh]; exact h4, ?_, by rw [hs]; exact h6⟩
  · rw [hh]
    exact seg_frame xs _ _ h3 (fun y _ => by rw [hn]) (fun y _ => by rw [hp])
      (fun y _ => by rw [hc])
  · intro a ha
    rw [hh] at ha
    exact Nat.lt_of_lt_of_le (h5 a ha) hb

theorem range_split : ∀ (N i : Nat), i < N → ∃ rest, List.range N = List.range i ++ i :: rest
  | 0, i, hi => by omega
  | N + 1, i, hi => by
    rw [List.range_succ]
    by_cases e : i = N
    · subst e
      exact ⟨[], rfl⟩
    · obtain ⟨rest, hrest⟩ := range_split N i (by omega)
      exact ⟨rest ++ [N], by rw [hrest]; simp⟩

/-- The element loop of the sized constructors while the constructions
succeed: each index of `pre` appends one node, allocated at the frontier. -/
theorem fill_prefix (elem : Nat → Option T) : ∀ (pre rest : List Nat) (h : Heap T)
    (l : LinkedList A) (xs : List (Nat × T)),
    Repr h l xs → (∀ j, j ∈ pre → (elem j).isSome = true) →
    xs.length + pre.length < SIZE_MOD →
    ∃ h' l' new, fill l h elem (pre ++ rest) = fill l' h' elem rest ∧
      Repr h' l' (xs ++ new) ∧ new.map Prod.fst = List.range' h.brk pre.length ∧
      l'.head_ = l.head_ ∧ h'.brk = h.brk + pre.length ∧
      h'.allocs = h.allocs + pre.length ∧ h'.deallocs = h.deallocs ∧
      h'.ctors = h.ctors + pre.length ∧ h'.dtors = h.dtors ∧
      (∀ z, z ∉ l.head_ :: (xs ++ new).map Prod.fst →
        h'.next z = h.next z ∧ h'.prev z = h.prev z ∧ h'.cell z = h.cell z)
  | [], rest, h, l, xs, hr, _, _ => by
    refine ⟨h, l, [], rfl, by rw [List.append_nil]; exact hr, rfl, rfl, rfl, rfl, rfl, rfl, rfl,
      ?_⟩
    intro z _; exact ⟨rfl, rfl, rfl⟩
  | i :: pre, rest, h, l, xs, hr, hok, hlen => by
    rw [List.length_cons] at hlen
    obtain ⟨v, hv⟩ := Option.isSome_iff_exists.mp (hok i (by simp))
    have hr' : Repr h l (xs ++ []) := by rw [List.append_nil]; exact hr
    obtain ⟨h1, l1, he, hr1, hh1, -, -, hb1, hal1, hde1, hct1, hdt1, hfr1⟩ :=
      emplace_repr h l xs [] v hr' (by rw [List.append_nil]; omega)
    rw [List.append_nil] at hfr1
    obtain ⟨h2, l2, new2, he2, hr2, hnew2, hh2, hb2, hal2, hde2, hct2, hdt2, hfr2⟩ :=
      fill_prefix elem pre rest h1 l1 (xs ++ [(h.brk, v)]) hr1
        (fun j hj => hok j (by simp [hj])) (by simp; omega)
    have hassoc : (xs ++ [(h.brk, v)]) ++ new2 = xs ++ (h.brk, v) :: new2 := by
      rw [List.append_assoc]; rfl
    rw [hassoc] at hr2 hfr2
    refine ⟨h2, l2, (h.brk, v) :: new2, ?_, hr2, ?_, ?_, ?_, ?_, ?_, ?_, ?_, ?_⟩
    · show (match l.emplace h l.end_ (elem i) with
        | .ok s => fill s.2 s.1 elem (pre ++ rest)
        | .throw s => _
        | .ub => .ub) = _
      rw [hv]
      have : l.end_ = firstAddr ([] : List (Nat × T)) l.head_ := rfl
      rw [this, he]
      exact he2
    · rw [List.map_cons, hnew2, hb1, List.length_cons, List.range'_succ]
    · rw [hh2, hh1]
    · rw [hb2, hb1, List.length_cons]; omega
    · rw [hal2, hal1, List.length_cons]; omega
    · rw [hde2, hde1]
    · rw [hct2, hct1, List.length_cons]; omega
    · rw [hdt2, hdt1]
    · intro z hz
      have hz1 : z ∉ l.head_ :: xs.map Prod.fst := by
        intro hm
        apply hz
        rw [List.map_append]
        rcases List.mem_cons.mp hm with e | hm
        · rw [e]; simp
        · exact List.mem_cons.mpr (Or.inr (List.mem_append.mpr (Or.inl hm)))
      have hz2 : z ≠ h.brk := by
        intro e
        apply hz
        rw [e, List.map_append, List.map_cons]
        simp
      obtain ⟨a1, a2, a3⟩ := hfr2 z (by rw [hh1]; exact hz)
      obtain ⟨b1, b2, b3⟩ := hfr1 z hz1 hz2
      exact ⟨a1.trans b1, a2.trans b2, a3.trans b3⟩

/-- The unwinding of a constructor: `destroy(i)` with `i` the number of nodes,
then the destructor.  Every node is destroyed and released, the list object
is gone, nothing else is touched. -/
theorem unwind_repr (h : Heap T) (l : LinkedList A) (xs : List (Nat × T))
    (hr : Repr h l xs) (hsz : xs.length < SIZE_MOD) :
    ∃ h1 l1 h', l.destroy h xs.length = some (h1, l1) ∧ l1.dtor h1 = some h' ∧
      l1.head_ = l.head_ ∧
      h'.brk = h.brk ∧ h'.allocs = h.allocs ∧ h'.deallocs = h.deallocs + xs.length ∧
      h'.ctors = h.ctors ∧ h'.dtors = h.dtors + xs.length ∧
      (∀ y, y ∈ l.head_ :: xs.map Prod.fst → h'.cell y = .free) ∧
      (∀ z, z ∉ l.head_ :: xs.map Prod.fst →
        h'.next z = h.next z ∧ h'.prev z = h.prev z ∧ h'.cell z = h.cell z) := by
  obtain ⟨h1, l1, he, hr1, hh, -, -, hb, hal, hde, hct, hdt, hfree, hfr⟩ :=
    destroy_repr xs.length h l xs hr (le_refl _) hsz
  rw [Nat.sub_self] at hr1 hfree
  rw [List.take_zero] at hr1
  rw [List.drop_zero] at hfree
  obtain ⟨h2, he2, hb2, hal2, hde2, hct2, hdt2, hfree2, hfr2⟩ :=
    dtor_repr h1 l1 [] hr1 (by simp [SIZE_MOD])
  simp only [List.length_nil, Nat.add_zero, List.map_nil] at hde2 hdt2 hfree2 hfr2
  refine ⟨h1, l1, h2, he, he2, hh, by rw [hb2, hb], by rw [hal2, hal], by rw [hde2, hde],
    by rw [hct2, hct], by rw [hdt2, hdt], ?_, ?_⟩
  · intro y hy
    rcases List.mem_cons.mp hy with e | hy
    · exact hfree2 y (by rw [e, hh]; simp)
    · by_cases e : y = l1.head_
      · exact hfree2 y (by rw [e]; simp)
      · rw [(hfr2 y (by simpa using e)).2.2]
        exact hfree y hy
  · intro z hz
    have hz1 : z ∉ [l1.head_] := by
      rw [hh]
      intro hm
      exact hz (by simp only [List.mem_singleton] at hm; rw [hm]; simp)
    obtain ⟨a1, a2, a3⟩ := hfr2 z hz1
    obtain ⟨b1, b2, b3⟩ := hfr z hz
    exact ⟨a1.trans b1, a2.trans b2, a3.trans b3⟩

/-- The element loop of the sized constructors when the construction at
index `i` throws, `i` nodes having been built: the failure is propagated
after every node has been destroyed and released, the node allocated for the
failing element included. -/
theorem fill_throw (elem : Nat → Option T) (i : Nat) (rest : List Nat) (h : Heap T)
    (l : LinkedList A) (xs : List (Nat × T)) (hr : Repr h l xs) (hi : xs.length = i)
    (hsz : xs.length < SIZE_MOD) (hfail : elem i = none) :
    ∃ h' l', fill l h elem (i :: rest) = .throw (h', l') ∧
      h'.allocs = h.allocs + 1 ∧ h'.deallocs = h.deallocs + 1 + xs.length ∧
      h'.ctors = h.ctors ∧ h'.dtors = h.dtors + xs.length ∧
      (∀ y, y ∈ l.head_ :: xs.map Prod.fst → h'.cell y = .free) ∧
      (∀ z, z ∉ l.head_ :: xs.map Prod.fst →
        h'.next z = h.next z ∧ h'.prev z = h.prev z ∧ h'.cell z = h.cell z) := by
  have hrT : Repr h.allocate.deallocate l xs :=
    hr.mono rfl rfl rfl (Nat.le_succ _) rfl rfl
  obtain ⟨h1, l1, h', he1, he2, hh, hb, hal, hde, hct, hdt, hfree, hfr⟩ :=
    unwind_repr _ l xs hrT hsz
  refine ⟨h', l1, ?_, hal, hde, hct, hdt, hfree, hfr⟩
  simp only [fill, hfail, emplace]
  rw [← hi, he1]
  simp only [he2]

/-- A sized constructor whose `K`-th element construction throws, on a memory
whose addresses from the frontier on are unused: the exception is
propagated; `K - 1` elements were constructed and `K - 1` destructor calls
were made; `K` nodes were allocated and `K` released; afterwards nothing
lives from the old frontier on; and nothing below it was touched. -/
theorem ctor_fill_throw (h0 : Heap T) (alloc : A) (N K : Nat) (elem : Nat → Option T)
    (hK : 1 ≤ K) (hKN : K ≤ N) (hN : N < SIZE_MOD)
    (hok : ∀ j, j < K - 1 → (elem j).isSome = true) (hfail : elem (K - 1) = none)
    (hfresh : ∀ a, h0.brk ≤ a → h0.cell a = .free) :
    ∃ h' l', (ctor_alloc h0 alloc).2.fill (ctor_alloc h0 alloc).1 elem (List.range N)
        = .throw (h', l') ∧
      h'.ctors = h0.ctors + (K - 1) ∧ h'.dtors = h0.dtors + (K - 1) ∧
      h'.allocs = h0.allocs + K ∧ h'.deallocs = h0.deallocs + K ∧
      (∀ a, h0.brk ≤ a → h'.cell a = .free) ∧
      (∀ a, a < h0.brk →
        h'.next a = h0.next a ∧ h'.prev a = h0.prev a ∧ h'.cell a = h0.cell a) := by
  obtain ⟨rest, hrest⟩ := range_split N (K - 1) (by omega)
  have hr0 := ctor_alloc_repr h0 alloc
  have hc0 : ∀ a, a ≠ h0.brk → (ctor_alloc h0 alloc).1.cell a = h0.cell a := by
    intro a ha
    simp [ctor_alloc, Heap.setCell, Heap.setNext, Heap.setPrev, Heap.allocate, Heap.deallocate, ha]
  have hn0 : ∀ a, a ≠ h0.brk → (ctor_alloc h0 alloc).1.next a = h0.next a := by
    intro a ha
    simp [ctor_alloc, Heap.setCell, Heap.setNext, Heap.setPrev, Heap.allocate, Heap.deallocate, ha]
  have hp0 : ∀ a, a ≠ h0.brk → (ctor_alloc h0 alloc).1.prev a = h0.prev a := by
    intro a ha
    simp [ctor_alloc, Heap.setCell, Heap.setNext, Heap.setPrev, Heap.allocate, Heap.deallocate, ha]
  have hb0 : (ctor_alloc h0 alloc).1.brk = h0.brk + 1 := rfl
  have hhd : (ctor_alloc h0 alloc).2.head_ = h0.brk := rfl
  obtain ⟨h1, l1, new, he1, hr1, hnew, hh1, hb1, hal1, hde1, hct1, hdt1, hfr1⟩ :=
    fill_prefix elem (List.range (K - 1)) ((K - 1) :: rest) _ _ [] hr0
      (fun j hj => hok j (List.mem_range.mp hj)) (by simp; omega)
  simp only [List.length_range, List.nil_append] at hr1 hnew hb1 hal1 hct1 hfr1
  have hlen1 : new.length = K - 1 := by
    have := congrArg List.length hnew
    simpa using this
  have hmem : ∀ a, a ∈ l1.head_ :: new.map Prod.fst ↔ h0.brk ≤ a ∧ a < h0.brk + 1 + (K - 1) := by
    intro a
    rw [List.mem_cons, hnew, hh1, hhd, hb0, List.mem_range'_1]
    omega
  obtain ⟨h', l', he2, hal2, hde2, hct2, hdt2, hfree2, hfr2⟩ :=
    fill_throw elem (K - 1) rest h1 l1 new hr1 hlen1 (by omega) hfail
  refine ⟨h', l', ?_, ?_, ?_, ?_, ?_, ?_, ?_⟩
  · rw [hrest, he1]
    exact he2
  · rw [hct2, hct1]; rfl
  · rw [hdt2, hdt1, hlen1]; rfl
  · rw [hal2, hal1]
    show h0.allocs + (K - 1) + 1 = _
    omega
  · rw [hde2, hde1, hlen1]
    show h0.deallocs + 1 + (K - 1) = _
    omega
  · intro a ha
    by_cases hm : a ∈ l1.head_ :: new.map Prod.fst
    · exact hfree2 a hm
    · have hm' := hm
      rw [hmem] at hm'
      rw [(hfr2 a hm).2.2, (hfr1 a (by rw [← hh1]; exact hm)).2.2, hc0 a (by omega)]
      exact hfresh a ha
  · intro a ha
    have hm : a ∉ l1.head_ :: new.map Prod.fst := by
      rw [hmem]; omega
    obtain ⟨a1, a2, a3⟩ := hfr2 a hm
    obtain ⟨b1, b2, b3⟩ := hfr1 a (by rw [← hh1]; exact hm)
    rw [a1, a2, a3, b1, b2, b3, hn0 a (by omega), hp0 a (by omega), hc0 a (by omega)]
    exact ⟨rfl, rfl, rfl⟩

theorem SegFrom.of_seg {h : Heap T} {a b : Nat} : ∀ {rest : List (Nat × T)},
    Seg h a rest b → SegFrom h rest b
  | [], _ => trivial
  | _ :: _, hs => ⟨hs.2.2.1, hs.2.2.2⟩

theorem segFrom_frame {h h' : Heap T} {b : Nat} : ∀ {rest : List (Nat × T)},
    SegFrom h rest b →
    (∀ y, y ∈ b :: rest.map Prod.fst →
      h'.next y = h.next y ∧ h'.prev y = h.prev y ∧ h'.cell y = h.cell y) →
    SegFrom h' rest b
  | [], _, _ => trivial
  | y :: ys, hs, hf => by
    refine ⟨(hf y.1 (by simp)).2.2.trans hs.1, ?_⟩
    apply seg_frame ys y.1 b hs.2
    · rintro z (rfl | hz)
      · exact (hf _ (by simp)).1
      · exact (hf z (by simp [hz])).1
    · rintro z (hz | rfl)
      · exact (hf z (by simp [hz])).2.1
      · exact (hf _ (by simp)).2.1
    · intro z hz
      exact (hf z (by simp [hz])).2.2

theorem copy_loop_succ (l : LinkedList A) (h : Heap T) (stop : Nat)
    (copy : Nat → T → Option T) (fuel cur i : Nat) :
    copy_loop l h stop copy (fuel + 1) cur i =
      if cur = stop then .ok (h, l, i)
      else
        match h.cell cur with
        | .node v =>
          match l.push_back h (copy i v) with
          | .ok s => copy_loop s.2 s.1 stop copy fuel (s.1.next cur) (i + 1)
          | .throw s => .throw (s.1, s.2, i)
          | .ub => .ub
        | _ => .ub := rfl

/-- The copy loop while the copies succeed: each node of `pre`, a stretch of
the source ring, appends one node to the destination, allocated at the
frontier; the source ring is not touched. -/
theorem copy_prefix (copy : Nat → T → Option T) (stop : Nat) :
    ∀ (pre post : List (Nat × T)) (h : Heap T) (l : LinkedList A) (xs : List (Nat × T))
      (i fuel : Nat),
    Repr h l xs → SegFrom h (pre ++ post) stop → stop ∉ (pre ++ post).map Prod.fst →
    (∀ a, a ∈ stop :: (pre ++ post).map Prod.fst →
      a ∉ l.head_ :: xs.map Prod.fst ∧ a < h.brk) →
    (∀ j v, i ≤ j → j < i + pre.length → (copy j v).isSome = true) →
    xs.length + pre.length < SIZE_MOD → pre.length ≤ fuel →
    ∃ h' l' new, copy_loop l h stop copy fuel (firstAddr (pre ++ post) stop) i
        = copy_loop l' h' stop copy (fuel - pre.length) (firstAddr post stop) (i + pre.length) ∧
      Repr h' l' (xs ++ new) ∧ new.map Prod.fst = List.range' h.brk pre.length ∧
      (∀ j y, pre[j]? = some y → (new[j]?).map Prod.snd = copy (i + j) y.2) ∧
      SegFrom h' post stop ∧
      l'.head_ = l.head_ ∧ l'.alloc = l.alloc ∧ l'.node_allocator_ = l.node_allocator_ ∧
      h'.brk = h.brk + pre.length ∧
      h'.allocs = h.allocs + pre.length ∧ h'.deallocs = h.deallocs ∧
      h'.ctors = h.ctors + pre.length ∧ h'.dtors = h.dtors ∧
      (∀ z, z ∉ l.head_ :: (xs ++ new).map Prod.fst →
        h'.next z = h.next z ∧ h'.prev z = h.prev z ∧ h'.cell z = h.cell z)
  | [], post, h, l, xs, i, fuel, hr, hs, _, _, _, _, _ => by
    refine ⟨h, l, [], rfl, by rw [List.append_nil]; exact hr, rfl, ?_, hs, rfl, rfl, rfl, rfl,
      rfl, rfl, rfl, rfl, ?_⟩
    · intro j y hj; simp at hj
    · intro z _; exact ⟨rfl, rfl, rfl⟩
  | y :: pre, post, h, l, xs, i, 0, _, _, _, _, _, _, hfuel => by simp at hfuel
  | y :: pre, post, h, l, xs, i, fuel + 1, hr, hs, hstop, hdisj, hok, hlen, hfuel => by
    rw [List.length_cons] at hlen hfuel
    obtain ⟨hcy, hsy⟩ := hs
    have hne : y.1 ≠ stop := by
      intro e
      apply hstop
      rw [← e]
      simp
    obtain ⟨v, hv⟩ := Option.isSome_iff_exists.mp (hok i y.2 (le_refl _) (by simp))
    have hr' : Repr h l (xs ++ []) := by rw [List.append_nil]; exact hr
    obtain ⟨h1, l1, he, hr1, hh1, ha1, hna1, hb1, hal1, hde1, hct1, hdt1, hfr1⟩ :=
      emplace_repr h l xs [] v hr' (by rw [List.append_nil]; omega)
    rw [List.append_nil] at hfr1
    -- the source ring is outside the destination and below the frontier
    have hsrc : ∀ a, a ∈ stop :: ((y :: pre) ++ post).map Prod.fst →
        h1.next a = h.next a ∧ h1.prev a = h.prev a ∧ h1.cell a = h.cell a := by
      intro a ha
      obtain ⟨d1, d2⟩ := hdisj a ha
      exact hfr1 a d1 (by omega)
    have hnext : h1.next y.1 = firstAddr (pre ++ post) stop := by
      rw [(hsrc y.1 (by simp)).1]
      exact seg_first _ _ _ hsy
    have hs1 : SegFrom h1 (pre ++ post) stop := by
      apply segFrom_frame (SegFrom.of_seg hsy)
      intro a ha
      apply hsrc a
      rcases List.mem_cons.mp ha with e | ha
      · rw [e]; simp
      · simp only [List.cons_append, List.map_cons, List.mem_cons]
        exact Or.inr (Or.inr ha)
    have hstop1 : stop ∉ (pre ++ post).map Prod.fst := by
      intro hm
      apply hstop
      simp only [List.cons_append, List.map_cons, List.mem_cons]
      exact Or.inr hm
    have hdisj1 : ∀ a, a ∈ stop :: (pre ++ post).map Prod.fst →
        a ∉ l1.head_ :: (xs ++ [(h.brk, v)]).map Prod.fst ∧ a < h1.brk := by
      intro a ha
      have ha' : a ∈ stop :: ((y :: pre) ++ post).map Prod.fst := by
        rcases List.mem_cons.mp ha with e | ha
        · rw [e]; simp
        · simp only [List.cons_append, List.map_cons, List.mem_cons]
          exact Or.inr (Or.inr ha)
      obtain ⟨d1, d2⟩ := hdisj a ha'
      refine ⟨?_, by omega⟩
      rw [hh1, List.map_append, List.map_cons, List.map_nil]
      intro hm
      rcases List.mem_cons.mp hm with e | hm
      · exact d1 (by rw [e]; simp)
      · rcases List.mem_append.mp hm with hm | hm
        · exact d1 (List.mem_cons.mpr (Or.inr hm))
        · simp only [List.mem_singleton] at hm
          omega
    obtain ⟨h2, l2, new2, he2, hr2, hnew2, hval2, hs2, hh2, ha2, hna2, hb2, hal2, hde2, hct2,
        hdt2, hfr2⟩ :=
      copy_prefix copy stop pre post h1 l1 (xs ++ [(h.brk, v)]) (i + 1) fuel hr1 hs1 hstop1
        hdisj1 (fun j w h1' h2' => hok j w (by omega) (by simp; omega)) (by simp; omega)
        (by omega)
    have hassoc : (xs ++ [(h.brk, v)]) ++ new2 = xs ++ (h.brk, v) :: new2 := by
      rw [List.append_assoc]; rfl
    rw [hassoc] at hr2 hfr2
    refine ⟨h2, l2, (h.brk, v) :: new2, ?_, hr2, ?_, ?_, hs2, ?_, ?_, ?_, ?_, ?_, ?_, ?_, ?_,
      ?_⟩
    · have hpb : l.push_back h (some v) = .ok (h1, l1) := he
      have step : copy_loop l h stop copy (fuel + 1) y.1 i
          = copy_loop l1 h1 stop copy fuel (h1.next y.1) (i + 1) := by
        rw [copy_loop_succ, if_neg hne, hcy]
        simp only [hv, hpb]
      have e1 : fuel + 1 - (y :: pre).length = fuel - pre.length := by
        rw [List.length_cons]; omega
      have e2 : i + (y :: pre).length = i + 1 + pre.length := by
        rw [List.length_cons]; omega
      show copy_loop l h stop copy (fuel + 1) y.1 i = _
      rw [step, hnext, he2, e1, e2]
    · rw [List.map_cons, hnew2, hb1, List.length_cons, List.range'_succ]
    · intro j z hj
      cases j with
      | zero =>
        simp only [List.getElem?_cons_zero, Option.some.injEq] at hj
        rw [← hj, List.getElem?_cons_zero, Nat.add_zero, hv]
        rfl
      | succ j =>
        rw [List.getElem?_cons_succ] at hj
        rw [List.getElem?_cons_succ, hval2 j z hj]
        congr 1
        omega
    · rw [hh2, hh1]
    · rw [ha2, ha1]
    · rw [hna2, hna1]
    · rw [hb2, hb1, List.length_cons]; omega
    · rw [hal2, hal1, List.length_cons]; omega
    · rw [hde2, hde1]
    · rw [hct2, hct1, List.length_cons]; omega
    · rw [hdt2, hdt1]
    · intro z hz
      have hz1 : z ∉ l.head_ :: xs.map Prod.fst := by
        intro hm
        apply hz
        rw [List.map_append]
        rcases List.mem_cons.mp hm with e | hm
        · rw [e]; simp
        · exact List.mem_cons.mpr (Or.inr (List.mem_append.mpr (Or.inl hm)))
      have hz2 : z ≠ h.brk := by
        intro e
        apply hz
        rw [e, List.map_append, List.map_cons]
        simp
      obtain ⟨a1, a2, a3⟩ := hfr2 z (by rw [hh1]; exact hz)
      obtain ⟨b1, b2, b3⟩ := hfr1 z hz1 hz2
      exact ⟨a1.trans b1, a2.trans b2, a3.trans b3⟩

/-- The copy constructor when the copy of the node `y` of the source throws,
the nodes `pre` before it having been copied: the exception is propagated;
as many destructor calls were made as elements were constructed; every node
allocated was released; afterwards nothing lives from the old frontier on;
and nothing below it, the source list included, was touched. -/
theorem ctor_copy_throw (tr : AllocTraits A) (h0 : Heap T) (other : LinkedList A)
    (pre : List (Nat × T)) (y : Nat × T) (post : List (Nat × T))
    (copy : Nat → T → Option T) (fuel : Nat)
    (hro : Repr h0 other (pre ++ y :: post)) (hsz : pre.length + 1 < SIZE_MOD)
    (hok : ∀ j v, j < pre.length → (copy j v).isSome = true)
    (hfail : copy pre.length y.2 = none) (hfuel : pre.length < fuel)
    (hfresh : ∀ a, h0.brk ≤ a → h0.cell a = .free) :
    ∃ h' l', ctor_copy tr h0 other copy fuel = .throw (h', l') ∧
      h'.ctors = h0.ctors + pre.length ∧ h'.dtors = h0.dtors + pre.length ∧
      h'.allocs = h0.allocs + (pre.length + 1) ∧ h'.deallocs = h0.deallocs + (pre.length + 1) ∧
      (∀ a, h0.brk ≤ a → h'.cell a = .free) ∧
      (∀ a, a < h0.brk →
        h'.next a = h0.next a ∧ h'.prev a = h0.prev a ∧ h'.cell a = h0.cell a) := by
  have hr0 := ctor_alloc_repr h0 (tr.select_on_container_copy_construction other.alloc)
  generalize hs0 : ctor_alloc h0 (tr.select_on_container_copy_construction other.alloc) = s0
    at hr0
  have hc0 : ∀ a, a ≠ h0.brk → s0.1.cell a = h0.cell a := by
    intro a ha
    rw [← hs0]
    simp [ctor_alloc, Heap.setCell, Heap.setNext, Heap.setPrev, Heap.allocate, Heap.deallocate, ha]
  have hn0 : ∀ a, a ≠ h0.brk → s0.1.next a = h0.next a := by
    intro a ha
    rw [← hs0]
    simp [ctor_alloc, Heap.setCell, Heap.setNext, Heap.setPrev, Heap.allocate, Heap.deallocate, ha]
  have hp0 : ∀ a, a ≠ h0.brk → s0.1.prev a = h0.prev a := by
    intro a ha
    rw [← hs0]
    simp [ctor_alloc, Heap.setCell, Heap.setNext, Heap.setPrev, Heap.allocate, Heap.deallocate, ha]
  have hb0 : s0.1.brk = h0.brk + 1 := by rw [← hs0]; rfl
  have hhd : s0.2.head_ = h0.brk := by rw [← hs0]; rfl
  have hal0 : s0.1.allocs = h0.allocs := by rw [← hs0]; rfl
  have hde0 : s0.1.deallocs = h0.deallocs := by rw [← hs0]; rfl
  have hct0 : s0.1.ctors = h0.ctors := by rw [← hs0]; rfl
  have hdt0 : s0.1.dtors = h0.dtors := by rw [← hs0]; rfl
  -- the source ring
  have hsrc_lt : ∀ a, a ∈ other.head_ :: (pre ++ y :: post).map Prod.fst → a < h0.brk :=
    hro.below
  have hstop : other.head_ ∉ (pre ++ y :: post).map Prod.fst := (List.nodup_cons.mp hro.nodup).1
  have hsf : SegFrom s0.1 (pre ++ y :: post) other.head_ := by
    apply segFrom_frame (SegFrom.of_seg hro.seg)
    intro a ha
    have := hsrc_lt a ha
    exact ⟨hn0 a (by omega), hp0 a (by omega), hc0 a (by omega)⟩
  have hbegin : other.begin s0.1 = firstAddr (pre ++ y :: post) other.head_ := by
    show s0.1.next other.head_ = _
    rw [hn0 _ (by have := hsrc_lt other.head_ (by simp); omega)]
    exact seg_first _ _ _ hro.seg
  obtain ⟨h1, l1, new, he1, hr1, hnew, -, hs1, hh1, -, -, hb1, hal1, hde1, hct1, hdt1, hfr1⟩ :=
    copy_prefix copy other.head_ pre (y :: post) s0.1 s0.2 [] 0 fuel hr0 hsf hstop
      (by
        intro a ha
        have := hsrc_lt a ha
        refine ⟨?_, by omega⟩
        rw [hhd]
        simp only [List.map_nil, List.mem_singleton]
        omega)
      (fun j v _ hj => hok j v (by omega)) (by simp; omega) (by omega)
  simp only [List.nil_append, Nat.zero_add] at hr1 hfr1 he1
  have hlen1 : new.length = pre.length := by
    have := congrArg List.length hnew
    simpa using this
  have hmem : ∀ a, a ∈ l1.head_ :: new.map Prod.fst ↔ h0.brk ≤ a ∧ a < h0.brk + 1 + pre.length := by
    intro a
    rw [List.mem_cons, hnew, hh1, hhd, hb0, List.mem_range'_1]
    omega
  -- the failing step
  obtain ⟨f, hf⟩ : ∃ f, fuel - pre.length = f + 1 := ⟨fuel - pre.length - 1, by omega⟩
  have hne : y.1 ≠ other.head_ := by
    intro e
    apply hstop
    rw [← e]
    simp
  have hthrow : copy_loop l1 h1 other.head_ copy (fuel - pre.length)
      (firstAddr (y :: post) other.head_) pre.length
      = .throw (h1.allocate.deallocate, l1, pre.length) := by
    have hfa : firstAddr (y :: post) other.head_ = y.1 := rfl
    rw [hf, copy_loop_succ, hfa, if_neg hne, hs1.1]
    simp only [hfail, push_back, insert, emplace]
  have hrT : Repr h1.allocate.deallocate l1 new :=
    hr1.mono rfl rfl rfl (Nat.le_succ _) rfl rfl
  obtain ⟨h2, l2, h', hd1, hd2, hh2, hb2, hal2, hde2, hct2, hdt2, hfree2, hfr2⟩ :=
    unwind_repr _ l1 new hrT (by omega)
  refine ⟨h', l2, ?_, ?_, ?_, ?_, ?_, ?_, ?_⟩
  · unfold ctor_copy
    simp only [hs0, hbegin, end_, he1, hthrow]
    rw [← hlen1, hd1]
    simp only [hd2]
  · rw [hct2]
    show h1.ctors = _
    rw [hct1, hct0]
  · rw [hdt2, hlen1]
    show h1.dtors + pre.length = _
    rw [hdt1, hdt0]
  · rw [hal2]
    show h1.allocs + 1 = _
    rw [hal1, hal0]
    omega
  · rw [hde2, hlen1]
    show h1.deallocs + 1 + pre.length = _
    rw [hde1, hde0]
    omega
  · intro a ha
    by_cases hm : a ∈ l1.head_ :: new.map Prod.fst
    · exact hfree2 a hm
    · have hm' := hm
      rw [hmem] at hm'
      rw [(hfr2 a hm).2.2]
      show h1.cell a = _
      rw [(hfr1 a (by rw [← hh1]; exact hm)).2.2, hc0 a (by omega)]
      exact hfresh a ha
  · intro a ha
    have hm : a ∉ l1.head_ :: new.map Prod.fst := by
      rw [hmem]; omega
    obtain ⟨a1, a2, a3⟩ := hfr2 a hm
    obtain ⟨b1, b2, b3⟩ := hfr1 a (by rw [← hh1]; exact hm)
    rw [a1, a2, a3]
    show h1.next a = _ ∧ h1.prev a = _ ∧ h1.cell a = _
    rw [b1, b2, b3, hn0 a (by omega), hp0 a (by omega), hc0 a (by omega)]
    exact ⟨rfl, rfl, rfl⟩

/-- One valid operation on a represented list succeeds, and the list then
represents the reference result. -/
theorem apply_repr (h : Heap T) (l : LinkedList A) (xs : List (Nat × T)) (op : Op T)
    (ops : List (Op T)) (hr : Repr h l xs) (hlen : xs.length + 1 < SIZE_MOD)
    (hv : opsValid (xs.map Prod.snd) (op :: ops)) :
    ∃ h' l' xs', l.apply h op = .ok (h', l') ∧ Repr h' l' xs' ∧
      xs'.map Prod.snd = refApply (xs.map Prod.snd) op ∧
      l'.head_ = l.head_ ∧ l'.alloc = l.alloc := by
  cases op with
  | push_back v =>
    have hr' : Repr h l (xs ++ []) := by rw [List.append_nil]; exact hr
    obtain ⟨h', l', he, hrep, hh, ha, -⟩ :=
      emplace_repr h l xs [] v hr' (by rw [List.append_nil]; exact hlen)
    exact ⟨h', l', _, he, hrep, by simp [refApply], hh, ha⟩
  | push_front v =>
    obtain ⟨h', l', he, hrep, hh, ha, -⟩ :=
      emplace_repr h l [] xs v (by simpa using hr) (by simpa using hlen)
    refine ⟨h', l', _, ?_, hrep, by simp [refApply], hh, ha⟩
    show l.emplace h (h.next l.head_) (some v) = _
    rw [seg_first xs _ _ hr.seg]
    exact he
  | pop_back =>
    have hne : xs ≠ [] := by
      intro e
      apply hv.1
      rw [e]; rfl
    have hxs : xs.dropLast ++ [xs.getLast hne] = xs := List.dropLast_concat_getLast hne
    have hr' : Repr h l (xs.dropLast ++ xs.getLast hne :: []) := by rw [hxs]; exact hr
    obtain ⟨h', l', he, hrep, hh, ha, -⟩ :=
      erase_repr h l xs.dropLast (xs.getLast hne) [] hr' (by rw [hxs]; omega)
    rw [List.append_nil] at hrep
    refine ⟨h', l', _, ?_, hrep, ?_, hh, ha⟩
    · show Res.ofOption ((iter_prev h l.head_).bind (l.erase h)) = _
      unfold iter_prev
      rw [if_pos (valid_of_sentinel hr.head), Option.some_bind, (seg_last xs _ _ hr.seg).1]
      have : lastAddr l.head_ xs = (xs.getLast hne).1 := by
        conv_lhs => rw [← hxs]
        exact lastAddr_append_singleton _ _ _
      rw [this, he]
      rfl
    · simp only [refApply]
      conv_rhs => rw [← hxs]
      rw [List.map_append, List.map_cons, List.map_nil, List.dropLast_concat]
  | pop_front =>
    cases xs with
    | nil => exact absurd rfl hv.1
    | cons y ys =>
      obtain ⟨h', l', he, hrep, hh, ha, -⟩ :=
        erase_repr h l [] y ys (by simpa using hr) (by simp at hlen ⊢; omega)
      refine ⟨h', l', _, ?_, by simpa using hrep, by simp [refApply], hh, ha⟩
      show Res.ofOption (l.erase h (h.next l.head_)) = _
      rw [hr.seg.1, he]
      rfl
  | insert k v =>
    have hk : k ≤ xs.length := by simpa using hv.1
    have hsplit : xs.take k ++ xs.drop k = xs := List.take_append_drop k xs
    obtain ⟨h', l', he, hrep, hh, ha, -⟩ :=
      emplace_repr h l (xs.take k) (xs.drop k) v (by rw [hsplit]; exact hr)
        (by rw [hsplit]; exact hlen)
    refine ⟨h', l', _, ?_, hrep, ?_, hh, ha⟩
    · show (match advance h k (h.next l.head_) with
        | none => Res.ub
        | some it => l.insert h it (some v)) = _
      rw [advance_seg k xs _ _ hr.seg hk]
      exact he
    · simp [refApply, List.map_take, List.map_drop]
  | erase k =>
    have hk : k < xs.length := by simpa using hv.1
    have hsplit : xs.take k ++ xs.drop k = xs := List.take_append_drop k xs
    obtain ⟨y, hy⟩ : ∃ y, xs.drop k = y :: xs.drop (k + 1) := by
      cases hd : xs.drop k with
      | nil =>
        have := congrArg List.length hd
        simp at this
        omega
      | cons y ys =>
        refine ⟨y, ?_⟩
        have : xs.drop (k + 1) = ys := by
          rw [← List.drop_drop 1 k xs, hd]
          rfl
        rw [this]
    have hsplit' : xs.take k ++ y :: xs.drop (k + 1) = xs := by rw [← hy]; exact hsplit
    obtain ⟨h', l', he, hrep, hh, ha, -⟩ :=
      erase_repr h l (xs.take k) y (xs.drop (k + 1)) (by rw [hsplit']; exact hr)
        (by rw [hsplit']; omega)
    refine ⟨h', l', _, ?_, hrep, ?_, hh, ha⟩
    · show (match advance h k (h.next l.head_) with
        | none => Res.ub
        | some it => Res.ofOption (l.erase h it)) = _
      rw [advance_seg k xs _ _ hr.seg (by omega), hy]
      show Res.ofOption (l.erase h y.1) = _
      rw [he]
      rfl
    · simp [refApply, List.map_take, List.map_drop]

theorem length_refApply_le_list (m : List T) (op : Op T) :
    (refApply m op).length ≤ m.length + 1 := by
  cases op <;> simp [refApply] <;> omega

theorem opsValid_tail (m : List T) (op : Op T) (ops : List (Op T))
    (hv : opsValid m (op :: ops)) : opsValid (refApply m op) ops := by
  cases op with
  | push_back v => exact hv
  | push_front v => exact hv
  | pop_back => exact hv.2
  | pop_front => exact hv.2
  | insert k v => exact hv.2
  | erase k => exact hv.2

/-- A valid sequence of operations on a represented list runs to completion,
and the list then represents the reference result. -/
theorem run_repr (ops : List (Op T)) :
    ∀ (h : Heap T) (l : LinkedList A) (xs : List (Nat × T)), Repr h l xs →
      opsValid (xs.map Prod.snd) ops → xs.length + ops.length < SIZE_MOD →
      ∃ h' l' xs', l.run h ops = .ok (h', l') ∧ Repr h' l' xs' ∧
        xs'.map Prod.snd = refRun (xs.map Prod.snd) ops := by
  induction ops with
  | nil =>
    intro h l xs hr _ _
    exact ⟨h, l, xs, rfl, hr, rfl⟩
  | cons op ops ih =>
    intro h l xs hr hv hlen
    rw [List.length_cons] at hlen
    obtain ⟨h1, l1, xs1, he, hr1, hm1, -, -⟩ := apply_repr h l xs op ops hr (by omega) hv
    have hv1 := opsValid_tail _ op ops hv
    rw [← hm1] at hv1
    have hle := length_refApply_le_list (xs.map Prod.snd) op
    rw [← hm1, List.length_map, List.length_map] at hle
    obtain ⟨h2, l2, xs2, he2, hr2, hm2⟩ := ih h1 l1 xs1 hr1 hv1 (by omega)
    refine ⟨h2, l2, xs2, ?_, hr2, ?_⟩
    · show (match l.apply h op with
        | .ok s => run s.2 s.1 ops
        | .throw s => .throw s
        | .ub => .ub) = _
      rw [he]
      exact he2
    · rw [hm2, hm1]
      rfl

/-- C1: every valid sequence of fewer than `2 ^ 64` operations `push_back`,
`push_front`, `pop_back`, `pop_front`, `insert` and `erase` on a list just
built by `List(alloc)` runs to completion without undefined behaviour, and
afterwards `size()` is the length of the reference sequence and the forward
iteration `begin() .. end()` yields exactly the reference sequence. -/
theorem C1_list_refines_sequence (h0 : Heap T) (alloc : A) (ops : List (Op T))
    (hvalid : opsValid [] ops) (hlen : ops.length < SIZE_MOD) :
    ∃ h l, (ctor_alloc h0 alloc).2.run (ctor_alloc h0 alloc).1 ops = .ok (h, l) ∧
      l.size = (refRun [] ops).length ∧
      ∀ fuel, l.size ≤ fuel → l.forward h fuel = some (refRun [] ops) := by
  obtain ⟨h, l, xs, hrun, hr, hm⟩ :=
    run_repr ops (ctor_alloc h0 alloc).1 (ctor_alloc h0 alloc).2 [] (ctor_alloc_repr h0 alloc)
      hvalid (by simpa using hlen)
  simp only [List.map_nil] at hm
  obtain ⟨hs, hf⟩ := hr.observe
  refine ⟨h, l, hrun, ?_, ?_⟩
  · rw [hs, ← hm, List.length_map]
  · intro fuel hfuel
    rw [← hm]
    exact hf fuel (by rw [← hs]; exact hfuel)

/-- C1 at the program `basicListProgram`. -/
theorem C1_list_refines_sequence_witness :
    ∃ h l, (ctor_alloc (Heap.empty Nat) ()).2.run (ctor_alloc (Heap.empty Nat) ()).1
        basicListProgram = .ok (h, l) ∧
      l.size = (refRun [] basicListProgram).length ∧
      ∀ fuel, l.size ≤ fuel → l.forward h fuel = some (refRun [] basicListProgram) :=
  C1_list_refines_sequence (Heap.empty Nat) () basicListProgram
    (by simp [basicListProgram, opsValid]) (by decide)

/-- C6: when the construction of the `K`-th of `N` elements throws
(`1 <= K <= N`), each of `List(N, alloc)`, `List(N, obj, alloc)` and the copy
constructor from a list of `N` elements propagates the exception after
destroying exactly the `K - 1` elements it had constructed and deallocating
all `K` nodes it had allocated (the node of the failing element included):
constructions and destructions are equal in number, no node allocation
remains outstanding, and nothing that existed before is touched. -/
theorem C6_list_construction_exception_safety (h0 : Heap T) (alloc : A) (N K : Nat)
    (elem : Nat → Option T) (hK : 1 ≤ K) (hKN : K ≤ N) (hN : N < SIZE_MOD)
    (hok : ∀ j, j < K - 1 → (elem j).isSome = true) (hfail : elem (K - 1) = none)
    (hfresh : ∀ a, h0.brk ≤ a → h0.cell a = .free) :
    (∃ h' l', ctor_count h0 N alloc elem = .throw (h', l') ∧ Unwound h0 h' K) ∧
    (∃ h' l', ctor_count_obj h0 N alloc elem = .throw (h', l') ∧ Unwound h0 h' K) ∧
    (∀ (tr : AllocTraits A) (other : LinkedList A) (ys : List (Nat × T))
        (copy : Nat → T → Option T) (fuel : Nat),
      Repr h0 other ys → ys.length = N →
      (∀ j v, j < K - 1 → (copy j v).isSome = true) →
      (∀ y, ys[K - 1]? = some y → copy (K - 1) y.2 = none) → K ≤ fuel →
      ∃ h' l', ctor_copy tr h0 other copy fuel = .throw (h', l') ∧ Unwound h0 h' K) := by
  obtain ⟨h', l', he, hrest⟩ := ctor_fill_throw h0 alloc N K elem hK hKN hN hok hfail hfresh
  refine ⟨⟨h', l', he, hrest⟩, ⟨h', l', he, hrest⟩, ?_⟩
  intro tr other ys copy fuel hro hlen hcok hcfail hfuel
  obtain ⟨y, hy⟩ : ∃ y, ys[K - 1]? = some y := by
    cases hq : ys[K - 1]? with
    | none => rw [List.getElem?_eq_none_iff] at hq; omega
    | some y => exact ⟨y, rfl⟩
  have hsplit : ys = ys.take (K - 1) ++ y :: ys.drop K := by
    have h1 : ys.drop (K - 1) = y :: ys.drop K := by
      cases hd : ys.drop (K - 1) with
      | nil =>
        have := congrArg List.length hd
        simp at this
        omega
      | cons z zs =>
        have hz : ys[K - 1]? = some z := by
          have := List.getElem?_drop ys (K - 1) 0
          rw [hd] at this
          simpa using this.symm
        have hzs : ys.drop K = zs := by
          have : ys.drop (K - 1 + 1) = (ys.drop (K - 1)).drop 1 :=
            (List.drop_drop 1 (K - 1) ys).symm
          rw [hd] at this
          have e : K - 1 + 1 = K := by omega
          rw [e] at this
          exact this
        rw [hy] at hz
        rw [hzs, Option.some.inj hz]
    conv_lhs => rw [← List.take_append_drop (K - 1) ys, h1]
  have hplen : (ys.take (K - 1)).length = K - 1 := by
    rw [List.length_take]; omega
  obtain ⟨h2, l2, he2, c1, c2, c3, c4, c5, c6⟩ :=
    ctor_copy_throw tr h0 other (ys.take (K - 1)) y (ys.drop K) copy fuel
      (by rw [← hsplit]; exact hro) (by rw [hplen]; omega)
      (fun j v hj => hcok j v (by rw [hplen] at hj; exact hj))
      (by rw [hplen]; exact hcfail y hy) (by rw [hplen]; omega) hfresh
  rw [hplen] at c1 c2 c3 c4
  have e : K - 1 + 1 = K := by omega
  rw [e] at c3 c4
  exact ⟨h2, l2, he2, c1, c2, c3, c4, c5, c6⟩

/-- C6 at `List<ThrowingAccountant> lst(8)` with the fourth constructor call
throwing, and at the copy of an 8-element list with the fourth copy throwing. -/
theorem C6_list_construction_exception_safety_witness :
    (∃ h' l', ctor_count (Heap.empty Nat) 8 () fourthThrows = .throw (h', l') ∧
      Unwound (Heap.empty Nat) h' 4) ∧
    (∃ h' l', ctor_count_obj (Heap.empty Nat) 8 () fourthThrows = .throw (h', l') ∧
      Unwound (Heap.empty Nat) h' 4) :=
  ⟨(C6_list_construction_exception_safety (Heap.empty Nat) () 8 4 fourthThrows (by decide)
      (by decide) (by decide)
      (by intro j hj; simp only [fourthThrows]; rw [if_neg (by omega)]; rfl)
      (by rfl) (fun _ _ => rfl)).1,
   (C6_list_construction_exception_safety (Heap.empty Nat) () 8 4 fourthThrows (by decide)
      (by decide) (by decide)
      (by intro j hj; simp only [fourthThrows]; rw [if_neg (by omega)]; rfl)
      (by rfl) (fun _ _ => rfl)).2.1⟩

/-- C5 (evaluation at the failing input): with `a` empty and `b = [1]`, the
assignment `a = b` returns normally and leaves `b` iterating as `[1]`, but
`a` ends with `size() == 1` and an empty forward iteration (`begin() ==
end()`), since `swap` leaves `a.head_.next` pointing at `a.head_` itself.
With `a = [1]` and `b` empty the assignment is undefined behaviour: the
destructor of the temporary erases the sentinel of `a`. -/
theorem C5_assign_to_empty_loses_elements :
    (∃ h' a', assignEmptyFromSingleton.1 = .ok (h', a') ∧
      a'.size = 1 ∧ (∀ fuel, a'.forward h' fuel = some []) ∧
      a'.begin h' = a'.end_ ∧
      assignEmptyFromSingleton.2.size = 1 ∧
      assignEmptyFromSingleton.2.forward h' 1 = some [1]) ∧
    assignSingletonFromEmpty = .ub := by
  refine ⟨⟨_, _, rfl, rfl, ?_, rfl, rfl, rfl⟩, rfl⟩
  intro fuel
  cases fuel <;> rfl

theorem seg_next_mem {h : Heap T} : ∀ (xs : List (Nat × T)) (a b : Nat), Seg h a xs b →
    ∀ y, y ∈ a :: xs.map Prod.fst → h.next y ∈ b :: xs.map Prod.fst
  | [], a, b, hs, y, hy => by
    simp only [List.map_nil, List.mem_singleton] at hy ⊢
    rw [hy]; exact hs.1
  | x :: xs, a, b, hs, y, hy => by
    rcases List.mem_cons.mp hy with e | hy
    · rw [e, hs.1]
      simp
    · have := seg_next_mem xs x.1 b hs.2.2.2 y (by simpa using hy)
      simp only [List.map_cons, List.mem_cons] at this ⊢
      tauto

theorem seg_prev_mem {h : Heap T} : ∀ (xs : List (Nat × T)) (a b : Nat), Seg h a xs b →
    ∀ y, y ∈ b :: xs.map Prod.fst → h.prev y ∈ a :: xs.map Prod.fst
  | [], a, b, hs, y, hy => by
    simp only [List.map_nil, List.mem_singleton] at hy ⊢
    rw [hy]; exact hs.2
  | x :: xs, a, b, hs, y, hy => by
    by_cases e : y = x.1
    · rw [e, hs.2.1]
      simp
    · have hy' : y ∈ b :: xs.map Prod.fst := by
        simp only [List.map_cons, List.mem_cons] at hy ⊢
        tauto
      have := seg_prev_mem xs x.1 b hs.2.2.2 y hy'
      simp only [List.map_cons, List.mem_cons] at this ⊢
      tauto

/-- The links of a represented ring stay inside the ring. -/
theorem Repr.closed {h : Heap T} {l : LinkedList A} {xs : List (Nat × T)} (hr : Repr h l xs)
    (y : Nat) (hy : y ∈ l.head_ :: xs.map Prod.fst) :
    h.next y ∈ l.head_ :: xs.map Prod.fst ∧ h.prev y ∈ l.head_ :: xs.map Prod.fst :=
  ⟨seg_next_mem xs _ _ hr.seg y hy, seg_prev_mem xs _ _ hr.seg y hy⟩

/-- A representation survives any change outside its ring. -/
theorem Repr.frame {h h2 : Heap T} {l : LinkedList A} {xs : List (Nat × T)}
    (hr : Repr h l xs)
    (hf : ∀ y, y ∈ l.head_ :: xs.map Prod.fst →
      h2.next y = h.next y ∧ h2.prev y = h.prev y ∧ h2.cell y = h.cell y)
    (hb : h.brk ≤ h2.brk) : Repr h2 l xs := by
  obtain ⟨h1, h3, h4, h5, h6⟩ := hr
  refine ⟨(hf _ (by simp)).2.2.trans h1, ?_, h4, ?_, h6⟩
  · refine seg_frame xs _ _ h3 ?_ ?_ ?_
    · rintro y (e | hy)
      · rw [e]; exact (hf _ (by simp)).1
      · exact (hf y (List.mem_cons.mpr (Or.inr hy))).1
    · rintro y (hy | e)
      · exact (hf y (List.mem_cons.mpr (Or.inr hy))).2.1
      · rw [e]; exact (hf _ (by simp)).2.1
    · intro y hy
      exact (hf y (List.mem_cons.mpr (Or.inr hy))).2.2
  · intro a ha
    exact Nat.lt_of_lt_of_le (h5 a ha) hb

/-- `swap` between two represented lists performs its four link assignments
on live objects: it returns, having exchanged sizes and allocators, and
changes links only. -/
theorem swap_some (a o : LinkedList A) (h : Heap T) (xs zs : List (Nat × T))
    (hra : Repr h a xs) (hro : Repr h o zs) :
    ∃ h3, a.swap o h = some (h3,
        { a with alloc := o.alloc, size_ := o.size_, node_allocator_ := o.node_allocator_ },
        { o with alloc := a.alloc, size_ := a.size_, node_allocator_ := a.node_allocator_ }) ∧
      h3.cell = h.cell ∧ h3.brk = h.brk ∧ h3.allocs = h.allocs ∧ h3.deallocs = h.deallocs ∧
      h3.ctors = h.ctors ∧ h3.dtors = h.dtors := by
  -- the union of the two rings is closed under the links and holds live objects only
  have hS : ∀ y, (y ∈ a.head_ :: xs.map Prod.fst ∨ y ∈ o.head_ :: zs.map Prod.fst) →
      h.valid y = true ∧
      (h.next y ∈ a.head_ :: xs.map Prod.fst ∨ h.next y ∈ o.head_ :: zs.map Prod.fst) ∧
      (h.prev y ∈ a.head_ :: xs.map Prod.fst ∨ h.prev y ∈ o.head_ :: zs.map Prod.fst) := by
    rintro y (hy | hy)
    · exact ⟨hra.valid y hy, Or.inl (hra.closed y hy).1, Or.inl (hra.closed y hy).2⟩
    · exact ⟨hro.valid y hy, Or.inr (hro.closed y hy).1, Or.inr (hro.closed y hy).2⟩
  have hA : a.head_ ∈ a.head_ :: xs.map Prod.fst ∨ a.head_ ∈ o.head_ :: zs.map Prod.fst :=
    Or.inl (by simp)
  have hO : o.head_ ∈ a.head_ :: xs.map Prod.fst ∨ o.head_ ∈ o.head_ :: zs.map Prod.fst :=
    Or.inr (by simp)
  -- after `std::swap(head_, other.head_)`
  generalize hh1 : ((((h.setNext a.head_ (h.next o.head_)).setPrev a.head_
    (h.prev o.head_)).setNext o.head_ (h.next a.head_)).setPrev o.head_
    (h.prev a.head_)) = h1
  have h1c : h1.cell = h.cell := by rw [← hh1]; rfl
  have h1S : ∀ y, (y ∈ a.head_ :: xs.map Prod.fst ∨ y ∈ o.head_ :: zs.map Prod.fst) →
      (h1.next y ∈ a.head_ :: xs.map Prod.fst ∨ h1.next y ∈ o.head_ :: zs.map Prod.fst) ∧
      (h1.prev y ∈ a.head_ :: xs.map Prod.fst ∨ h1.prev y ∈ o.head_ :: zs.map Prod.fst) := by
    intro y hy
    rw [← hh1]
    simp only [Heap.setNext, Heap.setPrev]
    refine ⟨?_, ?_⟩
    · split
      · exact (hS _ hA).2.1
      · split
        · exact (hS _ hO).2.1
        · exact (hS y hy).2.1
    · split
      · exact (hS _ hA).2.2
      · split
        · exact (hS _ hO).2.2
        · exact (hS y hy).2.2
  have hval : ∀ (g : Heap T), g.cell = h.cell → ∀ y,
      (y ∈ a.head_ :: xs.map Prod.fst ∨ y ∈ o.head_ :: zs.map Prod.fst) → g.valid y = true := by
    intro g hg y hy
    have := (hS y hy).1
    unfold Heap.valid at this ⊢
    rw [hg]
    exact this
  have hp := (h1S _ hA).1
  have hq := (h1S _ hO).1
  -- after `std::swap(head_.next->prev, other.head_.next->prev)`
  generalize hh2 : ((h1.setPrev (h1.next a.head_) (h1.prev (h1.next o.head_))).setPrev
    (h1.next o.head_) (h1.prev (h1.next a.head_))) = h2
  have h2c : h2.cell = h.cell := by rw [← hh2]; exact h1c
  have h2S : ∀ y, (y ∈ a.head_ :: xs.map Prod.fst ∨ y ∈ o.head_ :: zs.map Prod.fst) →
      (h2.prev y ∈ a.head_ :: xs.map Prod.fst ∨ h2.prev y ∈ o.head_ :: zs.map Prod.fst) := by
    intro y hy
    rw [← hh2]
    simp only [Heap.setNext, Heap.setPrev]
    split
    · exact (h1S _ hp).2
    · split
      · exact (h1S _ hq).2
      · exact (h1S y hy).2
  have hr := h2S _ hA
  have hs := h2S _ hO
  unfold swap
  simp only [hh1]
  rw [if_pos ⟨hval h1 h1c _ hp, hval h1 h1c _ hq⟩]
  simp only [hh2]
  rw [if_pos ⟨hval h2 h2c _ hr, hval h2 h2c _ hs⟩]
  refine ⟨_, rfl, ?_, ?_, ?_, ?_, ?_, ?_⟩
  · exact h2c
  · rw [← hh2, ← hh1]; rfl
  · rw [← hh2, ← hh1]; rfl
  · rw [← hh2, ← hh1]; rfl
  · rw [← hh2, ← hh1]; rfl
  · rw [← hh2, ← hh1]; rfl

theorem emplace_ok_alloc (l : LinkedList A) (h : Heap T) (it : Nat) (c : Option T)
    (s : Heap T × LinkedList A) (he : l.emplace h it c = .ok s) :
    s.2.alloc = l.alloc ∧ s.2.node_allocator_ = l.node_allocator_ ∧ s.2.head_ = l.head_ := by
  unfold emplace at he
  cases c with
  | none => simp at he
  | some v =>
    simp only [] at he
    split at he
    · injection he with he
      rw [← he]
      exact ⟨rfl, rfl, rfl⟩
    · simp at he

/-- The copy loop leaves the allocators of the destination as they were. -/
theorem copy_loop_alloc (stop : Nat) (copy : Nat → T → Option T) :
    ∀ (fuel : Nat) (l : LinkedList A) (h : Heap T) (cur i : Nat)
      (s : Heap T × LinkedList A × Nat),
    (copy_loop l h stop copy fuel cur i = .ok s ∨ copy_loop l h stop copy fuel cur i = .throw s) →
    s.2.1.alloc = l.alloc ∧ s.2.1.node_allocator_ = l.node_allocator_ ∧ s.2.1.head_ = l.head_
  | 0, l, h, cur, i, s, he => by
    unfold copy_loop at he
    split at he
    · rcases he with he | he
      · injection he with he
        rw [← he]
        exact ⟨rfl, rfl, rfl⟩
      · simp at he
    · simp at he
  | fuel + 1, l, h, cur, i, s, he => by
    rw [copy_loop_succ] at he
    split at he
    · rcases he with he | he
      · injection he with he
        rw [← he]
        exact ⟨rfl, rfl, rfl⟩
      · simp at he
    · split at he
      · rename_i v hv
        cases hp : l.push_back h (copy i v) with
        | ok s1 =>
          rw [hp] at he
          simp only [] at he
          obtain ⟨a1, a2, a3⟩ := copy_loop_alloc stop copy fuel s1.2 s1.1 _ _ s he
          obtain ⟨b1, b2, b3⟩ := emplace_ok_alloc l h _ _ s1 hp
          exact ⟨a1.trans b1, a2.trans b2, a3.trans b3⟩
        | throw s1 =>
          rw [hp] at he
          simp only [] at he
          rcases he with he | he
          · simp at he
          · injection he with he
            rw [← he]
            -- `emplace` hands the list back unchanged when the constructor throws
            unfold push_back insert emplace at hp
            cases hc : copy i v with
            | none =>
              rw [hc] at hp
              simp only [] at hp
              injection hp with hp
              rw [← hp]
              exact ⟨rfl, rfl, rfl⟩
            | some w =>
              rw [hc] at hp
              simp only [] at hp
              split at hp <;> simp at hp
        | ub =>
          rw [hp] at he
          simp at he
      · simp at he

/-- A ring of at least one node, moved under a new head object `A`. -/
theorem seg_rehead {h h3 : Heap T} (A O : Nat) (z : Nat × T) (zs : List (Nat × T))
    (hs : Seg h O (z :: zs) O) (hnd : (O :: (z :: zs).map Prod.fst).Nodup)
    (hc : ∀ y, y ∈ (z :: zs).map Prod.fst → h3.cell y = h.cell y)
    (e1 : h3.next A = z.1) (e2 : h3.prev z.1 = A)
    (e3 : h3.next (lastAddr O (z :: zs)) = A) (e4 : h3.prev A = lastAddr O (z :: zs))
    (hn : ∀ y, y ∈ (z :: zs).map Prod.fst → y ≠ lastAddr O (z :: zs) → h3.next y = h.next y)
    (hp : ∀ y, y ∈ zs.map Prod.fst → h3.prev y = h.prev y) :
    Seg h3 A (z :: zs) A := by
  refine ⟨e1, e2, (hc z.1 (by simp)).trans hs.2.2.1, ?_⟩
  have hnd' : (z.1 :: zs.map Prod.fst).Nodup := by
    simpa using (List.nodup_cons.mp hnd).2
  exact seg_retarget A zs z.1 O hs.2.2.2 hnd' e3 e4
    (fun y hy hne => hn y (by simpa using hy) hne) hp
    (fun y hy => hc y (List.mem_cons.mpr (Or.inr hy)))

/-- The facts about the ends of a ring of at least one node. -/
theorem Repr.ends {h : Heap T} {l : LinkedList A} {x : Nat × T} {xs : List (Nat × T)}
    (hr : Repr h l (x :: xs)) :
    h.next l.head_ = x.1 ∧ h.prev x.1 = l.head_ ∧
    h.prev l.head_ = lastAddr l.head_ (x :: xs) ∧
    h.next (lastAddr l.head_ (x :: xs)) = l.head_ ∧
    lastAddr l.head_ (x :: xs) ∈ (x :: xs).map Prod.fst ∧
    l.head_ ∉ (x :: xs).map Prod.fst := by
  refine ⟨hr.seg.1, hr.seg.2.1, (seg_last _ _ _ hr.seg).1, (seg_last _ _ _ hr.seg).2, ?_,
    (List.nodup_cons.mp hr.nodup).1⟩
  have := lastAddr_mem xs x.1
  simpa [lastAddr] using this

/-- `swap` between two represented lists that both hold elements exchanges
the two rings: each object then owns the nodes the other owned. -/
theorem swap_nonempty (a o : LinkedList A) (h : Heap T) (x : Nat × T) (xs : List (Nat × T))
    (z : Nat × T) (zs : List (Nat × T))
    (hra : Repr h a (x :: xs)) (hro : Repr h o (z :: zs))
    (hd : ∀ y, y ∈ a.head_ :: (x :: xs).map Prod.fst →
      y ∉ o.head_ :: (z :: zs).map Prod.fst) :
    ∃ h3, a.swap o h = some (h3,
        { a with alloc := o.alloc, size_ := o.size_, node_allocator_ := o.node_allocator_ },
        { o with alloc := a.alloc, size_ := a.size_, node_allocator_ := a.node_allocator_ }) ∧
      (∀ a2 : LinkedList A, a2.head_ = a.head_ → a2.size_ = o.size_ → Repr h3 a2 (z :: zs)) ∧
      (∀ o2 : LinkedList A, o2.head_ = o.head_ → o2.size_ = a.size_ → Repr h3 o2 (x :: xs)) ∧
      h3.cell = h.cell ∧ h3.brk = h.brk ∧ h3.allocs = h.allocs ∧ h3.deallocs = h.deallocs ∧
      h3.ctors = h.ctors ∧ h3.dtors = h.dtors ∧
      (∀ y, y ∉ a.head_ :: (x :: xs).map Prod.fst → y ∉ o.head_ :: (z :: zs).map Prod.fst →
        h3.next y = h.next y ∧ h3.prev y = h.prev y) := by
  obtain ⟨a1, a2, a3, a4, a5, a6⟩ := hra.ends
  obtain ⟨o1, o2, o3, o4, o5, o6⟩ := hro.ends
  generalize hla : lastAddr a.head_ (x :: xs) = la at a3 a4 a5
  generalize hlz : lastAddr o.head_ (z :: zs) = lz at o3 o4 o5
  -- the addresses involved are pairwise distinct
  have dA : ∀ y, y ∈ (x :: xs).map Prod.fst →
      y ≠ a.head_ ∧ y ≠ o.head_ ∧ y ∉ (z :: zs).map Prod.fst := by
    intro y hy
    have := hd y (List.mem_cons.mpr (Or.inr hy))
    refine ⟨?_, ?_, ?_⟩
    · intro e; rw [e] at hy; exact a6 hy
    · intro e; apply this; rw [e]; exact List.mem_cons_self _ _
    · intro hm; exact this (List.mem_cons.mpr (Or.inr hm))
  have hAO : a.head_ ≠ o.head_ := by
    intro e
    apply hd a.head_ (List.mem_cons_self _ _)
    rw [e]; exact List.mem_cons_self _ _
  have dO : ∀ y, y ∈ (z :: zs).map Prod.fst → y ≠ o.head_ ∧ y ≠ a.head_ := by
    intro y hy
    refine ⟨?_, ?_⟩
    · intro e; rw [e] at hy; exact o6 hy
    · intro e; rw [e] at hy
      exact hd a.head_ (List.mem_cons_self _ _) (List.mem_cons.mpr (Or.inr hy))
  have dAO : ∀ y w, y ∈ (x :: xs).map Prod.fst → w ∈ (z :: zs).map Prod.fst → y ≠ w := by
    intro y w hy hw e
    rw [e] at hy
    exact (dA w hy).2.2 hw
  have hx : x.1 ∈ (x :: xs).map Prod.fst := by simp
  have hz : z.1 ∈ (z :: zs).map Prod.fst := by simp
  -- after `std::swap(head_, other.head_)`
  generalize hh1 : ((((h.setNext a.head_ (h.next o.head_)).setPrev a.head_
    (h.prev o.head_)).setNext o.head_ (h.next a.head_)).setPrev o.head_
    (h.prev a.head_)) = h1
  have h1c : h1.cell = h.cell := by rw [← hh1]; rfl
  have h1n : ∀ y, h1.next y =
      if y = o.head_ then x.1 else if y = a.head_ then z.1 else h.next y := by
    intro y
    rw [← hh1]
    show (if y = o.head_ then h.next a.head_ else if y = a.head_ then h.next o.head_
      else h.next y) = _
    rw [a1, o1]
  have h1p : ∀ y, h1.prev y =
      if y = o.head_ then la else if y = a.head_ then lz else h.prev y := by
    intro y
    rw [← hh1]
    show (if y = o.head_ then h.prev a.head_ else if y = a.head_ then h.prev o.head_
      else h.prev y) = _
    rw [a3, o3]
  have hp : h1.next a.head_ = z.1 := by rw [h1n, if_neg hAO, if_pos rfl]
  have hq : h1.next o.head_ = x.1 := by rw [h1n, if_pos rfl]
  have hpp : h1.prev z.1 = o.head_ := by
    rw [h1p, if_neg (dO _ hz).1, if_neg (dO _ hz).2, o2]
  have hpq : h1.prev x.1 = a.head_ := by
    rw [h1p, if_neg (dA _ hx).2.1, if_neg (dA _ hx).1, a2]
  -- after `std::swap(head_.next->prev, other.head_.next->prev)`
  generalize hh2 : ((h1.setPrev (h1.next a.head_) (h1.prev (h1.next o.head_))).setPrev
    (h1.next o.head_) (h1.prev (h1.next a.head_))) = h2
  have h2c : h2.cell = h.cell := by rw [← hh2]; exact h1c
  have h2n : h2.next = h1.next := by rw [← hh2]; rfl
  have h2p : ∀ y, h2.prev y =
      if y = x.1 then o.head_ else if y = z.1 then a.head_ else h1.prev y := by
    intro y
    rw [← hh2]
    show (if y = h1.next o.head_ then h1.prev (h1.next a.head_)
      else if y = h1.next a.head_ then h1.prev (h1.next o.head_) else h1.prev y) = _
    rw [hp, hq, hpp, hpq]
  have hr : h2.prev a.head_ = lz := by
    rw [h2p, if_neg (Ne.symm (dA _ hx).1), if_neg (Ne.symm (dO _ hz).2), h1p, if_neg hAO,
      if_pos rfl]
  have hs : h2.prev o.head_ = la := by
    rw [h2p, if_neg (Ne.symm (dA _ hx).2.1), if_neg (Ne.symm (dO _ hz).1), h1p, if_pos rfl]
  have hnr : h2.next lz = o.head_ := by
    rw [h2n, h1n, if_neg (dO _ o5).1, if_neg (dO _ o5).2, o4]
  have hns : h2.next la = a.head_ := by
    rw [h2n, h1n, if_neg (dA _ a5).2.1, if_neg (dA _ a5).1, a4]
  -- after `std::swap(head_.prev->next, other.head_.prev->next)`
  generalize hh3 : ((h2.setNext (h2.prev a.head_) (h2.next (h2.prev o.head_))).setNext
    (h2.prev o.head_) (h2.next (h2.prev a.head_))) = h3
  have h3c : h3.cell = h.cell := by rw [← hh3]; exact h2c
  have h3p : h3.prev = h2.prev := by rw [← hh3]; rfl
  have h3b : h3.brk = h.brk := by rw [← hh3, ← hh2, ← hh1]; rfl
  have h3n : ∀ y, h3.next y =
      if y = la then o.head_ else if y = lz then a.head_ else h1.next y := by
    intro y
    rw [← hh3]
    show (if y = h2.prev o.head_ then h2.next (h2.prev a.head_)
      else if y = h2.prev a.head_ then h2.next (h2.prev o.head_) else h2.next y) = _
    rw [hr, hs, hnr, hns, h2n]
  have hval : ∀ (g : Heap T), g.cell = h.cell → ∀ y, h.valid y = true → g.valid y = true := by
    intro g hg y hy
    unfold Heap.valid at hy ⊢
    rw [hg]
    exact hy
  have vA : ∀ y, y ∈ (x :: xs).map Prod.fst → h.valid y = true :=
    fun y hy => hra.valid y (List.mem_cons.mpr (Or.inr hy))
  have vO : ∀ y, y ∈ (z :: zs).map Prod.fst → h.valid y = true :=
    fun y hy => hro.valid y (List.mem_cons.mpr (Or.inr hy))
  refine ⟨h3, ?_, ?_, ?_, h3c, h3b, ?_, ?_, ?_, ?_, ?_⟩
  · unfold swap
    simp only [hh1]
    rw [if_pos ⟨by rw [hp]; exact hval h1 h1c _ (vO _ hz),
      by rw [hq]; exact hval h1 h1c _ (vA _ hx)⟩]
    simp only [hh2]
    rw [if_pos ⟨by rw [hr]; exact hval h2 h2c _ (vO _ o5),
      by rw [hs]; exact hval h2 h2c _ (vA _ a5)⟩]
    simp only [hh3]
  · intro l2 e1 e2
    refine ⟨?_, ?_, ?_, ?_, e2.trans hro.size⟩
    · rw [h3c, e1]; exact hra.head
    · rw [e1]
      refine seg_rehead a.head_ o.head_ z zs hro.seg hro.nodup
        (fun y _ => by rw [h3c]) ?_ ?_ ?_ ?_ ?_ ?_
      · rw [h3n, if_neg (Ne.symm (dA _ a5).1), if_neg (Ne.symm (dO _ o5).2), hp]
      · rw [h3p, h2p, if_neg (Ne.symm (dAO _ _ hx hz)), if_pos rfl]
      · rw [hlz, h3n, if_neg (Ne.symm (dAO _ _ a5 o5)), if_pos rfl]
      · rw [hlz, h3p, hr]
      · intro y hy hne
        rw [hlz] at hne
        rw [h3n, if_neg (Ne.symm (dAO _ _ a5 hy)), if_neg hne, h1n, if_neg (dO _ hy).1,
          if_neg (dO _ hy).2]
      · intro y hy
        have hy' : y ∈ (z :: zs).map Prod.fst := List.mem_cons.mpr (Or.inr hy)
        have hyz : y ≠ z.1 := by
          intro e
          have := (List.nodup_cons.mp (List.nodup_cons.mp hro.nodup).2).1
          rw [e] at hy
          exact this hy
        rw [h3p, h2p, if_neg (Ne.symm (dAO _ _ hx hy')), if_neg hyz, h1p, if_neg (dO _ hy').1,
          if_neg (dO _ hy').2]
    · rw [e1]
      exact List.nodup_cons.mpr ⟨fun hm => (dO _ hm).2 rfl, (List.nodup_cons.mp hro.nodup).2⟩
    · intro y hy
      rw [h3b]
      rcases List.mem_cons.mp hy with e | hy
      · rw [e, e1]; exact hra.below _ (List.mem_cons_self _ _)
      · exact hro.below _ (List.mem_cons.mpr (Or.inr hy))
  · intro l2 e1 e2
    refine ⟨?_, ?_, ?_, ?_, e2.trans hra.size⟩
    · rw [h3c, e1]; exact hro.head
    · rw [e1]
      refine seg_rehead o.head_ a.head_ x xs hra.seg hra.nodup
        (fun y _ => by rw [h3c]) ?_ ?_ ?_ ?_ ?_ ?_
      · rw [h3n, if_neg (Ne.symm (dA _ a5).2.1), if_neg (Ne.symm (dO _ o5).1), h1n, if_pos rfl]
      · rw [h3p, h2p, if_pos rfl]
      · rw [hla, h3n, if_pos rfl]
      · rw [hla, h3p, hs]
      · intro y hy hne
        rw [hla] at hne
        rw [h3n, if_neg hne, if_neg (dAO _ _ hy o5), h1n, if_neg (dA _ hy).2.1,
          if_neg (dA _ hy).1]
      · intro y hy
        have hy' : y ∈ (x :: xs).map Prod.fst := List.mem_cons.mpr (Or.inr hy)
        have hyx : y ≠ x.1 := by
          intro e
          have := (List.nodup_cons.mp (List.nodup_cons.mp hra.nodup).2).1
          rw [e] at hy
          exact this hy
        rw [h3p, h2p, if_neg hyx, if_neg (dAO _ _ hy' hz), h1p, if_neg (dA _ hy').2.1,
          if_neg (dA _ hy').1]
    · rw [e1]
      exact List.nodup_cons.mpr ⟨fun hm => (dA _ hm).2.1 rfl, (List.nodup_cons.mp hra.nodup).2⟩
    · intro y hy
      rw [h3b]
      rcases List.mem_cons.mp hy with e | hy
      · rw [e, e1]; exact hro.below _ (List.mem_cons_self _ _)
      · exact hra.below _ (List.mem_cons.mpr (Or.inr hy))
  · rw [← hh3, ← hh2, ← hh1]; rfl
  · rw [← hh3, ← hh2, ← hh1]; rfl
  · rw [← hh3, ← hh2, ← hh1]; rfl
  · rw [← hh3, ← hh2, ← hh1]; rfl
  · intro y hyA hyO
    have n1 : y ≠ a.head_ := fun e => hyA (by rw [e]; exact List.mem_cons_self _ _)
    have n2 : y ≠ o.head_ := fun e => hyO (by rw [e]; exact List.mem_cons_self _ _)
    have n3 : ∀ w, w ∈ (x :: xs).map Prod.fst → y ≠ w :=
      fun w hw e => hyA (by rw [e]; exact List.mem_cons.mpr (Or.inr hw))
    have n4 : ∀ w, w ∈ (z :: zs).map Prod.fst → y ≠ w :=
      fun w hw e => hyO (by rw [e]; exact List.mem_cons.mpr (Or.inr hw))
    refine ⟨?_, ?_⟩
    · rw [h3n, if_neg (n3 _ a5), if_neg (n4 _ o5), h1n, if_neg n2, if_neg n1]
    · rw [h3p, h2p, if_neg (n3 _ hx), if_neg (n4 _ hz), h1p, if_neg n2, if_neg n1]

theorem copy_loop_at_stop (l : LinkedList A) (h : Heap T) (stop : Nat)
    (copy : Nat → T → Option T) (fuel i : Nat) :
    copy_loop l h stop copy fuel stop i = .ok (h, l, i) := by
  cases fuel with
  | zero => unfold copy_loop; rw [if_pos rfl]
  | succ f => rw [copy_loop_succ, if_pos rfl]

/-- The copy loop run to its end on a freshly built list: every node of the
source gets a copy, the new list is represented, and nothing below the old
frontier is touched. -/
theorem copy_all (h : Heap T) (al : A) (other : LinkedList A) (ys : List (Nat × T))
    (copy : Nat → T → Option T) (fuel : Nat)
    (hro : Repr h other ys) (hcopy : ∀ j v, (copy j v).isSome = true)
    (hfuel : ys.length ≤ fuel) (hys : ys.length < SIZE_MOD) :
    ∃ h1 l1 new, copy_loop (ctor_alloc h al).2 (ctor_alloc h al).1 other.end_ copy fuel
        (other.begin (ctor_alloc h al).1) 0 = .ok (h1, l1, ys.length) ∧
      Repr h1 l1 new ∧ new.length = ys.length ∧
      (∀ j y, ys[j]? = some y → (new[j]?).map Prod.snd = copy j y.2) ∧
      l1.head_ = h.brk ∧ l1.alloc = al ∧ l1.node_allocator_ = al ∧
      new.map Prod.fst = List.range' (h.brk + 1) ys.length ∧
      h1.brk = h.brk + 1 + ys.length ∧
      h1.allocs = h.allocs + ys.length ∧ h1.deallocs = h.deallocs ∧
      h1.ctors = h.ctors + ys.length ∧ h1.dtors = h.dtors ∧
      (∀ y, y < h.brk →
        h1.next y = h.next y ∧ h1.prev y = h.prev y ∧ h1.cell y = h.cell y) := by
  have hr0 := ctor_alloc_repr h al
  have ha0 : (ctor_alloc h al).2.alloc = al := rfl
  have hna0 : (ctor_alloc h al).2.node_allocator_ = al := rfl
  have hal0 : (ctor_alloc h al).1.allocs = h.allocs := rfl
  have hde0 : (ctor_alloc h al).1.deallocs = h.deallocs := rfl
  have hct0 : (ctor_alloc h al).1.ctors = h.ctors := rfl
  have hdt0 : (ctor_alloc h al).1.dtors = h.dtors := rfl
  generalize hs0 : ctor_alloc h al = s0 at hr0 ha0 hna0 hal0 hde0 hct0 hdt0
  have hc0 : ∀ y, y ≠ h.brk → s0.1.cell y = h.cell y := by
    intro y hy
    rw [← hs0]
    simp [ctor_alloc, Heap.setCell, Heap.setNext, Heap.setPrev, Heap.allocate, Heap.deallocate, hy]
  have hn0 : ∀ y, y ≠ h.brk → s0.1.next y = h.next y := by
    intro y hy
    rw [← hs0]
    simp [ctor_alloc, Heap.setCell, Heap.setNext, Heap.setPrev, Heap.allocate, Heap.deallocate, hy]
  have hp0 : ∀ y, y ≠ h.brk → s0.1.prev y = h.prev y := by
    intro y hy
    rw [← hs0]
    simp [ctor_alloc, Heap.setCell, Heap.setNext, Heap.setPrev, Heap.allocate, Heap.deallocate, hy]
  have hb0 : s0.1.brk = h.brk + 1 := by rw [← hs0]; rfl
  have hhd : s0.2.head_ = h.brk := by rw [← hs0]; rfl
  have hstop : other.head_ ∉ (ys ++ []).map Prod.fst := by
    rw [List.append_nil]; exact (List.nodup_cons.mp hro.nodup).1
  have hsf : SegFrom s0.1 (ys ++ []) other.head_ := by
    rw [List.append_nil]
    apply segFrom_frame (SegFrom.of_seg hro.seg)
    intro y hy
    have := hro.below y hy
    exact ⟨hn0 y (by omega), hp0 y (by omega), hc0 y (by omega)⟩
  have hbegin : other.begin s0.1 = firstAddr (ys ++ []) other.head_ := by
    show s0.1.next other.head_ = _
    rw [hn0 _ (by have := hro.below other.head_ (List.mem_cons_self _ _); omega),
      List.append_nil]
    exact seg_first _ _ _ hro.seg
  obtain ⟨h1, l1, new, he1, hr1, hnew, hval, -, hh1, ha1, hna1, hb1, hal1, hde1, hct1, hdt1,
      hfr1⟩ :=
    copy_prefix copy other.head_ ys [] s0.1 s0.2 [] 0 fuel hr0 hsf hstop
      (by
        intro y hy
        rw [List.append_nil] at hy
        have := hro.below y hy
        refine ⟨?_, by omega⟩
        rw [hhd]
        simp only [List.map_nil, List.mem_singleton]
        omega)
      (fun j v _ _ => hcopy j v) (by simp; omega) hfuel
  simp only [List.nil_append, Nat.zero_add] at hr1 hfr1 he1 hval
  have he2 : copy_loop s0.2 s0.1 other.head_ copy fuel (firstAddr (ys ++ []) other.head_) 0
      = .ok (h1, l1, ys.length) :=
    he1.trans (copy_loop_at_stop l1 h1 other.head_ copy (fuel - ys.length) ys.length)
  have hlen1 : new.length = ys.length := by
    have := congrArg List.length hnew
    simpa using this
  refine ⟨h1, l1, new, ?_, hr1, hlen1, hval, hh1.trans hhd, ha1.trans ha0, hna1.trans hna0,
    ?_, ?_, ?_, ?_, ?_, ?_, ?_⟩
  · rw [hbegin]; exact he2
  · rw [hnew, hb0]
  · rw [hb1, hb0]
  · rw [hal1, hal0]
  · rw [hde1, hde0]
  · rw [hct1, hct0]
  · rw [hdt1, hdt0]
  · intro y hy
    have hm : y ∉ s0.2.head_ :: new.map Prod.fst := by
      rw [List.mem_cons, hnew, hhd, hb0, List.mem_range'_1]
      omega
    obtain ⟨b1, b2, b3⟩ := hfr1 y hm
    rw [b1, b2, b3, hn0 y (by omega), hp0 y (by omega), hc0 y (by omega)]
    exact ⟨rfl, rfl, rfl⟩

/-- The copy constructor returns when the copies do not throw and the loop
has fuel for the nodes of the source; the new list is represented, holds as
many nodes as the source, and carries the allocator selected by the traits;
the source is as it was. -/
theorem ctor_copy_ok (tr : AllocTraits A) (h : Heap T) (other : LinkedList A)
    (ys : List (Nat × T)) (copy : Nat → T → Option T) (fuel : Nat)
    (hro : Repr h other ys) (hcopy : ∀ j v, (copy j v).isSome = true)
    (hfuel : ys.length ≤ fuel) (hys : ys.length < SIZE_MOD) :
    ∃ h' l' new, ctor_copy tr h other copy fuel = .ok (h', l') ∧
      Repr h' l' new ∧ new.length = ys.length ∧ Repr h' other ys ∧
      l'.alloc = tr.select_on_container_copy_construction other.alloc ∧
      l'.node_allocator_ = tr.select_on_container_copy_construction other.alloc ∧
      (∀ j y, ys[j]? = some y → (new[j]?).map Prod.snd = copy j y.2) ∧
      l'.head_ = h.brk ∧ new.map Prod.fst = List.range' (h.brk + 1) ys.length ∧
      h'.brk = h.brk + 1 + ys.length ∧
      h'.ctors = h.ctors + ys.length ∧ h'.dtors = h.dtors := by
  obtain ⟨h1, l1, new, he, hr1, hlen, hval, hh1, ha1, hna1, hnew, hb1, -, -, hct, hdt, hfr⟩ :=
    copy_all h (tr.select_on_container_copy_construction other.alloc) other ys copy fuel
      hro hcopy hfuel hys
  refine ⟨h1, l1, new, ?_, hr1, hlen, ?_, ha1, hna1, hval, hh1, hnew, hb1, hct, hdt⟩
  · unfold ctor_copy
    simp only [he]
  · apply hro.frame
    · intro y hy
      exact hfr y (hro.below y hy)
    · omega

/-- The copy-assignment `a = b` returns when `a` is empty or `b` is not, the
copies do not throw and the loop has fuel for the nodes of `b` (`b` may be
`a` itself). -/
theorem assign_returns (tr : AllocTraits A) (a b : LinkedList A) (h : Heap T)
    (xs ys : List (Nat × T)) (copy : Nat → T → Option T) (fuel : Nat)
    (hra : Repr h a xs) (hrb : Repr h b ys) (hcase : xs = [] ∨ ys ≠ [])
    (hcopy : ∀ j v, (copy j v).isSome = true) (hfuel : ys.length ≤ fuel)
    (hxs : xs.length < SIZE_MOD) (hys : ys.length < SIZE_MOD) :
    ∃ h' a', assign tr a h b copy fuel = .ok (h', a') := by
  generalize hal : (if tr.propagate_on_container_copy_assignment then get_allocator b
      else get_allocator a) = al
  have hr0 := ctor_alloc_repr h al
  generalize hs0 : ctor_alloc h al = s0 at hr0
  have hc0 : ∀ y, y ≠ h.brk → s0.1.cell y = h.cell y := by
    intro y hy
    rw [← hs0]
    simp [ctor_alloc, Heap.setCell, Heap.setNext, Heap.setPrev, Heap.allocate, Heap.deallocate, hy]
  have hn0 : ∀ y, y ≠ h.brk → s0.1.next y = h.next y := by
    intro y hy
    rw [← hs0]
    simp [ctor_alloc, Heap.setCell, Heap.setNext, Heap.setPrev, Heap.allocate, Heap.deallocate, hy]
  have hp0 : ∀ y, y ≠ h.brk → s0.1.prev y = h.prev y := by
    intro y hy
    rw [← hs0]
    simp [ctor_alloc, Heap.setCell, Heap.setNext, Heap.setPrev, Heap.allocate, Heap.deallocate, hy]
  have hb0 : s0.1.brk = h.brk + 1 := by rw [← hs0]; rfl
  have hhd : s0.2.head_ = h.brk := by rw [← hs0]; rfl
  -- the source ring
  have hstop : b.head_ ∉ (ys ++ []).map Prod.fst := by
    rw [List.append_nil]; exact (List.nodup_cons.mp hrb.nodup).1
  have hsf : SegFrom s0.1 (ys ++ []) b.head_ := by
    rw [List.append_nil]
    apply segFrom_frame (SegFrom.of_seg hrb.seg)
    intro y hy
    have := hrb.below y hy
    exact ⟨hn0 y (by omega), hp0 y (by omega), hc0 y (by omega)⟩
  have hbegin : b.begin s0.1 = firstAddr (ys ++ []) b.head_ := by
    show s0.1.next b.head_ = _
    rw [hn0 _ (by have := hrb.below b.head_ (List.mem_cons_self _ _); omega), List.append_nil]
    exact seg_first _ _ _ hrb.seg
  obtain ⟨h1, l1, new, he1, hr1, hnew, -, -, hh1, -, -, hb1, -, -, -, -, hfr1⟩ :=
    copy_prefix copy b.head_ ys [] s0.1 s0.2 [] 0 fuel hr0 hsf hstop
      (by
        intro y hy
        rw [List.append_nil] at hy
        have := hrb.below y hy
        refine ⟨?_, by omega⟩
        rw [hhd]
        simp only [List.map_nil, List.mem_singleton]
        omega)
      (fun j v _ _ => hcopy j v) (by simp; omega) hfuel
  simp only [List.nil_append, Nat.zero_add] at hr1 hfr1 he1
  have he2 : copy_loop s0.2 s0.1 b.head_ copy fuel (firstAddr (ys ++ []) b.head_) 0
      = .ok (h1, l1, ys.length) :=
    he1.trans (copy_loop_at_stop l1 h1 b.head_ copy (fuel - ys.length) ys.length)
  have hlen1 : new.length = ys.length := by
    have := congrArg List.length hnew
    simpa using this
  have hmem : ∀ y, y ∈ l1.head_ :: new.map Prod.fst ↔ h.brk ≤ y ∧ y < h.brk + 1 + ys.length := by
    intro y
    rw [List.mem_cons, hnew, hh1, hhd, hb0, List.mem_range'_1]
    omega
  -- the ring of `a` was not touched
  have hra1 : Repr h1 a xs := by
    apply hra.frame
    · intro y hy
      have hlt := hra.below y hy
      have hm : y ∉ l1.head_ :: new.map Prod.fst := by
        rw [hmem]; omega
      obtain ⟨b1, b2, b3⟩ := hfr1 y (by rw [← hh1]; exact hm)
      rw [b1, b2, b3, hn0 y (by omega), hp0 y (by omega), hc0 y (by omega)]
      exact ⟨rfl, rfl, rfl⟩
    · rw [hb1, hb0]; omega
  cases xs with
  | nil =>
    obtain ⟨h3, hsw, -⟩ := swap_some a l1 h1 [] new hra1 hr1
    have hsz : a.size_ = 0 := hra.size
    unfold assign
    simp only [hal, hs0, hbegin, end_, he2, hsw, dtor, hsz, destroy, Option.map_some']
    exact ⟨_, _, rfl⟩
  | cons x xs =>
    have hyne : ys ≠ [] := by
      rcases hcase with e | e
      · simp at e
      · exact e
    obtain ⟨z, zs, hnz⟩ : ∃ z zs, new = z :: zs := by
      cases new with
      | nil =>
        exfalso
        apply hyne
        apply List.eq_nil_of_length_eq_zero
        rw [← hlen1]; rfl
      | cons z zs => exact ⟨z, zs, rfl⟩
    rw [hnz] at hr1
    have hd : ∀ y, y ∈ a.head_ :: (x :: xs).map Prod.fst →
        y ∉ l1.head_ :: (z :: zs).map Prod.fst := by
      intro y hy
      have hlt := hra.below y hy
      rw [← hnz, hmem]
      omega
    obtain ⟨h3, hsw, -, hro3, -, hb3, -⟩ := swap_nonempty a l1 h1 x xs z zs hra1 hr1 hd
    obtain ⟨h4, hdt, -⟩ := dtor_repr h3 _ (x :: xs) (hro3
      { l1 with alloc := a.alloc, size_ := a.size_, node_allocator_ := a.node_allocator_ }
      rfl rfl) hxs
    unfold assign
    simp only [hal, hs0, hbegin, end_, he2, hsw, hdt]
    exact ⟨_, _, rfl⟩

/-- C8: whenever the copy-assignment `a = b` returns, the allocator of `a` is
the allocator of `b` if the allocator type propagates on container copy
assignment, and the allocator `a` held before otherwise; both the `Alloc`
base and `node_allocator_` follow this rule, and `a` stays the same object.
And the assignment does return when `a` is empty or `b` is not, the element
copies do not throw, and the loop has fuel for the nodes of `b`. -/
theorem C8_assign_allocator_propagation (tr : AllocTraits A) (a b : LinkedList A)
    (h : Heap T) (copy : Nat → T → Option T) (fuel : Nat) :
    (∀ (h' : Heap T) (a' : LinkedList A), assign tr a h b copy fuel = .ok (h', a') →
      (tr.propagate_on_container_copy_assignment = true →
        get_allocator a' = get_allocator b) ∧
      (tr.propagate_on_container_copy_assignment = false →
        get_allocator a' = get_allocator a) ∧
      a'.node_allocator_ = (if tr.propagate_on_container_copy_assignment then get_allocator b
        else get_allocator a) ∧
      a'.head_ = a.head_) ∧
    (∀ xs ys : List (Nat × T), Repr h a xs → Repr h b ys → (xs = [] ∨ ys ≠ []) →
      (∀ j v, (copy j v).isSome = true) → ys.length ≤ fuel →
      xs.length < SIZE_MOD → ys.length < SIZE_MOD →
      ∃ h' a', assign tr a h b copy fuel = .ok (h', a')) := by
  refine ⟨?_, fun xs ys hra hrb hcase hcopy hfuel hxs hys =>
    assign_returns tr a b h xs ys copy fuel hra hrb hcase hcopy hfuel hxs hys⟩
  intro h' a' hret
  unfold assign at hret
  simp only [] at hret
  split at hret
  · rename_i s hs
    obtain ⟨c1, c2, c3⟩ := copy_loop_alloc _ _ _ _ _ _ _ s (Or.inl hs)
    split at hret
    · simp at hret
    · rename_i s1 hsw
      split at hret
      · simp at hret
      · injection hret with hret
        injection hret with _ hret
        -- the object handed back is `self` after `swap`: it carries the allocators of `another`
        unfold swap at hsw
        simp only [] at hsw
        split at hsw
        · split at hsw
          · injection hsw with hsw
            rw [← hret, ← hsw]
            refine ⟨?_, ?_, ?_, rfl⟩
            · intro hp
              show s.2.1.alloc = _
              rw [c1]
              simp [ctor_alloc, hp, get_allocator]
            · intro hp
              show s.2.1.alloc = _
              rw [c1]
              simp [ctor_alloc, hp, get_allocator]
            · show s.2.1.node_allocator_ = _
              rw [c2]
              simp [ctor_alloc, get_allocator]
          · simp at hsw
        · simp at hsw
  · split at hret <;> simp at hret
  · simp at hret

/-- C8 at `TestWhimsicalAllocator`: `lst` with allocator number 0, `copy` with
allocator number 1, both holding 1 and 2; `lst = copy` returns, with
propagation and without; and a self-assignment of an empty list returns. -/
theorem C8_assign_allocator_propagation_witness :
    (∃ h' a', assign ⟨id, true⟩ (whimsicalLst 0).2 (whimsicalCopy 0 1).1 (whimsicalCopy 0 1).2
        (fun _ v => some v) 2 = .ok (h', a') ∧ get_allocator a' = 1) ∧
    (∃ h' a', assign ⟨id, false⟩ (whimsicalLst 0).2 (whimsicalCopy 0 1).1 (whimsicalCopy 0 1).2
        (fun _ v => some v) 2 = .ok (h', a') ∧ get_allocator a' = 0) ∧
    (∃ h' a', assign ⟨id, true⟩ (ctor_alloc (Heap.empty Nat) (0 : NumberedAlloc)).2
        (ctor_alloc (Heap.empty Nat) (0 : NumberedAlloc)).1
        (ctor_alloc (Heap.empty Nat) (0 : NumberedAlloc)).2
        (fun _ v => some v) 0 = .ok (h', a')) :=
  ⟨⟨_, _, rfl, ((C8_assign_allocator_propagation ⟨id, true⟩ (whimsicalLst 0).2
      (whimsicalCopy 0 1).2 (whimsicalCopy 0 1).1 (fun _ v => some v) 2).1 _ _ rfl).1 rfl⟩,
   ⟨_, _, rfl, ((C8_assign_allocator_propagation ⟨id, false⟩ (whimsicalLst 0).2
      (whimsicalCopy 0 1).2 (whimsicalCopy 0 1).1 (fun _ v => some v) 2).1 _ _ rfl).2.1 rfl⟩,
   (C8_assign_allocator_propagation ⟨id, true⟩ _ _ _ (fun _ v => some v) 0).2 [] []
      (ctor_alloc_repr _ _) (ctor_alloc_repr _ _) (Or.inl rfl) (fun _ _ => rfl)
      (Nat.le_refl _) (by decide) (by decide)⟩

/-- C15: whenever the copy constructor returns, the allocator of the new
list (the `Alloc` base and `node_allocator_`) is
`select_on_container_copy_construction` applied to the allocator of the
source: the source's allocator when the policy hands its argument back, the
default-constructed allocator `d` when the policy returns `d`.  And the
constructor does return when the element copies do not throw and the loop
has fuel for the nodes of the source. -/
theorem C15_copy_constructor_allocator (tr : AllocTraits A) (h : Heap T)
    (other : LinkedList A) (copy : Nat → T → Option T) (fuel : Nat) :
    (∀ (h' : Heap T) (l' : LinkedList A), ctor_copy tr h other copy fuel = .ok (h', l') →
      get_allocator l'
        = tr.select_on_container_copy_construction (get_allocator other) ∧
      l'.node_allocator_ = tr.select_on_container_copy_construction (get_allocator other) ∧
      (tr.select_on_container_copy_construction = id →
        get_allocator l' = get_allocator other) ∧
      (∀ d : A, tr.select_on_container_copy_construction = (fun _ => d) →
        get_allocator l' = d)) ∧
    (∀ ys : List (Nat × T), Repr h other ys → (∀ j v, (copy j v).isSome = true) →
      ys.length ≤ fuel → ys.length < SIZE_MOD →
      ∃ h' l', ctor_copy tr h other copy fuel = .ok (h', l')) := by
  refine ⟨?_, ?_⟩
  · intro h' l' hret
    have key : l'.alloc = tr.select_on_container_copy_construction other.alloc ∧
        l'.node_allocator_ = tr.select_on_container_copy_construction other.alloc := by
      unfold ctor_copy at hret
      simp only [] at hret
      split at hret
      · rename_i s hs
        obtain ⟨c1, c2, -⟩ := copy_loop_alloc _ _ _ _ _ _ _ s (Or.inl hs)
        injection hret with hret
        injection hret with _ hret
        rw [← hret]
        exact ⟨c1, c2⟩
      · split at hret
        · simp at hret
        · split at hret <;> simp at hret
      · simp at hret
    refine ⟨key.1, key.2, ?_, ?_⟩
    · intro hid
      show l'.alloc = other.alloc
      rw [key.1, hid]
      rfl
    · intro d hd
      show l'.alloc = d
      rw [key.1, hd]
  · intro ys hro hcopy hfuel hys
    obtain ⟨h', l', -, he, -⟩ := ctor_copy_ok tr h other ys copy fuel hro hcopy hfuel hys
    exact ⟨h', l', he⟩

/-- C15 at `TestWhimsicalAllocator`: the copy of `lst` (allocator number 0)
under a policy that returns a new allocator, number 1, and under a policy
that hands the source's allocator back. -/
theorem C15_copy_constructor_allocator_witness :
    (∃ h' l', ctor_copy ⟨fun _ => 1, true⟩ (whimsicalLst 0).1 (whimsicalLst 0).2
        (fun _ v => some v) 2 = .ok (h', l') ∧ get_allocator l' = 1) ∧
    (∃ h' l', ctor_copy ⟨id, false⟩ (whimsicalLst 0).1 (whimsicalLst 0).2
        (fun _ v => some v) 2 = .ok (h', l') ∧ get_allocator l' = 0) :=
  ⟨⟨_, _, rfl, ((C15_copy_constructor_allocator ⟨fun _ => 1, true⟩ (whimsicalLst 0).1
      (whimsicalLst 0).2 (fun _ v => some v) 2).1 _ _ rfl).2.2.2 1 rfl⟩,
   ⟨_, _, rfl, ((C15_copy_constructor_allocator ⟨id, false⟩ (whimsicalLst 0).1
      (whimsicalLst 0).2 (fun _ v => some v) 2).1 _ _ rfl).2.2.1 rfl⟩⟩

/-- C16: on a represented list, with `it` the iterator at the first node of
`post` (`end()` when `post` is empty; it is where `pre.length` steps from
`begin()` lead), `insert(it, v)` returns, `size()` has grown by 1, the
iteration reads `pre, v, post`, and `it` still refers to the same element:
every node of `post` is where it was and `it` is now reached by one step
more.  A second `insert(it, w)` then yields `pre, v, w, post`. -/
theorem C16_insert_before_iterator (h : Heap T) (l : LinkedList A)
    (pre post : List (Nat × T)) (v w : T)
    (hr : Repr h l (pre ++ post)) (hsz : (pre ++ post).length + 2 < SIZE_MOD) :
    advance h pre.length (l.begin h) = some (firstAddr post l.head_) ∧
    ∃ h1 l1, l.insert h (firstAddr post l.head_) (some v) = .ok (h1, l1) ∧
      l1.size = l.size + 1 ∧
      (∀ fuel, (pre ++ post).length + 1 ≤ fuel →
        l1.forward h1 fuel = some (pre.map Prod.snd ++ v :: post.map Prod.snd)) ∧
      advance h1 (pre.length + 1) (l1.begin h1) = some (firstAddr post l.head_) ∧
      l1.end_ = l.end_ ∧
      (∀ y, y ∈ post → h1.cell y.1 = .node y.2) ∧
      ∃ h2 l2, l1.insert h1 (firstAddr post l.head_) (some w) = .ok (h2, l2) ∧
        l2.size = l.size + 2 ∧
        (∀ fuel, (pre ++ post).length + 2 ≤ fuel →
          l2.forward h2 fuel = some (pre.map Prod.snd ++ v :: w :: post.map Prod.snd)) := by
  have hd0 : (pre ++ post).drop pre.length = post := by simp
  refine ⟨?_, ?_⟩
  · have := advance_seg pre.length (pre ++ post) l.head_ l.head_ hr.seg (by simp)
    rw [hd0] at this
    exact this
  obtain ⟨h1, l1, he1, hr1, hh1, -⟩ := emplace_repr h l pre post v hr (by omega)
  have hr1' : Repr h1 l1 ((pre ++ [(h.brk, v)]) ++ post) := by
    rw [List.append_assoc]; exact hr1
  have hlen1 : (pre ++ (h.brk, v) :: post).length = (pre ++ post).length + 1 := by
    simp only [List.length_append, List.length_cons]; omega
  obtain ⟨h2, l2, he2, hr2, -⟩ := emplace_repr h1 l1 (pre ++ [(h.brk, v)]) post w hr1'
    (by rw [List.append_assoc]
        show (pre ++ (h.brk, v) :: post).length + 1 < SIZE_MOD
        rw [hlen1]; omega)
  have hlen2 : ((pre ++ [(h.brk, v)]) ++ (h1.brk, w) :: post).length
      = (pre ++ post).length + 2 := by
    simp only [List.length_append, List.length_cons, List.length_nil]; omega
  refine ⟨h1, l1, he1, ?_, ?_, ?_, hh1, ?_, h2, l2, ?_, ?_, ?_⟩
  · show l1.size_ = l.size_ + 1
    rw [hr1.size, hr.size, hlen1]
  · intro fuel hf
    have := hr1.observe.2 fuel (by rw [hlen1]; exact hf)
    rw [this]
    simp
  · have := advance_seg (pre.length + 1) ((pre ++ [(h.brk, v)]) ++ post) l1.head_ l1.head_
      hr1'.seg (by simp)
    have hd1 : ((pre ++ [(h.brk, v)]) ++ post).drop (pre.length + 1) = post := by
      have : (pre ++ [(h.brk, v)]).length = pre.length + 1 := by simp
      rw [← this]
      exact List.drop_left _ _
    rw [hd1] at this
    show advance h1 (pre.length + 1) (h1.next l1.head_) = some (firstAddr post l.head_)
    rw [← hh1]
    exact this
  · intro y hy
    exact seg_cell _ _ _ hr1.seg y (by simp [hy])
  · rw [← hh1]; exact he2
  · show l2.size_ = l.size_ + 2
    rw [hr2.size, hr.size, hlen2]
  · intro fuel hf
    have := hr2.observe.2 fuel (by rw [hlen2]; exact hf)
    rw [this]
    simp

/-- The list `fiveList` owns the nodes at the addresses 2 to 6, in this
order, with the values 5, 4, 3, 2, 1. -/
theorem fiveList_repr :
    Repr fiveList.1 fiveList.2 ([(2, 5), (3, 4), (4, 3)] ++ [(5, 2), (6, 1)]) := by
  refine ⟨rfl, ?_, by decide, ?_, rfl⟩
  · exact ⟨rfl, rfl, rfl, rfl, rfl, rfl, rfl, rfl, rfl, rfl, rfl, rfl, rfl, rfl, rfl, rfl, rfl⟩
  · intro a ha
    have hb : fiveList.1.brk = 7 := rfl
    rw [hb]
    simp only [List.cons_append, List.nil_append, List.map_cons, List.map_nil, List.mem_cons,
      List.mem_singleton] at ha
    have h1 : fiveList.2.head_ = 1 := rfl
    rw [h1] at ha
    simp only [List.not_mem_nil, or_false] at ha
    omega

/-- C16 at `BasicListTest`: the four insertions on 5 4 3 2 1 give
5 4 8 9 3 6 7 2 1; and the first two, at the iterator three steps from
`cbegin()` (the node at address 5, holding 2), give 5 4 3 6 2 1 and then
5 4 3 6 7 2 1. -/
theorem C16_insert_before_iterator_witness :
    insertScenario = some [5, 4, 8, 9, 3, 6, 7, 2, 1] ∧
    advance fiveList.1 3 (fiveList.2.begin fiveList.1) = some 5 ∧
    ∃ h1 l1, fiveList.2.insert fiveList.1 5 (some 6) = .ok (h1, l1) ∧
      l1.forward h1 6 = some [5, 4, 3, 6, 2, 1] ∧
      ∃ h2 l2, l1.insert h1 5 (some 7) = .ok (h2, l2) ∧
        l2.forward h2 7 = some [5, 4, 3, 6, 7, 2, 1] := by
  obtain ⟨ha, h1, l1, he1, -, hf1, -, -, -, h2, l2, he2, -, hf2⟩ :=
    C16_insert_before_iterator fiveList.1 fiveList.2 [(2, 5), (3, 4), (4, 3)] [(5, 2), (6, 1)]
      6 7 fiveList_repr (by decide)
  exact ⟨rfl, ha, h1, l1, he1, hf1 6 (by decide), h2, l2, he2, hf2 7 (by decide)⟩

end LinkedList

/-! ## Theorems: ring invariant, copies, element accounting -/

namespace LinkedList

variable {T A : Type}

theorem seg_prev_next {h : Heap T} : ∀ (xs : List (Nat × T)) (a b : Nat), Seg h a xs b →
    ∀ y, y ∈ a :: xs.map Prod.fst → h.prev (h.next y) = y
  | [], a, b, hs, y, hy => by
    simp only [List.map_nil, List.mem_singleton] at hy
    rw [hy, hs.1, hs.2]
  | x :: xs, a, b, hs, y, hy => by
    rcases List.mem_cons.mp hy with e | hy
    · rw [e, hs.1, hs.2.1]
    · exact seg_prev_next xs x.1 b hs.2.2.2 y (by simpa using hy)

theorem seg_next_prev {h : Heap T} : ∀ (xs : List (Nat × T)) (a b : Nat), Seg h a xs b →
    ∀ y, y ∈ b :: xs.map Prod.fst → h.next (h.prev y) = y
  | [], a, b, hs, y, hy => by
    simp only [List.map_nil, List.mem_singleton] at hy
    rw [hy, hs.2, hs.1]
  | x :: xs, a, b, hs, y, hy => by
    by_cases e : y = x.1
    · rw [e, hs.2.1, hs.1]
    · have hy' : y ∈ b :: xs.map Prod.fst := by
        simp only [List.map_cons, List.mem_cons] at hy ⊢
        tauto
      exact seg_next_prev xs x.1 b hs.2.2.2 y hy'

theorem firstAddr_drop_mem (xs : List (Nat × T)) (b k : Nat) :
    firstAddr (xs.drop k) b ∈ b :: xs.map Prod.fst := by
  have h1 := firstAddr_mem (xs.drop k) b
  rcases h1 with e | hm
  · rw [e]; exact List.mem_cons_self _ _
  · refine List.mem_cons_of_mem _ ?_
    obtain ⟨y, hy, e⟩ := List.mem_map.mp hm
    exact List.mem_map.mpr ⟨y, List.mem_of_mem_drop hy, e⟩

/-- A represented list satisfies the ring invariant. -/
theorem Repr.ring {h : Heap T} {l : LinkedList A} {xs : List (Nat × T)} (hr : Repr h l xs) :
    RingInvariant h l := by
  have hsz : l.size = xs.length := hr.size
  refine ⟨?_, ?_, ?_⟩
  · intro k hk
    rw [hsz] at hk
    refine ⟨_, advance_seg k xs l.head_ l.head_ hr.seg (Nat.le_of_lt hk), ?_, ?_⟩
    · have hd : xs.drop k = xs[k] :: xs.drop (k + 1) := List.drop_eq_getElem_cons hk
      rw [hd]
      show (xs[k]).1 ≠ l.head_
      intro e
      have hn := (List.nodup_cons.mp hr.nodup).1
      apply hn
      rw [← e]
      exact List.mem_map.mpr ⟨xs[k], List.getElem_mem hk, rfl⟩
    · have hd : xs.drop k = xs[k] :: xs.drop (k + 1) := List.drop_eq_getElem_cons hk
      rw [hd]
      exact isNode_of_node (seg_cell xs _ _ hr.seg xs[k] (List.getElem_mem hk))
  · have := advance_seg xs.length xs l.head_ l.head_ hr.seg (Nat.le_refl _)
    rw [List.drop_length] at this
    rw [hsz]
    exact this
  · intro k n hk hn
    rw [hsz] at hk
    have := advance_seg k xs l.head_ l.head_ hr.seg hk
    have e : n = firstAddr (xs.drop k) l.head_ := by
      have h2 : advance h k (l.begin h) = some (firstAddr (xs.drop k) l.head_) := this
      rw [h2] at hn
      exact (Option.some.inj hn).symm
    have hm : n ∈ l.head_ :: xs.map Prod.fst := by
      rw [e]; exact firstAddr_drop_mem xs _ k
    exact ⟨hr.valid n hm, seg_prev_next xs _ _ hr.seg n hm, seg_next_prev xs _ _ hr.seg n hm⟩

/-- C30: every valid sequence of fewer than `2 ^ 64` operations `push_back`,
`push_front`, `pop_back`, `pop_front`, `insert` and `erase` on a list just
built by `List(alloc)` runs to completion, and the list it leaves satisfies
the ring invariant: `k < size()` steps of `++` from `begin()` arrive at a
value node, `size()` steps arrive back at the sentinel, and every node `n`
met on the way, the sentinel included, has `n.next.prev == n` and
`n.prev.next == n`. -/
theorem C30_ring_invariant (h0 : Heap T) (alloc : A) (ops : List (Op T))
    (hvalid : opsValid [] ops) (hlen : ops.length < SIZE_MOD) :
    ∃ h l, (ctor_alloc h0 alloc).2.run (ctor_alloc h0 alloc).1 ops = .ok (h, l) ∧
      l.size = (refRun [] ops).length ∧ RingInvariant h l := by
  obtain ⟨h, l, xs, hrun, hr, hm⟩ :=
    run_repr ops (ctor_alloc h0 alloc).1 (ctor_alloc h0 alloc).2 [] (ctor_alloc_repr h0 alloc)
      hvalid (by simpa using hlen)
  simp only [List.map_nil] at hm
  refine ⟨h, l, hrun, ?_, hr.ring⟩
  rw [hr.observe.1, ← hm, List.length_map]

/-- C30 at the program `basicListProgram`. -/
theorem C30_ring_invariant_witness :
    ∃ h l, (ctor_alloc (Heap.empty Nat) ()).2.run (ctor_alloc (Heap.empty Nat) ()).1
        basicListProgram = .ok (h, l) ∧
      l.size = (refRun [] basicListProgram).length ∧ RingInvariant h l :=
  C30_ring_invariant (Heap.empty Nat) () basicListProgram
    (by simp [basicListProgram, opsValid]) (by decide)

theorem mem_ring_insert (pre post : List (Nat × T)) (n : Nat × T) (a : Nat)
    (ha : a ∈ (pre ++ n :: post).map Prod.fst) :
    a ∈ (pre ++ post).map Prod.fst ∨ a = n.1 := by
  simp only [List.map_append, List.map_cons, List.mem_append, List.mem_cons] at ha ⊢
  tauto

theorem mem_ring_erase (pre post : List (Nat × T)) (n : Nat × T) (a : Nat)
    (ha : a ∈ (pre ++ post).map Prod.fst) :
    a ∈ (pre ++ n :: post).map Prod.fst := by
  simp only [List.map_append, List.map_cons, List.mem_append, List.mem_cons] at ha ⊢
  tauto

/-- One valid operation on a represented list, with what it leaves alone:
the frontier does not go back, the ring gains at most the node at the old
frontier, and nothing outside the ring and that node is touched. -/
theorem apply_frame (h : Heap T) (l : LinkedList A) (xs : List (Nat × T)) (op : Op T)
    (hr : Repr h l xs) (hlen : xs.length + 1 < SIZE_MOD)
    (hv : opsValid (xs.map Prod.snd) [op]) :
    ∃ h' l' xs', l.apply h op = .ok (h', l') ∧ Repr h' l' xs' ∧
      xs'.map Prod.snd = refApply (xs.map Prod.snd) op ∧
      l'.head_ = l.head_ ∧ h.brk ≤ h'.brk ∧
      (∀ a, a ∈ xs'.map Prod.fst → a ∈ xs.map Prod.fst ∨ a = h.brk) ∧
      (∀ z, z ∉ l.head_ :: xs.map Prod.fst → z ≠ h.brk →
        h'.next z = h.next z ∧ h'.prev z = h.prev z ∧ h'.cell z = h.cell z) := by
  -- the two shapes an operation takes
  have ins : ∀ (pre post : List (Nat × T)) (v : T), pre ++ post = xs →
      ∃ h' l' xs', l.emplace h (firstAddr post l.head_) (some v) = .ok (h', l') ∧
        Repr h' l' xs' ∧ xs' = pre ++ (h.brk, v) :: post ∧
        l'.head_ = l.head_ ∧ h.brk ≤ h'.brk ∧
        (∀ a, a ∈ xs'.map Prod.fst → a ∈ xs.map Prod.fst ∨ a = h.brk) ∧
        (∀ z, z ∉ l.head_ :: xs.map Prod.fst → z ≠ h.brk →
          h'.next z = h.next z ∧ h'.prev z = h.prev z ∧ h'.cell z = h.cell z) := by
    intro pre post v e
    subst e
    obtain ⟨h', l', he, hrep, hh, -, -, hb, -, -, -, -, hfr⟩ := emplace_repr h l pre post v hr hlen
    exact ⟨h', l', _, he, hrep, rfl, hh, by omega, fun a ha => mem_ring_insert pre post _ a ha,
      hfr⟩
  have del : ∀ (pre post : List (Nat × T)) (y : Nat × T), pre ++ y :: post = xs →
      ∃ h' l' xs', l.erase h y.1 = some (h', l') ∧
        Repr h' l' xs' ∧ xs' = pre ++ post ∧
        l'.head_ = l.head_ ∧ h.brk ≤ h'.brk ∧
        (∀ a, a ∈ xs'.map Prod.fst → a ∈ xs.map Prod.fst ∨ a = h.brk) ∧
        (∀ z, z ∉ l.head_ :: xs.map Prod.fst → z ≠ h.brk →
          h'.next z = h.next z ∧ h'.prev z = h.prev z ∧ h'.cell z = h.cell z) := by
    intro pre post y e
    subst e
    obtain ⟨h', l', he, hrep, hh, -, -, hb, -, -, -, -, -, hfr⟩ :=
      erase_repr h l pre y post hr (by omega)
    exact ⟨h', l', _, he, hrep, rfl, hh, by omega,
      fun a ha => Or.inl (mem_ring_erase pre post y a ha), fun z hz _ => hfr z hz⟩
  cases op with
  | push_back v =>
    obtain ⟨h', l', xs', he, hrep, hx, rest⟩ := ins xs [] v (List.append_nil xs)
    exact ⟨h', l', xs', he, hrep, by rw [hx]; simp [refApply], rest⟩
  | push_front v =>
    obtain ⟨h', l', xs', he, hrep, hx, rest⟩ := ins [] xs v rfl
    refine ⟨h', l', xs', ?_, hrep, by rw [hx]; simp [refApply], rest⟩
    show l.emplace h (h.next l.head_) (some v) = _
    rw [seg_first xs _ _ hr.seg]
    exact he
  | pop_back =>
    have hne : xs ≠ [] := by
      intro e
      apply hv.1
      rw [e]; rfl
    have hxs : xs.dropLast ++ [xs.getLast hne] = xs := List.dropLast_concat_getLast hne
    obtain ⟨h', l', xs', he, hrep, hx, rest⟩ := del xs.dropLast [] (xs.getLast hne) hxs
    refine ⟨h', l', xs', ?_, hrep, ?_, rest⟩
    · show Res.ofOption ((iter_prev h l.head_).bind (l.erase h)) = _
      unfold iter_prev
      rw [if_pos (valid_of_sentinel hr.head), Option.some_bind, (seg_last xs _ _ hr.seg).1]
      have : lastAddr l.head_ xs = (xs.getLast hne).1 := by
        conv_lhs => rw [← hxs]
        exact lastAddr_append_singleton _ _ _
      rw [this, he]
      rfl
    · rw [hx, List.append_nil]
      simp only [refApply]
      conv_rhs => rw [← hxs]
      rw [List.map_append, List.map_cons, List.map_nil, List.dropLast_concat]
  | pop_front =>
    cases xs with
    | nil => exact absurd rfl hv.1
    | cons y ys =>
      obtain ⟨h', l', xs', he, hrep, hx, rest⟩ := del [] ys y rfl
      refine ⟨h', l', xs', ?_, hrep, by rw [hx]; simp [refApply], rest⟩
      show Res.ofOption (l.erase h (h.next l.head_)) = _
      rw [hr.seg.1, he]
      rfl
  | insert k v =>
    have hk : k ≤ xs.length := by simpa using hv.1
    obtain ⟨h', l', xs', he, hrep, hx, rest⟩ :=
      ins (xs.take k) (xs.drop k) v (List.take_append_drop k xs)
    refine ⟨h', l', xs', ?_, hrep, ?_, rest⟩
    · show (match advance h k (h.next l.head_) with
        | none => Res.ub
        | some it => l.insert h it (some v)) = _
      rw [advance_seg k xs _ _ hr.seg hk]
      exact he
    · rw [hx]; simp [refApply, List.map_take, List.map_drop]
  | erase k =>
    have hk : k < xs.length := by simpa using hv.1
    have hy : xs.drop k = xs[k] :: xs.drop (k + 1) := List.drop_eq_getElem_cons hk
    have hsplit : xs.take k ++ xs[k] :: xs.drop (k + 1) = xs := by
      rw [← hy]; exact List.take_append_drop k xs
    obtain ⟨h', l', xs', he, hrep, hx, rest⟩ := del (xs.take k) (xs.drop (k + 1)) xs[k] hsplit
    refine ⟨h', l', xs', ?_, hrep, ?_, rest⟩
    · show (match advance h k (h.next l.head_) with
        | none => Res.ub
        | some it => Res.ofOption (l.erase h it)) = _
      rw [advance_seg k xs _ _ hr.seg (by omega), hy]
      show Res.ofOption (l.erase h (xs[k]).1) = _
      rw [he]
      rfl
    · rw [hx]; simp [refApply, List.map_take, List.map_drop]

/-- `*it = v` at position `k` of a represented list: the node keeps its
place and its links, and carries `v`. -/
theorem assign_frame (h : Heap T) (l : LinkedList A) (xs : List (Nat × T)) (k : Nat) (v : T)
    (hr : Repr h l xs) (hk : k < xs.length) :
    ∃ h' xs', l.act h (.assign k v) = .ok (h', l) ∧ Repr h' l xs' ∧
      xs'.map Prod.snd = (xs.map Prod.snd).set k v ∧
      xs'.map Prod.fst = xs.map Prod.fst ∧ h'.brk = h.brk ∧
      (∀ z, z ∉ l.head_ :: xs.map Prod.fst →
        h'.next z = h.next z ∧ h'.prev z = h.prev z ∧ h'.cell z = h.cell z) := by
  have hy : xs.drop k = xs[k] :: xs.drop (k + 1) := List.drop_eq_getElem_cons hk
  have hsplit : xs.take k ++ xs[k] :: xs.drop (k + 1) = xs := by
    rw [← hy]; exact List.take_append_drop k xs
  have hadv := advance_seg k xs l.head_ l.head_ hr.seg (Nat.le_of_lt hk)
  rw [hy] at hadv
  have hcell : h.cell (xs[k]).1 = .node (xs[k]).2 :=
    seg_cell xs _ _ hr.seg xs[k] (List.getElem_mem hk)
  have hseg0 : Seg h l.head_ (xs.take k ++ xs[k] :: xs.drop (k + 1)) l.head_ := by
    rw [hsplit]; exact hr.seg
  obtain ⟨s1, -, s2⟩ := (seg_append _ _ _ _ _).mp hseg0
  have hnd0 : (l.head_ :: (xs.take k ++ xs[k] :: xs.drop (k + 1)).map Prod.fst).Nodup := by
    rw [hsplit]; exact hr.nodup
  obtain ⟨-, -, hdisj, hndpost⟩ := nodup_parts l.head_ (xs.take k) (xs[k] :: xs.drop (k + 1)) hnd0
  have hnpre : (xs[k]).1 ∉ (xs.take k).map Prod.fst := by
    intro hm
    exact hdisj _ hm (by rw [List.map_cons]; exact List.mem_cons_self _ _)
  have hnpost : (xs[k]).1 ∉ (xs.drop (k + 1)).map Prod.fst := by
    simpa using (List.nodup_cons.mp hndpost).1
  have hfst : (xs.take k ++ ((xs[k]).1, v) :: xs.drop (k + 1)).map Prod.fst
      = xs.map Prod.fst := by
    have := congrArg (List.map Prod.fst) hsplit
    rw [List.map_append, List.map_cons] at this ⊢
    exact this
  refine ⟨h.setCell (xs[k]).1 (.node v), xs.take k ++ ((xs[k]).1, v) :: xs.drop (k + 1),
    ?_, ?_, ?_, hfst, rfl, ?_⟩
  · show (match advance h k (h.next l.head_) with
      | none => Res.ub
      | some it =>
        match iter_assign h it v with
        | none => Res.ub
        | some h1 => Res.ok (h1, l)) = _
    rw [hadv]
    show (match iter_assign h (xs[k]).1 v with
      | none => Res.ub
      | some h1 => Res.ok (h1, l)) = _
    unfold iter_assign
    rw [hcell]
  · have hhead_ne : l.head_ ≠ (xs[k]).1 := by
      intro e
      apply (List.nodup_cons.mp hr.nodup).1
      rw [e]
      exact List.mem_map.mpr ⟨xs[k], List.getElem_mem hk, rfl⟩
    refine ⟨?_, ?_, ?_, ?_, ?_⟩
    · show (if l.head_ = (xs[k]).1 then Cell.node v else h.cell l.head_) = _
      rw [if_neg hhead_ne]
      exact hr.head
    · refine (seg_append _ _ _ _ _).mpr ⟨?_, ?_, ?_⟩
      · refine seg_frame _ _ _ s1 (fun _ _ => rfl) (fun _ _ => rfl) ?_
        intro y hy'
        show (if y = (xs[k]).1 then Cell.node v else h.cell y) = _
        rw [if_neg (by intro e; rw [e] at hy'; exact hnpre hy')]
      · show (if (xs[k]).1 = (xs[k]).1 then Cell.node v else h.cell _) = _
        rw [if_pos rfl]
      · refine seg_frame _ _ _ s2 (fun _ _ => rfl) (fun _ _ => rfl) ?_
        intro y hy'
        show (if y = (xs[k]).1 then Cell.node v else h.cell y) = _
        rw [if_neg (by intro e; rw [e] at hy'; exact hnpost hy')]
    · rw [hfst]; exact hr.nodup
    · rw [hfst]; exact hr.below
    · rw [hr.size]
      have := congrArg List.length hfst
      simpa using this.symm
  · rw [List.map_append, List.map_cons, List.map_take, List.map_drop]
    apply List.ext_getElem?
    intro i
    have hl : ((xs.map Prod.snd).take k).length = k := by
      rw [List.length_take, List.length_map]; omega
    rw [List.getElem?_set]
    by_cases hik : k = i
    · subst hik
      rw [if_pos rfl, List.getElem?_append_right (by omega), hl, Nat.sub_self]
      simp [hk]
    · rw [if_neg hik]
      rcases Nat.lt_or_ge i k with hlt | hge
      · rw [List.getElem?_append_left (by omega), List.getElem?_take_of_lt hlt]
      · rw [List.getElem?_append_right (by omega), hl]
        have : i - k = (i - k - 1) + 1 := by omega
        rw [this, List.getElem?_cons_succ, List.getElem?_drop]
        congr 1
        omega
  · intro z hz
    refine ⟨rfl, rfl, ?_⟩
    show (if z = (xs[k]).1 then Cell.node v else h.cell z) = _
    rw [if_neg]
    intro e
    apply hz
    rw [e]
    exact List.mem_cons_of_mem _ (List.mem_map.mpr ⟨xs[k], List.getElem_mem hk, rfl⟩)

theorem Apart.symm {h : Heap T} {a b : LinkedList A} {xs ws : List (Nat × T)}
    (hap : Apart h a xs b ws) : Apart h b ws a xs :=
  ⟨hap.2.1, hap.1, fun z hz hz' => hap.2.2 z hz' hz⟩

theorem actsValid_cons (m : List T) (x : Action T) (rest : List (Action T))
    (hv : actsValid m (x :: rest)) : actsValid m [x] ∧ actsValid (refAct m x) rest := by
  cases x with
  | op o => exact ⟨⟨hv.1, trivial⟩, hv.2⟩
  | assign k v => exact ⟨⟨hv.1, trivial⟩, hv.2⟩

/-- One valid action on one of two lists with disjoint rings: it returns,
the list represents the reference result, and the other list is represented
as before. -/
theorem act_apart (h : Heap T) (a b : LinkedList A) (xs ws : List (Nat × T)) (x : Action T)
    (hap : Apart h a xs b ws) (hlen : xs.length + 1 < SIZE_MOD)
    (hv : actsValid (xs.map Prod.snd) [x]) :
    ∃ h' a' xs', a.act h x = .ok (h', a') ∧ Apart h' a' xs' b ws ∧
      xs'.map Prod.snd = refAct (xs.map Prod.snd) x ∧ xs'.length ≤ xs.length + 1 := by
  obtain ⟨hra, hrb, hd⟩ := hap
  have hbnot : ∀ z, z ∈ b.head_ :: ws.map Prod.fst → z ∉ a.head_ :: xs.map Prod.fst :=
    fun z hz hz' => hd z hz' hz
  cases x with
  | op o =>
    obtain ⟨h', a', xs', he, hrep, hval, hh, hb, hin, hfr⟩ := apply_frame h a xs o hra hlen hv.1
    refine ⟨h', a', xs', he, ⟨hrep, ?_, ?_⟩, hval, ?_⟩
    · apply hrb.frame
      · intro z hz
        exact hfr z (hbnot z hz) (by have := hrb.below z hz; omega)
      · exact hb
    · intro z hz hz'
      have hz2 : z ∈ a.head_ :: xs.map Prod.fst ∨ z = h.brk := by
        rcases List.mem_cons.mp hz with e | hm
        · left; rw [e, hh]; exact List.mem_cons_self _ _
        · rcases hin z hm with hm | e
          · left; exact List.mem_cons_of_mem _ hm
          · right; exact e
      rcases hz2 with hz2 | e
      · exact hd z hz2 hz'
      · have := hrb.below z hz'
        omega
    · have := congrArg List.length hval
      rw [List.length_map] at this
      rw [this]
      have := length_refApply_le_list (xs.map Prod.snd) o
      rw [List.length_map] at this
      exact this
  | assign k v =>
    have hk : k < xs.length := by simpa using hv.1
    obtain ⟨h', xs', he, hrep, hval, hfst, hb, hfr⟩ := assign_frame h a xs k v hra hk
    refine ⟨h', a, xs', he, ⟨hrep, ?_, ?_⟩, hval, ?_⟩
    · apply hrb.frame
      · intro z hz
        exact hfr z (hbnot z hz)
      · omega
    · rw [hfst]; exact hd
    · have := congrArg List.length hfst
      simp only [List.length_map] at this
      omega

/-- A valid program on two lists with disjoint rings runs to completion, and
each list then represents what its own actions make of its sequence. -/
theorem runTwo_apart : ∀ (prog : List (Bool × Action T)) (h : Heap T) (a b : LinkedList A)
    (xs ws : List (Nat × T)), Apart h a xs b ws →
    xs.length + prog.length < SIZE_MOD → ws.length + prog.length < SIZE_MOD →
    actsValid (xs.map Prod.snd) (actionsOf true prog) →
    actsValid (ws.map Prod.snd) (actionsOf false prog) →
    ∃ h' a' b' xs' ws', runTwo a b h prog = .ok (h', a', b') ∧ Apart h' a' xs' b' ws' ∧
      xs'.map Prod.snd = refActs (xs.map Prod.snd) (actionsOf true prog) ∧
      ws'.map Prod.snd = refActs (ws.map Prod.snd) (actionsOf false prog)
  | [], h, a, b, xs, ws, hap, _, _, _, _ => ⟨h, a, b, xs, ws, rfl, hap, rfl, rfl⟩
  | (true, x) :: rest, h, a, b, xs, ws, hap, hl1, hl2, hv1, hv2 => by
    rw [List.length_cons] at hl1 hl2
    have hv1' : actsValid (xs.map Prod.snd) (x :: actionsOf true rest) := hv1
    have hv2' : actsValid (ws.map Prod.snd) (actionsOf false rest) := hv2
    obtain ⟨hvx, hvr⟩ := actsValid_cons _ x _ hv1'
    obtain ⟨h1, a1, xs1, he, hap1, hval, hlen⟩ := act_apart h a b xs ws x hap (by omega) hvx
    rw [← hval] at hvr
    obtain ⟨h2, a2, b2, xs2, ws2, hrun, hap2, e1, e2⟩ :=
      runTwo_apart rest h1 a1 b xs1 ws hap1 (by omega) (by omega) hvr hv2'
    refine ⟨h2, a2, b2, xs2, ws2, ?_, hap2, ?_, e2⟩
    · show (match a.act h x with
        | .ok s => runTwo s.2 b s.1 rest
        | .throw s => .throw (s.1, s.2, b)
        | .ub => .ub) = _
      rw [he]
      exact hrun
    · rw [e1, hval]
      rfl
  | (false, x) :: rest, h, a, b, xs, ws, hap, hl1, hl2, hv1, hv2 => by
    rw [List.length_cons] at hl1 hl2
    have hv1' : actsValid (xs.map Prod.snd) (actionsOf true rest) := hv1
    have hv2' : actsValid (ws.map Prod.snd) (x :: actionsOf false rest) := hv2
    obtain ⟨hvx, hvr⟩ := actsValid_cons _ x _ hv2'
    obtain ⟨h1, b1, ws1, he, hap1, hval, hlen⟩ :=
      act_apart h b a ws xs x hap.symm (by omega) hvx
    rw [← hval] at hvr
    obtain ⟨h2, a2, b2, xs2, ws2, hrun, hap2, e1, e2⟩ :=
      runTwo_apart rest h1 a b1 xs ws1 hap1.symm (by omega) (by omega) hv1' hvr
    refine ⟨h2, a2, b2, xs2, ws2, ?_, hap2, e1, ?_⟩
    · show (match b.act h x with
        | .ok s => runTwo a s.2 s.1 rest
        | .throw s => .throw (s.1, a, s.2)
        | .ub => .ub) = _
      rw [he]
      exact hrun
    · rw [e2, hval]
      rfl

/-- C23: for a represented list `src` (nodes `ys`), element copies that
return the value copied, fuel for the nodes of `src`, and any program of
fewer than `2 ^ 64 - |ys|` valid actions (push, pop, insert, erase, `*it = v`)
issued on `src` (marked `true`) or on the copy (marked `false`): the copy
constructor returns a list of the same size whose iteration reads the values
of `src` in order, `src` reads as before, the program runs to completion, and
afterwards each of the two lists has the size and the iteration that its own
actions alone make of the copied sequence, whatever was done to the other. -/
theorem C23_copy_independent (tr : AllocTraits A) (h : Heap T) (src : LinkedList A)
    (ys : List (Nat × T)) (copy : Nat → T → Option T) (fuel : Nat)
    (prog : List (Bool × Action T))
    (hr : Repr h src ys) (hcopy : ∀ j v, copy j v = some v) (hfuel : ys.length ≤ fuel)
    (hlen : ys.length + prog.length < SIZE_MOD)
    (hv1 : actsValid (ys.map Prod.snd) (actionsOf true prog))
    (hv2 : actsValid (ys.map Prod.snd) (actionsOf false prog)) :
    (∀ f, src.size ≤ f → src.forward h f = some (ys.map Prod.snd)) ∧
    ∃ h1 c, ctor_copy tr h src copy fuel = .ok (h1, c) ∧
      c.size = src.size ∧
      (∀ f, src.size ≤ f → c.forward h1 f = some (ys.map Prod.snd) ∧
        src.forward h1 f = some (ys.map Prod.snd)) ∧
      ∃ h2 a b, runTwo src c h1 prog = .ok (h2, a, b) ∧
        a.size = (refActs (ys.map Prod.snd) (actionsOf true prog)).length ∧
        b.size = (refActs (ys.map Prod.snd) (actionsOf false prog)).length ∧
        (∀ f, a.size ≤ f →
          a.forward h2 f = some (refActs (ys.map Prod.snd) (actionsOf true prog))) ∧
        (∀ f, b.size ≤ f →
          b.forward h2 f = some (refActs (ys.map Prod.snd) (actionsOf false prog))) := by
  refine ⟨fun f hf => hr.observe.2 f (by rw [← hr.observe.1]; exact hf), ?_⟩
  obtain ⟨h1, c, new, he, hrc, hlenc, hrs, -, -, hval, hhead, hnew, -, -, -⟩ :=
    ctor_copy_ok tr h src ys copy fuel hr (fun j v => by rw [hcopy j v]; rfl) hfuel (by omega)
  have hvals : new.map Prod.snd = ys.map Prod.snd := by
    apply List.ext_getElem?
    intro i
    rw [List.getElem?_map, List.getElem?_map]
    cases hy : ys[i]? with
    | none =>
      have : new[i]? = none := by
        rw [List.getElem?_eq_none_iff] at hy ⊢
        omega
      rw [this]
    | some y =>
      rw [hval i y hy, hcopy]
      rfl
  have hap : Apart h1 src ys c new := by
    refine ⟨hrs, hrc, ?_⟩
    intro z hz hz'
    have hlt := hr.below z hz
    rw [hhead, hnew] at hz'
    rcases List.mem_cons.mp hz' with e | hm
    · omega
    · rw [List.mem_range'_1] at hm
      omega
  obtain ⟨h2, a, b, xs', ws', hrun, hap2, e1, e2⟩ :=
    runTwo_apart prog h1 src c ys new hap hlen (by rw [hlenc]; exact hlen) hv1
      (by rw [hvals]; exact hv2)
  rw [hvals] at e2
  refine ⟨h1, c, he, ?_, ?_, h2, a, b, hrun, ?_, ?_, ?_, ?_⟩
  · rw [hrc.observe.1, hr.observe.1, hlenc]
  · intro f hf
    rw [hr.observe.1] at hf
    refine ⟨?_, hrs.observe.2 f hf⟩
    rw [← hvals]
    exact hrc.observe.2 f (by rw [hlenc]; exact hf)
  · rw [hap2.1.observe.1, ← e1, List.length_map]
  · rw [hap2.2.1.observe.1, ← e2, List.length_map]
  · intro f hf
    rw [← e1]
    exact hap2.1.observe.2 f (by rw [← hap2.1.observe.1]; exact hf)
  · intro f hf
    rw [← e2]
    exact hap2.2.1.observe.2 f (by rw [← hap2.2.1.observe.1]; exact hf)

/-- The list `copySource` owns the nodes at the addresses 2 to 6, in this
order, with the values 8, 9, 6, 7, 2. -/
theorem copySource_repr :
    Repr copySource.1 copySource.2 [(2, 8), (3, 9), (4, 6), (5, 7), (6, 2)] := by
  refine ⟨rfl, ?_, by decide, ?_, rfl⟩
  · exact ⟨rfl, rfl, rfl, rfl, rfl, rfl, rfl, rfl, rfl, rfl, rfl, rfl, rfl, rfl, rfl, rfl, rfl⟩
  · intro a ha
    have hb : copySource.1.brk = 7 := rfl
    rw [hb]
    simp only [List.map_cons, List.map_nil, List.mem_cons] at ha
    have h1 : copySource.2.head_ = 1 := rfl
    rw [h1] at ha
    simp only [List.not_mem_nil, or_false] at ha
    omega

/-- C23 at `BasicListTest`: after `copy = lst` on 8 9 6 7 2, erasing the
element before `end()` of the original and assigning 3 through the iterator
at its new last element, the original reads 8 9 6 3 and the copy still reads
8 9 6 7 2. -/
theorem C23_copy_independent_witness :
    copyScenario = some ([8, 9, 6, 3], [8, 9, 6, 7, 2]) ∧
    ∃ h1 c, ctor_copy ⟨id, true⟩ copySource.1 copySource.2 (fun _ v => some v) 5
        = .ok (h1, c) ∧
      c.size = copySource.2.size ∧
      ∃ h2 a b, runTwo copySource.2 c h1 copyProgram = .ok (h2, a, b) ∧
        a.forward h2 5 = some [8, 9, 6, 3] ∧ b.forward h2 5 = some [8, 9, 6, 7, 2] := by
  obtain ⟨-, h1, c, he, hs, -, h2, a, b, hrun, ha, hb, hfa, hfb⟩ :=
    C23_copy_independent ⟨id, true⟩ copySource.1 copySource.2
      [(2, 8), (3, 9), (4, 6), (5, 7), (6, 2)] (fun _ v => some v) 5 copyProgram
      copySource_repr (fun _ _ => rfl) (by decide) (by decide)
      (by simp [copyProgram, actionsOf, actsValid, opsValid, refApply])
      (by simp [copyProgram, actionsOf, actsValid])
  refine ⟨rfl, h1, c, he, hs, h2, a, b, hrun, ?_, ?_⟩
  · have := hfa 5 (by rw [ha]; decide)
    rw [this]
    rfl
  · have := hfb 5 (by rw [hb]; decide)
    rw [this]
    rfl

/-- C24 (evaluation at the failing input, and at the scenario of the test):
with an empty list `a` and a list `b` holding one element, `a = b` returns;
once `b` is destroyed there have been 2 element constructions and 1 element
destruction, and the destructor of `a` then has undefined behaviour (its
`pop_back` erases at the sentinel of the assignment's temporary, which is
gone), so that the copied element is never destroyed by a defined run.  The
scenario of `TestAccountant`, where no list is empty when assigned, ends with
13 constructions and 13 destructions. -/
theorem C24_assign_to_empty_unbalanced :
    emptyAssignScenario = some (2, 1, none) ∧ accountantScenario = some (13, 13) := by
  refine ⟨by rfl, by rfl⟩

end LinkedList

/-! ## Theorems: erase, and the assignment that fails -/

namespace LinkedList

variable {T A : Type}

/-- C33: on a list that owns the nodes `pre, y, ys`, with `it` the iterator at
the node `y` (where `pre.length` steps from `begin()` lead), `erase(it)`
returns; the predecessor and the successor of `y` are linked to each other;
one value is destroyed and one node is deallocated (nothing is constructed or
allocated, and the node of `y` is gone); the node allocator is the one the
list had; `size()` has decreased by 1; `end()` is the same iterator; every
other node is where it was and holds the value it held, and the iteration
reads `pre, ys`. -/
theorem C33_erase_unlinks_one_node (h : Heap T) (l : LinkedList A) (pre : List (Nat × T))
    (y : Nat × T) (ys : List (Nat × T)) (hr : Repr h l (pre ++ y :: ys))
    (hsz : (pre ++ y :: ys).length < SIZE_MOD) :
    advance h pre.length (l.begin h) = some y.1 ∧
    ∃ h' l', l.erase h y.1 = some (h', l') ∧
      h'.next (h.prev y.1) = h.next y.1 ∧ h'.prev (h.next y.1) = h.prev y.1 ∧
      h'.dtors = h.dtors + 1 ∧ h'.deallocs = h.deallocs + 1 ∧
      h'.ctors = h.ctors ∧ h'.allocs = h.allocs ∧
      h'.cell y.1 = .free ∧
      l'.node_allocator_ = l.node_allocator_ ∧
      l'.size + 1 = l.size ∧
      l'.end_ = l.end_ ∧ h'.cell l'.end_ = .sentinel ∧
      (∀ z, z ∈ pre ++ ys → h'.cell z.1 = .node z.2 ∧ h.cell z.1 = .node z.2) ∧
      (∀ k, k ≤ pre.length → advance h' k (l'.begin h') = some (firstAddr ((pre ++ ys).drop k)
        l.head_)) ∧
      (∀ fuel, (pre ++ ys).length ≤ fuel →
        l'.forward h' fuel = some ((pre ++ ys).map Prod.snd)) := by
  have hadv : advance h pre.length (l.begin h) = some y.1 := by
    have := advance_seg pre.length (pre ++ y :: ys) l.head_ l.head_ hr.seg (by simp)
    rw [List.drop_left] at this
    exact this
  obtain ⟨hseg1, hcy, hseg2⟩ := (seg_append pre y ys l.head_ l.head_).mp hr.seg
  have hprev : h.prev y.1 = lastAddr l.head_ pre := (seg_last pre _ _ hseg1).1
  have hnext : h.next y.1 = firstAddr ys l.head_ := seg_first ys _ _ hseg2
  obtain ⟨h', l', he, hr', hhd, -, hna, -, hal, hde, hct, hdt, hfree, -⟩ :=
    erase_repr h l pre y ys hr hsz
  obtain ⟨hs1, hs2⟩ := (seg_split pre ys l'.head_ l'.head_).mp hr'.seg
  refine ⟨hadv, h', l', he, ?_, ?_, hdt, hde, hct, hal, hfree, hna, ?_, hhd, hr'.head, ?_, ?_,
    hr'.observe.2⟩
  · rw [hprev, hnext, ← hhd]
    exact (seg_last pre _ _ hs1).2
  · rw [hprev, hnext, ← hhd]
    exact (seg_last pre _ _ hs1).1
  · have h1 := hr'.size
    have h2 := hr.size
    simp only [size, List.length_append, List.length_cons] at *
    omega
  · intro z hz
    refine ⟨seg_cell _ _ _ hr'.seg z hz, seg_cell _ _ _ hr.seg z ?_⟩
    simp only [List.mem_append, List.mem_cons] at hz ⊢
    tauto
  · intro k hk
    rw [← hhd]
    exact advance_seg k (pre ++ ys) l'.head_ l'.head_ hr'.seg
      (by simp only [List.length_append]; omega)

/-- C33 on the list 5 4 3 2 1 of `BasicListTest`: erasing the node at address
5 (the value 2, three steps from `begin()`) links the nodes at 4 and 6 to each
other and leaves 5 4 3 1. -/
theorem C33_erase_unlinks_one_node_witness :
    advance fiveList.1 3 (fiveList.2.begin fiveList.1) = some 5 ∧
    ∃ h' l', fiveList.2.erase fiveList.1 5 = some (h', l') ∧
      h'.next 4 = 6 ∧ h'.prev 6 = 4 ∧ l'.size + 1 = 5 ∧
      l'.forward h' 4 = some [5, 4, 3, 1] := by
  obtain ⟨ha, h', l', he, h1, h2, -, -, -, -, -, -, hs, -, -, -, -, hf⟩ :=
    C33_erase_unlinks_one_node fiveList.1 fiveList.2 [(2, 5), (3, 4), (4, 3)] (5, 2) [(6, 1)]
      fiveList_repr (by decide)
  exact ⟨ha, h', l', he, h1, h2, hs, hf 4 (by decide)⟩

end LinkedList

namespace LinkedList

variable {T A : Type}

theorem assignPair_a : Repr assignPair.1 assignPair.2.1 [(3, 4)] := by
  refine ⟨rfl, ⟨rfl, rfl, rfl, rfl, rfl⟩, by decide, ?_, rfl⟩
  intro a ha
  have hb : assignPair.1.brk = 7 := rfl
  have h1 : assignPair.2.1.head_ = 1 := rfl
  rw [hb]
  rw [h1] at ha
  simp only [List.map_cons, List.map_nil, List.mem_cons, List.not_mem_nil, or_false] at ha
  omega

theorem assignPair_b : Repr assignPair.1 assignPair.2.2 ([(4, 1), (5, 2)] ++ (6, 3) :: []) := by
  refine ⟨rfl, ⟨rfl, rfl, rfl, rfl, rfl, rfl, rfl, rfl, rfl, rfl, rfl⟩, by decide, ?_, rfl⟩
  intro a ha
  have hb : assignPair.1.brk = 7 := rfl
  have h1 : assignPair.2.2.head_ = 2 := rfl
  rw [hb]
  rw [h1] at ha
  simp only [List.cons_append, List.nil_append, List.map_cons, List.map_nil, List.mem_cons,
    List.not_mem_nil, or_false] at ha
  omega

theorem assignPair_fresh : ∀ c, assignPair.1.brk ≤ c → assignPair.1.cell c = .free := by
  intro c hc
  have hb : assignPair.1.brk = 7 := rfl
  rw [hb] at hc
  have e : assignPair.1.cell c = (if c = 6 then Cell.node 3 else if c = 5 then Cell.node 2
      else if c = 4 then Cell.node 1 else if c = 3 then Cell.node 4
      else if c = 2 then Cell.sentinel else if c = 1 then Cell.sentinel else Cell.free) := rfl
  rw [e]
  simp only [show ¬ c = 6 by omega, show ¬ c = 5 by omega, show ¬ c = 4 by omega,
    show ¬ c = 3 by omega, show ¬ c = 2 by omega, show ¬ c = 1 by omega, if_false]

/-- C32: when, during the copy-assignment `a = b`, the copy construction of
the `K`-th element of `b` throws (`K = pre.length + 1`, the copies before it
having succeeded), the assignment propagates the exception; the `K - 1`
copies made are destroyed and the `K` nodes allocated for the temporary (the
node of the failing element included) are released, nothing of the temporary
remaining; and both lists are as they were: the object `a` has the members it
had (size and allocator included) and owns the same nodes with the same
values, and so does `b`. -/
theorem C32_assign_failure_leaves_lists (tr : AllocTraits A) (a b : LinkedList A)
    (h0 : Heap T) (xs pre : List (Nat × T)) (y : Nat × T) (post : List (Nat × T))
    (copy : Nat → T → Option T) (fuel : Nat)
    (hra : Repr h0 a xs) (hrb : Repr h0 b (pre ++ y :: post))
    (hsz : pre.length + 1 < SIZE_MOD)
    (hok : ∀ j v, j < pre.length → (copy j v).isSome = true)
    (hfail : copy pre.length y.2 = none) (hfuel : pre.length < fuel)
    (hfresh : ∀ c, h0.brk ≤ c → h0.cell c = .free) :
    ∃ h', assign tr a h0 b copy fuel = .throw (h', a) ∧
      h'.ctors = h0.ctors + pre.length ∧ h'.dtors = h0.dtors + pre.length ∧
      h'.allocs = h0.allocs + (pre.length + 1) ∧
      h'.deallocs = h0.deallocs + (pre.length + 1) ∧
      (∀ c, h0.brk ≤ c → h'.cell c = .free) ∧
      (∀ c, c < h0.brk →
        h'.next c = h0.next c ∧ h'.prev c = h0.prev c ∧ h'.cell c = h0.cell c) ∧
      Repr h' a xs ∧ Repr h' b (pre ++ y :: post) ∧
      (∀ f, xs.length ≤ f → a.forward h' f = some (xs.map Prod.snd)) ∧
      (∀ f, (pre ++ y :: post).length ≤ f →
        b.forward h' f = some ((pre ++ y :: post).map Prod.snd)) := by
  generalize hal : (if tr.propagate_on_container_copy_assignment then get_allocator b
      else get_allocator a) = al
  have hr0 := ctor_alloc_repr h0 al
  generalize hs0 : ctor_alloc h0 al = s0 at hr0
  have hc0 : ∀ c, c ≠ h0.brk → s0.1.cell c = h0.cell c := by
    intro c hc
    rw [← hs0]
    simp [ctor_alloc, Heap.setCell, Heap.setNext, Heap.setPrev, Heap.allocate, Heap.deallocate, hc]
  have hn0 : ∀ c, c ≠ h0.brk → s0.1.next c = h0.next c := by
    intro c hc
    rw [← hs0]
    simp [ctor_alloc, Heap.setCell, Heap.setNext, Heap.setPrev, Heap.allocate, Heap.deallocate, hc]
  have hp0 : ∀ c, c ≠ h0.brk → s0.1.prev c = h0.prev c := by
    intro c hc
    rw [← hs0]
    simp [ctor_alloc, Heap.setCell, Heap.setNext, Heap.setPrev, Heap.allocate, Heap.deallocate, hc]
  have hb0 : s0.1.brk = h0.brk + 1 := by rw [← hs0]; rfl
  have hhd : s0.2.head_ = h0.brk := by rw [← hs0]; rfl
  have hal0 : s0.1.allocs = h0.allocs := by rw [← hs0]; rfl
  have hde0 : s0.1.deallocs = h0.deallocs := by rw [← hs0]; rfl
  have hct0 : s0.1.ctors = h0.ctors := by rw [← hs0]; rfl
  have hdt0 : s0.1.dtors = h0.dtors := by rw [← hs0]; rfl
  -- the source ring
  have hsrc_lt : ∀ c, c ∈ b.head_ :: (pre ++ y :: post).map Prod.fst → c < h0.brk :=
    hrb.below
  have hstop : b.head_ ∉ (pre ++ y :: post).map Prod.fst := (List.nodup_cons.mp hrb.nodup).1
  have hsf : SegFrom s0.1 (pre ++ y :: post) b.head_ := by
    apply segFrom_frame (SegFrom.of_seg hrb.seg)
    intro c hc
    have := hsrc_lt c hc
    exact ⟨hn0 c (by omega), hp0 c (by omega), hc0 c (by omega)⟩
  have hbegin : b.begin s0.1 = firstAddr (pre ++ y :: post) b.head_ := by
    show s0.1.next b.head_ = _
    rw [hn0 _ (by have := hsrc_lt b.head_ (by simp); omega)]
    exact seg_first _ _ _ hrb.seg
  obtain ⟨h1, l1, new, he1, hr1, hnew, -, hs1, hh1, -, -, hb1, hal1, hde1, hct1, hdt1, hfr1⟩ :=
    copy_prefix copy b.head_ pre (y :: post) s0.1 s0.2 [] 0 fuel hr0 hsf hstop
      (by
        intro c hc
        have := hsrc_lt c hc
        refine ⟨?_, by omega⟩
        rw [hhd]
        simp only [List.map_nil, List.mem_singleton]
        omega)
      (fun j v _ hj => hok j v (by omega)) (by simp; omega) (by omega)
  simp only [List.nil_append, Nat.zero_add] at hr1 hfr1 he1
  have hlen1 : new.length = pre.length := by
    have := congrArg List.length hnew
    simpa using this
  have hmem : ∀ c, c ∈ l1.head_ :: new.map Prod.fst ↔ h0.brk ≤ c ∧ c < h0.brk + 1 + pre.length := by
    intro c
    rw [List.mem_cons, hnew, hh1, hhd, hb0, List.mem_range'_1]
    omega
  -- the failing step
  obtain ⟨f, hf⟩ : ∃ f, fuel - pre.length = f + 1 := ⟨fuel - pre.length - 1, by omega⟩
  have hne : y.1 ≠ b.head_ := by
    intro e
    apply hstop
    rw [← e]
    simp
  have hthrow : copy_loop l1 h1 b.head_ copy (fuel - pre.length)
      (firstAddr (y :: post) b.head_) pre.length
      = .throw (h1.allocate.deallocate, l1, pre.length) := by
    have hfa : firstAddr (y :: post) b.head_ = y.1 := rfl
    rw [hf, copy_loop_succ, hfa, if_neg hne, hs1.1]
    simp only [hfail, push_back, insert, emplace]
  have hrT : Repr h1.allocate.deallocate l1 new :=
    hr1.mono rfl rfl rfl (Nat.le_succ _) rfl rfl
  obtain ⟨h', hd2, hb2, hal2, hde2, hct2, hdt2, hfree2, hfr2⟩ :=
    dtor_repr _ l1 new hrT (by omega)
  have hframe : ∀ c, c < h0.brk →
      h'.next c = h0.next c ∧ h'.prev c = h0.prev c ∧ h'.cell c = h0.cell c := by
    intro c hc
    have hm : c ∉ l1.head_ :: new.map Prod.fst := by
      rw [hmem]; omega
    obtain ⟨a1, a2, a3⟩ := hfr2 c hm
    obtain ⟨b1, b2, b3⟩ := hfr1 c (by rw [← hh1]; exact hm)
    rw [a1, a2, a3]
    show h1.next c = _ ∧ h1.prev c = _ ∧ h1.cell c = _
    rw [b1, b2, b3, hn0 c (by omega), hp0 c (by omega), hc0 c (by omega)]
    exact ⟨rfl, rfl, rfl⟩
  have hbrk : h0.brk ≤ h'.brk := by
    rw [hb2]
    show h0.brk ≤ h1.brk + 1
    rw [hb1, hb0]
    omega
  have hra' : Repr h' a xs := hra.frame (fun c hc => hframe c (hra.below c hc)) hbrk
  have hrb' : Repr h' b (pre ++ y :: post) :=
    hrb.frame (fun c hc => hframe c (hrb.below c hc)) hbrk
  refine ⟨h', ?_, ?_, ?_, ?_, ?_, ?_, hframe, hra', hrb', hra'.observe.2, hrb'.observe.2⟩
  · unfold assign
    simp only [hal, hs0, hbegin, end_, he1, hthrow, hd2]
  · rw [hct2]
    show h1.ctors = _
    rw [hct1, hct0]
  · rw [hdt2, hlen1]
    show h1.dtors + pre.length = _
    rw [hdt1, hdt0]
  · rw [hal2]
    show h1.allocs + 1 = _
    rw [hal1, hal0]
    omega
  · rw [hde2, hlen1]
    show h1.deallocs + 1 + pre.length = _
    rw [hde1, hde0]
    omega
  · intro c hc
    by_cases hm : c ∈ l1.head_ :: new.map Prod.fst
    · exact hfree2 c hm
    · have hm' := hm
      rw [hmem] at hm'
      rw [(hfr2 c hm).2.2]
      show h1.cell c = _
      rw [(hfr1 c (by rw [← hh1]; exact hm)).2.2, hc0 c (by omega)]
      exact hfresh c hc

/-- C32 at `a = b` with `a` holding 4 and `b` holding 1 2 3, the third copy
throwing: the exception is propagated after 2 constructions and 2
destructions, and `a` still reads 4, `b` still 1 2 3. -/
theorem C32_assign_failure_leaves_lists_witness :
    ∃ h', assign ⟨id, true⟩ assignPair.2.1 assignPair.1 assignPair.2.2 thirdThrows 3
        = .throw (h', assignPair.2.1) ∧
      h'.ctors = assignPair.1.ctors + 2 ∧ h'.dtors = assignPair.1.dtors + 2 ∧
      assignPair.2.1.forward h' 1 = some [4] ∧
      assignPair.2.2.forward h' 3 = some [1, 2, 3] := by
  obtain ⟨h', he, c1, c2, -, -, -, -, -, -, f1, f2⟩ :=
    C32_assign_failure_leaves_lists ⟨id, true⟩ assignPair.2.1 assignPair.2.2 assignPair.1
      [(3, 4)] [(4, 1), (5, 2)] (6, 3) [] thirdThrows 3 assignPair_a assignPair_b
      (by decide) (fun j v hj => by
        simp only [thirdThrows]
        rw [if_neg (by simp only [List.length_cons, List.length_nil] at hj; omega)]
        rfl)
      (by rfl) (by decide) assignPair_fresh
  exact ⟨h', he, c1, c2, f1 1 (by decide), f2 3 (by decide)⟩

end LinkedList

/-! ## Theorems: the states of a list object -/

namespace LinkedList

variable {T A : Type}

theorem Owns.below {h : Heap T} {l : LinkedList A} {R : List Nat} (ho : Owns h l R) :
    ∀ c, c ∈ R → c < h.brk := by
  rcases ho with ⟨xs, hr, rfl⟩ | ⟨hb, rfl⟩
  · exact hr.below
  · intro c hc
    rw [List.mem_singleton] at hc
    rw [hc]; exact hb.below

theorem Owns.live {h : Heap T} {l : LinkedList A} {R : List Nat} (ho : Owns h l R) :
    ∀ c, c ∈ R → h.valid c = true := by
  rcases ho with ⟨xs, hr, rfl⟩ | ⟨hb, rfl⟩
  · exact hr.valid
  · intro c hc
    rw [List.mem_singleton] at hc
    rw [hc]; exact valid_of_sentinel hb.head

theorem Owns.head_mem {h : Heap T} {l : LinkedList A} {R : List Nat} (ho : Owns h l R) :
    l.head_ ∈ R := by
  rcases ho with ⟨xs, hr, rfl⟩ | ⟨hb, rfl⟩ <;> simp

theorem not_valid_of_free {h : Heap T} {c : Nat} (hc : h.cell c = .free) :
    ¬ (h.valid c = true) := by
  unfold Heap.valid
  rw [hc]
  simp

/-- A list keeps its state when nothing it owns and no dead object below the
frontier is touched. -/
theorem Owns.keep {h h' : Heap T} {l : LinkedList A} {R : List Nat} (ho : Owns h l R)
    (hb : h.brk ≤ h'.brk)
    (hf : ∀ c, c < h.brk → (c ∈ R ∨ h.cell c = .free) →
      h'.next c = h.next c ∧ h'.prev c = h.prev c ∧ h'.cell c = h.cell c) :
    Owns h' l R := by
  have hbelow := ho.below
  rcases ho with ⟨xs, hr, rfl⟩ | ⟨hk, rfl⟩
  · exact Or.inl ⟨xs, hr.frame (fun y hy => hf y (hr.below y hy) (Or.inl hy)) hb, rfl⟩
  · refine Or.inr ⟨?_, rfl⟩
    obtain ⟨a1, a2, a3⟩ := hf l.head_ hk.below (Or.inl (by simp))
    obtain ⟨b1, b2, b3⟩ := hf (h.prev l.head_) hk.prev_below (Or.inr hk.prev)
    refine ⟨hk.size, a3.trans hk.head, a1.trans hk.next, ?_, ?_, ?_⟩
    · rw [a2, b3]; exact hk.prev
    · rw [a2]; exact Nat.lt_of_lt_of_le hk.prev_below hb
    · exact Nat.lt_of_lt_of_le hk.below hb

/-- In both reachable states, `head_` is linked to itself in both directions
exactly when `size() == 0` and `begin() == end()`. -/
theorem Owns.self_linked_iff {h : Heap T} {l : LinkedList A} {R : List Nat} (ho : Owns h l R) :
    (h.next l.head_ = l.head_ ∧ h.prev l.head_ = l.head_) ↔
      (l.size = 0 ∧ l.begin h = l.end_) := by
  rcases ho with ⟨xs, hr, rfl⟩ | ⟨hk, rfl⟩
  · cases xs with
    | nil =>
      have h1 : h.next l.head_ = l.head_ := hr.seg.1
      have h2 : h.prev l.head_ = l.head_ := hr.seg.2
      exact ⟨fun _ => ⟨hr.size, h1⟩, fun _ => ⟨h1, h2⟩⟩
    | cons x xs =>
      have h1 : h.next l.head_ = x.1 := hr.seg.1
      have hne : x.1 ≠ l.head_ := by
        intro e
        have := (List.nodup_cons.mp hr.nodup).1
        apply this
        rw [← e]
        simp
      have hs : l.size ≠ 0 := by
        show l.size_ ≠ 0
        rw [hr.size]
        simp
      constructor
      · rintro ⟨a1, -⟩
        exact absurd (h1.symm.trans a1) hne
      · rintro ⟨a1, -⟩
        exact absurd a1 hs
  · constructor
    · rintro ⟨-, a2⟩
      have := hk.prev
      rw [a2, hk.head] at this
      cases this
    · rintro ⟨a1, -⟩
      exact absurd a1 hk.size

/-- The invariant after a command that changed the list at position `i`
only: it owns addresses it owned before or fresh ones, and nothing else
below the old frontier was touched. -/
theorem sound_update (w : Lists T A) (ring : Nat → List Nat) (i : Nat)
    (l l' : LinkedList A) (h' : Heap T) (R' : List Nat)
    (hown : ∀ j m, w.lists[j]? = some m → Owns w.heap m (ring j))
    (hdis : ∀ j k, j < w.lists.length → k < w.lists.length → j ≠ k →
      ∀ c, c ∈ ring j → c ∉ ring k)
    (hi : w.lists[i]? = some l) (hb : w.heap.brk ≤ h'.brk) (hb' : h'.brk < SIZE_MOD)
    (ho' : Owns h' l' R') (hR' : ∀ c, c ∈ R' → c ∈ ring i ∨ w.heap.brk ≤ c)
    (hf : ∀ c, c < w.heap.brk → c ∉ ring i →
      h'.next c = w.heap.next c ∧ h'.prev c = w.heap.prev c ∧ h'.cell c = w.heap.cell c) :
    Sound ({ heap := h', lists := w.lists.set i l' } : Lists T A) := by
  have hil : i < w.lists.length := by
    by_contra hc
    rw [List.getElem?_eq_none (by omega)] at hi
    cases hi
  have hget : ∀ k, k < w.lists.length → ∃ m, w.lists[k]? = some m := fun k hk =>
    ⟨w.lists[k], List.getElem?_eq_getElem hk⟩
  refine ⟨hb', fun j => if j = i then R' else ring j, ?_, ?_⟩
  · intro j m hj
    dsimp only at hj ⊢
    by_cases hji : j = i
    · subst hji
      rw [List.getElem?_set_self hil] at hj
      rw [if_pos rfl]
      cases hj
      exact ho'
    · rw [List.getElem?_set_ne (fun e => hji e.symm)] at hj
      rw [if_neg hji]
      have hjl : j < w.lists.length := by
        by_contra hc
        rw [List.getElem?_eq_none (by omega)] at hj
        cases hj
      apply (hown j m hj).keep hb
      intro c hc hcase
      apply hf c hc
      intro hci
      rcases hcase with hm | hfree
      · exact hdis j i hjl hil hji c hm hci
      · exact not_valid_of_free hfree ((hown i l hi).live c hci)
  · intro j k hj hk hjk c hc
    simp only [List.length_set] at hj hk
    dsimp only at hc ⊢
    by_cases hji : j = i
    · rw [if_pos hji] at hc
      have hki : k ≠ i := fun e => hjk (hji.trans e.symm)
      rw [if_neg hki]
      obtain ⟨m, hm⟩ := hget k hk
      rcases hR' c hc with h1 | h1
      · exact hdis i k hil hk (fun e => hki e.symm) c h1
      · intro hck
        have := (hown k m hm).below c hck
        omega
    · rw [if_neg hji] at hc
      by_cases hki : k = i
      · rw [if_pos hki]
        intro hcR
        obtain ⟨m, hm⟩ := hget j hj
        rcases hR' c hcR with h1 | h1
        · exact hdis j i hj hil hji c hc h1
        · have := (hown j m hm).below c hc
          omega
      · rw [if_neg hki]
        exact hdis j k hj hk hjk c hc

/-- The invariant after a command that constructed a list: it owns fresh
addresses, and nothing below the old frontier was touched. -/
theorem sound_append (w : Lists T A) (ring : Nat → List Nat)
    (l' : LinkedList A) (h' : Heap T) (R' : List Nat)
    (hown : ∀ j m, w.lists[j]? = some m → Owns w.heap m (ring j))
    (hdis : ∀ j k, j < w.lists.length → k < w.lists.length → j ≠ k →
      ∀ c, c ∈ ring j → c ∉ ring k)
    (hb : w.heap.brk ≤ h'.brk) (hb' : h'.brk < SIZE_MOD)
    (ho' : Owns h' l' R') (hR' : ∀ c, c ∈ R' → w.heap.brk ≤ c)
    (hf : ∀ c, c < w.heap.brk →
      h'.next c = w.heap.next c ∧ h'.prev c = w.heap.prev c ∧ h'.cell c = w.heap.cell c) :
    Sound ({ heap := h', lists := w.lists ++ [l'] } : Lists T A) := by
  have hget : ∀ k, k < w.lists.length → ∃ m, w.lists[k]? = some m := fun k hk =>
    ⟨w.lists[k], List.getElem?_eq_getElem hk⟩
  refine ⟨hb', fun j => if j = w.lists.length then R' else ring j, ?_, ?_⟩
  · intro j m hj
    dsimp only at hj ⊢
    by_cases hji : j = w.lists.length
    · subst hji
      rw [List.getElem?_append_right (le_refl _), Nat.sub_self, List.getElem?_cons_zero] at hj
      rw [if_pos rfl]
      cases hj
      exact ho'
    · rw [if_neg hji]
      have hjl : j < w.lists.length := by
        by_contra hc
        have hlen : (w.lists ++ [l']).length ≤ j := by
          simp only [List.length_append, List.length_singleton]
          omega
        rw [List.getElem?_eq_none hlen] at hj
        cases hj
      rw [List.getElem?_append_left hjl] at hj
      exact (hown j m hj).keep hb (fun c hc _ => hf c hc)
  · intro j k hj hk hjk c hc
    simp only [List.length_append, List.length_singleton] at hj hk
    dsimp only at hc ⊢
    by_cases hji : j = w.lists.length
    · rw [if_pos hji] at hc
      have hki : k ≠ w.lists.length := fun e => hjk (hji.trans e.symm)
      rw [if_neg hki]
      obtain ⟨m, hm⟩ := hget k (by omega)
      intro hck
      have := (hown k m hm).below c hck
      have := hR' c hc
      omega
    · rw [if_neg hji] at hc
      obtain ⟨m, hm⟩ := hget j (by omega)
      by_cases hki : k = w.lists.length
      · rw [if_pos hki]
        intro hcR
        have := (hown j m hm).below c hc
        have := hR' c hcR
        omega
      · rw [if_neg hki]
        exact hdis j k (by omega) (by omega) hjk c hc

/-- Steps of `++` from an address of a ring stay in the ring. -/
theorem advance_ring {h : Heap T} {l : LinkedList A} {xs : List (Nat × T)} (hr : Repr h l xs) :
    ∀ (k c : Nat), c ∈ l.head_ :: xs.map Prod.fst →
      ∃ it, advance h k c = some it ∧ it ∈ l.head_ :: xs.map Prod.fst
  | 0, c, hc => ⟨c, rfl, hc⟩
  | k + 1, c, hc => by
    obtain ⟨it, h1, h2⟩ := advance_ring hr k (h.next c) (hr.closed c hc).1
    refine ⟨it, ?_, h2⟩
    show (iter_next h c).bind (advance h k) = _
    unfold iter_next
    rw [if_pos (hr.valid c hc), Option.some_bind]
    exact h1

/-- An address of a ring is where a suffix of the nodes starts. -/
theorem ring_split (H : Nat) : ∀ (xs : List (Nat × T)) (it : Nat),
    it ∈ H :: xs.map Prod.fst → ∃ pre post, pre ++ post = xs ∧ it = firstAddr post H
  | [], it, hit => by
    simp only [List.map_nil, List.mem_singleton] at hit
    exact ⟨[], [], rfl, hit⟩
  | x :: xs, it, hit => by
    by_cases e : it = x.1
    · exact ⟨[], x :: xs, rfl, e⟩
    · have hit' : it ∈ H :: xs.map Prod.fst := by
        simp only [List.map_cons, List.mem_cons] at hit ⊢
        tauto
      obtain ⟨pre, post, h1, h2⟩ := ring_split H xs it hit'
      exact ⟨x :: pre, post, by rw [List.cons_append, h1], h2⟩

/-- A node of a ring splits the nodes around it. -/
theorem node_split : ∀ (xs : List (Nat × T)) (it : Nat),
    it ∈ xs.map Prod.fst → ∃ pre y post, pre ++ y :: post = xs ∧ y.1 = it
  | [], it, hit => by simp at hit
  | x :: xs, it, hit => by
    by_cases e : x.1 = it
    · exact ⟨[], x, xs, rfl, e⟩
    · have hit' : it ∈ xs.map Prod.fst := by
        simp only [List.map_cons, List.mem_cons] at hit
        rcases hit with h1 | h1
        · exact absurd h1.symm e
        · exact h1
      obtain ⟨pre, y, post, h1, h2⟩ := node_split xs it hit'
      exact ⟨x :: pre, y, post, by rw [List.cons_append, h1], h2⟩

theorem erase_isNode (l : LinkedList A) (h : Heap T) (it : Nat) (s : Heap T × LinkedList A)
    (he : l.erase h it = some s) : h.isNode it = true := by
  by_contra hc
  unfold erase at he
  rw [if_neg (fun hh => hc hh.1)] at he
  cases he

theorem not_isNode_of_sentinel {h : Heap T} {c : Nat} (hc : h.cell c = .sentinel) :
    ¬ (h.isNode c = true) := by
  unfold Heap.isNode
  rw [hc]
  simp

/-- An operation that returns on a represented list leaves a represented
list: the ring gains at most the node at the old frontier, and nothing
outside the ring and that node is touched. -/
theorem apply_good (h : Heap T) (l : LinkedList A) (xs : List (Nat × T)) (op : Op T)
    (h' : Heap T) (l' : LinkedList A) (hr : Repr h l xs) (hlen : xs.length + 1 < SIZE_MOD)
    (he : l.apply h op = .ok (h', l')) :
    ∃ xs', Repr h' l' xs' ∧ l'.head_ = l.head_ ∧ h.brk ≤ h'.brk ∧
      (∀ a, a ∈ xs'.map Prod.fst → a ∈ xs.map Prod.fst ∨ a = h.brk) ∧
      (∀ z, z ∉ l.head_ :: xs.map Prod.fst → z ≠ h.brk →
        h'.next z = h.next z ∧ h'.prev z = h.prev z ∧ h'.cell z = h.cell z) := by
  have ins : ∀ (it : Nat) (v : T), it ∈ l.head_ :: xs.map Prod.fst →
      l.emplace h it (some v) = .ok (h', l') →
      ∃ xs', Repr h' l' xs' ∧ l'.head_ = l.head_ ∧ h.brk ≤ h'.brk ∧
        (∀ a, a ∈ xs'.map Prod.fst → a ∈ xs.map Prod.fst ∨ a = h.brk) ∧
        (∀ z, z ∉ l.head_ :: xs.map Prod.fst → z ≠ h.brk →
          h'.next z = h.next z ∧ h'.prev z = h.prev z ∧ h'.cell z = h.cell z) := by
    intro it v hit hem
    obtain ⟨pre, post, e, hfa⟩ := ring_split l.head_ xs it hit
    subst e
    obtain ⟨h2, l2, he2, hrep, hh, -, -, hb, -, -, -, -, hfr⟩ :=
      emplace_repr h l pre post v hr hlen
    rw [← hfa, hem] at he2
    cases he2
    exact ⟨_, hrep, hh, by omega, fun a ha => mem_ring_insert pre post _ a ha, hfr⟩
  have del : ∀ (it : Nat), it ∈ l.head_ :: xs.map Prod.fst →
      l.erase h it = some (h', l') →
      ∃ xs', Repr h' l' xs' ∧ l'.head_ = l.head_ ∧ h.brk ≤ h'.brk ∧
        (∀ a, a ∈ xs'.map Prod.fst → a ∈ xs.map Prod.fst ∨ a = h.brk) ∧
        (∀ z, z ∉ l.head_ :: xs.map Prod.fst → z ≠ h.brk →
          h'.next z = h.next z ∧ h'.prev z = h.prev z ∧ h'.cell z = h.cell z) := by
    intro it hit hem
    have hnode := erase_isNode l h it _ hem
    have hne : it ≠ l.head_ := by
      intro e
      rw [e] at hnode
      exact not_isNode_of_sentinel hr.head hnode
    have hit' : it ∈ xs.map Prod.fst := by
      rcases List.mem_cons.mp hit with h1 | h1
      · exact absurd h1 hne
      · exact h1
    obtain ⟨pre, y, post, e, hy⟩ := node_split xs it hit'
    subst e
    obtain ⟨h2, l2, he2, hrep, hh, -, -, hb, -, -, -, -, -, hfr⟩ :=
      erase_repr h l pre y post hr (by omega)
    rw [hy, hem] at he2
    cases he2
    exact ⟨_, hrep, hh, by omega, fun a ha => Or.inl (mem_ring_erase pre post y a ha),
      fun z hz _ => hfr z hz⟩
  have hhead : l.head_ ∈ l.head_ :: xs.map Prod.fst := List.mem_cons_self _ _
  have hbegin : h.next l.head_ ∈ l.head_ :: xs.map Prod.fst := (hr.closed _ hhead).1
  have hlast : h.prev l.head_ ∈ l.head_ :: xs.map Prod.fst := (hr.closed _ hhead).2
  cases op with
  | push_back v => exact ins l.head_ v hhead he
  | push_front v => exact ins (h.next l.head_) v hbegin he
  | pop_back =>
    have he' : Res.ofOption ((iter_prev h l.head_).bind (l.erase h)) = .ok (h', l') := he
    unfold iter_prev at he'
    rw [if_pos (valid_of_sentinel hr.head), Option.some_bind] at he'
    cases hq : l.erase h (h.prev l.head_) with
    | none => rw [hq] at he'; cases he'
    | some s =>
      rw [hq] at he'
      cases he'
      exact del _ hlast hq
  | pop_front =>
    have he' : Res.ofOption (l.erase h (h.next l.head_)) = .ok (h', l') := he
    cases hq : l.erase h (h.next l.head_) with
    | none => rw [hq] at he'; cases he'
    | some s =>
      rw [hq] at he'
      cases he'
      exact del _ hbegin hq
  | insert k v =>
    obtain ⟨it, h1, h2⟩ := advance_ring hr k _ hbegin
    have he' : (match advance h k (h.next l.head_) with
        | none => Res.ub
        | some it => l.insert h it (some v)) = .ok (h', l') := he
    rw [h1] at he'
    exact ins it v h2 he'
  | erase k =>
    obtain ⟨it, h1, h2⟩ := advance_ring hr k _ hbegin
    have he' : (match advance h k (h.next l.head_) with
        | none => Res.ub
        | some it => Res.ofOption (l.erase h it)) = .ok (h', l') := he
    rw [h1] at he'
    change Res.ofOption (l.erase h it) = .ok (h', l') at he'
    cases hq : l.erase h it with
    | none =>
      rw [hq] at he'
      cases he'
    | some s =>
      rw [hq] at he'
      cases he'
      exact del _ h2 hq

/-- Every operation on a list in the state `Broken` has undefined
behaviour. -/
theorem apply_broken (h : Heap T) (l : LinkedList A) (op : Op T) (hk : Broken h l) :
    l.apply h op = .ub := by
  have hne : l.head_ ≠ h.brk := Nat.ne_of_lt hk.below
  have hpne : h.prev l.head_ ≠ h.brk := Nat.ne_of_lt hk.prev_below
  have hins : ∀ v : T, l.emplace h l.head_ (some v) = .ub := by
    intro v
    unfold emplace
    simp only [Heap.setCell, Heap.setNext, Heap.setPrev, Heap.allocate, Heap.valid, hne, hpne,
      if_false, hk.head, hk.prev, and_false, Bool.false_eq_true]
  have hdel : l.erase h l.head_ = none := by
    unfold erase
    rw [if_neg (fun hh => not_isNode_of_sentinel hk.head hh.1)]
  have hadv : ∀ k, advance h k l.head_ = some l.head_ := by
    intro k
    induction k with
    | zero => rfl
    | succ k ih =>
      show (iter_next h l.head_).bind (advance h k) = _
      unfold iter_next
      rw [if_pos (valid_of_sentinel hk.head), Option.some_bind, hk.next]
      exact ih
  cases op with
  | push_back v => exact hins v
  | push_front v =>
    show l.emplace h (h.next l.head_) (some v) = _
    rw [hk.next]
    exact hins v
  | pop_back =>
    show Res.ofOption ((iter_prev h l.head_).bind (l.erase h)) = _
    unfold iter_prev
    rw [if_pos (valid_of_sentinel hk.head), Option.some_bind]
    have : l.erase h (h.prev l.head_) = none := by
      unfold erase
      rw [if_neg]
      intro hh
      have := hh.1
      unfold Heap.isNode at this
      rw [hk.prev] at this
      cases this
    rw [this]
    rfl
  | pop_front =>
    show Res.ofOption (l.erase h (h.next l.head_)) = _
    rw [hk.next, hdel]
    rfl
  | insert k v =>
    show (match advance h k (h.next l.head_) with
        | none => Res.ub
        | some it => l.insert h it (some v)) = _
    rw [hk.next, hadv k]
    exact hins v
  | erase k =>
    show (match advance h k (h.next l.head_) with
        | none => Res.ub
        | some it => Res.ofOption (l.erase h it)) = _
    rw [hk.next, hadv k]
    show Res.ofOption (l.erase h l.head_) = _
    rw [hdel]
    rfl

end LinkedList

namespace LinkedList

variable {T A : Type}

/-- `swap`, step by step: when the four `BaseNode`s whose links it assigns
are live, it returns, and the links are those of `swap_next3` and
`swap_prev2`. -/
theorem swap_form (a o : LinkedList A) (h : Heap T)
    (hv1 : h.valid (swap_next1 h a.head_ o.head_ a.head_) = true)
    (hv2 : h.valid (swap_next1 h a.head_ o.head_ o.head_) = true)
    (hv3 : h.valid (swap_prev2 h a.head_ o.head_ a.head_) = true)
    (hv4 : h.valid (swap_prev2 h a.head_ o.head_ o.head_) = true) :
    ∃ h3, a.swap o h = some (h3,
        { a with alloc := o.alloc, size_ := o.size_, node_allocator_ := o.node_allocator_ },
        { o with alloc := a.alloc, size_ := a.size_, node_allocator_ := a.node_allocator_ }) ∧
      h3.next = swap_next3 h a.head_ o.head_ ∧ h3.prev = swap_prev2 h a.head_ o.head_ ∧
      h3.cell = h.cell ∧ h3.brk = h.brk ∧ h3.allocs = h.allocs ∧ h3.deallocs = h.deallocs ∧
      h3.ctors = h.ctors ∧ h3.dtors = h.dtors := by
  unfold swap
  simp only []
  rw [if_pos ⟨hv1, hv2⟩, if_pos ⟨hv3, hv4⟩]
  exact ⟨_, rfl, rfl, rfl, rfl, rfl, rfl, rfl, rfl, rfl⟩

/-- `swap` has undefined behaviour when one of the two `BaseNode`s whose
`next` it assigns last is not live. -/
theorem swap_none (a o : LinkedList A) (h : Heap T)
    (hv : ¬ (h.valid (swap_prev2 h a.head_ o.head_ a.head_) = true ∧
      h.valid (swap_prev2 h a.head_ o.head_ o.head_) = true)) :
    a.swap o h = none := by
  unfold swap
  simp only []
  split
  · split
    · rename_i hc
      exact absurd hc hv
    · rfl
  · rfl

/-- `swap` between two empty lists leaves every link as it was. -/
theorem swap_empty_empty (a o : LinkedList A) (h : Heap T)
    (hra : Repr h a []) (hro : Repr h o []) (hne : a.head_ ≠ o.head_) :
    ∃ h3, a.swap o h = some (h3,
        { a with alloc := o.alloc, size_ := o.size_, node_allocator_ := o.node_allocator_ },
        { o with alloc := a.alloc, size_ := a.size_, node_allocator_ := a.node_allocator_ }) ∧
      (∀ y, h3.next y = h.next y ∧ h3.prev y = h.prev y ∧ h3.cell y = h.cell y) ∧
      h3.brk = h.brk := by
  have hnA : h.next a.head_ = a.head_ := hra.seg.1
  have hpA : h.prev a.head_ = a.head_ := hra.seg.2
  have hnO : h.next o.head_ = o.head_ := hro.seg.1
  have hpO : h.prev o.head_ = o.head_ := hro.seg.2
  have hne' : o.head_ ≠ a.head_ := fun e => hne e.symm
  have hvA := valid_of_sentinel hra.head
  have hvO := valid_of_sentinel hro.head
  have n1A : swap_next1 h a.head_ o.head_ a.head_ = o.head_ := by
    simp [swap_next1, hne, hnO]
  have n1O : swap_next1 h a.head_ o.head_ o.head_ = a.head_ := by
    simp [swap_next1, hnA]
  have p1A : swap_prev1 h a.head_ o.head_ a.head_ = o.head_ := by
    simp [swap_prev1, hne, hpO]
  have p1O : swap_prev1 h a.head_ o.head_ o.head_ = a.head_ := by
    simp [swap_prev1, hpA]
  have p2 : ∀ y, swap_prev2 h a.head_ o.head_ y = h.prev y := by
    intro y
    unfold swap_prev2
    rw [n1A, n1O, p1A, p1O]
    by_cases e1 : y = a.head_
    · rw [if_pos e1, e1, hpA]
    · rw [if_neg e1]
      by_cases e2 : y = o.head_
      · rw [if_pos e2, e2, hpO]
      · rw [if_neg e2]
        simp [swap_prev1, e1, e2]
  have n3 : ∀ y, swap_next3 h a.head_ o.head_ y = h.next y := by
    intro y
    unfold swap_next3
    rw [p2, p2, hpA, hpO, n1A, n1O]
    by_cases e2 : y = o.head_
    · rw [if_pos e2, e2, hnO]
    · rw [if_neg e2]
      by_cases e1 : y = a.head_
      · rw [if_pos e1, e1, hnA]
      · rw [if_neg e1]
        simp [swap_next1, e1, e2]
  obtain ⟨h3, he, f1, f2, f3, f4, -⟩ := swap_form a o h
    (by rw [n1A]; exact hvO) (by rw [n1O]; exact hvA)
    (by rw [p2, hpA]; exact hvA) (by rw [p2, hpO]; exact hvO)
  refine ⟨h3, he, ?_, f4⟩
  intro y
  refine ⟨?_, ?_, ?_⟩
  · rw [f1]; exact n3 y
  · rw [f2]; exact p2 y
  · rw [f3]

/-- `swap` of an empty list with a list that holds elements: the empty
list's `head_.next` stays `&head_`, and its `head_.prev` becomes the address
of the other list's `head_`. -/
theorem swap_empty_nonempty (a o : LinkedList A) (h : Heap T) (z : Nat × T)
    (zs : List (Nat × T)) (hra : Repr h a []) (hro : Repr h o (z :: zs))
    (hne : a.head_ ∉ o.head_ :: (z :: zs).map Prod.fst) :
    ∃ h3, a.swap o h = some (h3,
        { a with alloc := o.alloc, size_ := o.size_, node_allocator_ := o.node_allocator_ },
        { o with alloc := a.alloc, size_ := a.size_, node_allocator_ := a.node_allocator_ }) ∧
      h3.next a.head_ = a.head_ ∧ h3.prev a.head_ = o.head_ ∧
      h3.cell = h.cell ∧ h3.brk = h.brk ∧
      (∀ y, y ≠ a.head_ → y ∉ o.head_ :: (z :: zs).map Prod.fst →
        h3.next y = h.next y ∧ h3.prev y = h.prev y) := by
  have hnA : h.next a.head_ = a.head_ := hra.seg.1
  have hpA : h.prev a.head_ = a.head_ := hra.seg.2
  obtain ⟨hnO, hpz, -, -, -, hOz⟩ := hro.ends
  have hAO : a.head_ ≠ o.head_ := fun e => hne (by rw [e]; simp)
  have hOA : o.head_ ≠ a.head_ := fun e => hAO e.symm
  have hzmem : z.1 ∈ o.head_ :: (z :: zs).map Prod.fst := by simp
  have hAz : a.head_ ≠ z.1 := fun e => hne (by rw [e]; exact hzmem)
  have hzA : z.1 ≠ a.head_ := fun e => hAz e.symm
  have hzO : z.1 ≠ o.head_ := fun e => hOz (by rw [← e]; simp)
  have hOz' : o.head_ ≠ z.1 := fun e => hzO e.symm
  have hvA := valid_of_sentinel hra.head
  have hvO := valid_of_sentinel hro.head
  have hvz := hro.valid z.1 hzmem
  have n1A : swap_next1 h a.head_ o.head_ a.head_ = z.1 := by
    simp [swap_next1, hAO, hnO]
  have n1O : swap_next1 h a.head_ o.head_ o.head_ = a.head_ := by
    simp [swap_next1, hnA]
  have p1z : swap_prev1 h a.head_ o.head_ z.1 = o.head_ := by
    simp [swap_prev1, hzO, hzA, hpz]
  have p1O : swap_prev1 h a.head_ o.head_ o.head_ = a.head_ := by
    simp [swap_prev1, hpA]
  have p2A : swap_prev2 h a.head_ o.head_ a.head_ = o.head_ := by
    unfold swap_prev2
    rw [n1A, n1O, if_pos rfl, p1z]
  have p2O : swap_prev2 h a.head_ o.head_ o.head_ = a.head_ := by
    unfold swap_prev2
    rw [n1A, n1O, if_neg hOA, if_neg hOz', p1O]
  obtain ⟨h3, he, f1, f2, f3, f4, -⟩ := swap_form a o h
    (by rw [n1A]; exact hvz) (by rw [n1O]; exact hvA)
    (by rw [p2A]; exact hvO) (by rw [p2O]; exact hvA)
  refine ⟨h3, he, ?_, ?_, f3, f4, ?_⟩
  · rw [f1]
    unfold swap_next3
    rw [p2O, p2A, if_pos rfl, n1O]
  · rw [f2]; exact p2A
  · intro y hyA hy
    have hyO : y ≠ o.head_ := fun e => hy (by rw [e]; simp)
    have hyz : y ≠ z.1 := fun e => hy (by rw [e]; exact hzmem)
    constructor
    · rw [f1]
      unfold swap_next3
      rw [p2O, p2A, if_neg hyA, if_neg hyO]
      simp [swap_next1, hyA, hyO]
    · rw [f2]
      unfold swap_prev2
      rw [n1A, n1O, if_neg hyA, if_neg hyz]
      simp [swap_prev1, hyA, hyO]

/-- `swap` of a list that holds elements with an empty list returns, and
the `head_.prev` of the formerly empty list is then the address of the other
list's `head_`. -/
theorem swap_nonempty_empty (a o : LinkedList A) (h : Heap T) (x : Nat × T)
    (xs : List (Nat × T)) (hra : Repr h a (x :: xs)) (hro : Repr h o [])
    (hne : o.head_ ∉ a.head_ :: (x :: xs).map Prod.fst) :
    ∃ h3, a.swap o h = some (h3,
        { a with alloc := o.alloc, size_ := o.size_, node_allocator_ := o.node_allocator_ },
        { o with alloc := a.alloc, size_ := a.size_, node_allocator_ := a.node_allocator_ }) ∧
      h3.prev o.head_ = a.head_ ∧ h3.cell = h.cell := by
  have hnO : h.next o.head_ = o.head_ := hro.seg.1
  have hpO : h.prev o.head_ = o.head_ := hro.seg.2
  obtain ⟨hnA, hpx, -, -, -, hAx⟩ := hra.ends
  have hOA : o.head_ ≠ a.head_ := fun e => hne (by rw [e]; simp)
  have hAO : a.head_ ≠ o.head_ := fun e => hOA e.symm
  have hxmem : x.1 ∈ a.head_ :: (x :: xs).map Prod.fst := by simp
  have hOx : o.head_ ≠ x.1 := fun e => hne (by rw [e]; exact hxmem)
  have hxO : x.1 ≠ o.head_ := fun e => hOx e.symm
  have hxA : x.1 ≠ a.head_ := fun e => hAx (by rw [← e]; simp)
  have hAx' : a.head_ ≠ x.1 := fun e => hxA e.symm
  have hvA := valid_of_sentinel hra.head
  have hvO := valid_of_sentinel hro.head
  have hvx := hra.valid x.1 hxmem
  have n1A : swap_next1 h a.head_ o.head_ a.head_ = o.head_ := by
    simp [swap_next1, hAO, hnO]
  have n1O : swap_next1 h a.head_ o.head_ o.head_ = x.1 := by
    simp [swap_next1, hnA]
  have p1x : swap_prev1 h a.head_ o.head_ x.1 = a.head_ := by
    simp [swap_prev1, hxO, hxA, hpx]
  have p1A : swap_prev1 h a.head_ o.head_ a.head_ = o.head_ := by
    simp [swap_prev1, hAO, hpO]
  have p2O : swap_prev2 h a.head_ o.head_ o.head_ = a.head_ := by
    unfold swap_prev2
    rw [n1A, n1O, if_neg hOx, if_pos rfl, p1x]
  have p2A : swap_prev2 h a.head_ o.head_ a.head_ = o.head_ := by
    unfold swap_prev2
    rw [n1A, n1O, if_neg hAx', if_neg hAO, p1A]
  obtain ⟨h3, he, -, f2, f3, -⟩ := swap_form a o h
    (by rw [n1A]; exact hvO) (by rw [n1O]; exact hvx)
    (by rw [p2A]; exact hvO) (by rw [p2O]; exact hvA)
  refine ⟨h3, he, ?_, f3⟩
  rw [f2]; exact p2O

/-- `swap` on a list in the state `Broken` has undefined behaviour: one of
the links it follows leads to the object that is gone. -/
theorem swap_broken (a o : LinkedList A) (h : Heap T) (zs : List (Nat × T))
    (hk : Broken h a) (hro : Repr h o zs)
    (hne : a.head_ ∉ o.head_ :: zs.map Prod.fst) :
    a.swap o h = none := by
  have hAO : a.head_ ≠ o.head_ := fun e => hne (by rw [e]; simp)
  have hOA : o.head_ ≠ a.head_ := fun e => hAO e.symm
  have n1O : swap_next1 h a.head_ o.head_ o.head_ = a.head_ := by
    simp [swap_next1, hk.next]
  have n1A : swap_next1 h a.head_ o.head_ a.head_ = h.next o.head_ := by
    simp [swap_next1, hAO]
  have hfree := not_valid_of_free hk.prev
  apply swap_none
  cases zs with
  | nil =>
    have hnO : h.next o.head_ = o.head_ := hro.seg.1
    intro hv
    apply hfree
    have p2A : swap_prev2 h a.head_ o.head_ a.head_ = h.prev a.head_ := by
      unfold swap_prev2
      rw [n1A, n1O, if_pos rfl, hnO]
      simp [swap_prev1]
    rw [← p2A]; exact hv.1
  | cons z zs =>
    obtain ⟨hnO, hpz, -, -, -, hOz⟩ := hro.ends
    have hzO : z.1 ≠ o.head_ := fun e => hOz (by rw [← e]; simp)
    have hOz' : o.head_ ≠ z.1 := fun e => hzO e.symm
    intro hv
    apply hfree
    have p2O : swap_prev2 h a.head_ o.head_ o.head_ = h.prev a.head_ := by
      unfold swap_prev2
      rw [n1A, n1O, if_neg hOA, hnO, if_neg hOz']
      simp [swap_prev1]
    rw [← p2O]; exact hv.2

end LinkedList

/-! ## Theorems: constructors and the copy phase, in any reachable state -/

namespace LinkedList

variable {T A : Type}

/-- A representation belongs to the `head_` and the `size_` of the object. -/
theorem Repr.object {h : Heap T} {l l' : LinkedList A} {xs : List (Nat × T)}
    (hr : Repr h l xs) (hh : l'.head_ = l.head_) (hs : l'.size_ = xs.length) :
    Repr h l' xs := by
  refine ⟨?_, ?_, ?_, ?_, hs⟩
  · rw [hh]; exact hr.head
  · rw [hh]; exact hr.seg
  · rw [hh]; exact hr.nodup
  · rw [hh]; exact hr.below

/-- A ring lies below the frontier, so it has fewer objects than there are
addresses below the frontier. -/
theorem ring_length_le {h : Heap T} {l : LinkedList A} {xs : List (Nat × T)}
    (hr : Repr h l xs) : xs.length + 1 ≤ h.brk := by
  have hsub : (l.head_ :: xs.map Prod.fst) ⊆ List.range h.brk := by
    intro c hc
    exact List.mem_range.mpr (hr.below c hc)
  have := (List.subperm_of_subset hr.nodup hsub).length_le
  simpa using this

/-- `List(alloc)` touches only the address of the new object. -/
theorem ctor_alloc_frame (h : Heap T) (alloc : A) (y : Nat) (hy : y ≠ h.brk) :
    (ctor_alloc h alloc).1.next y = h.next y ∧ (ctor_alloc h alloc).1.prev y = h.prev y ∧
      (ctor_alloc h alloc).1.cell y = h.cell y := by
  simp [ctor_alloc, Heap.setCell, Heap.setNext, Heap.setPrev, hy]

/-- `emplace` that returns has allocated one node. -/
theorem emplace_ok_brk (l : LinkedList A) (h : Heap T) (it : Nat) (c : Option T)
    (s : Heap T × LinkedList A) (he : l.emplace h it c = .ok s) : s.1.brk = h.brk + 1 := by
  unfold emplace at he
  cases c with
  | none => simp at he
  | some v =>
    simp only [] at he
    split at he
    · injection he with he
      rw [← he]
      rfl
    · simp at he

/-- The fill loop that returns has allocated one node for each index. -/
theorem fill_ok_brk (elem : Nat → Option T) : ∀ (idxs : List Nat) (l : LinkedList A)
    (h : Heap T) (s : Heap T × LinkedList A),
    fill l h elem idxs = .ok s → s.1.brk = h.brk + idxs.length
  | [], l, h, s, he => by
    unfold fill at he
    injection he with he
    rw [← he]
    rfl
  | i :: rest, l, h, s, he => by
    unfold fill at he
    cases hp : l.emplace h l.end_ (elem i) with
    | ok s1 =>
      rw [hp] at he
      simp only [] at he
      rw [fill_ok_brk elem rest s1.2 s1.1 s he, emplace_ok_brk l h _ _ s1 hp, List.length_cons]
      omega
    | throw s1 =>
      rw [hp] at he
      simp only [] at he
      split at he
      · simp at he
      · split at he <;> simp at he
    | ub =>
      rw [hp] at he
      simp at he

/-- The destructor of a list whose `size_` is not 0 and whose `head_.prev`
is not at a node has undefined behaviour. -/
theorem dtor_on_sentinel (l : LinkedList A) (h : Heap T) (hs : l.size_ ≠ 0)
    (hp : ¬ (h.isNode (h.prev l.head_) = true)) : l.dtor h = none := by
  unfold dtor
  obtain ⟨d, hd⟩ := Nat.exists_eq_succ_of_ne_zero hs
  rw [hd]
  have hpop : l.pop_back h = none := by
    unfold pop_back iter_prev end_
    split
    · rw [Option.some_bind]
      unfold erase
      rw [if_neg (fun hc => hp hc.1)]
    · rfl
  unfold destroy
  rw [hpop]
  rfl

/-- The sized constructors, when they return within the address space, build
a represented list out of fresh addresses and touch nothing else. -/
theorem fill_sound (h : Heap T) (count : Nat) (alloc : A) (v : T)
    (s : Heap T × LinkedList A)
    (he : (ctor_alloc h alloc).2.fill (ctor_alloc h alloc).1 (fun _ => some v)
      (List.range count) = .ok s)
    (hb : s.1.brk < SIZE_MOD) :
    ∃ xs, Repr s.1 s.2 xs ∧ (∀ c, c ∈ s.2.head_ :: xs.map Prod.fst → h.brk ≤ c) ∧
      h.brk ≤ s.1.brk ∧
      (∀ c, c < h.brk →
        s.1.next c = h.next c ∧ s.1.prev c = h.prev c ∧ s.1.cell c = h.cell c) := by
  have hbrk := fill_ok_brk _ _ _ _ s he
  rw [List.length_range] at hbrk
  have hb0 : (ctor_alloc h alloc).1.brk = h.brk + 1 := rfl
  have hh0 : (ctor_alloc h alloc).2.head_ = h.brk := rfl
  rw [hb0] at hbrk
  obtain ⟨h', l', new, hf, hr, hnew, hhead, -, -, -, -, -, hfr⟩ :=
    fill_prefix (fun _ => some v) (List.range count) [] (ctor_alloc h alloc).1
      (ctor_alloc h alloc).2 [] (ctor_alloc_repr h alloc) (fun _ _ => rfl)
      (by rw [List.length_range, List.length_nil]; omega)
  rw [List.append_nil, he] at hf
  unfold fill at hf
  injection hf with hf
  rw [hf]
  rw [List.nil_append] at hr hfr
  rw [hb0, List.length_range] at hnew
  rw [hh0] at hhead
  have hmem : ∀ c, c ∈ l'.head_ :: new.map Prod.fst → h.brk ≤ c := by
    intro c hc
    rcases List.mem_cons.mp hc with e | hc
    · rw [e, hhead]
    · rw [hnew] at hc
      have := (List.mem_range'_1.mp hc).1
      omega
  refine ⟨new, hr, hmem, ?_, ?_⟩
  · rw [← hf, hbrk]; omega
  · intro c hc
    have hnot : c ∉ (ctor_alloc h alloc).2.head_ :: new.map Prod.fst := by
      intro hm
      rw [hh0, ← hhead] at hm
      have := hmem c hm
      omega
    obtain ⟨a1, a2, a3⟩ := hfr c hnot
    obtain ⟨b1, b2, b3⟩ := ctor_alloc_frame h alloc c (by omega)
    exact ⟨a1.trans b1, a2.trans b2, a3.trans b3⟩

/-- The copy loop of the copy constructor and of `operator=`, on a source in
either reachable state and with fuel for `size()` nodes: it returns, the
temporary is a represented list out of fresh addresses, and nothing below
the old frontier is touched. -/
theorem copy_phase (h : Heap T) (al : A) (b : LinkedList A) (R : List Nat)
    (hob : Owns h b R) (hbrk : h.brk < SIZE_MOD) :
    ∃ h1 l1 zs n, copy_loop (ctor_alloc h al).2 (ctor_alloc h al).1 b.end_
        (fun _ v => some v) b.size_ (b.begin (ctor_alloc h al).1) 0 = .ok (h1, l1, n) ∧
      Repr h1 l1 zs ∧ l1.head_ = h.brk ∧
      (∀ c, c ∈ zs.map Prod.fst → h.brk < c) ∧ h.brk < h1.brk ∧
      (∀ y, y < h.brk →
        h1.next y = h.next y ∧ h1.prev y = h.prev y ∧ h1.cell y = h.cell y) := by
  rcases hob with ⟨ys, hr, -⟩ | ⟨hk, -⟩
  · have hlen := ring_length_le hr
    obtain ⟨h1, l1, new, hc, hr1, -, -, hh1, -, -, hnew, hb1, -, -, -, -, hfr⟩ :=
      copy_all h al b ys (fun _ v => some v) b.size_ hr (fun _ _ => rfl)
        (by rw [hr.size]) (by omega)
    refine ⟨h1, l1, new, ys.length, hc, hr1, hh1, ?_, by omega, hfr⟩
    intro c hc
    rw [hnew] at hc
    have := (List.mem_range'_1.mp hc).1
    omega
  · have hne : b.head_ ≠ h.brk := Nat.ne_of_lt hk.below
    have hbeg : b.begin (ctor_alloc h al).1 = b.end_ := by
      unfold begin end_
      rw [(ctor_alloc_frame h al b.head_ hne).1]
      exact hk.next
    refine ⟨(ctor_alloc h al).1, (ctor_alloc h al).2, [], 0, ?_, ctor_alloc_repr h al, rfl, ?_,
      ?_, ?_⟩
    · rw [hbeg]
      exact copy_loop_at_stop _ _ _ _ _ _
    · intro c hc
      simp at hc
    · show h.brk < h.brk + 1
      omega
    · intro y hy
      exact ctor_alloc_frame h al y (Nat.ne_of_lt hy)

end LinkedList

/-! ## Theorems: copy construction and copy-assignment keep the states -/

namespace LinkedList

variable {T A : Type}

/-- The copy constructor, from a source in either reachable state: the new
list is a represented list out of fresh addresses, and nothing below the old
frontier is touched. -/
theorem ctor_copy_sound (tr : AllocTraits A) (h : Heap T) (b : LinkedList A) (R : List Nat)
    (hob : Owns h b R) (hbrk : h.brk < SIZE_MOD) (s : Heap T × LinkedList A)
    (he : ctor_copy tr h b (fun _ v => some v) b.size_ = .ok s) :
    ∃ xs, Repr s.1 s.2 xs ∧ (∀ c, c ∈ s.2.head_ :: xs.map Prod.fst → h.brk ≤ c) ∧
      h.brk ≤ s.1.brk ∧
      (∀ c, c < h.brk →
        s.1.next c = h.next c ∧ s.1.prev c = h.prev c ∧ s.1.cell c = h.cell c) := by
  obtain ⟨h1, l1, zs, n, hc, hr1, hh1, hz, hb1, hfr⟩ :=
    copy_phase h (tr.select_on_container_copy_construction b.alloc) b R hob hbrk
  unfold ctor_copy at he
  simp only [] at he
  rw [hc] at he
  simp only [] at he
  injection he with he
  rw [← he]
  refine ⟨zs, hr1, ?_, Nat.le_of_lt hb1, hfr⟩
  intro c hm
  rcases List.mem_cons.mp hm with e | hm
  · rw [e]; exact Nat.le_of_eq hh1.symm
  · exact Nat.le_of_lt (hz c hm)

/-- Copy-assignment `a = b` that returns, on lists in reachable states:
`a` is again in a reachable state, it owns addresses it owned before or
fresh ones, and below the old frontier nothing outside what `a` owned is
touched. -/
theorem assign_sound (tr : AllocTraits A) (a b : LinkedList A) (h : Heap T)
    (Ra Rb : List Nat) (hoa : Owns h a Ra) (hob : Owns h b Rb) (hbrk : h.brk < SIZE_MOD)
    (s : Heap T × LinkedList A)
    (he : assign tr a h b (fun _ v => some v) b.size_ = .ok s) :
    ∃ R', Owns s.1 s.2 R' ∧ (∀ c, c ∈ R' → c ∈ Ra ∨ h.brk ≤ c) ∧ h.brk ≤ s.1.brk ∧
      (∀ c, c < h.brk → c ∉ Ra →
        s.1.next c = h.next c ∧ s.1.prev c = h.prev c ∧ s.1.cell c = h.cell c) := by
  obtain ⟨h1, l1, zs, n, hc, hr1, hh1, hz, hb1, hfr⟩ :=
    copy_phase h (if tr.propagate_on_container_copy_assignment then get_allocator b
      else get_allocator a) b Rb hob hbrk
  unfold assign at he
  simp only [] at he
  rw [hc] at he
  simp only [] at he
  have hoa1 : Owns h1 a Ra := hoa.keep (Nat.le_of_lt hb1) (fun c hc _ => hfr c hc)
  have hAlt : a.head_ < h.brk := hoa.below _ hoa.head_mem
  have hAO : a.head_ ≠ l1.head_ := by rw [hh1]; exact Nat.ne_of_lt hAlt
  have hAz : a.head_ ∉ l1.head_ :: zs.map Prod.fst := by
    intro hm
    rcases List.mem_cons.mp hm with e | hm
    · exact hAO e
    · have := hz _ hm
      omega
  rcases hoa with ⟨xs, hra, hRa⟩ | ⟨hk, hRa⟩
  swap
  · -- the destination is in the state `Broken`
    have hk1 : Broken h1 a := by
      rcases hoa1 with ⟨xs, hr, e⟩ | ⟨hk1, -⟩
      · exfalso
        rw [hRa] at e
        cases xs with
        | nil => exact hk.size hr.size
        | cons x xs => simp at e
      · exact hk1
    rw [swap_broken a l1 h1 zs hk1 hr1 hAz] at he
    simp at he
  have hlen := ring_length_le hra
  have hra1 : Repr h1 a xs := hra.frame (fun y hy => hfr y (hra.below y hy)) (Nat.le_of_lt hb1)
  cases xs with
  | nil =>
    cases zs with
    | nil =>
      obtain ⟨h3, hs, hf3, hb3⟩ := swap_empty_empty a l1 h1 hra1 hr1 hAO
      rw [hs] at he
      simp only [] at he
      have hro3 : Repr h3 ({ l1 with
          alloc := a.alloc, size_ := a.size_, node_allocator_ := a.node_allocator_ } :
          LinkedList A) [] :=
        (hr1.frame (fun y _ => hf3 y) (Nat.le_of_eq hb3.symm)).object rfl hra1.size
      obtain ⟨h4, hd, hb4, -, -, -, -, -, hf4⟩ := dtor_repr h3 _ [] hro3 (by
        rw [List.length_nil]; decide)
      rw [hd] at he
      simp only [] at he
      injection he with he
      rw [← he]
      have hfin : ∀ c, c < h.brk →
          h4.next c = h.next c ∧ h4.prev c = h.prev c ∧ h4.cell c = h.cell c := by
        intro c hc
        have hnot : c ∉ l1.head_ :: ([] : List (Nat × T)).map Prod.fst := by
          simp only [List.map_nil, List.mem_singleton]
          rw [hh1]; omega
        obtain ⟨a1, a2, a3⟩ := hf4 c hnot
        obtain ⟨b1, b2, b3⟩ := hf3 c
        obtain ⟨c1, c2, c3⟩ := hfr c hc
        exact ⟨a1.trans (b1.trans c1), a2.trans (b2.trans c2), a3.trans (b3.trans c3)⟩
      refine ⟨Ra, Or.inl ⟨[], ?_, hRa⟩, fun c hc => Or.inl hc, ?_, fun c hc _ => hfin c hc⟩
      · have hra4 : Repr h4 a [] :=
          hra.frame (fun y hy => hfin y (hra.below y hy)) (by rw [hb4, hb3]; omega)
        exact hra4.object rfl hr1.size
      · show h.brk ≤ h4.brk
        rw [hb4, hb3]; omega
    | cons z zs =>
      obtain ⟨h3, hs, hn3, hp3, hc3, hb3, hf3⟩ := swap_empty_nonempty a l1 h1 z zs hra1 hr1 hAz
      rw [hs] at he
      simp only [] at he
      have hsz : a.size_ = 0 := hra.size
      unfold dtor at he
      simp only [] at he
      rw [hsz] at he
      unfold destroy at he
      simp only [Option.map_some'] at he
      injection he with he
      rw [← he]
      have hfin : ∀ c, c < h.brk → c ≠ a.head_ →
          (h3.setCell l1.head_ .free).next c = h.next c ∧
          (h3.setCell l1.head_ .free).prev c = h.prev c ∧
          (h3.setCell l1.head_ .free).cell c = h.cell c := by
        intro c hc hcA
        have hnot : c ∉ l1.head_ :: (z :: zs).map Prod.fst := by
          intro hm
          rcases List.mem_cons.mp hm with e | hm
          · rw [e, hh1] at hc; omega
          · have := hz _ hm
            omega
        obtain ⟨b1, b2⟩ := hf3 c hcA hnot
        obtain ⟨c1, c2, c3⟩ := hfr c hc
        have hcO : c ≠ l1.head_ := by rw [hh1]; omega
        refine ⟨b1.trans c1, b2.trans c2, ?_⟩
        show (if c = l1.head_ then Cell.free else h3.cell c) = h.cell c
        rw [if_neg hcO, hc3]
        exact c3
      refine ⟨[a.head_], Or.inr ⟨?_, rfl⟩, ?_, ?_, ?_⟩
      · refine ⟨?_, ?_, hn3, ?_, ?_, ?_⟩
        · show l1.size_ ≠ 0
          rw [hr1.size]
          simp
        · show (if a.head_ = l1.head_ then Cell.free else h3.cell a.head_) = .sentinel
          rw [if_neg hAO, hc3]
          exact hra1.head
        · show (if h3.prev a.head_ = l1.head_ then Cell.free else h3.cell (h3.prev a.head_)) =
            .free
          rw [if_pos hp3]
        · show h3.prev a.head_ < h3.brk
          rw [hp3, hb3, hh1]
          exact hb1
        · show a.head_ < h3.brk
          rw [hb3]; omega
      · intro c hc
        rw [List.mem_singleton] at hc
        left
        rw [hc, hRa]; simp
      · show h.brk ≤ h3.brk
        rw [hb3]; omega
      · intro c hc hcR
        exact hfin c hc (fun e => hcR (by rw [e, hRa]; simp))
  | cons x xs =>
    have hOx : l1.head_ ∉ a.head_ :: (x :: xs).map Prod.fst := by
      intro hm
      have := hra.below _ hm
      rw [hh1] at this
      omega
    cases zs with
    | nil =>
      exfalso
      obtain ⟨h3, hs, hp3, hc3⟩ := swap_nonempty_empty a l1 h1 x xs hra1 hr1 hOx
      rw [hs] at he
      simp only [] at he
      rw [dtor_on_sentinel _ h3 (by show a.size_ ≠ 0; rw [hra.size]; simp) (by
        show ¬ (h3.isNode (h3.prev l1.head_) = true)
        rw [hp3]
        apply not_isNode_of_sentinel
        rw [hc3]
        exact hra1.head)] at he
      simp at he
    | cons z zs =>
      have hd : ∀ y, y ∈ a.head_ :: (x :: xs).map Prod.fst →
          y ∉ l1.head_ :: (z :: zs).map Prod.fst := by
        intro y hy hm
        have hy' := hra.below y hy
        rcases List.mem_cons.mp hm with e | hm
        · rw [e, hh1] at hy'; omega
        · have := hz _ hm
          omega
      obtain ⟨h3, hs, hA3, hO3, hc3, hb3, -, -, -, -, hf3⟩ :=
        swap_nonempty a l1 h1 x xs z zs hra1 hr1 hd
      rw [hs] at he
      simp only [] at he
      have hro3 := hO3 ({ l1 with
          alloc := a.alloc, size_ := a.size_, node_allocator_ := a.node_allocator_ } :
          LinkedList A) rfl rfl
      obtain ⟨h4, hdt, hb4, -, -, -, -, -, hf4⟩ := dtor_repr h3 _ (x :: xs) hro3 (by omega)
      rw [hdt] at he
      simp only [] at he
      injection he with he
      rw [← he]
      have hra3 := hA3 ({ a with
          alloc := l1.alloc, size_ := l1.size_, node_allocator_ := l1.node_allocator_ } :
          LinkedList A) rfl rfl
      refine ⟨a.head_ :: (z :: zs).map Prod.fst, Or.inl ⟨z :: zs, ?_, rfl⟩, ?_, ?_, ?_⟩
      · refine hra3.frame ?_ (Nat.le_of_eq hb4.symm)
        intro y hy
        apply hf4
        intro hm
        rcases List.mem_cons.mp hy with e | hy
        · rcases List.mem_cons.mp hm with e2 | hm
          · exact hAO (e.symm.trans e2)
          · exact (List.nodup_cons.mp hra.nodup).1 (by rw [← e]; exact hm)
        · have h1' := hz _ hy
          rcases List.mem_cons.mp hm with e2 | hm
          · rw [e2] at h1'
            change h.brk < l1.head_ at h1'
            rw [hh1] at h1'
            omega
          · have := hra.below y (List.mem_cons_of_mem _ hm)
            omega
      · intro c hc
        rcases List.mem_cons.mp hc with e | hc
        · left; rw [e, hRa]; simp
        · right; exact Nat.le_of_lt (hz _ hc)
      · show h.brk ≤ h4.brk
        rw [hb4, hb3]; omega
      · intro c hc hcR
        rw [hRa] at hcR
        have hnot : c ∉ l1.head_ :: (z :: zs).map Prod.fst := by
          intro hm
          rcases List.mem_cons.mp hm with e | hm
          · rw [e, hh1] at hc; omega
          · have := hz _ hm
            omega
        have hnot4 : c ∉ l1.head_ :: (x :: xs).map Prod.fst := by
          intro hm
          rcases List.mem_cons.mp hm with e | hm
          · exact hnot (by rw [e]; exact List.mem_cons_self _ _)
          · exact hcR (List.mem_cons_of_mem _ hm)
        obtain ⟨a1, a2, a3⟩ := hf4 c hnot4
        obtain ⟨b1, b2⟩ := hf3 c hcR hnot
        obtain ⟨c1, c2, c3⟩ := hfr c hc
        refine ⟨a1.trans (b1.trans c1), a2.trans (b2.trans c2), a3.trans ?_⟩
        rw [hc3]; exact c3

end LinkedList

/-! ## Theorems: every reachable list is in one of the two states -/

namespace LinkedList

variable {T A : Type}

/-- The constructor of a new list commits only a normal return within the
address space. -/
theorem commit_new (w w' : Lists T A) (r : Res (Heap T × LinkedList A))
    (he : w.commit r none = some w') :
    ∃ s, r = .ok s ∧ s.1.brk < SIZE_MOD ∧ w' = { heap := s.1, lists := w.lists ++ [s.2] } := by
  unfold Lists.commit at he
  cases r with
  | ok s =>
    simp only [] at he
    split at he
    · rename_i hb
      injection he with he
      exact ⟨s, rfl, hb, he.symm⟩
    · simp at he
  | throw s => simp at he
  | ub => simp at he

/-- A command on the list at position `i` commits only a normal return
within the address space. -/
theorem commit_at (w w' : Lists T A) (r : Res (Heap T × LinkedList A)) (i : Nat)
    (he : w.commit r (some i) = some w') :
    ∃ s, r = .ok s ∧ s.1.brk < SIZE_MOD ∧ w' = { heap := s.1, lists := w.lists.set i s.2 } := by
  unfold Lists.commit at he
  cases r with
  | ok s =>
    simp only [] at he
    split at he
    · rename_i hb
      injection he with he
      exact ⟨s, rfl, hb, he.symm⟩
    · simp at he
  | throw s => simp at he
  | ub => simp at he

/-- No list, and the empty memory: the invariant holds. -/
theorem init_sound : Sound (Lists.init T A) := by
  refine ⟨by show (1 : Nat) < SIZE_MOD; decide, fun _ => [], ?_, ?_⟩
  · intro i l hl
    simp [Lists.init] at hl
  · intro i j hi
    simp [Lists.init] at hi

/-- Every command that returns keeps the invariant. -/
theorem step_sound (tr : AllocTraits A) (w w' : Lists T A) (c : Cmd T A) (hs : Sound w)
    (he : w.step tr c = some w') : Sound w' := by
  obtain ⟨hbrk, ring, hown, hdis⟩ := hs
  cases c with
  | ctor alloc =>
    obtain ⟨s, hr, hb, rfl⟩ := commit_new w w' (.ok (ctor_alloc w.heap alloc)) he
    injection hr with hr
    rw [← hr]
    refine sound_append w ring _ _ [w.heap.brk] hown hdis ?_ (by rw [hr]; exact hb)
      (Or.inl ⟨[], ctor_alloc_repr _ _, rfl⟩) ?_ ?_
    · show w.heap.brk ≤ w.heap.brk + 1
      omega
    · intro c hc
      rw [List.mem_singleton] at hc
      omega
    · intro c hc
      exact ctor_alloc_frame _ _ c (Nat.ne_of_lt hc)
  | ctor_count count alloc v =>
    obtain ⟨s, hr, hb, rfl⟩ :=
      commit_new w w' (ctor_count w.heap count alloc (fun _ => some v)) he
    obtain ⟨xs, hrep, hm, hle, hfr⟩ := fill_sound w.heap count alloc v s hr hb
    exact sound_append w ring _ _ _ hown hdis hle hb (Or.inl ⟨xs, hrep, rfl⟩) hm hfr
  | ctor_count_obj count obj alloc =>
    obtain ⟨s, hr, hb, rfl⟩ :=
      commit_new w w' (ctor_count_obj w.heap count alloc (fun _ => some obj)) he
    obtain ⟨xs, hrep, hm, hle, hfr⟩ := fill_sound w.heap count alloc obj s hr hb
    exact sound_append w ring _ _ _ hown hdis hle hb (Or.inl ⟨xs, hrep, rfl⟩) hm hfr
  | ctor_copy j =>
    simp only [Lists.step] at he
    cases hj : w.lists[j]? with
    | none =>
      rw [hj] at he
      simp at he
    | some src =>
      rw [hj] at he
      simp only [] at he
      obtain ⟨s, hr, hb, rfl⟩ := commit_new w w' _ he
      obtain ⟨xs, hrep, hm, hle, hfr⟩ :=
        ctor_copy_sound tr w.heap src (ring j) (hown j src hj) hbrk s hr
      exact sound_append w ring _ _ _ hown hdis hle hb (Or.inl ⟨xs, hrep, rfl⟩) hm hfr
  | op i o =>
    simp only [Lists.step] at he
    cases hi : w.lists[i]? with
    | none =>
      rw [hi] at he
      simp at he
    | some l =>
      rw [hi] at he
      simp only [] at he
      obtain ⟨s, hr, hb, rfl⟩ := commit_at w w' _ _ he
      have ho := hown i l hi
      rcases ho with ⟨xs, hrep, hR⟩ | ⟨hk, -⟩
      · have hlen := ring_length_le hrep
        obtain ⟨xs', hrep', hhead, hle, hmem, hfr⟩ :=
          apply_good w.heap l xs o s.1 s.2 hrep (by omega) hr
        refine sound_update w ring i l s.2 s.1 _ hown hdis hi hle hb
          (Or.inl ⟨xs', hrep', rfl⟩) ?_ ?_
        · intro c hc
          rw [hR]
          rcases List.mem_cons.mp hc with e | hc
          · left; rw [e, hhead]; simp
          · rcases hmem c hc with h1 | h1
            · left; exact List.mem_cons_of_mem _ h1
            · right; omega
        · intro c hc hnot
          rw [hR] at hnot
          exact hfr c hnot (Nat.ne_of_lt hc)
      · rw [apply_broken w.heap l o hk] at hr
        simp at hr
  | assign i j =>
    simp only [Lists.step] at he
    cases hi : w.lists[i]? with
    | none =>
      rw [hi] at he
      simp at he
    | some a =>
      cases hj : w.lists[j]? with
      | none =>
        rw [hi, hj] at he
        simp at he
      | some b =>
        rw [hi, hj] at he
        simp only [] at he
        obtain ⟨s, hr, hb, rfl⟩ := commit_at w w' _ _ he
        obtain ⟨R', ho', hR', hle, hfr⟩ :=
          assign_sound tr a b w.heap (ring i) (ring j) (hown i a hi) (hown j b hj) hbrk s hr
        exact sound_update w ring i a s.2 s.1 R' hown hdis hi hle hb ho' hR' hfr

/-- Every program that returns keeps the invariant. -/
theorem run_sound (tr : AllocTraits A) : ∀ (prog : List (Cmd T A)) (w w' : Lists T A),
    Sound w → w.run tr prog = some w' → Sound w'
  | [], w, w', hs, he => by
    unfold Lists.run at he
    injection he with he
    rw [← he]; exact hs
  | c :: rest, w, w', hs, he => by
    unfold Lists.run at he
    cases hc : w.step tr c with
    | none =>
      rw [hc] at he
      simp at he
    | some w1 =>
      rw [hc, Option.some_bind] at he
      exact run_sound tr rest w1 w' (step_sound tr w w1 c hs hc) he

/-- C31: for every list of a program that builds lists with the constructors
and uses push, pop, insert, erase and copy-assignment from any list (element
constructions not throwing), `head_.next == &head_ && head_.prev == &head_`
holds if and only if `size() == 0` and `begin() == end()`. -/
theorem C31_self_linked_iff_empty (tr : AllocTraits A) (prog : List (Cmd T A))
    (w : Lists T A) (hrun : (Lists.init T A).run tr prog = some w)
    (i : Nat) (l : LinkedList A) (hl : w.lists[i]? = some l) :
    (w.heap.next l.head_ = l.head_ ∧ w.heap.prev l.head_ = l.head_) ↔
      (l.size = 0 ∧ l.begin w.heap = l.end_) := by
  obtain ⟨-, ring, hown, -⟩ := run_sound tr prog _ w init_sound hrun
  exact (hown i l hl).self_linked_iff

/-- C31 at `selfLinkProgram`: the list `a` (position 0) was empty when
`a = b` was made from a list of one element, and the list `c` (position 2)
was assigned from `a` afterwards.  For `a`, neither side of the equivalence
holds, although `begin() == end()`: its `size()` is 1.  For `c`, both sides
hold. -/
theorem C31_self_linked_iff_empty_witness :
    (Lists.init Nat Unit).run ⟨id, true⟩ selfLinkProgram = some selfLinkWorld ∧
    selfLinkWorld.lists.map (headAndEmpty selfLinkWorld.heap) =
      [(false, false), (false, false), (true, true), (true, true)] ∧
    selfLinkWorld.lists.map (fun l => (l.size, l.begin selfLinkWorld.heap == l.end_)) =
      [(1, true), (1, false), (0, true), (0, true)] ∧
    ((selfLinkWorld.heap.next 1 = 1 ∧ selfLinkWorld.heap.prev 1 = 1) ↔
      ((⟨1, 1, (), ()⟩ : LinkedList Unit).size = 0 ∧
        (⟨1, 1, (), ()⟩ : LinkedList Unit).begin selfLinkWorld.heap =
          (⟨1, 1, (), ()⟩ : LinkedList Unit).end_)) :=
  ⟨rfl, by decide, by decide,
    C31_self_linked_iff_empty ⟨id, true⟩ selfLinkProgram selfLinkWorld rfl 0 ⟨1, 1, (), ()⟩ rfl⟩

end LinkedList
/-! ## Proofs: stack arena -/

namespace StackArena

/-- One defined `allocate` call on a storage whose cursor is inside a buffer
of at most `2 ^ 63` bytes, with an alignment of at most `2 ^ 62`: nothing
wraps, the returned range starts at or after the old cursor and ends exactly
at the new one. -/
theorem allocate_spec (s s' : StackStorage) (count alignment off : Nat)
    (hs : s.shift_ ≤ s.N) (hN : s.N ≤ 9223372036854775808)
    (hc : count < SIZE_MOD) (hal : alignment ≤ 4611686018427387904)
    (h : s.allocate count alignment = some (off, s')) :
    s.shift_ ≤ off ∧ off + count = s'.shift_ ∧ s'.N = s.N ∧ s'.shift_ ≤ s'.N ∧
    s'.shift_ % alignment = 0 := by
  unfold StackStorage.allocate at h
  split at h
  · simp at h
  · rename_i hal0
    simp only [] at h
    split at h
    · rename_i hg
      injection h with h
      injection h with h1 h2
      have hpos : 0 < alignment := Nat.pos_of_ne_zero hal0
      -- the padding is less than the alignment
      generalize hpad : usub alignment (uadd s.shift_ count % alignment) % alignment = pad at hg h1 h2
      have hpadlt : pad < alignment := by rw [← hpad]; exact Nat.mod_lt _ hpos
      have hrlt : uadd s.shift_ count % alignment < alignment := Nat.mod_lt _ hpos
      -- the first addition does not wrap
      have e1 : uadd s.shift_ count = s.shift_ + count := by
        by_contra hne
        have hw : uadd s.shift_ count = s.shift_ + count - SIZE_MOD := by
          unfold uadd SIZE_MOD at *
          omega
        rw [hw] at hg hpad
        unfold uadd SIZE_MOD at *
        omega
      rw [e1] at hg h1 h2 hpad hrlt
      -- nor does the second
      have e2 : uadd (s.shift_ + count) pad = s.shift_ + count + pad := by
        unfold uadd SIZE_MOD at *
        omega
      rw [e2] at hg h1 h2
      have hmod : (s.shift_ + count + pad) % alignment = 0 := by
        have hu : usub alignment ((s.shift_ + count) % alignment)
            = alignment - (s.shift_ + count) % alignment :=
          usub_eq (Nat.le_of_lt hrlt) (by unfold SIZE_MOD; omega)
        rw [hu] at hpad
        have hx := Nat.div_add_mod (s.shift_ + count) alignment
        by_cases hz : (s.shift_ + count) % alignment = 0
        · have hp0 : pad = 0 := by rw [← hpad, hz, Nat.sub_zero, Nat.mod_self]
          rw [hp0, Nat.add_zero]; exact hz
        · have hp1 : pad = alignment - (s.shift_ + count) % alignment := by
            rw [← hpad]; exact Nat.mod_eq_of_lt (by omega)
          have hsum : s.shift_ + count + pad
              = alignment * ((s.shift_ + count) / alignment + 1) := by
            rw [Nat.mul_add, Nat.mul_one]; omega
          rw [hsum]; exact Nat.mul_mod_right _ _
      subst h2
      subst h1
      dsimp only
      exact ⟨by omega, by omega, rfl, hg.1, hmod⟩
    · simp at h

/-- A call whose bytes and worst-case padding fit into what is left of the
buffer is defined. -/
theorem allocate_fits (s : StackStorage) (count alignment : Nat)
    (hal : 0 < alignment) (hN : s.N < SIZE_MOD)
    (hfit : s.shift_ + count + (alignment - 1) ≤ s.N) :
    ∃ r, s.allocate count alignment = some r := by
  have hrlt : uadd s.shift_ count % alignment < alignment := Nat.mod_lt _ hal
  have hpadlt : usub alignment (uadd s.shift_ count % alignment) % alignment < alignment :=
    Nat.mod_lt _ hal
  have e1 : uadd s.shift_ count = s.shift_ + count := uadd_eq (by omega)
  unfold StackStorage.allocate
  rw [if_neg (by omega)]
  simp only []
  rw [e1] at hpadlt ⊢
  have e2 : uadd (s.shift_ + count)
      (usub alignment ((s.shift_ + count) % alignment) % alignment)
      = s.shift_ + count + usub alignment ((s.shift_ + count) % alignment) % alignment :=
    uadd_eq (by omega)
  rw [e2, if_pos ⟨by omega, by omega⟩]
  exact ⟨_, rfl⟩

/-- When the byte count is a multiple of the alignment, as it is for
`count * sizeof(T)` and `alignof(T)`, the returned offset is aligned. -/
theorem allocate_aligned_of_dvd (s s' : StackStorage) (count alignment off : Nat)
    (hs : s.shift_ ≤ s.N) (hN : s.N ≤ 9223372036854775808)
    (hc : count < SIZE_MOD) (hal : alignment ≤ 4611686018427387904)
    (hdvd : count % alignment = 0)
    (h : s.allocate count alignment = some (off, s')) :
    off % alignment = 0 := by
  obtain ⟨-, h2, -, -, h5⟩ := allocate_spec s s' count alignment off hs hN hc hal h
  rw [← h2, Nat.add_mod, hdvd, Nat.add_zero, Nat.mod_mod] at h5
  exact h5

/-- The storages after one defined `StackAllocator::allocate` call. -/
theorem allocator_allocate_spec (a : StackAllocator) (mem mem1 : Memory) (count off : Nat)
    (hmem : ∀ p, (mem p).shift_ ≤ (mem p).N ∧ (mem p).N ≤ 9223372036854775808)
    (hal : a.alignof_T ≤ 4611686018427387904)
    (h : a.allocate mem count = some (off, mem1)) :
    (∀ p, (mem1 p).shift_ ≤ (mem1 p).N ∧ (mem1 p).N ≤ 9223372036854775808) ∧
    (∀ p, (mem p).shift_ ≤ (mem1 p).shift_) ∧
    (mem a.p_stack_storage_).shift_ ≤ off ∧
    off + umul count a.sizeof_T = (mem1 a.p_stack_storage_).shift_ := by
  unfold StackAllocator.allocate at h
  cases hr : (mem a.p_stack_storage_).allocate (umul count a.sizeof_T) a.alignof_T with
  | none => rw [hr] at h; simp at h
  | some r =>
    obtain ⟨o, s'⟩ := r
    rw [hr] at h
    simp only [Option.map_some', Option.some.injEq, Prod.mk.injEq] at h
    obtain ⟨ho, hm⟩ := h
    subst ho
    subst hm
    obtain ⟨c1, c2, c3, c4, -⟩ := allocate_spec _ s' _ _ o (hmem _).1 (hmem _).2
      (by unfold umul; exact Nat.mod_lt _ (by decide)) hal hr
    refine ⟨?_, ?_, c1, ?_⟩
    · intro p
      by_cases hp : p = a.p_stack_storage_
      · simp only [hp, if_true]
        exact ⟨c4, by rw [c3]; exact (hmem _).2⟩
      · simp only [hp, if_false]
        exact hmem p
    · intro p
      by_cases hp : p = a.p_stack_storage_
      · simp only [hp, if_true]
        omega
      · simp only [hp, if_false]
        exact Nat.le_refl _
    · simp only [if_true]
      exact c2

/-- A defined sequence of `allocate` calls: no cursor decreases, an earlier
grant ends before a later grant on the same storage starts, and every grant
lies between the cursor before the sequence and the cursor after it. -/
theorem allocateAll_spec : ∀ (calls : List (StackAllocator × Nat)) (mem : Memory)
    (grants : List Grant) (mem' : Memory),
    (∀ p, (mem p).shift_ ≤ (mem p).N ∧ (mem p).N ≤ 9223372036854775808) →
    (∀ c, c ∈ calls → c.1.alignof_T ≤ 4611686018427387904) →
    allocateAll mem calls = some (grants, mem') →
    (∀ p, (mem p).shift_ ≤ (mem' p).shift_) ∧
    grants.Pairwise (fun g1 g2 => g1.storage = g2.storage → g1.offset + g1.bytes ≤ g2.offset) ∧
    (∀ g, g ∈ grants → (mem g.storage).shift_ ≤ g.offset ∧
      g.offset + g.bytes ≤ (mem' g.storage).shift_)
  | [], mem, grants, mem', _, _, h => by
    unfold allocateAll at h
    simp only [Option.some.injEq, Prod.mk.injEq] at h
    obtain ⟨h1, h2⟩ := h
    subst h1
    subst h2
    exact ⟨fun _ => Nat.le_refl _, List.Pairwise.nil, fun g hg => by simp at hg⟩
  | (a, count) :: calls, mem, grants, mem', hmem, hal, h => by
    unfold allocateAll at h
    cases hr : a.allocate mem count with
    | none => rw [hr] at h; simp at h
    | some r =>
      obtain ⟨off, mem1⟩ := r
      rw [hr] at h
      simp only [Option.some_bind] at h
      cases hrest : allocateAll mem1 calls with
      | none => rw [hrest] at h; simp at h
      | some rest =>
        obtain ⟨gs, mem2⟩ := rest
        rw [hrest] at h
        simp only [Option.map_some', Option.some.injEq, Prod.mk.injEq] at h
        obtain ⟨h1, h2⟩ := h
        subst h1
        subst h2
        obtain ⟨m1, m2, m3, m4⟩ := allocator_allocate_spec a mem mem1 count off hmem
          (hal (a, count) (List.mem_cons_self _ _)) hr
        obtain ⟨i1, i2, i3⟩ := allocateAll_spec calls mem1 gs mem2 m1
          (fun c hc => hal c (List.mem_cons_of_mem _ hc)) hrest
        refine ⟨fun p => Nat.le_trans (m2 p) (i1 p), ?_, ?_⟩
        · refine List.Pairwise.cons ?_ i2
          intro g hg he
          have := (i3 g hg).1
          show off + umul count a.sizeof_T ≤ g.offset
          rw [m4]
          have he' : a.p_stack_storage_ = g.storage := he
          rw [he']
          exact this
        · intro g hg
          rcases List.mem_cons.mp hg with e | hg
          · subst e
            refine ⟨m3, ?_⟩
            show off + umul count a.sizeof_T ≤ (mem2 a.p_stack_storage_).shift_
            rw [m4]
            exact i1 _
          · exact ⟨Nat.le_trans (m2 _) (i3 g hg).1, (i3 g hg).2⟩

/-- C11 (evaluation at the failing input): on a fresh storage,
`allocate(3, 4)` moves the cursor to 4 and returns the offset `4 - 3 = 1`,
which is not a multiple of the alignment 4: the padding is added after the
bytes, so the end of the range is aligned and its start is not. -/
theorem C11_allocate_offset_misaligned :
    (StackStorage.ctor 16).allocate 3 4 = some (1, { N := 16, shift_ := 4 }) ∧
    ((StackStorage.ctor 16).allocate 3 4).map (fun r => r.1 % 4) = some 1 ∧
    ((StackStorage.ctor 16).allocate 3 4).map (fun r => r.2.shift_ % 4) = some 0 := by
  refine ⟨by decide, by decide, by decide⟩

/-- C12: on storages whose cursor lies inside a buffer of at most `2 ^ 63`
bytes, for every sequence of `allocate` calls issued through allocators with
alignments of at most `2 ^ 62`: when the calls are all defined, no cursor
has decreased, the byte ranges granted on one storage are pairwise disjoint
(an earlier one ends at or before the start of a later one), and each range
starts at or after the cursor before the calls and ends at or before the
cursor after them.  A call whose bytes and padding fit into the rest of the
buffer is defined, and an allocator converted to another value type points
to the same storage. -/
theorem C12_arena_grants_disjoint (mem : Memory) (calls : List (StackAllocator × Nat))
    (hmem : ∀ p, (mem p).shift_ ≤ (mem p).N ∧ (mem p).N ≤ 9223372036854775808)
    (hal : ∀ c, c ∈ calls → c.1.alignof_T ≤ 4611686018427387904) :
    (∀ grants mem', allocateAll mem calls = some (grants, mem') →
      (∀ p, (mem p).shift_ ≤ (mem' p).shift_) ∧
      grants.Pairwise
        (fun g1 g2 => g1.storage = g2.storage → g1.offset + g1.bytes ≤ g2.offset) ∧
      (∀ g, g ∈ grants → (mem g.storage).shift_ ≤ g.offset ∧
        g.offset + g.bytes ≤ (mem' g.storage).shift_)) ∧
    (∀ (a : StackAllocator) (count : Nat), 0 < a.alignof_T →
      (mem a.p_stack_storage_).shift_ + umul count a.sizeof_T + (a.alignof_T - 1)
        ≤ (mem a.p_stack_storage_).N →
      ∃ r, a.allocate mem count = some r) ∧
    (∀ (a : StackAllocator) (sizeof_U alignof_U : Nat),
      (StackAllocator.convert sizeof_U alignof_U a).p_stack_storage_ = a.p_stack_storage_) := by
  refine ⟨fun grants mem' h => allocateAll_spec calls mem grants mem' hmem hal h, ?_,
    fun _ _ _ => rfl⟩
  intro a count ha hfit
  obtain ⟨r, hr⟩ := allocate_fits (mem a.p_stack_storage_) (umul count a.sizeof_T) a.alignof_T ha
    (by have := (hmem a.p_stack_storage_).2; unfold SIZE_MOD; omega) hfit
  unfold StackAllocator.allocate
  rw [hr]
  exact ⟨_, rfl⟩

/-- C12 at the calls of `TestAlignment` on a storage of 200000 bytes: the
four grants are `[0, 3)`, `[4, 8)`, `[8, 563)` and `[576, 976)`. -/
theorem C12_arena_grants_disjoint_witness :
    (allocateAll (fun _ => StackStorage.ctor 200000) alignmentCalls).map (fun r => r.1)
      = some [⟨0, 0, 3⟩, ⟨0, 4, 4⟩, ⟨0, 8, 555⟩, ⟨0, 576, 400⟩] ∧
    ∀ grants mem', allocateAll (fun _ => StackStorage.ctor 200000) alignmentCalls
        = some (grants, mem') →
      (∀ p, ((fun _ => StackStorage.ctor 200000) p).shift_ ≤ (mem' p).shift_) ∧
      grants.Pairwise
        (fun g1 g2 => g1.storage = g2.storage → g1.offset + g1.bytes ≤ g2.offset) ∧
      (∀ g, g ∈ grants → ((fun _ => StackStorage.ctor 200000) g.storage).shift_ ≤ g.offset ∧
        g.offset + g.bytes ≤ (mem' g.storage).shift_) :=
  ⟨by decide,
   (C12_arena_grants_disjoint (fun _ => StackStorage.ctor 200000) alignmentCalls
      (fun _ => ⟨Nat.zero_le _, by show (200000 : Nat) ≤ 9223372036854775808; decide⟩)
      (by decide)).1⟩

end StackArena


/-! ## Theorems: typed allocations, `deallocate` -/

namespace StackArena

/-- A defined sequence of `allocate` calls keeps every cursor inside its
buffer and changes no capacity. -/
theorem allocateAll_inv : ∀ (calls : List (StackAllocator × Nat)) (mem : Memory)
    (grants : List Grant) (mem' : Memory),
    (∀ p, (mem p).shift_ ≤ (mem p).N ∧ (mem p).N ≤ 9223372036854775808) →
    (∀ c, c ∈ calls → c.1.alignof_T ≤ 4611686018427387904) →
    allocateAll mem calls = some (grants, mem') →
    ∀ p, (mem' p).shift_ ≤ (mem' p).N ∧ (mem' p).N ≤ 9223372036854775808
  | [], mem, grants, mem', hmem, _, h => by
    unfold allocateAll at h
    simp only [Option.some.injEq, Prod.mk.injEq] at h
    obtain ⟨-, h2⟩ := h
    subst h2
    exact hmem
  | (a, count) :: calls, mem, grants, mem', hmem, hal, h => by
    unfold allocateAll at h
    cases hr : a.allocate mem count with
    | none => rw [hr] at h; simp at h
    | some r =>
      obtain ⟨off, mem1⟩ := r
      rw [hr] at h
      simp only [Option.some_bind] at h
      cases hrest : allocateAll mem1 calls with
      | none => rw [hrest] at h; simp at h
      | some rest =>
        obtain ⟨gs, mem2⟩ := rest
        rw [hrest] at h
        simp only [Option.map_some', Option.some.injEq, Prod.mk.injEq] at h
        obtain ⟨-, h2⟩ := h
        subst h2
        exact allocateAll_inv calls mem1 gs mem2
          (allocator_allocate_spec a mem mem1 count off hmem
            (hal (a, count) (List.mem_cons_self _ _)) hr).1
          (fun c hc => hal c (List.mem_cons_of_mem _ hc)) hrest

/-- A typed request for a type whose size is a multiple of its alignment, the
alignment being a divisor of `2 ^ 62`, asks for a number of bytes that is a
multiple of the alignment, also when `count * sizeof(T)` wraps. -/
theorem typed_bytes_dvd (count sizeof_T alignof_T : Nat)
    (hpow : 4611686018427387904 % alignof_T = 0) (hsz : sizeof_T % alignof_T = 0) :
    umul count sizeof_T % alignof_T = 0 := by
  have h1 : alignof_T ∣ SIZE_MOD := by
    have : alignof_T ∣ 4611686018427387904 := Nat.dvd_of_mod_eq_zero hpow
    exact Dvd.dvd.mul_right this 4
  unfold umul
  rw [Nat.mod_mod_of_dvd _ h1]
  exact Nat.mod_eq_zero_of_dvd (Dvd.dvd.mul_left (Nat.dvd_of_mod_eq_zero hsz) count)

/-- The sequence with its `deallocate` calls does what the sequence of its
`allocate` calls does. -/
theorem runCalls_eq : ∀ (calls : List Call) (mem : Memory),
    runCalls mem calls = allocateAll mem (allocationsOf calls)
  | [], _ => rfl
  | .allocate a count :: calls, mem => by
    simp only [runCalls, allocationsOf, allocateAll]
    cases a.allocate mem count with
    | none => rfl
    | some r => simp only [Option.some_bind, runCalls_eq calls r.2]
  | .deallocate a ptr count :: calls, mem => by
    simp only [runCalls, allocationsOf, StackAllocator.deallocate]
    exact runCalls_eq calls mem

/-- C25: on storages of `N ≤ 2 ^ 63` bytes reached from fresh ones by any
defined sequence of typed `allocate` calls (through allocators of any value
types with alignments of at most `2 ^ 62`), for an allocator whose value type
has an alignment that is a non-zero divisor of `2 ^ 62` and a size that is a
multiple of that alignment, and for every count: a defined `allocate(count)`
returns an offset that is a multiple of `alignof(T)` with the granted bytes
inside the buffer, and the call is defined whenever the bytes and the padding
fit into the rest of the buffer. -/
theorem C25_typed_allocate_aligned (N : Nat) (calls : List (StackAllocator × Nat))
    (grants : List Grant) (mem : Memory) (a : StackAllocator) (count : Nat)
    (hN : N ≤ 9223372036854775808)
    (hcalls : ∀ c, c ∈ calls → c.1.alignof_T ≤ 4611686018427387904)
    (hreach : allocateAll (fun _ => StackStorage.ctor N) calls = some (grants, mem))
    (hal0 : a.alignof_T ≠ 0) (hpow : 4611686018427387904 % a.alignof_T = 0)
    (hsz : a.sizeof_T % a.alignof_T = 0) :
    (∀ off mem1, a.allocate mem count = some (off, mem1) →
      off % a.alignof_T = 0 ∧ off + umul count a.sizeof_T ≤ (mem a.p_stack_storage_).N ∧
      (mem a.p_stack_storage_).N = N) ∧
    ((mem a.p_stack_storage_).shift_ + umul count a.sizeof_T + (a.alignof_T - 1)
        ≤ (mem a.p_stack_storage_).N →
      ∃ off mem1, a.allocate mem count = some (off, mem1) ∧ off % a.alignof_T = 0) := by
  have hinv := allocateAll_inv calls _ grants mem
    (fun _ => ⟨Nat.zero_le _, hN⟩) hcalls hreach
  have hal : a.alignof_T ≤ 4611686018427387904 :=
    Nat.le_of_dvd (by decide) (Nat.dvd_of_mod_eq_zero hpow)
  have hb := typed_bytes_dvd count a.sizeof_T a.alignof_T hpow hsz
  have hcap : ∀ (cs : List (StackAllocator × Nat)) (m : Memory) (gs : List Grant) (m' : Memory),
      allocateAll m cs = some (gs, m') → ∀ p, (m' p).N = (m p).N := by
    intro cs
    induction cs with
    | nil =>
      intro m gs m' h p
      simp only [allocateAll, Option.some.injEq, Prod.mk.injEq] at h
      rw [h.2]
    | cons c cs ih =>
      intro m gs m' h p
      obtain ⟨b, n⟩ := c
      unfold allocateAll at h
      cases hr : b.allocate m n with
      | none => rw [hr] at h; simp at h
      | some r =>
        rw [hr] at h
        simp only [Option.some_bind] at h
        cases hrest : allocateAll r.2 cs with
        | none => rw [hrest] at h; simp at h
        | some rest =>
          rw [hrest] at h
          simp only [Option.map_some', Option.some.injEq, Prod.mk.injEq] at h
          rw [← h.2, ih r.2 rest.1 rest.2 (by rw [hrest]) p]
          unfold StackAllocator.allocate at hr
          cases hq : (m b.p_stack_storage_).allocate (umul n b.sizeof_T) b.alignof_T with
          | none => rw [hq] at hr; simp at hr
          | some q =>
            rw [hq] at hr
            simp only [Option.map_some', Option.some.injEq] at hr
            rw [← hr]
            by_cases hp : p = b.p_stack_storage_
            · simp only [hp, if_true]
              unfold StackStorage.allocate at hq
              split at hq
              · simp at hq
              · simp only [] at hq
                split at hq
                · simp only [Option.some.injEq] at hq
                  rw [← hq]
                · simp at hq
            · simp only [hp, if_false]
  have hNeq : (mem a.p_stack_storage_).N = N := hcap calls _ grants mem hreach _
  have key : ∀ off mem1, a.allocate mem count = some (off, mem1) →
      off % a.alignof_T = 0 ∧ off + umul count a.sizeof_T ≤ (mem a.p_stack_storage_).N := by
    intro off mem1 h
    obtain ⟨m1, -, -, m4⟩ := allocator_allocate_spec a mem mem1 count off hinv hal h
    have hcap1 : (mem1 a.p_stack_storage_).N = (mem a.p_stack_storage_).N := by
      have := hcap [(a, count)] mem
        [{ storage := a.p_stack_storage_, offset := off, bytes := umul count a.sizeof_T }] mem1
        (by simp [allocateAll, h])
      exact this _
    refine ⟨?_, ?_⟩
    · unfold StackAllocator.allocate at h
      cases hq : (mem a.p_stack_storage_).allocate (umul count a.sizeof_T) a.alignof_T with
      | none => rw [hq] at h; simp at h
      | some q =>
        obtain ⟨o, s'⟩ := q
        rw [hq] at h
        simp only [Option.map_some', Option.some.injEq, Prod.mk.injEq] at h
        rw [← h.1]
        exact allocate_aligned_of_dvd _ s' _ _ o (hinv _).1 (hinv _).2
          (by unfold umul; exact Nat.mod_lt _ (by decide)) hal hb hq
    · rw [m4, ← hcap1]
      exact (m1 _).1
  refine ⟨fun off mem1 h => ⟨(key off mem1 h).1, (key off mem1 h).2, hNeq⟩, ?_⟩
  intro hfit
  obtain ⟨r, hr⟩ := allocate_fits (mem a.p_stack_storage_) (umul count a.sizeof_T) a.alignof_T
    (Nat.pos_of_ne_zero hal0)
    (by have := (hinv a.p_stack_storage_).2; unfold SIZE_MOD; omega) hfit
  have hr' : a.allocate mem count
      = some (r.1, fun p => if p = a.p_stack_storage_ then r.2 else mem p) := by
    unfold StackAllocator.allocate
    rw [hr]
    rfl
  exact ⟨_, _, hr', (key _ _ hr').1⟩

/-- C25 at the calls of `TestAlignment`: after `allocate(3)` through the
`char` allocator of a fresh storage of 200000 bytes, `allocate(1)` through
the `int` allocator bound to the same storage returns the offset 4. -/
theorem C25_typed_allocate_aligned_witness :
    (StackAllocator.convert 4 4 (StackAllocator.ctor 1 1 0)).allocate
        (fun p => if p = 0 then { N := 200000, shift_ := 3 } else StackStorage.ctor 200000) 1
      = some (4, fun p => if p = 0 then { N := 200000, shift_ := 8 }
          else if p = 0 then { N := 200000, shift_ := 3 } else StackStorage.ctor 200000) ∧
    ∀ off mem1, (StackAllocator.convert 4 4 (StackAllocator.ctor 1 1 0)).allocate
        (fun p => if p = 0 then { N := 200000, shift_ := 3 } else StackStorage.ctor 200000) 1
        = some (off, mem1) →
      off % 4 = 0 ∧ off + umul 1 4 ≤ 200000 ∧ 200000 = 200000 :=
  ⟨rfl,
   (C25_typed_allocate_aligned 200000 [(StackAllocator.ctor 1 1 0, 3)]
      [{ storage := 0, offset := 0, bytes := 3 }]
      (fun p => if p = 0 then { N := 200000, shift_ := 3 } else StackStorage.ctor 200000)
      (StackAllocator.convert 4 4 (StackAllocator.ctor 1 1 0)) 1
      (by decide) (by decide) rfl (by decide) (by decide) (by decide)).1⟩

/-- C26: `deallocate` returns the storages it was given, whatever the pointer
and the count; a sequence of `allocate` and `deallocate` calls therefore
yields the grants (offsets and sizes) and the final cursors of the same
sequence without its `deallocate` calls; and on storages whose cursor lies
inside a buffer of at most `2 ^ 63` bytes, with alignments of at most
`2 ^ 62`, the ranges granted on one storage are pairwise disjoint whatever
was passed to `deallocate` in between, and no cursor has decreased. -/
theorem C26_deallocate_noop (mem : Memory) (calls : List Call)
    (hmem : ∀ p, (mem p).shift_ ≤ (mem p).N ∧ (mem p).N ≤ 9223372036854775808)
    (hal : ∀ c, c ∈ allocationsOf calls → c.1.alignof_T ≤ 4611686018427387904) :
    (∀ (a : StackAllocator) (m : Memory) (ptr count : Nat), a.deallocate m ptr count = m) ∧
    runCalls mem calls = allocateAll mem (allocationsOf calls) ∧
    (∀ grants mem', runCalls mem calls = some (grants, mem') →
      (∀ p, (mem p).shift_ ≤ (mem' p).shift_) ∧
      grants.Pairwise
        (fun g1 g2 => g1.storage = g2.storage → g1.offset + g1.bytes ≤ g2.offset)) := by
  refine ⟨fun _ _ _ _ => rfl, runCalls_eq calls mem, ?_⟩
  intro grants mem' h
  rw [runCalls_eq] at h
  obtain ⟨h1, h2, -⟩ := allocateAll_spec (allocationsOf calls) mem grants mem' hmem hal h
  exact ⟨h1, h2⟩

/-- C26 at the calls of `TestAlignment`, `deallocate` calls included, on a
storage of 200000 bytes: the grants are those of the four `allocate` calls
alone, `[0, 3)`, `[4, 8)`, `[8, 563)` and `[576, 976)`. -/
theorem C26_deallocate_noop_witness :
    (runCalls (fun _ => StackStorage.ctor 200000) alignmentProgram).map (fun r => r.1)
      = some [⟨0, 0, 3⟩, ⟨0, 4, 4⟩, ⟨0, 8, 555⟩, ⟨0, 576, 400⟩] ∧
    runCalls (fun _ => StackStorage.ctor 200000) alignmentProgram
      = allocateAll (fun _ => StackStorage.ctor 200000) (allocationsOf alignmentProgram) :=
  ⟨by decide,
   (C26_deallocate_noop (fun _ => StackStorage.ctor 200000) alignmentProgram
      (fun _ => ⟨Nat.zero_le _, by show (200000 : Nat) ≤ 9223372036854775808; decide⟩)
      (by decide)).2.1⟩

end StackArena

/-! ## Theorems: static primality check -/

namespace ResidueField

theorem isPrimeHelper_signal (N fuel Divisor : Nat) :
    isPrimeHelper N fuel Divisor true = some true := by
  cases fuel <;> rfl

theorem isPrimeHelper_succ (N fuel Divisor : Nat) (hN : 3 ≤ N) (hD : Divisor ≠ 0) :
    isPrimeHelper N (fuel + 1) Divisor false =
      (isPrimeHelper N fuel (uadd Divisor 1) (decide (N ≤ umul Divisor Divisor))).map
        fun v => (N % Divisor != 0) && v := by
  show (if N = 1 ∧ Divisor = 2 then some false
    else if N = 2 ∧ Divisor = 2 then some true
    else if Divisor = 0 then none
    else _) = _
  rw [if_neg (by omega), if_neg (by omega), if_neg hD]

/-- When no square reaches `N` in `size_t`, no depth of instantiation gives
a value. -/
theorem isPrimeHelper_diverges (N : Nat) (hN : 3 ≤ N) (hsq : ∀ D, umul D D < N) :
    ∀ fuel Divisor, isPrimeHelper N fuel Divisor false = none := by
  intro fuel
  induction fuel with
  | zero =>
    intro D
    show (if N = 1 ∧ D = 2 then some false
      else if N = 2 ∧ D = 2 then some true else none) = none
    rw [if_neg (by omega), if_neg (by omega)]
  | succ f ih =>
    intro D
    by_cases hD : D = 0
    · show (if N = 1 ∧ D = 2 then some false
        else if N = 2 ∧ D = 2 then some true
        else if D = 0 then none
        else _) = none
      rw [if_neg (by omega), if_neg (by omega), if_pos hD]
    · rw [isPrimeHelper_succ N f D hN hD]
      have : decide (N ≤ umul D D) = false := by
        have := hsq D
        simp only [decide_eq_false_iff_not]
        omega
      rw [this, ih]
      rfl

/-- The chain of instantiations from `Divisor` up to the first divisor `S`
whose square reaches `N`: it has a value once `S - Divisor + 1` nested
instantiations are allowed, and the value says that none of
`Divisor, ..., S` divides `N`. -/
theorem isPrimeHelper_chain (N S : Nat) (hN : 3 ≤ N) (hS : S + 1 < SIZE_MOD)
    (hstop : N ≤ umul S S) (hbelow : ∀ k, 2 ≤ k → k < S → umul k k < N) :
    ∀ n D, D + n = S → 2 ≤ D → ∀ fuel, n + 1 ≤ fuel →
      ∃ v, isPrimeHelper N fuel D false = some v ∧
        (v = true ↔ ∀ k, D ≤ k → k ≤ S → N % k ≠ 0) := by
  intro n
  induction n with
  | zero =>
    intro D hD h2 fuel hf
    obtain ⟨f, rfl⟩ : ∃ f, fuel = f + 1 := ⟨fuel - 1, by omega⟩
    have hDS : D = S := by omega
    subst hDS
    rw [isPrimeHelper_succ N f D hN (by omega)]
    have : decide (N ≤ umul D D) = true := by simpa using hstop
    rw [this, isPrimeHelper_signal]
    refine ⟨_, rfl, ?_⟩
    simp only [Bool.and_true, bne_iff_ne, ne_eq]
    constructor
    · intro h k hk1 hk2
      have : k = D := by omega
      rw [this]; exact h
    · intro h
      exact h D (Nat.le_refl _) (Nat.le_refl _)
  | succ n ih =>
    intro D hD h2 fuel hf
    obtain ⟨f, rfl⟩ : ∃ f, fuel = f + 1 := ⟨fuel - 1, by omega⟩
    rw [isPrimeHelper_succ N f D hN (by omega)]
    have hlt := hbelow D h2 (by omega)
    have : decide (N ≤ umul D D) = false := by
      simp only [decide_eq_false_iff_not]
      omega
    have hu : uadd D 1 = D + 1 := uadd_eq (by omega)
    rw [this, hu]
    obtain ⟨v, hv, hiff⟩ := ih (D + 1) (by omega) (by omega) f (by omega)
    rw [hv]
    refine ⟨_, rfl, ?_⟩
    simp only [Bool.and_eq_true, bne_iff_ne, ne_eq]
    rw [hiff]
    constructor
    · rintro ⟨h0, h1⟩ k hk1 hk2
      rcases Nat.eq_or_lt_of_le hk1 with e | hlt'
      · rw [← e]; exact h0
      · exact h1 k hlt' hk2
    · intro h
      exact ⟨h D (Nat.le_refl _) (by omega), fun k hk1 hk2 => h k (by omega) hk2⟩

/-- Some divisor below `N` has a square that reaches `N` in `size_t`, for
every `N` from 3 to `2 ^ 64 - 7`. -/
theorem exists_stop (N : Nat) (hN : 3 ≤ N) (hmax : N ≤ 18446744073709551609) :
    ∃ D, 2 ≤ D ∧ D < N ∧ D < 4611686018427387904 ∧ N ≤ umul D D := by
  by_cases h1 : N ≤ 4294967296
  · refine ⟨N - 1, by omega, by omega, by omega, ?_⟩
    have hno : (N - 1) * (N - 1) < SIZE_MOD := by
      have : (N - 1) * (N - 1) ≤ 4294967295 * 4294967295 :=
        Nat.mul_le_mul (by omega) (by omega)
      exact Nat.lt_of_le_of_lt this (by decide)
    rw [umul_eq hno]
    obtain ⟨m, rfl⟩ : ∃ m, N = m + 3 := ⟨N - 3, by omega⟩
    show m + 3 ≤ (m + 2) * (m + 2)
    nlinarith
  · by_cases h2 : N ≤ 18446744065119617025
    · refine ⟨4294967295, by omega, by omega, by omega, ?_⟩
      have : umul 4294967295 4294967295 = 18446744065119617025 := by decide
      rw [this]
      exact h2
    · refine ⟨wrapRoot, by unfold wrapRoot; omega, by unfold wrapRoot; omega,
        by unfold wrapRoot; omega, ?_⟩
      have : umul wrapRoot wrapRoot = 18446744073709551609 := by decide
      rw [this]
      exact hmax

/-- No square is one of the six largest values of `size_t`. -/
theorem square_below_top (D : Nat) : umul D D < 18446744073709551610 := by
  have h16 : umul D D % 16 = (D % 16) * (D % 16) % 16 := by
    unfold umul SIZE_MOD
    rw [Nat.mod_mod_of_dvd _ (by decide : 16 ∣ 18446744073709551616), Nat.mul_mod]
  have hlt : umul D D < 18446744073709551616 := by
    unfold umul SIZE_MOD
    exact Nat.mod_lt _ (by decide)
  have hr : D % 16 < 16 := Nat.mod_lt _ (by decide)
  have hcases : (D % 16) * (D % 16) % 16 = 0 ∨ (D % 16) * (D % 16) % 16 = 1 ∨
      (D % 16) * (D % 16) % 16 = 4 ∨ (D % 16) * (D % 16) % 16 = 9 := by
    generalize D % 16 = r at hr
    interval_cases r <;> simp
  omega

/-- A value, once reached, is the value at every greater depth. -/
theorem isPrimeHelper_mono (N : Nat) : ∀ (fuel Divisor : Nat) (signal v : Bool),
    isPrimeHelper N fuel Divisor signal = some v →
    isPrimeHelper N (fuel + 1) Divisor signal = some v
  | fuel, D, true, v, h => by
    rw [isPrimeHelper_signal] at h ⊢
    exact h
  | 0, D, false, v, h => by
    have h' : (if N = 1 ∧ D = 2 then some false
      else if N = 2 ∧ D = 2 then some true else none) = some v := h
    show (if N = 1 ∧ D = 2 then some false
      else if N = 2 ∧ D = 2 then some true
      else if D = 0 then none
      else _) = some v
    by_cases c1 : N = 1 ∧ D = 2
    · rw [if_pos c1] at h' ⊢; exact h'
    · rw [if_neg c1] at h' ⊢
      by_cases c2 : N = 2 ∧ D = 2
      · rw [if_pos c2] at h' ⊢; exact h'
      · rw [if_neg c2] at h'; cases h'
  | fuel + 1, D, false, v, h => by
    have h' : (if N = 1 ∧ D = 2 then some false
      else if N = 2 ∧ D = 2 then some true
      else if D = 0 then none
      else (isPrimeHelper N fuel (uadd D 1) (decide (N ≤ umul D D))).map
        fun w => (N % D != 0) && w) = some v := h
    show (if N = 1 ∧ D = 2 then some false
      else if N = 2 ∧ D = 2 then some true
      else if D = 0 then none
      else (isPrimeHelper N (fuel + 1) (uadd D 1) (decide (N ≤ umul D D))).map
        fun w => (N % D != 0) && w) = some v
    by_cases c1 : N = 1 ∧ D = 2
    · rw [if_pos c1] at h' ⊢; exact h'
    · rw [if_neg c1] at h' ⊢
      by_cases c2 : N = 2 ∧ D = 2
      · rw [if_pos c2] at h' ⊢; exact h'
      · rw [if_neg c2] at h' ⊢
        by_cases c3 : D = 0
        · rw [if_pos c3] at h'; cases h'
        · rw [if_neg c3] at h' ⊢
          cases hr : isPrimeHelper N fuel (uadd D 1) (decide (N ≤ umul D D)) with
          | none => rw [hr] at h'; cases h'
          | some w =>
            rw [hr] at h'
            rw [isPrimeHelper_mono N fuel _ _ w hr]
            exact h'

theorem isPrimeHelper_mono_le (N Divisor : Nat) (signal v : Bool) (fuel : Nat)
    (h : isPrimeHelper N fuel Divisor signal = some v) :
    ∀ fuel', fuel ≤ fuel' → isPrimeHelper N fuel' Divisor signal = some v := by
  intro fuel' hle
  induction fuel' with
  | zero =>
    have : fuel = 0 := by omega
    rw [← this]; exact h
  | succ f ih =>
    rcases Nat.eq_or_lt_of_le hle with e | hlt
    · rw [← e]; exact h
    · exact isPrimeHelper_mono N f _ _ v (ih (by omega))

/-- For `N` from 3 to `2 ^ 64 - 7`, `isPrime<N>` has a value at every depth
from some depth on, and the value says whether `N` is prime. -/
theorem isPrime_value (N : Nat) (hN : 3 ≤ N) (hmax : N ≤ 18446744073709551609) :
    ∃ fuel0, ∀ fuel, fuel0 ≤ fuel → isPrime N fuel = some (decide N.Prime) := by
  obtain ⟨D0, d1, d2, d3, d4⟩ := exists_stop N hN hmax
  have hP : ∃ D, 2 ≤ D ∧ N ≤ umul D D := ⟨D0, d1, d4⟩
  have hS := Nat.find_spec hP
  have hSle : Nat.find hP ≤ D0 := Nat.find_min' hP ⟨d1, d4⟩
  have hmin : ∀ k, 2 ≤ k → k < Nat.find hP → umul k k < N := by
    intro k hk1 hk2
    have := Nat.find_min hP hk2
    by_contra hc
    exact this ⟨hk1, by omega⟩
  generalize Nat.find hP = S at hS hSle hmin
  obtain ⟨hS2, hstop⟩ := hS
  refine ⟨S - 1, ?_⟩
  intro fuel hf
  obtain ⟨v, hv, hiff⟩ := isPrimeHelper_chain N S hN (by unfold SIZE_MOD; omega) hstop hmin
    (S - 2) 2 (by omega) (Nat.le_refl _) fuel (by omega)
  show isPrimeHelper N fuel 2 false = _
  rw [hv]
  congr 1
  rw [Bool.eq_iff_iff, hiff, decide_eq_true_iff]
  constructor
  · intro h
    rw [Nat.prime_def_le_sqrt]
    refine ⟨by omega, ?_⟩
    intro m hm1 hm2 hdvd
    have hmm : m * m ≤ N := Nat.le_sqrt.mp hm2
    have hmS : m ≤ S := by
      by_contra hc
      have hlt : S < m := by omega
      have h1 : S * S < m * m := Nat.mul_lt_mul'' hlt hlt
      have h2 : umul S S ≤ S * S := by unfold umul; exact Nat.mod_le _ _
      omega
    exact h m hm1 hmS (Nat.mod_eq_zero_of_dvd hdvd)
  · intro hp k hk1 hk2 hmod
    have hdvd : k ∣ N := Nat.dvd_of_mod_eq_zero hmod
    rcases hp.eq_one_or_self_of_dvd k hdvd with e | e <;> omega

/-- The six largest values of `size_t` are composite. -/
theorem top_not_prime (N : Nat) (h1 : 18446744073709551609 < N) (h2 : N < SIZE_MOD) :
    ¬ N.Prime := by
  unfold SIZE_MOD at h2
  intro hp
  have key : ∀ d, d ∣ N → d = 1 ∨ d = N := fun d hd => hp.eq_one_or_self_of_dvd d hd
  interval_cases N
  · have := key 2 (by decide); omega
  · have := key 11 (by decide); omega
  · have := key 2 (by decide); omega
  · have := key 13 (by decide); omega
  · have := key 2 (by decide); omega
  · have := key 3 (by decide); omega

/-- C27: for every `N >= 1` that is a `size_t`: `isPrime<N>` is `true` (at
some depth of instantiation) if and only if `N` is prime; any value it has,
at any depth, is the primality of `N`; for `N <= 2 ^ 64 - 7` it has that
value at every depth from some depth on (for the six larger `N`, all
composite, the chain of instantiations never ends); `isPrime<1>` is `false`
and `isPrime<2>` is `true`; for `N >= 3`, `N` is prime exactly when no `D`
with `2 <= D` and `D * D <= N` divides `N`; and the `static_assert` of
`Residue<N>::operator/=` accepts exactly the prime `N`. -/
theorem C27_isPrime_exact (N : Nat) (h1 : 1 ≤ N) (hN : N < SIZE_MOD) :
    ((∃ fuel, isPrime N fuel = some true) ↔ N.Prime) ∧
    (∀ fuel v, isPrime N fuel = some v → v = decide N.Prime) ∧
    (N ≤ 18446744073709551609 →
      ∃ fuel0, ∀ fuel, fuel0 ≤ fuel → isPrime N fuel = some (decide N.Prime)) ∧
    (∀ fuel, isPrime 1 fuel = some false) ∧ (∀ fuel, isPrime 2 fuel = some true) ∧
    (3 ≤ N → (N.Prime ↔ ∀ D, 2 ≤ D → D * D ≤ N → ¬ D ∣ N)) ∧
    ((∃ fuel, Residue.divisionAccepted N fuel = true) ↔ N.Prime) := by
  have one : ∀ fuel, isPrime 1 fuel = some false := by
    intro fuel; cases fuel <;> rfl
  have two : ∀ fuel, isPrime 2 fuel = some true := by
    intro fuel; cases fuel <;> rfl
  have total : N ≤ 18446744073709551609 →
      ∃ fuel0, ∀ fuel, fuel0 ≤ fuel → isPrime N fuel = some (decide N.Prime) := by
    intro hmax
    rcases Nat.lt_or_ge N 3 with hlt | hge
    · have h12 : N = 1 ∨ N = 2 := by omega
      rcases h12 with e | e
      · subst e
        exact ⟨0, fun fuel _ => by rw [one]; simp [Nat.not_prime_one]⟩
      · subst e
        exact ⟨0, fun fuel _ => by rw [two]; simp [Nat.prime_two]⟩
    · exact isPrime_value N hge hmax
  have det : ∀ fuel v, isPrime N fuel = some v → v = decide N.Prime := by
    intro fuel v hv
    rcases Nat.lt_or_ge 18446744073709551609 N with hbig | hsmall
    · have := isPrimeHelper_diverges N (by omega)
        (fun D => Nat.lt_of_lt_of_le (square_below_top D) (by omega)) fuel 2
      rw [show isPrime N fuel = isPrimeHelper N fuel 2 false from rfl, this] at hv
      cases hv
    · obtain ⟨fuel0, h0⟩ := total hsmall
      have e1 := h0 (max fuel fuel0) (Nat.le_max_right _ _)
      have e2 := isPrimeHelper_mono_le N 2 false v fuel hv (max fuel fuel0) (Nat.le_max_left _ _)
      rw [show isPrime N (max fuel fuel0) = isPrimeHelper N (max fuel fuel0) 2 false from rfl,
        e2] at e1
      exact Option.some.inj e1
  have iff1 : (∃ fuel, isPrime N fuel = some true) ↔ N.Prime := by
    constructor
    · rintro ⟨fuel, hf⟩
      have := det fuel true hf
      exact of_decide_eq_true this.symm
    · intro hp
      have hmax : N ≤ 18446744073709551609 := by
        by_contra hc
        exact top_not_prime N (by omega) hN hp
      obtain ⟨fuel0, h0⟩ := total hmax
      refine ⟨fuel0, ?_⟩
      rw [h0 fuel0 (Nat.le_refl _), decide_eq_true hp]
  refine ⟨iff1, det, total, one, two, ?_, ?_⟩
  · intro h3
    rw [Nat.prime_def_le_sqrt]
    constructor
    · rintro ⟨-, h⟩ D hD1 hD2
      exact h D hD1 (Nat.le_sqrt.mpr hD2)
    · intro h
      exact ⟨by omega, fun m hm1 hm2 => h m hm1 (Nat.le_sqrt.mp hm2)⟩
  · rw [← iff1]
    constructor
    · rintro ⟨fuel, hf⟩
      refine ⟨fuel, ?_⟩
      unfold Residue.divisionAccepted at hf
      exact eq_of_beq hf
    · rintro ⟨fuel, hf⟩
      refine ⟨fuel, ?_⟩
      unfold Residue.divisionAccepted
      rw [hf]
      rfl

/-- C27 at the moduli 7 and 9: with four nested instantiations allowed,
`isPrime<7>` is `true` and `isPrime<9>` is `false`. -/
theorem C27_isPrime_exact_witness :
    isPrime 7 4 = some true ∧ isPrime 9 4 = some false ∧
    ((∃ fuel, isPrime 7 fuel = some true) ↔ Nat.Prime 7) ∧
    ((∃ fuel, Residue.divisionAccepted 9 fuel = true) ↔ Nat.Prime 9) :=
  ⟨by decide, by decide, (C27_isPrime_exact 7 (by decide) (by decide)).1,
    (C27_isPrime_exact 9 (by decide) (by decide)).2.2.2.2.2.2⟩

end ResidueField

/-! ## Theorems: residue field -/

namespace ResidueField

variable {N : Nat}

theorem toPtrdiff_small (a : Nat) (h : a < 9223372036854775808) : toPtrdiff a = (a : Int) :=
  toPtrdiff_eq (by unfold SIZE_MOD; omega)

theorem ofPtrdiff_small (a : Nat) (h : a < 9223372036854775808) : ofPtrdiff (a : Int) = a :=
  ofPtrdiff_natCast (by unfold SIZE_MOD; omega)

/-- A residue in range is the cast of a natural number below `N`. -/
theorem Residue.InRange.nat {r : Residue N} (h : r.InRange) : ∃ x : Nat, x < N ∧ r = ⟨(x : Int)⟩ := by
  obtain ⟨h1, h2⟩ := h
  refine ⟨r.value_.toNat, ?_, ?_⟩
  · omega
  · obtain ⟨v⟩ := r
    simp only [Residue.mk.injEq]
    simp only at h1
    omega

theorem mul_spec (x y : Nat) (hN : N < 2147483648) (hx : x < N) (hy : y < N) :
    (⟨(x : Int)⟩ : Residue N).op_mul_assign ⟨(y : Int)⟩ = some ⟨((x * y % N : Nat) : Int)⟩ := by
  have hxy : x * y < 2147483648 * 2147483648 :=
    Nat.mul_lt_mul'' (by omega) (by omega)
  have hfit : fitsLL ((x : Int) * (y : Int)) = true := by
    unfold fitsLL
    have : (0 : Int) ≤ (x : Int) * (y : Int) := by positivity
    have h2 : ((x : Int) * (y : Int)) = ((x * y : Nat) : Int) := by push_cast; rfl
    simp only [decide_eq_true_eq]
    omega
  have hmod : x * y % N < N := Nat.mod_lt _ (by omega)
  unfold Residue.op_mul_assign
  simp only
  rw [if_pos ⟨hfit, by omega⟩]
  have h2 : ((x : Int) * (y : Int)) = ((x * y : Nat) : Int) := by push_cast; rfl
  rw [h2, ofPtrdiff_small _ (by omega), toPtrdiff_small _ (by omega)]

theorem add_spec (x y : Nat) (hN : N < 2147483648) (hx : x < N) (hy : y < N) :
    (⟨(x : Int)⟩ : Residue N).op_add_assign ⟨(y : Int)⟩ = some ⟨(((x + y) % N : Nat) : Int)⟩ := by
  have hfit : fitsLL ((x : Int) + (y : Int)) = true := by
    unfold fitsLL
    simp only [decide_eq_true_eq]
    omega
  have hmod : (x + y) % N < N := Nat.mod_lt _ (by omega)
  unfold Residue.op_add_assign
  simp only
  rw [if_pos ⟨hfit, by omega⟩]
  have h2 : ((x : Int) + (y : Int)) = ((x + y : Nat) : Int) := by push_cast; rfl
  rw [h2, ofPtrdiff_small _ (by omega), toPtrdiff_small _ (by omega)]

theorem sub_spec (x y : Nat) (hN : N < 2147483648) (hx : x < N) (hy : y < N) :
    (⟨(x : Int)⟩ : Residue N).op_sub_assign ⟨(y : Int)⟩
      = some ⟨(((x + N - y) % N : Nat) : Int)⟩ := by
  have hmod : (x + N - y) % N < N := Nat.mod_lt _ (by omega)
  unfold Residue.op_sub_assign
  simp only
  rw [if_pos (by omega), ofPtrdiff_small _ (by omega), ofPtrdiff_small _ (by omega),
    uadd_eq (by unfold SIZE_MOD; omega), usub_eq (by omega) (by unfold SIZE_MOD; omega),
    toPtrdiff_small _ (by omega)]

theorem tmod_bounds (n : Int) (hN0 : 0 < N) :
    -(N : Int) < Int.tmod n N ∧ Int.tmod n N < N := by
  cases n with
  | ofNat m =>
    have h1 : Int.tmod (Int.ofNat m) (N : Int) = ((m % N : Nat) : Int) := rfl
    have h2 := Nat.mod_lt m hN0
    rw [h1]
    omega
  | negSucc m =>
    have h1 : Int.tmod (Int.negSucc m) (N : Int) = -((m.succ % N : Nat) : Int) := rfl
    have h2 := Nat.mod_lt m.succ hN0
    rw [h1]
    omega

/-- `Residue<N>(n)` stores the least non-negative remainder of `n`. -/
theorem ctor_spec (n : Int) (hN0 : 0 < N) (hN : N < 2147483648) :
    Residue.ctor N n = some ⟨n % (N : Int)⟩ := by
  have hm : toPtrdiff N = (N : Int) := toPtrdiff_small N (by omega)
  unfold Residue.ctor
  rw [hm, if_neg (by omega)]
  have ht := Int.tmod_add_tdiv n (N : Int)
  obtain ⟨hgt, hlt⟩ := tmod_bounds (N := N) n hN0
  have hn : n = Int.tmod n N + N * Int.tdiv n N := by omega
  by_cases hneg : Int.tmod n (N : Int) < 0
  · rw [if_pos hneg]
    obtain ⟨k, hk⟩ : ∃ k : Nat, (k : Int) = Int.tmod n N + N :=
      ⟨(Int.tmod n N + N).toNat, by omega⟩
    have hkN : k < N := by omega
    have hof : ofPtrdiff (Int.tmod n (N : Int)) = SIZE_MOD - N + k := by
      unfold ofPtrdiff SIZE_MOD
      omega
    have hsum : uadd (SIZE_MOD - N + k) N = k := by
      unfold uadd SIZE_MOD
      omega
    rw [hof, hsum, toPtrdiff_small k (by omega), hk]
    congr 1
    have e : n % (N : Int) = (Int.tmod n N + N) % N := by
      rw [Int.add_emod_self]
      conv_lhs => rw [hn]
      rw [Int.add_mul_emod_self_left]
    rw [e, Int.emod_eq_of_lt (by omega) (by omega)]
  · rw [if_neg hneg]
    obtain ⟨k, hk⟩ : ∃ k : Nat, (k : Int) = Int.tmod n N := ⟨(Int.tmod n N).toNat, by omega⟩
    have hkN : k < N := by omega
    rw [← hk, ofPtrdiff_small k (by omega), uadd_eq (by unfold SIZE_MOD; omega),
      Nat.add_zero, toPtrdiff_small k (by omega), hk]
    congr 1
    have e : n % (N : Int) = (Int.tmod n N) % N := by
      conv_lhs => rw [hn]
      rw [Int.add_mul_emod_self_left]
    rw [e, Int.emod_eq_of_lt (by omega) (by omega)]

/-- The square-and-multiply loop: with `exponent` below `2 ^ fuel` it
returns `self * base ^ exponent` modulo `N`. -/
theorem div_loop_spec (hN0 : 0 < N) (hN : N < 2147483648) :
    ∀ (fuel e s c : Nat), e < 2 ^ fuel → s < N → c < N →
      Residue.div_loop fuel (⟨(s : Int)⟩ : Residue N) ⟨(c : Int)⟩ (e : Int)
        = some ⟨((s * c ^ e % N : Nat) : Int)⟩
  | 0, e, s, c, he, hs, _ => by
    have he0 : e = 0 := by simpa using he
    subst he0
    unfold Residue.div_loop
    simp [Nat.mod_eq_of_lt hs]
  | fuel + 1, e, s, c, he, hs, hc => by
    unfold Residue.div_loop
    by_cases he0 : e = 0
    · subst he0
      simp [Nat.mod_eq_of_lt hs]
    · have hne : ¬ ((e : Int) = 0) := by omega
      rw [if_neg hne]
      have hdiv : (e : Int) / 2 = ((e / 2 : Nat) : Int) := by omega
      have hlt : e / 2 < 2 ^ fuel := by
        rw [pow_succ] at he
        omega
      have hcc : c * c % N < N := Nat.mod_lt _ hN0
      have hsq := mul_spec c c hN hc hc
      have h2 : (c * c % N) ^ (e / 2) ≡ (c * c) ^ (e / 2) [MOD N] :=
        (Nat.mod_modEq _ _).pow _
      by_cases hodd : e % 2 = 1
      · have hodd' : (e : Int) % 2 ≠ 0 := by omega
        have key : s * c % N * (c * c % N) ^ (e / 2) % N = s * c ^ e % N := by
          have h1 : s * c % N ≡ s * c [MOD N] := Nat.mod_modEq _ _
          have h3 : s * c * (c * c) ^ (e / 2) = s * c ^ e := by
            have he2 : e = 2 * (e / 2) + 1 := by omega
            conv_rhs => rw [he2, pow_succ, pow_mul]
            rw [pow_two]
            ring
          have := h1.mul h2
          rw [h3] at this
          exact this
        rw [if_pos hodd', mul_spec s c hN hs hc, Option.some_bind, hsq, Option.some_bind,
          hdiv, div_loop_spec hN0 hN fuel (e / 2) (s * c % N) (c * c % N) hlt
            (Nat.mod_lt _ hN0) hcc, key]
      · have heven : ¬ ((e : Int) % 2 ≠ 0) := by omega
        have key : s * (c * c % N) ^ (e / 2) % N = s * c ^ e % N := by
          have h3 : s * (c * c) ^ (e / 2) = s * c ^ e := by
            have he2 : e = 2 * (e / 2) := by omega
            conv_rhs => rw [he2, pow_mul]
            rw [pow_two]
          have := (Nat.ModEq.refl s).mul h2
          rw [h3] at this
          exact this
        rw [if_neg heven, Option.some_bind, hsq, Option.some_bind,
          hdiv, div_loop_spec hN0 hN fuel (e / 2) s (c * c % N) hlt hs hcc, key]

/-- Fermat: for a prime `N` and `0 < y < N`, `y ^ (N - 1)` is 1 modulo `N`. -/
theorem fermat (hp : N.Prime) (y : Nat) (h0 : 0 < y) (hy : y < N) :
    y ^ (N - 1) ≡ 1 [MOD N] := by
  have hc : Nat.Coprime y N :=
    ((Nat.Prime.coprime_iff_not_dvd hp).mpr (Nat.not_dvd_of_pos_of_lt h0 hy)).symm
  have := Nat.ModEq.pow_totient hc
  rwa [Nat.totient_prime hp] at this

/-- `a /= b` on residues in range: enough fuel gives `a * b ^ (N - 2)`
modulo `N`. -/
theorem div_spec (hN2 : 2 ≤ N) (hN : N < 2147483648) (x y fuel : Nat) (hx : x < N)
    (hy : y < N) (hfuel : 31 ≤ fuel) :
    (⟨(x : Int)⟩ : Residue N).op_div_assign ⟨(y : Int)⟩ fuel
      = some ⟨((x * y ^ (N - 2) % N : Nat) : Int)⟩ := by
  unfold Residue.op_div_assign
  rw [usub_eq hN2 (by unfold SIZE_MOD; omega), toPtrdiff_small _ (by omega)]
  apply div_loop_spec (by omega) hN fuel (N - 2) x y _ hx hy
  have h1 : N - 2 < 2 ^ 31 := by
    have : (2 : Nat) ^ 31 = 2147483648 := by norm_num
    omega
  exact Nat.lt_of_lt_of_le h1 (Nat.pow_le_pow_right (by omega) hfuel)

/-- C39: for a prime modulus `N < 2 ^ 31` and residues `a`, `b` of
`Residue<N>` with `b != 0`, the division `a / b` returns (the loop having
fuel for 31 iterations) the residue `a * b ^ (N - 2) mod N`, and
`(a / b) * b == a` and `(a * b) / b == a`.  The constructor stores a value in
`[0, N)` for every `int`, and `+`, `-`, `*` and `/` on residues in that range
return a residue in that range. -/
theorem C39_residue_division_inverts (N : Nat) (hp : N.Prime) (hN : N < 2147483648)
    (a b : Residue N) (ha : a.InRange) (hb : b.InRange) (hb0 : b.value_ ≠ 0) (fuel : Nat)
    (hfuel : 31 ≤ fuel) :
    (∃ q, a.op_div b fuel = some q ∧ q.value_ = a.value_ * b.value_ ^ (N - 2) % N ∧
      q.op_mul b = some a ∧ (q.op_mul b).map (fun r => r.op_eq a) = some true) ∧
    (∃ p, a.op_mul b = some p ∧ p.op_div b fuel = some a ∧
      (p.op_div b fuel).map (fun r => r.op_eq a) = some true) ∧
    (∀ n : Int, ∃ r, Residue.ctor N n = some r ∧ r.InRange) ∧
    (∀ x y : Residue N, x.InRange → y.InRange →
      (∃ r, x.op_add y = some r ∧ r.InRange) ∧ (∃ r, x.op_sub y = some r ∧ r.InRange) ∧
      (∃ r, x.op_mul y = some r ∧ r.InRange) ∧ (∃ r, x.op_div y fuel = some r ∧ r.InRange)) := by
  have hN2 : 2 ≤ N := hp.two_le
  have hN0 : 0 < N := by omega
  have hr : ∀ k : Nat, (⟨((k % N : Nat) : Int)⟩ : Residue N).InRange := by
    intro k
    have := Nat.mod_lt k hN0
    exact ⟨by simp only; omega, by simp only; omega⟩
  obtain ⟨x, hx, rfl⟩ := ha.nat
  obtain ⟨y, hy, rfl⟩ := hb.nat
  have hy0 : 0 < y := by
    simp only [ne_eq] at hb0
    omega
  have hf := fermat hp y hy0 hy
  have hpow : y ^ (N - 2) * y = y ^ (N - 1) := by
    have : N - 1 = (N - 2) + 1 := by omega
    rw [this, pow_succ]
  refine ⟨?_, ?_, ?_, ?_⟩
  · refine ⟨_, div_spec hN2 hN x y fuel hx hy hfuel, ?_, ?_, ?_⟩
    · push_cast
      rfl
    · show Residue.op_mul_assign _ _ = _
      rw [mul_spec _ y hN (Nat.mod_lt _ hN0) hy]
      have key : x * y ^ (N - 2) % N * y % N = x := by
        have h1 : x * y ^ (N - 2) % N * y ≡ x * y ^ (N - 2) * y [MOD N] :=
          (Nat.mod_modEq _ _).mul_right _
        have h2 : x * y ^ (N - 2) * y ≡ x * 1 [MOD N] := by
          rw [mul_assoc, hpow]
          exact (Nat.ModEq.refl x).mul hf
        have := h1.trans h2
        rw [mul_one] at this
        exact (show _ % N = x % N from this).trans (Nat.mod_eq_of_lt hx)
      rw [key]
    · show (Residue.op_mul_assign _ _).map _ = _
      rw [mul_spec _ y hN (Nat.mod_lt _ hN0) hy]
      have key : x * y ^ (N - 2) % N * y % N = x := by
        have h1 : x * y ^ (N - 2) % N * y ≡ x * y ^ (N - 2) * y [MOD N] :=
          (Nat.mod_modEq _ _).mul_right _
        have h2 : x * y ^ (N - 2) * y ≡ x * 1 [MOD N] := by
          rw [mul_assoc, hpow]
          exact (Nat.ModEq.refl x).mul hf
        have := h1.trans h2
        rw [mul_one] at this
        exact (show _ % N = x % N from this).trans (Nat.mod_eq_of_lt hx)
      rw [key]
      simp [Residue.op_eq]
  · have key : x * y % N * y ^ (N - 2) % N = x := by
      have h1 : x * y % N * y ^ (N - 2) ≡ x * y * y ^ (N - 2) [MOD N] :=
        (Nat.mod_modEq _ _).mul_right _
      have h2 : x * y * y ^ (N - 2) ≡ x * 1 [MOD N] := by
        rw [mul_assoc, mul_comm y, hpow]
        exact (Nat.ModEq.refl x).mul hf
      have := h1.trans h2
      rw [mul_one] at this
      exact (show _ % N = x % N from this).trans (Nat.mod_eq_of_lt hx)
    refine ⟨_, mul_spec x y hN hx hy, ?_, ?_⟩
    · show Residue.op_div_assign _ _ _ = _
      rw [div_spec hN2 hN _ y fuel (Nat.mod_lt _ hN0) hy hfuel, key]
    · show (Residue.op_div_assign _ _ _).map _ = _
      rw [div_spec hN2 hN _ y fuel (Nat.mod_lt _ hN0) hy hfuel, key]
      simp [Residue.op_eq]
  · intro n
    refine ⟨_, ctor_spec n hN0 hN, ?_, ?_⟩
    · exact Int.emod_nonneg _ (by omega)
    · exact Int.emod_lt_of_pos _ (by omega)
  · intro u v hu hv
    obtain ⟨s, hs, rfl⟩ := hu.nat
    obtain ⟨t, ht, rfl⟩ := hv.nat
    exact ⟨⟨_, add_spec s t hN hs ht, hr _⟩, ⟨_, sub_spec s t hN hs ht, hr _⟩,
      ⟨_, mul_spec s t hN hs ht, hr _⟩, ⟨_, div_spec hN2 hN s t fuel hs ht hfuel, hr _⟩⟩

/-- C39 in `Residue<7>`: `3 / 5` is 2, and `2 * 5` is 3 again. -/
theorem C39_residue_division_inverts_witness :
    (⟨3⟩ : Residue 7).InRange ∧ (⟨5⟩ : Residue 7).InRange ∧
    (⟨3⟩ : Residue 7).op_div ⟨5⟩ 31 = some ⟨2⟩ ∧ (⟨2⟩ : Residue 7).op_mul ⟨5⟩ = some ⟨3⟩ ∧
    ∃ q, (⟨3⟩ : Residue 7).op_div ⟨5⟩ 31 = some q ∧ q.op_mul ⟨5⟩ = some ⟨3⟩ :=
  ⟨⟨by decide, by decide⟩, ⟨by decide, by decide⟩, by decide, by decide,
    (C39_residue_division_inverts 7 (by norm_num) (by decide) ⟨3⟩ ⟨5⟩ ⟨by decide, by decide⟩
      ⟨by decide, by decide⟩ (by decide) 31 (le_refl _)).1.imp (fun _ h => ⟨h.1, h.2.2.1⟩)⟩

end ResidueField

/-! ## Theorems: arbitrary-precision integer -/

namespace BigInt

/-! ### Decimal digits -/

theorem toDigitsCore_acc : ∀ (fuel n : Nat) (ds : List Char),
    Nat.toDigitsCore 10 fuel n ds = Nat.toDigitsCore 10 fuel n [] ++ ds
  | 0, _, _ => rfl
  | fuel + 1, n, ds => by
    simp only [Nat.toDigitsCore]
    split
    · rfl
    · rw [toDigitsCore_acc fuel (n / 10) (Nat.digitChar (n % 10) :: ds),
        toDigitsCore_acc fuel (n / 10) [Nat.digitChar (n % 10)]]
      simp

theorem toDigitsCore_fuel : ∀ (n fuel : Nat) (ds : List Char), n < fuel →
    Nat.toDigitsCore 10 fuel n ds = Nat.toDigitsCore 10 (n + 1) n ds := by
  intro n
  induction n using Nat.strong_induction_on with
  | _ n ih =>
    intro fuel ds hf
    obtain ⟨f, rfl⟩ : ∃ f, fuel = f + 1 := ⟨fuel - 1, by omega⟩
    simp only [Nat.toDigitsCore]
    by_cases h0 : n / 10 = 0
    · rw [if_pos h0, if_pos h0]
    · rw [if_neg h0, if_neg h0]
      have hlt : n / 10 < n := Nat.div_lt_self (by omega) (by decide)
      rw [ih (n / 10) hlt f _ (by omega), ih (n / 10) hlt n _ hlt]

theorem toDigitsCore_succ (fuel n : Nat) (ds : List Char) :
    Nat.toDigitsCore 10 (fuel + 1) n ds =
      if n / 10 = 0 then Nat.digitChar (n % 10) :: ds
      else Nat.toDigitsCore 10 fuel (n / 10) (Nat.digitChar (n % 10) :: ds) := rfl

theorem toDigits_lt (n : Nat) (h : n < 10) : Nat.toDigits 10 n = [Nat.digitChar n] := by
  show Nat.toDigitsCore 10 (n + 1) n [] = _
  rw [toDigitsCore_succ, if_pos (by omega), Nat.mod_eq_of_lt h]

theorem toDigits_ge (n : Nat) (h : 10 ≤ n) :
    Nat.toDigits 10 n = Nat.toDigits 10 (n / 10) ++ [Nat.digitChar (n % 10)] := by
  show Nat.toDigitsCore 10 (n + 1) n [] = Nat.toDigitsCore 10 (n / 10 + 1) (n / 10) [] ++ _
  rw [toDigitsCore_succ, if_neg (by omega), toDigitsCore_acc,
    toDigitsCore_fuel (n / 10) n [] (Nat.div_lt_self (by omega) (by decide))]

theorem digitChar_toNat (d : Nat) (h : d < 10) : (Nat.digitChar d).toNat = d + 48 := by
  interval_cases d <;> rfl

theorem decval_foldl : ∀ (cs : List Char) (a : Nat),
    cs.foldl (fun a c => a * 10 + (c.toNat - 48)) a = a * 10 ^ cs.length + decval cs
  | [], a => by simp [decval]
  | c :: cs, a => by
    unfold decval
    rw [List.foldl_cons, List.foldl_cons, decval_foldl cs, decval_foldl cs (0 * 10 + _)]
    simp only [List.length_cons, pow_succ]
    ring

theorem decval_append (xs ys : List Char) :
    decval (xs ++ ys) = decval xs * 10 ^ ys.length + decval ys := by
  show (xs ++ ys).foldl (fun a c => a * 10 + (c.toNat - 48)) 0 = _
  rw [List.foldl_append, decval_foldl ys]
  rfl

theorem decval_singleton (c : Char) : decval [c] = c.toNat - 48 := by
  simp [decval]

theorem allDigits_append {xs ys : List Char} :
    AllDigits (xs ++ ys) ↔ AllDigits xs ∧ AllDigits ys := by
  unfold AllDigits
  constructor
  · intro h
    exact ⟨fun c hc => h c (List.mem_append.mpr (Or.inl hc)),
      fun c hc => h c (List.mem_append.mpr (Or.inr hc))⟩
  · rintro ⟨h1, h2⟩ c hc
    rcases List.mem_append.mp hc with h | h
    · exact h1 c h
    · exact h2 c h

theorem allDigits_digitChar (d : Nat) (h : d < 10) : AllDigits [Nat.digitChar d] := by
  intro c hc
  rw [List.mem_singleton] at hc
  rw [hc, digitChar_toNat d h]
  omega

/-- The decimal digits of `n`: they are digits, denote `n`, and there are at
most `k` of them when `n < 10 ^ k` and `k ≥ 1`. -/
theorem toDigits_spec (n : Nat) :
    AllDigits (Nat.toDigits 10 n) ∧ decval (Nat.toDigits 10 n) = n ∧
    Nat.toDigits 10 n ≠ [] := by
  induction n using Nat.strong_induction_on with
  | _ n ih =>
    rcases Nat.lt_or_ge n 10 with h | h
    · rw [toDigits_lt n h]
      refine ⟨allDigits_digitChar n h, ?_, by simp⟩
      rw [decval_singleton, digitChar_toNat n h]
      omega
    · rw [toDigits_ge n h]
      obtain ⟨i1, i2, -⟩ := ih (n / 10) (Nat.div_lt_self (by omega) (by decide))
      refine ⟨allDigits_append.mpr ⟨i1, allDigits_digitChar _ (Nat.mod_lt _ (by decide))⟩,
        ?_, by simp⟩
      rw [decval_append, i2, decval_singleton,
        digitChar_toNat _ (Nat.mod_lt _ (by decide))]
      simp only [List.length_singleton, pow_one]
      omega

theorem decval_lt : ∀ (cs : List Char), AllDigits cs → decval cs < 10 ^ cs.length := by
  intro cs
  induction cs using List.reverseRecOn with
  | nil => intro _; simp [decval]
  | append_singleton cs c ih =>
    intro h
    obtain ⟨h1, h2⟩ := allDigits_append.mp h
    have := ih h1
    have hc := h2 c (List.mem_singleton.mpr rfl)
    rw [decval_append, decval_singleton]
    simp only [List.length_append, List.length_singleton, pow_one, pow_succ]
    omega

theorem stollDigits_eq : ∀ (cs : List Char) (acc : Nat), AllDigits cs →
    stollDigits cs acc = some (acc * 10 ^ cs.length + decval cs)
  | [], acc, _ => by simp [stollDigits, decval]
  | c :: cs, acc, h => by
    have hc := h c (List.mem_cons_self _ _)
    have hcs : AllDigits cs := fun x hx => h x (List.mem_cons_of_mem _ hx)
    have e : decval (c :: cs) = (c.toNat - 48) * 10 ^ cs.length + decval cs := by
      rw [show c :: cs = [c] ++ cs from rfl, decval_append, decval_singleton]
    rw [e]
    simp only [stollDigits, digitValue]
    rw [if_pos hc, Option.some_bind, stollDigits_eq cs _ hcs]
    simp only [List.length_cons, pow_succ]
    congr 1
    ring

/-- `std::stoll` on a non-empty string of at most 18 decimal digits. -/
theorem stoll_eq (cs : List Char) (h : AllDigits cs) (hne : cs ≠ []) (hlen : cs.length ≤ 18) :
    stoll cs = some (decval cs : Int) := by
  unfold stoll
  rw [if_neg hne, stollDigits_eq cs 0 h]
  simp only [Nat.zero_mul, Nat.zero_add, Option.some_bind]
  unfold ll
  have h1 := decval_lt cs h
  have h2 : 10 ^ cs.length ≤ 10 ^ 18 := Nat.pow_le_pow_right (by decide) hlen
  rw [if_pos]
  constructor
  · have : (0 : Int) ≤ (decval cs : Int) := Int.ofNat_nonneg _
    omega
  · have h3 : decval cs < 10 ^ 18 := Nat.lt_of_lt_of_le h1 h2
    have h4 : ((decval cs : Nat) : Int) < ((10 ^ 18 : Nat) : Int) := Int.ofNat_lt.mpr h3
    norm_num at h4
    omega

theorem fixedDigits_zero : ∀ k, fixedDigits k 0 = List.replicate k '0'
  | 0 => rfl
  | k + 1 => by
    show fixedDigits k (0 / 10) ++ [Nat.digitChar (0 % 10)] = _
    rw [Nat.zero_div, fixedDigits_zero k, List.replicate_succ']
    rfl

/-- The digits of `hi * 10 ^ k + lo` are the digits of `hi` followed by the
`k` digits of `lo`. -/
theorem toDigits_shift : ∀ (k hi lo : Nat), 0 < hi → lo < 10 ^ k →
    Nat.toDigits 10 (hi * 10 ^ k + lo) = Nat.toDigits 10 hi ++ fixedDigits k lo
  | 0, hi, lo, _, hlo => by
    have : lo = 0 := by simpa using hlo
    subst this
    simp [fixedDigits]
  | k + 1, hi, lo, hhi, hlo => by
    have hp : 0 < 10 ^ k := Nat.pow_pos (by decide)
    have hX : 0 < hi * 10 ^ k := Nat.mul_pos hhi hp
    have e : hi * 10 ^ (k + 1) + lo = (hi * 10 ^ k) * 10 + lo := by rw [pow_succ]; ring
    have hlo' : lo / 10 < 10 ^ k := by
      rw [pow_succ] at hlo
      omega
    rw [e, toDigits_ge _ (by omega)]
    have e1 : ((hi * 10 ^ k) * 10 + lo) / 10 = hi * 10 ^ k + lo / 10 := by omega
    have e2 : ((hi * 10 ^ k) * 10 + lo) % 10 = lo % 10 := by omega
    rw [e1, e2, toDigits_shift k hi (lo / 10) hhi hlo', List.append_assoc]
    rfl

/-- Padding the digits of `lo` with zeros up to `k` characters gives the `k`
digits of `lo`. -/
theorem pad_toDigits : ∀ (k lo : Nat), lo < 10 ^ (k + 1) →
    List.replicate (k + 1 - (Nat.toDigits 10 lo).length) '0' ++ Nat.toDigits 10 lo
      = fixedDigits (k + 1) lo
  | 0, lo, hlo => by
    have h : lo < 10 := by simpa using hlo
    rw [toDigits_lt lo h]
    show [] ++ [Nat.digitChar lo] = fixedDigits 0 (lo / 10) ++ [Nat.digitChar (lo % 10)]
    rw [Nat.mod_eq_of_lt h]
    rfl
  | k + 1, lo, hlo => by
    show _ = fixedDigits (k + 1) (lo / 10) ++ [Nat.digitChar (lo % 10)]
    rcases Nat.lt_or_ge lo 10 with h | h
    · rw [toDigits_lt lo h, Nat.div_eq_of_lt h, fixedDigits_zero, Nat.mod_eq_of_lt h]
      rfl
    · have hlo' : lo / 10 < 10 ^ (k + 1) := by
        rw [pow_succ] at hlo
        omega
      rw [toDigits_ge lo h, ← pad_toDigits k (lo / 10) hlo', List.length_append,
        List.length_singleton, List.append_assoc]
      congr 2
      omega

theorem padded_eq (d : Int) (h0 : 0 ≤ d) (h1 : d < BASE_) :
    padded d = fixedDigits 9 d.natAbs := by
  unfold padded to_string BASE_LENGTH_
  rw [if_neg (by omega)]
  apply pad_toDigits 8
  unfold BASE_ at h1
  omega

/-- The digits of a number given by its top part `hi` and its lower limbs,
most significant first. -/
theorem toDigits_limbs : ∀ (r : List Int) (hi : Nat), 0 < hi → Limbs r →
    Nat.toDigits 10 hi ++ (r.map padded).flatten
      = Nat.toDigits 10 (r.foldl (fun a d => a * 1000000000 + d.natAbs) hi)
  | [], hi, _, _ => by simp
  | d :: r, hi, hhi, hl => by
    obtain ⟨d0, d1⟩ := hl d (List.mem_cons_self _ _)
    have hr : Limbs r := fun x hx => hl x (List.mem_cons_of_mem _ hx)
    rw [List.map_cons, List.flatten_cons, ← List.append_assoc, padded_eq d d0 d1,
      ← toDigits_shift 9 hi d.natAbs hhi (by unfold BASE_ at d1; omega), List.foldl_cons]
    exact toDigits_limbs r _ (by omega) hr

/-- The limbs read from the most significant one down give the number the
vector denotes. -/
theorem foldl_reverse_eq_val : ∀ (l : List Int), Limbs l →
    ((l.reverse.foldl (fun a d => a * 1000000000 + d.natAbs) 0 : Nat) : Int) = val l
  | [], _ => rfl
  | d :: ds, hl => by
    obtain ⟨d0, -⟩ := hl d (List.mem_cons_self _ _)
    have hr : Limbs ds := fun x hx => hl x (List.mem_cons_of_mem _ hx)
    rw [List.reverse_cons, List.foldl_append, List.foldl_cons, List.foldl_nil]
    push_cast
    rw [foldl_reverse_eq_val ds hr]
    show val ds * 1000000000 + |d| = d + BASE_ * val ds
    rw [abs_of_nonneg d0]
    unfold BASE_
    ring

theorem val_nonneg : ∀ (l : List Int), Limbs l → 0 ≤ val l
  | [], _ => Int.le_refl _
  | d :: ds, hl => by
    obtain ⟨d0, -⟩ := hl d (List.mem_cons_self _ _)
    have := val_nonneg ds (fun x hx => hl x (List.mem_cons_of_mem _ hx))
    show 0 ≤ d + BASE_ * val ds
    unfold BASE_
    omega

/-! ### Values of limb vectors -/

theorem val_append : ∀ (xs ys : List Int), val (xs ++ ys) = val xs + BASE_ ^ xs.length * val ys
  | [], ys => by simp [val]
  | x :: xs, ys => by
    show x + BASE_ * val (xs ++ ys) = x + BASE_ * val xs + BASE_ ^ (xs.length + 1) * val ys
    rw [val_append xs ys, pow_succ]
    ring

theorem val_singleton (d : Int) : val [d] = d := by
  show d + BASE_ * 0 = d
  ring

theorem val_lt_pow : ∀ (l : List Int), Limbs l → val l < BASE_ ^ l.length
  | [], _ => by simp [val]
  | d :: ds, hl => by
    obtain ⟨-, d1⟩ := hl d (List.mem_cons_self _ _)
    have := val_lt_pow ds (fun x hx => hl x (List.mem_cons_of_mem _ hx))
    show d + BASE_ * val ds < BASE_ ^ (ds.length + 1)
    rw [pow_succ]
    have hB : (0 : Int) < BASE_ := by unfold BASE_; omega
    nlinarith

theorem val_replicate_zero : ∀ n, val (List.replicate n (0 : Int)) = 0
  | 0 => rfl
  | n + 1 => by
    show (0 : Int) + BASE_ * val (List.replicate n 0) = 0
    rw [val_replicate_zero n]
    ring

theorem limbs_append {xs ys : List Int} : Limbs (xs ++ ys) ↔ Limbs xs ∧ Limbs ys := by
  unfold Limbs
  constructor
  · intro h
    exact ⟨fun c hc => h c (List.mem_append.mpr (Or.inl hc)),
      fun c hc => h c (List.mem_append.mpr (Or.inr hc))⟩
  · rintro ⟨h1, h2⟩ c hc
    rcases List.mem_append.mp hc with h | h
    · exact h1 c h
    · exact h2 c h

/-- A vector with a non-zero top limb denotes a positive number. -/
theorem val_pos (l : List Int) (hl : Limbs l) (top : Int) (ht : l.getLast? = some top)
    (h0 : top ≠ 0) : 0 < val l := by
  have hne : l ≠ [] := by
    intro e; rw [e] at ht; cases ht
  have e : l = l.dropLast ++ [top] := by
    have h1 := List.dropLast_append_getLast hne
    have h2 : l.getLast hne = top := by
      rw [List.getLast?_eq_getLast _ hne] at ht
      exact Option.some.inj ht
    rw [h2] at h1
    exact h1.symm
  rw [e] at hl ⊢
  obtain ⟨hl1, hl2⟩ := limbs_append.mp hl
  obtain ⟨t0, -⟩ := hl2 top (List.mem_singleton.mpr rfl)
  rw [val_append, val_singleton]
  have h1 := val_nonneg _ hl1
  have hB : (0 : Int) < BASE_ ^ l.dropLast.length := pow_pos (by unfold BASE_; omega) _
  have ht' : 0 < top := by omega
  have := mul_pos hB ht'
  omega

/-- A normal number is zero exactly when its sign is `ZERO`, and is positive
as a vector otherwise. -/
theorem Normal.positive {x : BigInteger} (hx : Normal x) (hz : x.type_ ≠ .ZERO) :
    0 < val x.digits_ := by
  obtain ⟨hl, hne, hn, hs⟩ := hx
  rcases hn with h | h
  · cases ht : x.digits_.getLast? with
    | none =>
      rw [List.getLast?_eq_none_iff] at ht
      exact absurd ht hne
    | some top =>
      apply BigInt.val_pos x.digits_ hl top ht
      intro e
      rw [ht, e] at h
      exact h rfl
  · exact absurd (hs.mpr h) hz

theorem Normal.val_zero {x : BigInteger} (hx : Normal x) (hz : x.type_ = .ZERO) :
    val x.digits_ = 0 := by
  rw [hx.2.2.2.mp hz]
  rfl

/-! ### `toString` -/

/-- `toString` on a normal number yields the canonical decimal
representation of the integer it denotes. -/
theorem toString_normal (x : BigInteger) (hx : Normal x) :
    x.toString = some (canonical x.value) := by
  have hx' := hx
  obtain ⟨hl, hne, hn, hs⟩ := hx
  obtain ⟨ty, ds⟩ := x
  simp only at hl hne hn hs
  rcases List.eq_nil_or_concat ds with e | ⟨lower, top, e⟩
  · exact absurd e hne
  rw [List.concat_eq_append] at e
  subst e
  obtain ⟨hl1, hl2⟩ := limbs_append.mp hl
  obtain ⟨t0, t1⟩ := hl2 top (List.mem_singleton.mpr rfl)
  have hlast : (lower ++ [top]).getLast? = some top := by simp
  have hdrop : (lower ++ [top]).dropLast = lower := List.dropLast_concat
  have hlower : Limbs lower.reverse := fun d hd => hl1 d (List.mem_reverse.mp hd)
  have hfold := foldl_reverse_eq_val (lower ++ [top]) hl
  rw [List.reverse_append, List.reverse_singleton, List.singleton_append, List.foldl_cons,
    Nat.zero_mul, Nat.zero_add] at hfold
  have hts : to_string top = Nat.toDigits 10 top.natAbs := by
    unfold to_string
    rw [if_neg (by omega)]
  show (match (lower ++ [top]).getLast? with
    | none => none
    | some t => some ((if ty = sign_type.NEGATIVE then ['-'] else []) ++ to_string t ++
        ((lower ++ [top]).dropLast.reverse.map padded).flatten)) = _
  rw [hlast, hdrop]
  simp only []
  rw [hts]
  show _ = some (canonical (toNumber ty * val (lower ++ [top])))
  by_cases hz : ty = .ZERO
  · have hd := hs.mp hz
    have hlow : lower = [] := by
      have := congrArg List.length hd
      simp only [List.length_append, List.length_singleton] at this
      exact List.length_eq_zero.mp (by omega)
    subst hlow
    have htop : top = 0 := by
      simp only [List.nil_append, List.cons.injEq, and_true] at hd
      exact hd
    subst htop
    subst hz
    rfl
  · have hpos : 0 < val (lower ++ [top]) := hx'.positive hz
    have htop0 : 0 < top.natAbs := by
      rcases hn with h | h
      · rw [hlast] at h
        have : top ≠ 0 := fun e => h (by rw [e])
        omega
      · exact absurd (hs.mpr h) hz
    have hdig := toDigits_limbs lower.reverse _ htop0 hlower
    have hnat : (lower.reverse.foldl (fun a d => a * 1000000000 + d.natAbs) top.natAbs)
        = (val (lower ++ [top])).natAbs := by
      rw [← hfold]
      rfl
    rw [hnat] at hdig
    rw [List.append_assoc, hdig]
    generalize val (lower ++ [top]) = v at hpos
    cases ty with
    | ZERO => exact absurd rfl hz
    | POSITIVE =>
      have e : toNumber sign_type.POSITIVE * v = v := by
        show (1 : Int) * _ = _
        ring
      rw [e]
      unfold canonical
      rw [if_neg (show ¬ v < 0 by omega)]
      rfl
    | NEGATIVE =>
      have e : toNumber sign_type.NEGATIVE * v = - v := by
        show (-1 : Int) * _ = _
        ring
      rw [e]
      unfold canonical
      rw [if_pos (show - v < 0 by omega), Int.natAbs_neg]
      rfl

/-! ### `operator*=` -/

theorem val_set : ∀ (l : List Int) (i : Nat) (v x : Int), l[i]? = some x →
    val (l.set i v) = val l + (v - x) * BASE_ ^ i
  | [], i, v, x, h => by simp at h
  | d :: ds, 0, v, x, h => by
    simp only [List.getElem?_cons_zero, Option.some.injEq] at h
    subst h
    show v + BASE_ * val ds = d + BASE_ * val ds + (v - d) * BASE_ ^ 0
    ring
  | d :: ds, i + 1, v, x, h => by
    rw [List.getElem?_cons_succ] at h
    show d + BASE_ * val (ds.set i v) = d + BASE_ * val ds + (v - x) * BASE_ ^ (i + 1)
    rw [val_set ds i v x h, pow_succ]
    ring

theorem limbs_set (l : List Int) (i : Nat) (v : Int) (hl : Limbs l) (h0 : 0 ≤ v)
    (h1 : v < BASE_) : Limbs (l.set i v) := by
  intro d hd
  rcases List.mem_or_eq_of_mem_set hd with h | h
  · exact hl d h
  · rw [h]; exact ⟨h0, h1⟩

theorem val_drop_succ (b : List Int) (j : Nat) (hj : j < b.length) :
    val (b.drop j) = b.getD j 0 + BASE_ * val (b.drop (j + 1)) := by
  rw [List.drop_eq_getElem_cons hj]
  show b[j] + BASE_ * val (b.drop (j + 1)) = _
  rw [List.getD_eq_getElem _ _ hj]

theorem limbs_getD (b : List Int) (hb : Limbs b) (j : Nat) :
    0 ≤ b.getD j 0 ∧ b.getD j 0 < BASE_ := by
  rcases Nat.lt_or_ge j b.length with h | h
  · rw [List.getD_eq_getElem _ _ h]
    exact hb _ (List.getElem_mem h)
  · rw [List.getD_eq_default _ _ h]
    unfold BASE_
    omega

theorem mul_inner_done (ai : Int) (b : List Int) (i fuel j : Nat) (cd : List Int)
    (hj : b.length ≤ j) : mul_inner ai b i fuel j 0 cd = some cd := by
  cases fuel with
  | zero =>
    show (if j < b.length ∨ (0 : Int) ≠ 0 then none else some cd) = _
    rw [if_neg (by omega)]
  | succ f =>
    show (if j < b.length ∨ (0 : Int) ≠ 0 then _ else some cd) = _
    rw [if_neg (by omega)]

theorem mul_inner_succ (ai : Int) (b : List Int) (i fuel j : Nat) (carry : Int)
    (cd : List Int) (h : j < b.length ∨ carry ≠ 0) :
    mul_inner ai b i (fuel + 1) j carry cd =
      (cd[i + j]?).bind fun cij =>
      (ll (cij + ai * (if j < b.length then b.getD j 0 else 0) + carry)).bind fun cur =>
        mul_inner ai b i fuel (j + 1) (cur.tdiv BASE_) (cd.set (i + j) (cur.tmod BASE_)) := by
  show (if j < b.length ∨ carry ≠ 0 then _ else some cd) = _
  rw [if_pos h]

/-- One round of the inner loop on values inside their ranges: `cur` fits
into `long long`, and splits into the limb stored and the carry. -/
theorem cur_split (cij ai bj carry : Int) (h1 : 0 ≤ cij ∧ cij < BASE_)
    (h2 : 0 ≤ ai ∧ ai < BASE_) (h3 : 0 ≤ bj ∧ bj < BASE_) (h4 : 0 ≤ carry ∧ carry < BASE_) :
    ll (cij + ai * bj + carry) = some (cij + ai * bj + carry) ∧
    (0 ≤ (cij + ai * bj + carry).tmod BASE_ ∧ (cij + ai * bj + carry).tmod BASE_ < BASE_) ∧
    (0 ≤ (cij + ai * bj + carry).tdiv BASE_ ∧ (cij + ai * bj + carry).tdiv BASE_ < BASE_) ∧
    (cij + ai * bj + carry).tmod BASE_ + BASE_ * (cij + ai * bj + carry).tdiv BASE_
      = cij + ai * bj + carry := by
  unfold BASE_ at *
  have hp : 0 ≤ ai * bj := Int.mul_nonneg h2.1 h3.1
  have hq : ai * bj ≤ 999999999 * 999999999 :=
    Int.mul_le_mul (by omega) (by omega) h3.1 (by omega)
  have hcur0 : 0 ≤ cij + ai * bj + carry := by omega
  have hcur1 : cij + ai * bj + carry < 1000000000 * 1000000000 := by omega
  generalize cij + ai * bj + carry = cur at hcur0 hcur1
  rw [Int.tmod_eq_emod hcur0 (by omega), Int.tdiv_eq_ediv hcur0 (by omega)]
  refine ⟨?_, ⟨Int.emod_nonneg _ (by omega), Int.emod_lt_of_pos _ (by omega)⟩,
    ⟨Int.ediv_nonneg hcur0 (by omega), ?_⟩, Int.emod_add_ediv cur 1000000000⟩
  · unfold ll
    rw [if_pos (by omega)]
  · exact Int.ediv_lt_of_lt_mul (by omega) hcur1

/-- The inner loop of `operator*=` from the index `j` on, on limbs inside
their range and with a zero at the position `i + b.size()`: it returns,
having added `(carry + digits_[i] * (b from limb j on)) * BASE_ ^ (i + j)`
to the number in `c.digits_`, and touches only the positions from `i + j`
to `i + b.size()`. -/
theorem mul_inner_spec (ai : Int) (b : List Int) (i : Nat) (hai : 0 ≤ ai ∧ ai < BASE_)
    (hb : Limbs b) :
    ∀ (n j : Nat) (carry : Int) (cd : List Int) (fuel : Nat),
      j + n = b.length → (0 ≤ carry ∧ carry < BASE_) → Limbs cd → i + b.length < cd.length →
      cd[i + b.length]? = some 0 → n + 1 ≤ fuel →
      ∃ cd', mul_inner ai b i fuel j carry cd = some cd' ∧ Limbs cd' ∧
        cd'.length = cd.length ∧
        val cd' = val cd + (carry + ai * val (b.drop j)) * BASE_ ^ (i + j) ∧
        (∀ k, (k < i + j ∨ i + b.length < k) → cd'[k]? = cd[k]?) := by
  intro n
  induction n with
  | zero =>
    intro j carry cd fuel hj hc hcd hlen hz hf
    have hjm : j = b.length := by omega
    subst hjm
    have hdrop : val (b.drop b.length) = 0 := by
      rw [List.drop_length]; rfl
    obtain ⟨f, rfl⟩ : ∃ f, fuel = f + 1 := ⟨fuel - 1, by omega⟩
    by_cases hc0 : carry = 0
    · subst hc0
      refine ⟨cd, mul_inner_done ai b i _ _ cd (Nat.le_refl _), hcd, rfl, ?_, fun _ _ => rfl⟩
      rw [hdrop]
      ring
    · obtain ⟨s1, s2, s3, s4⟩ := cur_split 0 ai 0 carry ⟨Int.le_refl _, by unfold BASE_; omega⟩
        hai ⟨Int.le_refl _, by unfold BASE_; omega⟩ hc
      have hcur : (0 : Int) + ai * 0 + carry = carry := by ring
      rw [hcur] at s1 s2 s3 s4
      have hdiv : carry.tdiv BASE_ = 0 := by
        unfold BASE_ at s2 s3 s4 hc ⊢
        omega
      have hmod : carry.tmod BASE_ = carry := by
        rw [hdiv] at s4
        omega
      refine ⟨cd.set (i + b.length) carry, ?_, limbs_set _ _ _ hcd hc.1 hc.2,
        List.length_set .., ?_, ?_⟩
      · rw [mul_inner_succ ai b i f _ carry cd (Or.inr hc0), hz, Option.some_bind,
          if_neg (Nat.lt_irrefl _), hcur, s1, Option.some_bind, hdiv, hmod]
        exact mul_inner_done ai b i f _ _ (by omega)
      · rw [val_set cd _ carry 0 hz, hdrop]
        ring
      · intro k hk
        exact List.getElem?_set_ne (by omega)
  | succ n ih =>
    intro j carry cd fuel hj hc hcd hlen hz hf
    have hjm : j < b.length := by omega
    obtain ⟨f, rfl⟩ : ∃ f, fuel = f + 1 := ⟨fuel - 1, by omega⟩
    have hij : i + j < cd.length := by omega
    have hget : cd[i + j]? = some cd[i + j] := List.getElem?_eq_getElem hij
    have hcij := hcd _ (List.getElem_mem hij)
    have hbj := limbs_getD b hb j
    obtain ⟨s1, s2, s3, s4⟩ := cur_split cd[i + j] ai (b.getD j 0) carry hcij hai hbj hc
    obtain ⟨cd', e1, e2, e3, e4, e5⟩ := ih (j + 1)
      ((cd[i + j] + ai * b.getD j 0 + carry).tdiv BASE_)
      (cd.set (i + j) ((cd[i + j] + ai * b.getD j 0 + carry).tmod BASE_)) f (by omega) s3
      (limbs_set _ _ _ hcd s2.1 s2.2) (by rw [List.length_set]; exact hlen)
      (by rw [List.getElem?_set_ne (by omega)]; exact hz) (by omega)
    refine ⟨cd', ?_, e2, by rw [e3, List.length_set], ?_, ?_⟩
    · rw [mul_inner_succ ai b i f j carry cd (Or.inl hjm), hget, Option.some_bind,
        if_pos hjm, s1, Option.some_bind]
      exact e1
    · rw [e4, val_set cd _ _ _ hget, val_drop_succ b j hjm,
        show i + (j + 1) = (i + j) + 1 from rfl, pow_succ]
      linear_combination (BASE_ ^ (i + j)) * s4
    · intro k hk
      rw [e5 k (by omega)]
      exact List.getElem?_set_ne (by omega)

/-- The outer loop of `operator*=` from the index `i` on: it returns, having
added `BASE_ ^ i * (digits_ from limb i on) * b` to the number in
`c.digits_`. -/
theorem mul_outer_spec (a b : List Int) (ha : Limbs a) (hb : Limbs b) :
    ∀ (k i : Nat) (cd : List Int), i + k = a.length → Limbs cd →
      cd.length = a.length + b.length →
      (∀ p, i + b.length ≤ p → p < a.length + b.length → cd[p]? = some 0) →
      ∃ cd', mul_outer a b k i cd = some cd' ∧ Limbs cd' ∧
        cd'.length = a.length + b.length ∧
        val cd' = val cd + BASE_ ^ i * val (a.drop i) * val b := by
  intro k
  induction k with
  | zero =>
    intro i cd hi hcd hlen hz
    have : i = a.length := by omega
    subst this
    refine ⟨cd, rfl, hcd, hlen, ?_⟩
    rw [List.drop_length]
    show val cd = val cd + BASE_ ^ a.length * 0 * val b
    ring
  | succ k ih =>
    intro i cd hi hcd hlen hz
    have hia : i < a.length := by omega
    obtain ⟨cd1, e1, e2, e3, e4, e5⟩ := mul_inner_spec (a.getD i 0) b i (limbs_getD a ha i) hb
      b.length 0 0 cd cd.length (by omega) ⟨Int.le_refl _, by unfold BASE_; omega⟩ hcd
      (by omega) (hz _ (Nat.le_refl _) (by omega)) (by omega)
    obtain ⟨cd', f1, f2, f3, f4⟩ := ih (i + 1) cd1 (by omega) e2 (by rw [e3, hlen])
      (by
        intro p hp1 hp2
        rw [e5 p (by omega)]
        exact hz p (by omega) hp2)
    refine ⟨cd', ?_, f2, f3, ?_⟩
    · show (mul_inner (a.getD i 0) b i cd.length 0 0 cd).bind (mul_outer a b k (i + 1)) = _
      rw [e1, Option.some_bind]
      exact f1
    · rw [f4, e4, val_drop_succ a i hia, List.drop_zero, Nat.add_zero, pow_succ]
      ring

theorem val_zeros : ∀ (l : List Int), (∀ z, z ∈ l → z = 0) → val l = 0
  | [], _ => rfl
  | d :: ds, h => by
    show d + BASE_ * val ds = 0
    rw [h d (List.mem_cons_self _ _), val_zeros ds (fun z hz => h z (List.mem_cons_of_mem _ hz))]
    ring

/-- The loop that drops zero limbs from the top keeps a suffix of the limbs
taken most significant first; what it drops is zero; it keeps at least one
limb; and the first limb kept is zero only when it is the only one. -/
theorem stripFront_spec : ∀ (r : List Int),
    ∃ zs, r = zs ++ stripFront r ∧ (∀ z, z ∈ zs → z = 0) ∧
      (r ≠ [] → stripFront r ≠ []) ∧
      ((stripFront r).head? ≠ some 0 ∨ stripFront r = [0])
  | [] => ⟨[], rfl, fun _ h => by simp at h, fun h => absurd rfl h, Or.inl (by simp [stripFront])⟩
  | [x] => by
    refine ⟨[], rfl, fun _ h => by simp at h, fun _ => by simp [stripFront], ?_⟩
    by_cases hx : x = 0
    · right; rw [hx]; rfl
    · left
      show some x ≠ some 0
      intro e
      exact hx (Option.some.inj e)
  | x :: y :: rest => by
    by_cases hx : x = 0
    · obtain ⟨zs, h1, h2, h3, h4⟩ := stripFront_spec (y :: rest)
      have e : stripFront (x :: y :: rest) = stripFront (y :: rest) := by
        show (if x = 0 then stripFront (y :: rest) else x :: y :: rest) = _
        rw [if_pos hx]
      rw [e]
      refine ⟨x :: zs, ?_, ?_, fun _ => h3 (by simp), h4⟩
      · rw [List.cons_append, ← h1]
      · intro z hz
        rcases List.mem_cons.mp hz with h | h
        · rw [h]; exact hx
        · exact h2 z h
    · have e : stripFront (x :: y :: rest) = x :: y :: rest := by
        show (if x = 0 then stripFront (y :: rest) else x :: y :: rest) = _
        rw [if_neg hx]
      rw [e]
      refine ⟨[], rfl, fun _ h => by simp at h, fun _ => by simp, Or.inl ?_⟩
      show some x ≠ some 0
      intro h
      exact hx (Option.some.inj h)

/-- Dropping the zero limbs at the top keeps the number and yields a normal
vector. -/
theorem stripZeros_spec (l : List Int) (hl : Limbs l) (hne : l ≠ []) :
    Limbs (stripZeros l) ∧ stripZeros l ≠ [] ∧ val (stripZeros l) = val l ∧
    ((stripZeros l).getLast? ≠ some 0 ∨ stripZeros l = [0]) := by
  obtain ⟨zs, h1, h2, h3, h4⟩ := stripFront_spec l.reverse
  have hl' : l = (stripFront l.reverse).reverse ++ zs.reverse := by
    have := congrArg List.reverse h1
    rw [List.reverse_reverse, List.reverse_append] at this
    exact this
  have hs : stripZeros l = (stripFront l.reverse).reverse := rfl
  refine ⟨?_, ?_, ?_, ?_⟩
  · rw [hs]
    intro d hd
    apply hl d
    rw [hl']
    exact List.mem_append.mpr (Or.inl hd)
  · rw [hs]
    intro e
    apply h3 (by simpa using hne)
    simpa using e
  · conv_rhs => rw [hl']
    rw [val_append, val_zeros zs.reverse (fun z hz => h2 z (List.mem_reverse.mp hz)), hs]
    ring
  · rw [hs, List.getLast?_reverse]
    rcases h4 with h | h
    · exact Or.inl h
    · right; rw [h]; rfl

/-- A normal vector that denotes zero is the single limb 0. -/
theorem normal_zero (l : List Int) (hl : Limbs l)
    (hn : l.getLast? ≠ some 0 ∨ l = [0]) (hne : l ≠ []) (hv : val l = 0) : l = [0] := by
  rcases hn with h | h
  · exfalso
    cases ht : l.getLast? with
    | none =>
      rw [List.getLast?_eq_none_iff] at ht
      exact hne ht
    | some top =>
      have := val_pos l hl top ht (by intro e; rw [ht, e] at h; exact h rfl)
      omega
  · exact h

/-- `operator*` on normal numbers returns a normal number that denotes the
product. -/
theorem op_mul_normal (a b : BigInteger) (ha : Normal a) (hb : Normal b) :
    ∃ c, op_mul a b = some c ∧ Normal c ∧ c.value = a.value * b.value := by
  have hrep : Limbs (List.replicate (a.digits_.length + b.digits_.length) (0 : Int)) := by
    intro d hd
    rw [List.eq_of_mem_replicate hd]
    unfold BASE_
    omega
  obtain ⟨cd, e1, e2, e3, e4⟩ := mul_outer_spec a.digits_ b.digits_ ha.1 hb.1 a.digits_.length 0
    (List.replicate (a.digits_.length + b.digits_.length) 0) (by omega) hrep
    (List.length_replicate ..)
    (by
      intro p _ hp
      rw [List.getElem?_replicate, if_pos hp])
  rw [val_replicate_zero, List.drop_zero, pow_zero] at e4
  have hprod : val cd = val a.digits_ * val b.digits_ := by rw [e4]; ring
  have hcdne : cd ≠ [] := by
    intro e
    rw [e] at e3
    have := List.length_pos.mpr ha.2.1
    simp only [List.length_nil] at e3
    omega
  obtain ⟨s1, s2, s3, s4⟩ := stripZeros_spec cd e2 hcdne
  refine ⟨BigInteger.mk
    (if a.sign = sign_type.ZERO ∨ b.sign = sign_type.ZERO then sign_type.ZERO
      else if a.sign ≠ b.sign then sign_type.NEGATIVE else sign_type.POSITIVE)
    (stripZeros cd), ?_, ⟨s1, s2, s4, ?_⟩, ?_⟩
  · show (mul_outer a.digits_ b.digits_ a.digits_.length 0
      (List.replicate (a.digits_.length + b.digits_.length) 0)).map _ = _
    rw [e1]
    rfl
  · show (if a.sign = sign_type.ZERO ∨ b.sign = sign_type.ZERO then sign_type.ZERO
      else if a.sign ≠ b.sign then sign_type.NEGATIVE else sign_type.POSITIVE) = sign_type.ZERO
      ↔ stripZeros cd = [0]
    by_cases hz : a.sign = sign_type.ZERO ∨ b.sign = sign_type.ZERO
    · rw [if_pos hz]
      refine ⟨fun _ => ?_, fun _ => rfl⟩
      apply normal_zero _ s1 s4 s2
      rw [s3, hprod]
      rcases hz with h | h
      · rw [ha.val_zero h]; ring
      · rw [hb.val_zero h]; ring
    · rw [if_neg hz]
      have hza : a.type_ ≠ sign_type.ZERO := fun e => hz (Or.inl e)
      have hzb : b.type_ ≠ sign_type.ZERO := fun e => hz (Or.inr e)
      have hp := mul_pos (ha.positive hza) (hb.positive hzb)
      constructor
      · intro h
        split at h <;> cases h
      · intro h
        have : val (stripZeros cd) = 0 := by rw [h]; rfl
        rw [s3, hprod] at this
        omega
  · show toNumber (if a.sign = sign_type.ZERO ∨ b.sign = sign_type.ZERO then sign_type.ZERO
      else if a.sign ≠ b.sign then sign_type.NEGATIVE else sign_type.POSITIVE)
      * val (stripZeros cd) = (toNumber a.type_ * val a.digits_) * (toNumber b.type_ * val b.digits_)
    rw [s3, hprod]
    have hsa : a.sign = a.type_ := rfl
    have hsb : b.sign = b.type_ := rfl
    rw [hsa, hsb]
    cases a.type_ <;> cases b.type_ <;> simp [toNumber]

/-! ### The string constructor -/

theorem toDigits_length_le (n : Nat) (hn : 0 < n) :
    10 ^ ((Nat.toDigits 10 n).length - 1) ≤ n := by
  induction n using Nat.strong_induction_on with
  | _ n ih =>
    rcases Nat.lt_or_ge n 10 with h | h
    · rw [toDigits_lt n h]
      simpa using hn
    · rw [toDigits_ge n h, List.length_append, List.length_singleton, Nat.add_sub_cancel]
      have h1 := ih (n / 10) (Nat.div_lt_self (by omega) (by decide)) (by omega)
      have h2 : 0 < (Nat.toDigits 10 (n / 10)).length :=
        List.length_pos.mpr (toDigits_spec (n / 10)).2.2
      obtain ⟨k, hk⟩ : ∃ k, (Nat.toDigits 10 (n / 10)).length = k + 1 :=
        ⟨(Nat.toDigits 10 (n / 10)).length - 1, by omega⟩
      rw [hk] at h1 ⊢
      rw [Nat.add_sub_cancel] at h1
      rw [pow_succ]
      omega

theorem pow_nine (k : Nat) : ((10 ^ (9 * k) : Nat) : Int) = BASE_ ^ k := by
  push_cast
  rw [pow_mul]
  unfold BASE_
  norm_num

theorem fromString_loop_succ (s : List Char) (shift fuel i : Nat) (digits_ : List Int) :
    fromString_loop s shift (fuel + 1) i digits_ =
      if i ≥ 9 + shift then
        (stoll (substr s (i - 9) 9)).bind fun d =>
          fromString_loop s shift fuel (i - 9) (digits_ ++ [d])
      else some (i, digits_) := rfl

/-- The loop of the string constructor on a string whose characters from
`shift` on are decimal digits: it returns, each round having pushed the limb
that the next nine characters from the right denote. -/
theorem fromString_loop_spec (s : List Char) (shift : Nat)
    (hd : AllDigits (s.drop shift)) :
    ∀ (fuel i : Nat) (digits : List Int), shift ≤ i → i ≤ s.length → i ≤ fuel →
      s.length - i = 9 * digits.length → Limbs digits →
      val digits = (decval (s.drop i) : Int) →
      ∃ i' digits', fromString_loop s shift fuel i digits = some (i', digits') ∧
        shift ≤ i' ∧ i' < 9 + shift ∧ i' ≤ s.length ∧
        s.length - i' = 9 * digits'.length ∧ Limbs digits' ∧
        val digits' = (decval (s.drop i') : Int) := by
  intro fuel
  induction fuel with
  | zero =>
    intro i digits h1 h2 h3 h4 h5 h6
    refine ⟨i, digits, ?_, h1, by omega, h2, h4, h5, h6⟩
    show (if i ≥ BASE_LENGTH_ + shift then none else some (i, digits)) = _
    rw [if_neg (by unfold BASE_LENGTH_; omega)]
  | succ f ih =>
    intro i digits h1 h2 h3 h4 h5 h6
    rw [fromString_loop_succ]
    by_cases hi : i ≥ 9 + shift
    · rw [if_pos hi]
      have hsplit : s.drop (i - 9) = substr s (i - 9) 9 ++ s.drop i := by
        have := (List.take_append_drop 9 (s.drop (i - 9))).symm
        rw [List.drop_drop] at this
        rw [show i - 9 + 9 = i by omega] at this
        exact this
      have hlen : (substr s (i - 9) 9).length = 9 := by
        unfold substr
        rw [List.length_take, List.length_drop]
        omega
      have hall : AllDigits (substr s (i - 9) 9) := by
        intro c hc
        apply hd c
        have h1' : c ∈ s.drop (i - 9) := List.mem_of_mem_take hc
        have e : s.drop (i - 9) = (s.drop shift).drop (i - 9 - shift) := by
          rw [List.drop_drop]
          congr 1
          omega
        rw [e] at h1'
        exact List.mem_of_mem_drop h1'
      have hne : substr s (i - 9) 9 ≠ [] := by
        intro e
        rw [e] at hlen
        simp at hlen
      have hst := stoll_eq _ hall hne (by omega)
      have hdl : (s.drop i).length = 9 * digits.length := by
        rw [List.length_drop]; exact h4
      have hlt := decval_lt _ hall
      rw [hlen] at hlt
      rw [hst, Option.some_bind]
      apply ih (i - 9) (digits ++ [(decval (substr s (i - 9) 9) : Int)]) (by omega) (by omega)
        (by omega)
      · rw [List.length_append, List.length_singleton]
        omega
      · apply limbs_append.mpr
        refine ⟨h5, ?_⟩
        intro d hd'
        rw [List.mem_singleton.mp hd']
        refine ⟨Int.ofNat_nonneg _, ?_⟩
        unfold BASE_
        omega
      · rw [val_append, val_singleton, h6, hsplit, decval_append, hdl]
        push_cast
        rw [← pow_nine]
        push_cast
        ring
    · rw [if_neg hi]
      exact ⟨i, digits, rfl, h1, by omega, h2, h4, h5, h6⟩

/-- The limbs the string constructor builds from the decimal digits of a
positive number `n` that stand in `s` from the index `shift` on: they are
inside their range, denote `n`, and the top limb is not zero. -/
theorem fromString_limbs (s : List Char) (shift n : Nat) (ty : sign_type) (hn : 0 < n)
    (hs : s.drop shift = Nat.toDigits 10 n) (hshift : shift ≤ s.length) :
    ∃ digits, ((fromString_loop s shift s.length s.length []).bind fun r =>
        if r.1 > shift then
          (stoll (substr s shift (r.1 - shift))).map fun temp =>
            ({ type_ := ty, digits_ := r.2 ++ [temp] } : BigInteger)
        else some { type_ := ty, digits_ := r.2 })
      = some { type_ := ty, digits_ := digits } ∧
      Limbs digits ∧ digits ≠ [] ∧ val digits = n ∧ digits.getLast? ≠ some 0 := by
  obtain ⟨hall, hdec, hne⟩ := toDigits_spec n
  rw [← hs] at hall hdec hne
  have hlenD := toDigits_length_le n hn
  rw [← hs, List.length_drop] at hlenD
  obtain ⟨i', digits', e1, e2, e3, e4, e5, e6, e7⟩ :=
    fromString_loop_spec s shift hall s.length s.length [] hshift (Nat.le_refl _)
      (Nat.le_refl _) (by simp) (fun d hd => by simp at hd)
      (by rw [List.drop_length]; rfl)
  -- the limbs, whichever way the constructor ends
  have key : ∃ digits, ((fromString_loop s shift s.length s.length []).bind fun r =>
        if r.1 > shift then
          (stoll (substr s shift (r.1 - shift))).map fun temp =>
            ({ type_ := ty, digits_ := r.2 ++ [temp] } : BigInteger)
        else some { type_ := ty, digits_ := r.2 })
      = some { type_ := ty, digits_ := digits } ∧
      Limbs digits ∧ val digits = n ∧
      (∀ xs, digits = xs ++ [0] → 9 * xs.length + 1 ≤ s.length - shift) := by
    rw [e1, Option.some_bind]
    by_cases hi : i' > shift
    · simp only [hi, if_true]
      have hsplit : s.drop shift = substr s shift (i' - shift) ++ s.drop i' := by
        have := (List.take_append_drop (i' - shift) (s.drop shift)).symm
        rw [List.drop_drop] at this
        rw [show shift + (i' - shift) = i' by omega] at this
        exact this
      have hlen : (substr s shift (i' - shift)).length = i' - shift := by
        unfold substr
        rw [List.length_take, List.length_drop]
        omega
      have hallH : AllDigits (substr s shift (i' - shift)) :=
        fun c hc => hall c (List.mem_of_mem_take hc)
      have hneH : substr s shift (i' - shift) ≠ [] := by
        intro e
        rw [e] at hlen
        simp only [List.length_nil] at hlen
        omega
      have hst := stoll_eq _ hallH hneH (by omega)
      have hdl : (s.drop i').length = 9 * digits'.length := by
        rw [List.length_drop]; exact e5
      have hlt := decval_lt _ hallH
      have hpow : 10 ^ (substr s shift (i' - shift)).length ≤ 10 ^ 9 :=
        Nat.pow_le_pow_right (by decide) (by omega)
      refine ⟨digits' ++ [(decval (substr s shift (i' - shift)) : Int)], ?_, ?_, ?_, ?_⟩
      · rw [hst]
        rfl
      · apply limbs_append.mpr
        refine ⟨e6, ?_⟩
        intro d hd'
        rw [List.mem_singleton.mp hd']
        refine ⟨Int.ofNat_nonneg _, ?_⟩
        unfold BASE_
        omega
      · rw [val_append, val_singleton, e7, ← hdec, hsplit, decval_append, hdl]
        push_cast
        rw [← pow_nine]
        push_cast
        ring
      · intro xs hxs
        have := List.append_inj_left' hxs rfl
        rw [← this]
        omega
    · simp only [hi, if_false]
      have hi' : i' = shift := by omega
      subst hi'
      refine ⟨digits', rfl, e6, by rw [e7, hdec], ?_⟩
      intro xs hxs
      rw [e5, hxs, List.length_append, List.length_singleton]
      omega
  obtain ⟨digits, k1, k2, k3, k4⟩ := key
  refine ⟨digits, k1, k2, ?_, k3, ?_⟩
  · intro e
    rw [e] at k3
    have : (0 : Int) = (n : Int) := k3
    omega
  · intro hlast
    rcases List.eq_nil_or_concat digits with e | ⟨xs, top, e⟩
    · rw [e] at hlast; cases hlast
    rw [List.concat_eq_append] at e
    rw [e, List.getLast?_concat] at hlast
    have ht : top = 0 := Option.some.inj hlast
    subst ht
    have hbound := k4 xs e
    rw [e] at k2 k3
    obtain ⟨hx, -⟩ := limbs_append.mp k2
    rw [val_append, val_singleton, Int.mul_zero, Int.add_zero] at k3
    have h1 := val_lt_pow xs hx
    rw [k3, ← pow_nine] at h1
    have h2 : n < 10 ^ (9 * xs.length) := by exact_mod_cast h1
    have h3 : 10 ^ (9 * xs.length) ≤ 10 ^ (s.length - shift - 1) :=
      Nat.pow_le_pow_right (by decide) (by omega)
    omega

theorem fromString_nonzero (s : List Char) (h1 : s ≠ []) (h2 : s ≠ ['0'])
    (h3 : s ≠ ['-', '0']) (ty : sign_type) (shift : Nat)
    (hty : ty = if s.head? = some '-' then sign_type.NEGATIVE else sign_type.POSITIVE)
    (hsh : shift = if s.head? = some '-' then 1 else 0) :
    BigInteger.fromString s =
      (fromString_loop s shift s.length s.length []).bind fun r =>
        if r.1 > shift then
          (stoll (substr s shift (r.1 - shift))).map fun temp =>
            ({ type_ := ty, digits_ := r.2 ++ [temp] } : BigInteger)
        else some { type_ := ty, digits_ := r.2 } := by
  unfold BigInteger.fromString
  have hc : ¬ (s = [] ∨ s = ['0'] ∨ s = ['-', '0']) := by
    rintro (h | h | h)
    · exact h1 h
    · exact h2 h
    · exact h3 h
  simp only [if_neg hc]
  have hnz : ¬ ((if s.head? = some '-' then sign_type.NEGATIVE else sign_type.POSITIVE)
      = sign_type.ZERO) := by
    split <;> intro h <;> cases h
  rw [if_neg hnz, ← hty, ← hsh]

/-- The string constructor on the canonical decimal representation of an
integer returns a normal number that denotes the integer. -/
theorem fromString_canonical (z : Int) :
    ∃ x, BigInteger.fromString (canonical z) = some x ∧ Normal x ∧ x.value = z := by
  obtain ⟨hall, hdec, hne⟩ := toDigits_spec z.natAbs
  have hdash : ¬ (48 ≤ ('-' : Char).toNat ∧ ('-' : Char).toNat ≤ 57) := by decide
  rcases Int.lt_trichotomy z 0 with hz | hz | hz
  · -- negative
    have hn : 0 < z.natAbs := by omega
    have hcan : canonical z = '-' :: Nat.toDigits 10 z.natAbs := by
      unfold canonical
      rw [if_pos hz]
    have hD0 : Nat.toDigits 10 z.natAbs ≠ ['0'] := by
      intro e
      rw [e] at hdec
      have : decval ['0'] = 0 := by decide
      omega
    obtain ⟨digits, e1, e2, e3, e4, e5⟩ := fromString_limbs (canonical z) 1 z.natAbs
      sign_type.NEGATIVE hn (by rw [hcan]; rfl) (by rw [hcan]; simp)
    refine ⟨{ type_ := sign_type.NEGATIVE, digits_ := digits }, ?_, ⟨e2, e3, Or.inl e5, ?_⟩, ?_⟩
    · rw [fromString_nonzero (canonical z) (by rw [hcan]; simp) (by rw [hcan]; simp)
        (by rw [hcan]; intro e; apply hD0; simpa using e)
        sign_type.NEGATIVE 1 (by rw [hcan]; rfl) (by rw [hcan]; rfl)]
      exact e1
    · constructor
      · intro h; cases h
      · intro h
        exfalso
        have h' : digits = [0] := h
        have h0 : val digits = 0 := by rw [h']; rfl
        omega
    · show toNumber sign_type.NEGATIVE * val digits = z
      rw [e4]
      show (-1 : Int) * _ = z
      omega
  · -- zero
    subst hz
    refine ⟨{ type_ := sign_type.ZERO, digits_ := [0] }, by decide, ⟨?_, by simp, Or.inr rfl,
      ⟨fun _ => rfl, fun _ => rfl⟩⟩, by decide⟩
    intro d hd
    rw [List.mem_singleton.mp hd]
    unfold BASE_
    omega
  · -- positive
    have hn : 0 < z.natAbs := by omega
    have hcan : canonical z = Nat.toDigits 10 z.natAbs := by
      unfold canonical
      rw [if_neg (by omega)]
    have hhead : (Nat.toDigits 10 z.natAbs).head? ≠ some '-' := by
      intro e
      have := hall '-' (List.mem_of_mem_head? e)
      exact hdash this
    obtain ⟨digits, e1, e2, e3, e4, e5⟩ := fromString_limbs (canonical z) 0 z.natAbs
      sign_type.POSITIVE hn (by rw [hcan]; rfl) (Nat.zero_le _)
    refine ⟨{ type_ := sign_type.POSITIVE, digits_ := digits }, ?_, ⟨e2, e3, Or.inl e5, ?_⟩, ?_⟩
    · rw [fromString_nonzero (canonical z) (by rw [hcan]; exact hne)
        (by
          rw [hcan]
          intro e
          rw [e] at hdec
          have : decval ['0'] = 0 := by decide
          omega)
        (by
          rw [hcan]
          intro e
          apply hhead
          rw [e]
          rfl)
        sign_type.POSITIVE 0 (by rw [hcan, if_neg hhead]) (by rw [hcan, if_neg hhead])]
      exact e1
    · constructor
      · intro h; cases h
      · intro h
        exfalso
        have h' : digits = [0] := h
        have h0 : val digits = 0 := by rw [h']; rfl
        omega
    · show toNumber sign_type.POSITIVE * val digits = z
      rw [e4]
      show (1 : Int) * _ = z
      omega

/-- The canonical decimal representation is the one `toString` of the
integers gives. -/
theorem canonical_eq_toString (z : Int) : String.mk (canonical z) = toString z := by
  cases z with
  | ofNat m =>
    unfold canonical
    rw [if_neg (show ¬ Int.ofNat m < 0 from Int.not_lt.mpr (Int.ofNat_nonneg m))]
    rfl
  | negSucc m =>
    unfold canonical
    rw [if_pos (Int.negSucc_lt_zero m)]
    rfl

/-- C28: for all integers `a` and `b`, the string of
`BigInteger(a) * BigInteger(b)`, the operands being constructed from the
canonical decimal strings of `a` and `b`, is the canonical decimal string of
the product `a * b`: a minus sign when it is negative, then its decimal
digits without leading zeros, `0` for zero; it is the string `toString` of
the integers gives.  For the operands of the test,
`-1234567890123456789 * 1234567890123456789`, it is
`-1524157875323883675019051998750190521`. -/
theorem C28_product_string (a b : Int) :
    productString (canonical a) (canonical b) = some (canonical (a * b)) ∧
    String.mk (canonical (a * b)) = toString (a * b) ∧
    productString "-1234567890123456789".data "1234567890123456789".data
      = some "-1524157875323883675019051998750190521".data := by
  refine ⟨?_, canonical_eq_toString _, by decide⟩
  obtain ⟨x, hx1, hx2, hx3⟩ := fromString_canonical a
  obtain ⟨y, hy1, hy2, hy3⟩ := fromString_canonical b
  obtain ⟨c, hc1, hc2, hc3⟩ := op_mul_normal x y hx2 hy2
  unfold productString
  rw [hx1, Option.some_bind, hy1, Option.some_bind, hc1, Option.some_bind,
    toString_normal c hc2, hc3, hx3, hy3]

/-- C29 (evaluation at failing inputs, and at the operands of the test):
for `a = 7` and `b = -2` the program gives `a / b = -3` and `a % b = -1`,
and `(a / b) * b + (a % b) == a` is false; for `a = -7` and `b = -2` it gives
`a / b = 3` and `a % b = 1`, and the identity is false again: `divMod` gives
the remainder the sign rule of the quotient.  With a positive divisor the
identity holds: for `a = -7` and `b = 2`, and for the operands of the test,
whose quotient and remainder are the expected strings. -/
theorem C29_remainder_takes_quotient_sign :
    divisionIdentity "7".data "-2".data = some (false, "-3".data, "-1".data) ∧
    divisionIdentity "-7".data "-2".data = some (false, "3".data, "1".data) ∧
    divisionIdentity "-7".data "2".data = some (true, "-3".data, "-1".data) ∧
    divisionIdentity
      "12345123456789012345678923456789123534645723452363465473643423".data
      "12568432423758325345984738557347237543".data
      = some (true, "982232552203790490610772".data,
          "7378391778761293146339181012435030227".data) := by
  refine ⟨by decide, by decide, by decide, by decide⟩

end BigInt

/-! ## Theorems: character string -/

namespace StringClass

/-- C40 (evaluation at the failing input): `String("abc").rfind("ab")` returns
3 (`size()`, the value for no match) although `"ab"` occurs at index 0, where
`find` reports it; `String("ab").rfind("ab")` returns 2; the match at index 1
of `"xab"` is reported as 1; and with the empty string as argument
`String("abc").rfind("")` returns 4, which is greater than `size()`. -/
theorem C40_rfind_misses_index_zero :
    (String.ctor "abc".toList).rfind (String.ctor "ab".toList) = some 3 ∧
    occursAt (String.ctor "abc".toList) (String.ctor "ab".toList) 0 = true ∧
    (String.ctor "abc".toList).find (String.ctor "ab".toList) = 0 ∧
    (String.ctor "ab".toList).rfind (String.ctor "ab".toList) = some 2 ∧
    (String.ctor "xab".toList).rfind (String.ctor "ab".toList) = some 1 ∧
    (String.ctor "abc".toList).rfind (String.ctor "".toList) = some 4 ∧
    occursAt (String.ctor "abc".toList) (String.ctor "".toList) 3 = true := by
  decide

end StringClass
